import Mathlib

/-!
# Hop: a versioned key-value store

A shallow embedding of parts of the Hop key-value store (the packages `hop`,
`hop/shop`, `hop/rmt`, `hop/d2hop`, `hop/chop` and `hop/chord`) together with
theorems about the embedded code.

Conventions of the embedding:

* a Go `byte` is a `Fin 256`; a Go `[]byte` that may be `nil` is an
  `Option (List Byte)` with `none` for `nil`; a Go `string` is a `List Byte`;
* `uint16`, `uint32` and `uint64` values are natural numbers, reduced
  modulo `2 ^ 16`, `2 ^ 32`, `2 ^ 64` wherever the Go code can overflow;
* a Go `error` result is an `Option` of an error value (`none` for `nil`);
  a run-time panic (index out of range, failed type assertion) is an explicit
  outcome.
-/

namespace Hop

/-! ## Basic types -/

/-- A Go `byte`. -/
abbrev Byte := Fin 256

/-- A Go `[]byte`: `none` is the `nil` slice. -/
abbrev Blob := Option (List Byte)

/-- The length `len(b)` of a possibly-nil byte slice. -/
def Blob.len (b : Blob) : Nat := (b.getD []).length

/-- The bytes of a possibly-nil byte slice (`nil` has none). -/
def Blob.bytes (b : Blob) : List Byte := b.getD []

/-! ## Version values (`hop.go`) -/

def Any : Nat := 0
def Lowest : Nat := 1
def Newest : Nat := 0x7FFFFFFFFFFFFFFF
def Highest : Nat := Newest - 1
def Removed : Nat := 0x8000000000000000
def PastNewest : Nat := 0xFFFFFFFFFFFFFFFF

/-! ## Atomic operation codes (`hop.go`) -/

def Add : Nat := 0
def Sub : Nat := 1
def BitSet : Nat := 2
def BitClear : Nat := 3
def Append : Nat := 4
def Remove : Nat := 5
def Replace : Nat := 6

/-- The error values of `hop.go` and `shop/shop.go`, and the errors built in
place with `errors.New`. -/
inductive Err where
  | Eperm            -- "permission denied"
  | Eexist           -- "key exists"
  | Enoent           -- "key doesn't exist"
  | Eremoved         -- "key removed"
  | Eparams          -- "invalid parameter number"
  | Enil             -- "nil value"
  | invalidVersion   -- errors.New("invalid version")
  | invalidAtomic    -- errors.New("invalid atomic operation")
  | typeMismatch     -- errors.New("type mismatch")
  | invalidIntSize   -- errors.New("invalid integer size")
  | allBitsSet       -- errors.New("all bits already set")
  | allBitsCleared   -- errors.New("all bits already cleared")
  | tooManyValues    -- errors.New("too many values")
  | regexp           -- an error of regexp.Compile
  deriving DecidableEq, Repr

/-! ## Entries (`khop.go`) -/

/-- The `ops` field of an `Entry`: the object implementing the entry's
operations. -/
inductive Ops where
  | nil                                        -- no operations (plain entry or placeholder)
  | sentry                                     -- `*shop.SEntry`: an entry created by a client
  | keysEntry                                  -- `*shop.KeysEntry` (`#/keys`)
  | keynumEntry                                -- `*shop.KeynumEntry` (`#/keynum`)
  | entry (ver : Nat) (val : Blob) (ops : Ops) -- `*Entry`: the real entry a placeholder points to
  deriving DecidableEq, Repr

/-- The data of `hop.Entry` (locks and condition variable left out). -/
structure Entry where
  Version : Nat
  Value : Blob
  ops : Ops
  deriving DecidableEq, Repr

/-- Go `Entry.IncreaseVersion` (`khop.go`): `e.Version++` on a `uint64`, then the
reset to `Lowest`. -/
def Entry.IncreaseVersion (e : Entry) : Entry :=
  let v := (e.Version + 1) % 2 ^ 64
  if v ≥ Highest then { e with Version := Lowest } else { e with Version := v }

/-! ## Byte-level packing (`pack.go`)

The `G…` functions read from the front of a slice and return the value and the
rest of the slice; reading past the end of the slice is a run-time panic,
modelled by `none`. -/

/-- The conversion `uint8(x)`. -/
def byte (x : Nat) : Byte := Fin.ofNat x

def Gint8 (buf : List Byte) : Option (Nat × List Byte) :=
  match buf with
  | b0 :: rest => some (b0.val, rest)
  | _ => none

def Gint16 (buf : List Byte) : Option (Nat × List Byte) :=
  match buf with
  | b0 :: b1 :: rest => some (b0.val ||| (b1.val <<< 8), rest)
  | _ => none

def Gint32 (buf : List Byte) : Option (Nat × List Byte) :=
  match buf with
  | b0 :: b1 :: b2 :: b3 :: rest =>
    some (b0.val ||| (b1.val <<< 8) ||| (b2.val <<< 16) ||| (b3.val <<< 24), rest)
  | _ => none

def Gint64 (buf : List Byte) : Option (Nat × List Byte) :=
  match buf with
  | b0 :: b1 :: b2 :: b3 :: b4 :: b5 :: b6 :: b7 :: rest =>
    some (b0.val ||| (b1.val <<< 8) ||| (b2.val <<< 16) ||| (b3.val <<< 24) |||
      (b4.val <<< 32) ||| (b5.val <<< 40) ||| (b6.val <<< 48) ||| (b7.val <<< 56), rest)
  | _ => none

/-- Go `Gstr`: the outer `Option` is the panic of `Gint16` on a slice shorter than
two bytes; the returned slice is `none` when Go returns a `nil` slice. -/
def Gstr (buf : Option (List Byte)) : Option (List Byte × Option (List Byte)) :=
  match buf with
  | none => some ([], none)
  | some buf =>
    match Gint16 buf with
    | none => none
    | some (n, buf) =>
      if n > buf.length then some ([], none)
      else some (buf.take n, some (buf.drop n))

/-- Go `Gblob`: the outer `Option` is the panic of `Gint32` on a slice shorter than
four bytes. -/
def Gblob (buf : Option (List Byte)) : Option (Blob × Option (List Byte)) :=
  match buf with
  | none => some (none, none)
  | some buf =>
    match Gint32 buf with
    | none => none
    | some (n, buf) =>
      if n = 2 ^ 32 - 1 then some (none, some buf)
      else if n > buf.length then some (none, none)
      else some (some (buf.take n), some (buf.drop n))

/-- A slice `p` of a buffer that is being written: `done` holds the bytes of
the buffer in front of the slice, `rest` the bytes of the slice itself, so the
buffer is `done ++ rest`. -/
structure Cursor where
  done : List Byte
  rest : List Byte
  deriving DecidableEq, Repr

/-- Stores the bytes `bs` at `buf[0], buf[1], …` and returns `buf[len(bs):]`;
`none` is the index-out-of-range panic. -/
def Cursor.put (bs : List Byte) (c : Cursor) : Option Cursor :=
  if bs.length ≤ c.rest.length then some ⟨c.done ++ bs, c.rest.drop bs.length⟩ else none

def Pint8 (val : Nat) (buf : Cursor) : Option Cursor :=
  buf.put [byte val]

def Pint16 (val : Nat) (buf : Cursor) : Option Cursor :=
  buf.put [byte val, byte (val >>> 8)]

def Pint32 (val : Nat) (buf : Cursor) : Option Cursor :=
  buf.put [byte val, byte (val >>> 8), byte (val >>> 16), byte (val >>> 24)]

def Pint64 (val : Nat) (buf : Cursor) : Option Cursor :=
  buf.put [byte val, byte (val >>> 8), byte (val >>> 16), byte (val >>> 24),
    byte (val >>> 32), byte (val >>> 40), byte (val >>> 48), byte (val >>> 56)]

/-- The builtin `copy(buf, b)` followed by `buf[n:]`: `copy` overwrites the
first `min(len(buf), len(b))` bytes of the slice, and `buf[n:]` panics when
`n > len(buf)`. -/
def Cursor.copyAdvance (b : List Byte) (n : Nat) (c : Cursor) : Option Cursor :=
  let k := min c.rest.length b.length
  let rest := b.take k ++ c.rest.drop k
  if n ≤ rest.length then some ⟨c.done ++ rest.take n, rest.drop n⟩ else none

def Pstr (val : List Byte) (buf : Cursor) : Option Cursor :=
  let n := val.length % 2 ^ 16
  match Pint16 n buf with
  | none => none
  | some buf => buf.copyAdvance val n

def Pblob (val : Blob) (buf : Cursor) : Option Cursor :=
  match val with
  | some v =>
    let n := v.length % 2 ^ 32
    match Pint32 n buf with
    | none => none
    | some buf => buf.copyAdvance v n
  | none => Pint32 (2 ^ 32 - 1) buf

/-! ## Messages (`rmt/rmt.go`) -/

namespace rmt

def Rerror : Nat := 100
def Tget : Nat := 101
def Rget : Nat := 102
def Tset : Nat := 103
def Rset : Nat := 104
def Tcreate : Nat := 105
def Rcreate : Nat := 106
def Tremove : Nat := 107
def Rremove : Nat := 108
def Ttestset : Nat := 109
def Rtestset : Nat := 110
def Tatomic : Nat := 111
def Ratomic : Nat := 112
def Tlast : Nat := 113

def NOTAG : Nat := 0xFFFF

/-- The struct `rmt.Msg`. -/
structure Msg where
  Size : Nat := 0
  Typ : Nat := 0        -- the field `Type`
  Tag : Nat := 0
  Key : List Byte := []
  Version : Nat := 0
  Value : Blob := none
  Oldval : Blob := none
  Vals : Option (List Blob) := none
  Atmop : Nat := 0
  Flags : List Byte := []
  Edescr : List Byte := []
  Ecode : Nat := 0
  Pkt : Blob := none
  Buf : Blob := none
  deriving DecidableEq, Repr

/-- The table `minMsgsize`. -/
def minMsgsize : List Nat :=
  [14, 18, 20, 14, 16, 16, 16, 10, 8, 26, 20, 14, 10, 18, 20]

/-- The result of a `Pack…` function: the message after the call and the
returned `error`, or a run-time panic. -/
inductive PackResult where
  | done (m : Msg) (err : Option Err)
  | panic
  deriving DecidableEq, Repr

/-- Go `packCommon`: sets the header fields of `m`, makes sure `m.Buf` holds `size`
bytes and writes the header. `m.Pkt` aliases `m.Buf[0:size]`, so it is filled in
by `packFinish` once the body has been written. Returns the message, the total
size and the slice behind the header. -/
def packCommon (m : Msg) (size : Nat) (id : Nat) : Option (Msg × Nat × Cursor) :=
  let size := size + (4 + 2 + 2)
  let Buf : List Byte :=
    match m.Buf with
    | none => List.replicate (if size < 8 * 1024 then 8 * 1024 else size) 0
    | some b =>
      if b.length < size then List.replicate (if size < 8 * 1024 then 8 * 1024 else size) 0
      else b
  let m := { m with Buf := some Buf, Size := size % 2 ^ 32, Typ := id, Tag := NOTAG }
  match Pint32 (size % 2 ^ 32) ⟨[], Buf⟩ with
  | none => none
  | some p =>
    match Pint16 id p with
    | none => none
    | some p =>
      match Pint16 NOTAG p with
      | none => none
      | some p => some (m, size, p)

/-- The state of the message once the body has been written through the slice
`p`: the buffer is `p.done ++ p.rest` and `m.Pkt = m.Buf[0:size]`. -/
def packFinish (m : Msg) (size : Nat) (p : Option Cursor) : PackResult :=
  match p with
  | none => .panic
  | some p =>
    let Buf := p.done ++ p.rest
    .done { m with Buf := some Buf, Pkt := some (Buf.take size) } none

/-- The loop `for _, val := range values { size += 4; if val != nil { size += len(val) } }`. -/
def valuesSize (values : List Blob) : Nat :=
  (values.map (fun val => 4 + val.len)).sum

/-- The loop `for i := uint16(0); i < valnum; i++ { p = hop.Pblob(values[i], p) }`;
`values[i]` panics past the end of `values`. -/
def packValues : Nat → List Blob → Cursor → Option Cursor
  | 0, _, p => some p
  | _ + 1, [], _ => none
  | n + 1, v :: vs, p =>
    match Pblob v p with
    | none => none
    | some p => packValues n vs p

/-! ### Packing requests (`rmt/packt.go`) -/

def PackTget (m : Msg) (key : List Byte) (version : Nat) : PackResult :=
  let size := 2 + key.length + 8
  match packCommon m size Tget with
  | none => .panic
  | some (m, size, p) =>
    let m := { m with Key := key, Version := version }
    packFinish m size ((Pstr key p).bind (Pint64 version))

def PackTset (m : Msg) (key : List Byte) (value : Blob) : PackResult :=
  let size := 2 + key.length + 4
  let size := if value ≠ none then size + value.len else size
  match packCommon m size Tset with
  | none => .panic
  | some (m, size, p) =>
    let m := { m with Key := key, Value := value }
    packFinish m size ((Pstr key p).bind (Pblob value))

def PackTcreate (m : Msg) (key flags : List Byte) (value : Blob) : PackResult :=
  let size := 2 + key.length + 2 + flags.length + 4
  let size := if value ≠ none then size + value.len else size
  match packCommon m size Tcreate with
  | none => .panic
  | some (m, size, p) =>
    let m := { m with Key := key, Flags := flags, Value := value }
    packFinish m size (((Pstr key p).bind (Pstr flags)).bind (Pblob value))

def PackTremove (m : Msg) (key : List Byte) : PackResult :=
  let size := 2 + key.length
  match packCommon m size Tremove with
  | none => .panic
  | some (m, size, p) =>
    let m := { m with Key := key }
    packFinish m size (Pstr key p)

def PackTtestset (m : Msg) (key : List Byte) (version : Nat) (oldvalue value : Blob) :
    PackResult :=
  let size := 2 + key.length + 8 + 4 + 4
  let size := if oldvalue ≠ none then size + oldvalue.len else size
  let size := if value ≠ none then size + value.len else size
  match packCommon m size Ttestset with
  | none => .panic
  | some (m, size, p) =>
    let m := { m with Key := key, Version := version, Oldval := oldvalue, Value := value }
    packFinish m size
      ((((Pstr key p).bind (Pint64 version)).bind (Pblob oldvalue)).bind (Pblob value))

def PackTatomic (m : Msg) (op : Nat) (key : List Byte) (values : Option (List Blob)) :
    PackResult :=
  let size := 2 + 2 + key.length + 2
  match values with
  | some vs =>
    if vs.length > 65535 then .done m (some .tooManyValues)
    else
      let valnum := vs.length % 2 ^ 16
      let size := size + valuesSize vs
      match packCommon m size Tatomic with
      | none => .panic
      | some (m, size, p) =>
        let m := { m with Atmop := op, Key := key, Vals := values }
        packFinish m size
          ((((Pint16 op p).bind (Pstr key)).bind (Pint16 valnum)).bind (packValues valnum vs))
  | none =>
    match packCommon m size Tatomic with
    | none => .panic
    | some (m, size, p) =>
      let m := { m with Atmop := op, Key := key, Vals := values }
      packFinish m size
        ((((Pint16 op p).bind (Pstr key)).bind (Pint16 0)).bind (packValues 0 []))

/-! ### Packing responses (`rmt/packr.go`) -/

def PackRerror (m : Msg) (edescr : List Byte) (ecode : Nat) : PackResult :=
  let size := 4 + 2 + edescr.length
  match packCommon m size Rerror with
  | none => .panic
  | some (m, size, p) =>
    let m := { m with Edescr := edescr, Ecode := ecode }
    packFinish m size ((Pint32 ecode p).bind (Pstr edescr))

def PackRget (m : Msg) (version : Nat) (value : Blob) : PackResult :=
  let size := 8 + 4
  let size := if value ≠ none then size + value.len else size
  match packCommon m size Rget with
  | none => .panic
  | some (m, size, p) =>
    let m := { m with Version := version, Value := value }
    packFinish m size ((Pint64 version p).bind (Pblob value))

def PackRset (m : Msg) (version : Nat) : PackResult :=
  let size := 8
  match packCommon m size Rset with
  | none => .panic
  | some (m, size, p) =>
    let m := { m with Version := version }
    packFinish m size (Pint64 version p)

def PackRcreate (m : Msg) (version : Nat) : PackResult :=
  let size := 8
  match packCommon m size Rcreate with
  | none => .panic
  | some (m, size, p) =>
    let m := { m with Version := version }
    packFinish m size (Pint64 version p)

def PackRremove (m : Msg) : PackResult :=
  let size := 0
  match packCommon m size Rremove with
  | none => .panic
  | some (m, size, p) => packFinish m size (some p)

def PackRtestset (m : Msg) (version : Nat) (value : Blob) : PackResult :=
  let size := 8 + 4
  let size := if value ≠ none then size + value.len else size
  match packCommon m size Rtestset with
  | none => .panic
  | some (m, size, p) =>
    let m := { m with Version := version, Value := value }
    packFinish m size ((Pint64 version p).bind (Pblob value))

def PackRatomic (m : Msg) (version : Nat) (values : Option (List Blob)) : PackResult :=
  let size := 8 + 2
  match values with
  | some vs =>
    if vs.length > 65535 then .done m (some .tooManyValues)
    else
      let valnum := vs.length % 2 ^ 16
      let size := size + valuesSize vs
      match packCommon m size Ratomic with
      | none => .panic
      | some (m, size, p) =>
        let m := { m with Version := version, Vals := values }
        packFinish m size (((Pint64 version p).bind (Pint16 valnum)).bind (packValues valnum vs))
  | none =>
    match packCommon m size Ratomic with
    | none => .panic
    | some (m, size, p) =>
      let m := { m with Version := version, Vals := values }
      packFinish m size (((Pint64 version p).bind (Pint16 0)).bind (packValues 0 []))

/-! ### Unpacking (`rmt/unpack.go`) -/

/-- The errors `Unpack` returns; each of them carries the code `EINVAL`. -/
inductive UnpackError where
  | short          -- "buffer too short: …"
  | invalidId      -- "invalid id"
  | invalidMsgId   -- "invalid message id"
  | invalidSize    -- "invalid size" (the label `szerror`)
  deriving DecidableEq, Repr

/-- The result of `Unpack`: the filled message when `nil` is returned, the
returned error, or a run-time panic. -/
inductive UnpackResult where
  | ok (m : Msg)
  | error (e : UnpackError)
  | panic
  deriving DecidableEq, Repr

/-- The loop `for i := uint16(0); i < n; i++ { m.Vals[i], p = hop.Gblob(p); if p == nil { goto szerror } }`:
the values read and the rest of the slice. -/
def unpackVals : Nat → List Byte → Option (Except Unit (List Blob × List Byte))
  | 0, p => some (.ok ([], p))
  | n + 1, p =>
    match Gblob (some p) with
    | none => none
    | some (_, none) => some (.error ())
    | some (v, some p) =>
      match unpackVals n p with
      | none => none
      | some (.error _) => some (.error ())
      | some (.ok (vs, p)) => some (.ok (v :: vs, p))

/-- The statement `switch m.Type { … }` of `Unpack`: the message and the slice
`p` after the body has been read. The outer `Option` is a panic, `Except.error`
is an error return. -/
def unpackBody (m : Msg) (p : List Byte) :
    Option (Except UnpackError (Msg × Option (List Byte))) :=
  if m.Typ = Rerror then
    match Gint32 p with
    | none => none
    | some (ecode, p) =>
      match Gstr (some p) with
      | none => none
      | some (edescr, p) => some (.ok ({ m with Ecode := ecode, Edescr := edescr }, p))
  else if m.Typ = Tget then
    match Gstr (some p) with
    | none => none
    | some (key, none) => some (.ok ({ m with Key := key }, none))
    | some (key, some p) =>
      match Gint64 p with
      | none => none
      | some (version, p) => some (.ok ({ m with Key := key, Version := version }, some p))
  else if m.Typ = Rget ∨ m.Typ = Rtestset then
    match Gint64 p with
    | none => none
    | some (version, p) =>
      match Gblob (some p) with
      | none => none
      | some (value, p) => some (.ok ({ m with Version := version, Value := value }, p))
  else if m.Typ = Tset then
    match Gstr (some p) with
    | none => none
    | some (key, none) => some (.ok ({ m with Key := key }, none))
    | some (key, some p) =>
      match Gblob (some p) with
      | none => none
      | some (value, p) => some (.ok ({ m with Key := key, Value := value }, p))
  else if m.Typ = Rset ∨ m.Typ = Rcreate then
    match Gint64 p with
    | none => none
    | some (version, p) => some (.ok ({ m with Version := version }, some p))
  else if m.Typ = Tcreate then
    match Gstr (some p) with
    | none => none
    | some (_, none) => some (.error .invalidSize)
    | some (key, some p) =>
      match Gstr (some p) with
      | none => none
      | some (_, none) => some (.error .invalidSize)
      | some (flags, some p) =>
        match Gblob (some p) with
        | none => none
        | some (value, p) =>
          some (.ok ({ m with Key := key, Flags := flags, Value := value }, p))
  else if m.Typ = Tremove then
    match Gstr (some p) with
    | none => none
    | some (key, p) => some (.ok ({ m with Key := key }, p))
  else if m.Typ = Rremove then
    some (.ok (m, some p))
  else if m.Typ = Ttestset then
    match Gstr (some p) with
    | none => none
    | some (_, none) => some (.error .invalidSize)
    | some (key, some p) =>
      match Gint64 p with
      | none => none
      | some (version, p) =>
        match Gblob (some p) with
        | none => none
        | some (_, none) => some (.error .invalidSize)
        | some (oldval, some p) =>
          match Gblob (some p) with
          | none => none
          | some (value, p) =>
            some (.ok ({ m with Key := key, Version := version, Oldval := oldval,
                                Value := value }, p))
  else if m.Typ = Tatomic then
    match Gint16 p with
    | none => none
    | some (atmop, p) =>
      match Gstr (some p) with
      | none => none
      | some (_, none) => some (.error .invalidSize)
      | some (key, some p) =>
        if p.length < 2 then some (.error .invalidSize)
        else
          match Gint16 p with
          | none => none
          | some (n, p) =>
            if n > 0 then
              match unpackVals n p with
              | none => none
              | some (.error _) => some (.error .invalidSize)
              | some (.ok (vals, p)) =>
                some (.ok ({ m with Atmop := atmop, Key := key, Vals := some vals }, some p))
            else some (.ok ({ m with Atmop := atmop, Key := key }, some p))
  else if m.Typ = Ratomic then
    match Gint64 p with
    | none => none
    | some (version, p) =>
      match Gint16 p with
      | none => none
      | some (n, p) =>
        if n > 0 then
          match unpackVals n p with
          | none => none
          | some (.error _) => some (.error .invalidSize)
          | some (.ok (vals, p)) =>
            some (.ok ({ m with Version := version, Vals := some vals }, some p))
        else some (.ok ({ m with Version := version }, some p))
  else some (.error .invalidMsgId)

/-- Go `Unpack`: creates a `Msg` value from the on-the-wire representation `buf`. -/
def Unpack (m : Msg) (buf : List Byte) : UnpackResult :=
  if buf.length < 8 then .error .short
  else
    match Gint32 buf with
    | none => .panic
    | some (size, p) =>
      match Gint16 p with
      | none => .panic
      | some (mtype, p) =>
        match Gint16 p with
        | none => .panic
        | some (tag, p) =>
          let m := { m with Size := size, Typ := mtype, Tag := tag }
          if size > buf.length ∨ size < 8 then .error .short
          else
            let p := p.take (size - 8)
            let m := { m with Pkt := some (buf.take size) }
            if mtype < Rerror ∨ mtype ≥ Tlast then .error .invalidId
            else
              let sz := minMsgsize.getD (mtype - Rerror) 0
              if size < sz then .error .invalidSize
              else
                match unpackBody m p with
                | none => .panic
                | some (.error e) => .error e
                | some (.ok (_, none)) => .error .invalidSize
                | some (.ok (m, some p)) =>
                  if p.length > 0 then .error .invalidSize else .ok m

end rmt

open rmt

/-! ## The wire format (spec.md, section 6.1)

The encodings below follow the words of the specification ("all integers are
little-endian", `str`: `len[2] bytes[len]`, `blob`: `len[4] bytes[len]`); they are
what the code of `pack.go` is compared with. -/

/-- The unsigned integer that a byte sequence encodes in little-endian order. -/
def leDecode : List Byte → Nat
  | [] => 0
  | b :: bs => b.val + 256 * leDecode bs

/-- The `n`-byte little-endian encoding of `x` (of `x mod 256^n`). -/
def leEncode : Nat → Nat → List Byte
  | 0, _ => []
  | n + 1, x => byte x :: leEncode n (x / 256)

/-- Wire form of a string: `len[2] bytes[len]`. -/
def encStr (s : List Byte) : List Byte := leEncode 2 s.length ++ s

/-- Wire form of a blob: `len[4] bytes[len]`, with `len = 0xFFFFFFFF` for nil. -/
def encBlob : Blob → List Byte
  | some v => leEncode 4 v.length ++ v
  | none => leEncode 4 (2 ^ 32 - 1)

/-- Wire form of a list of values: the blobs one after the other. -/
def encVals : List Blob → List Byte
  | [] => []
  | v :: vs => encBlob v ++ encVals vs

/-- Wire form of the common prelude `size[4] type[2] tag[2]`. -/
def encHdr (size typ tag : Nat) : List Byte := leEncode 4 size ++ leEncode 2 typ ++ leEncode 2 tag

/-- The list of values `Unpack` stores for a packed list: with `valnum = 0` the
field `Vals` is left `nil`. -/
def normVals : Option (List Blob) → Option (List Blob)
  | some [] => none
  | vs => vs

/-- The pack call `r` returned no error on a message of type `id`, and `Unpack`
of the produced packet into a fresh `Msg` succeeds with the type, size and tag
of the packed message and the fields of `expect`. -/
def RoundTrip (r : PackResult) (id : Nat) (expect : Msg) : Prop :=
  ∃ m pkt, r = .done m none ∧ m.Typ = id ∧ m.Pkt = some pkt ∧
    Unpack {} pkt =
      .ok { expect with Size := m.Size, Typ := m.Typ, Tag := m.Tag, Pkt := some pkt }

/-! ## Library functions used by `shop.go`

`bytes.Replace`, `bytes.Index`, `bytes.Count` and `utf8.DecodeRune` belong to
the Go standard library, not to this repository. -/

/-- Modelled from the Go library (`unicode/utf8`): the width `size` returned by
`utf8.DecodeRune(p)`, which is `0` for an empty slice, `1` for an ASCII byte and
for an invalid or truncated encoding, and the length of the encoding otherwise. -/
def runeWidth : List Byte → Nat
  | [] => 0
  | b0 :: rest =>
    if b0.val < 0xC2 then 1
    else if b0.val < 0xE0 then
      match rest with
      | b1 :: _ => if 0x80 ≤ b1.val ∧ b1.val ≤ 0xBF then 2 else 1
      | _ => 1
    else if b0.val < 0xF0 then
      let lo := if b0.val = 0xE0 then 0xA0 else 0x80
      let hi := if b0.val = 0xED then 0x9F else 0xBF
      match rest with
      | b1 :: b2 :: _ =>
        if lo ≤ b1.val ∧ b1.val ≤ hi ∧ 0x80 ≤ b2.val ∧ b2.val ≤ 0xBF then 3 else 1
      | _ => 1
    else if b0.val < 0xF5 then
      let lo := if b0.val = 0xF0 then 0x90 else 0x80
      let hi := if b0.val = 0xF4 then 0x8F else 0xBF
      match rest with
      | b1 :: b2 :: b3 :: _ =>
        if lo ≤ b1.val ∧ b1.val ≤ hi ∧ 0x80 ≤ b2.val ∧ b2.val ≤ 0xBF ∧
            0x80 ≤ b3.val ∧ b3.val ≤ 0xBF then 4 else 1
      | _ => 1
    else 1

/-- Modelled from the Go library: `utf8.RuneCount(s)`, by repeated decoding;
`fuel` bounds the number of decoding steps and `len(s)` steps are enough. -/
def runeCountLoop : Nat → List Byte → Nat
  | 0, _ => 0
  | fuel + 1, s =>
    match s with
    | [] => 0
    | _ :: _ => 1 + runeCountLoop fuel (s.drop (runeWidth s))

/-- Modelled from the Go library: `bytes.Index(s, sep)`, the index of the first
instance of `sep` in `s`; `none` stands for `-1`. -/
def bytesIndex (s sep : List Byte) : Option Nat :=
  if sep.isPrefixOf s then some 0
  else
    match s with
    | [] => none
    | _ :: t => (bytesIndex t sep).map (· + 1)

/-- Modelled from the Go library: the loop of `bytes.Count(s, sep)` for a
non-empty `sep`, which counts non-overlapping instances:
`for { i := Index(s, sep); if i == -1 { return n }; n++; s = s[i+len(sep):] }`.
`fuel` bounds the number of iterations; `len(s) + 1` iterations are enough. -/
def bytesCountLoop : Nat → List Byte → List Byte → Nat
  | 0, _, _ => 0
  | fuel + 1, s, sep =>
    match bytesIndex s sep with
    | none => 0
    | some i => 1 + bytesCountLoop fuel (s.drop (i + sep.length)) sep

/-- Modelled from the Go library: `bytes.Count(s, sep)`; for an empty `sep` it
is `utf8.RuneCount(s) + 1`. -/
def bytesCount (s sep : List Byte) : Nat :=
  if sep.length = 0 then runeCountLoop s.length s + 1
  else bytesCountLoop (s.length + 1) s sep

/-- Modelled from the Go library: the loop of `bytes.Replace` that performs `n`
replacements. `rest` is `s[start:]`, `out` the part of the result written so
far and `first` tells whether this is the iteration `i = 0`. `none` is the panic
of a slice expression when `Index` returns `-1`. -/
def bytesReplaceLoop (old new : List Byte) :
    Nat → Bool → List Byte → List Byte → Option (List Byte)
  | 0, _, rest, out => some (out ++ rest)
  | n + 1, first, rest, out =>
    let j : Option Nat :=
      if old.length = 0 then (if first then some 0 else some (runeWidth rest))
      else bytesIndex rest old
    match j with
    | none => none
    | some j =>
      bytesReplaceLoop old new n false (rest.drop (j + old.length)) (out ++ rest.take j ++ new)

/-- Modelled from the Go library: `bytes.Replace(s, old, new, -1)`, a copy of
`s` with all non-overlapping instances of `old` replaced by `new`. Without any
instance the copy is `append([]byte(nil), s...)`, which is `nil` for an empty
`s`. The outer `Option` is a panic. -/
def bytesReplace (s old new : List Byte) : Option Blob :=
  let m := bytesCount s old
  if m = 0 then some (if s.length = 0 then none else some s)
  else (bytesReplaceLoop old new m true s []).map some

/-! ## Atomic operations on a value (`shop/shop.go`) -/

/-- The arithmetic of `atomicAdd` on `w`-bit unsigned integers:
`vv += nn` when `sign > 0` and `vv -= nn` otherwise. -/
def addSub (w : Nat) (sign : Int) (vv nn : Nat) : Nat :=
  if sign > 0 then (vv + nn) % 2 ^ w else (vv + 2 ^ w - nn % 2 ^ w) % 2 ^ w

/-- The buffer `val` after `hop.PintN(vv, val)`: the result of the call is
dropped, the bytes stay in `val`. -/
def written (c : Option Cursor) : Option Blob :=
  c.map (fun c => some (c.done ++ c.rest))

/-- Go `atomicAdd`: returns `(val, err)`; the outer `Option` is a panic. -/
def atomicAdd (v n : List Byte) (sign : Int) : Option (Blob × Option Err) :=
  if v.length ≠ n.length then some (none, some .typeMismatch)
  else
    let val : Cursor := ⟨[], List.replicate v.length 0⟩
    if n.length = 1 then
      match Gint8 v, Gint8 n with
      | some (vv, _), some (nn, _) =>
        (written (Pint8 (addSub 8 sign vv nn) val)).map (fun val => (val, none))
      | _, _ => none
    else if n.length = 2 then
      match Gint16 v, Gint16 n with
      | some (vv, _), some (nn, _) =>
        (written (Pint16 (addSub 16 sign vv nn) val)).map (fun val => (val, none))
      | _, _ => none
    else if n.length = 4 then
      match Gint32 v, Gint32 n with
      | some (vv, _), some (nn, _) =>
        (written (Pint32 (addSub 32 sign vv nn) val)).map (fun val => (val, none))
      | _, _ => none
    else if n.length = 8 then
      match Gint64 v, Gint64 n with
      | some (vv, _), some (nn, _) =>
        (written (Pint64 (addSub 64 sign vv nn) val)).map (fun val => (val, none))
      | _, _ => none
    else some (none, some .invalidIntSize)

/-- The loop `for i := 0; i < len(val) && i < len(value); i++ { val[i] = f(val[i], value[i]) }`. -/
def zipBytes (f : Nat → Nat → Nat) : List Byte → List Byte → List Byte
  | v :: vs, x :: xs => byte (f v.val x.val) :: zipBytes f vs xs
  | vs, _ => vs

/-- The loop `for ; i < len(oldval); i++ { if oldval[i] != skip { break } }`,
started at `i`: the final value of `i`. -/
def firstNot (skip : Byte) : List Byte → Nat → Nat
  | [], i => i
  | b :: bs, i => if b ≠ skip then i else firstNot skip bs (i + 1)

/-- The loop of `atomicBitSet` over the bits of `val[i]`:
`for b, n := uint8(1), 0; b != 0; b, n = b<<1, n+1 { if val[i]&b == 0 { val[i] |= b; bitnum += uint32(n); break } }`.
Returns the new byte and the new `bitnum`. -/
def bitSetLoop : Nat → Nat → Nat → Nat → Nat → Nat × Nat
  | 0, x, _, _, bitnum => (x, bitnum)
  | fuel + 1, x, b, n, bitnum =>
    if b = 0 then (x, bitnum)
    else if x &&& b = 0 then (x ||| b, (bitnum + n % 2 ^ 32) % 2 ^ 32)
    else bitSetLoop fuel x ((b <<< 1) % 2 ^ 8) (n + 1) bitnum

/-- The loop of `atomicBitClear` over the bits of `val[i]`:
`for b, n := uint8(1), 0; b != 0; b, n = b<<1, n+1 { if val[i]&b == 1 { val[i] &= ^b; bitnum += uint32(n); break } }`.
Returns the new byte and the new `bitnum`. -/
def bitClearLoop : Nat → Nat → Nat → Nat → Nat → Nat × Nat
  | 0, x, _, _, bitnum => (x, bitnum)
  | fuel + 1, x, b, n, bitnum =>
    if b = 0 then (x, bitnum)
    else if x &&& b = 1 then (x &&& (255 - b), (bitnum + n % 2 ^ 32) % 2 ^ 32)
    else bitClearLoop fuel x ((b <<< 1) % 2 ^ 8) (n + 1) bitnum

/-- Go `atomicBitSet`: returns `(val, retvals, err)`; the outer `Option` is a
panic (`values[0]` on an empty list, `Pint32` cannot fail on four bytes). -/
def atomicBitSet (oldval : List Byte) (values : Option (List Blob)) :
    Option (Blob × Option (List Blob) × Option Err) :=
  match values with
  | some [] => none
  | some (value :: _) =>
    let val := zipBytes (· ||| ·) oldval value.bytes
    some (some val, some [some val], none)
  | none =>
    let i := firstNot 0xff oldval 0
    if i ≥ oldval.length then some (none, none, some .allBitsSet)
    else
      let bitnum := (i * 8) % 2 ^ 32
      let r := bitSetLoop 9 (oldval.getD i 0).val 1 0 bitnum
      let val := oldval.set i (byte r.1)
      match written (Pint32 r.2 ⟨[], List.replicate 4 0⟩) with
      | none => none
      | some ba => some (some val, some [some val, ba], none)

/-- Go `atomicBitClear`: returns `(val, retvals, err)`; the outer `Option` is a
panic. -/
def atomicBitClear (oldval : List Byte) (values : Option (List Blob)) :
    Option (Blob × Option (List Blob) × Option Err) :=
  match values with
  | some [] => none
  | some (value :: _) =>
    let val := zipBytes (· &&& ·) oldval value.bytes
    some (some val, some [some val], none)
  | none =>
    let i := firstNot 0 oldval 0
    if i ≥ oldval.length then some (none, none, some .allBitsCleared)
    else
      let bitnum := (i * 8) % 2 ^ 32
      let r := bitClearLoop 9 (oldval.getD i 0).val 1 0 bitnum
      let val := oldval.set i (byte r.1)
      match written (Pint32 r.2 ⟨[], List.replicate 4 0⟩) with
      | none => none
      | some ba => some (some val, some [some val, ba], none)

/-! ## Client entries (`shop/shop.go`) -/

/-- The loop `for i, s := range oldvalue { if s != e.Value[i] { goto done } }`
of `SEntry.TestSet`, run on slices of equal length: `true` when it jumps. -/
def bytesDiffer : List Byte → List Byte → Bool
  | s :: ss, v :: vs => if s ≠ v then true else bytesDiffer ss vs
  | _, _ => false

/-- Go `make([]byte, len(value))` followed by `copy(val, value)`. -/
def copyOf (value : Blob) : Blob := some value.bytes

/-- Go `SEntry.Get`: returns `(e.Version, e.Value, nil)`. -/
def SEntry.Get (e : Entry) : Nat × Blob × Option Err :=
  (e.Version, e.Value, none)

/-- The part of `SEntry.TestSet` behind the check of `oldversion`. -/
def SEntry.testSetFrom (e : Entry) (oldversion : Nat) (oldvalue value : Blob) :
    Entry × Nat × Blob × Option Err :=
  if oldversion ≠ e.Version then (e, 0, none, none)
  else
    let differs : Bool :=
      match oldvalue with
      | none => false
      | some ov => if ov.length ≠ e.Value.len then true else bytesDiffer ov e.Value.bytes
    if differs then (e, 0, none, none)
    else
      let e := e.IncreaseVersion
      let ver := e.Version
      let val := copyOf value
      ({ e with Value := val }, ver, val, none)

/-- Go `SEntry.TestSet`: the entry after the call and the results `(ver, val, err)`. -/
def SEntry.TestSet (e : Entry) (oldversion : Nat) (oldvalue value : Blob) :
    Entry × Nat × Blob × Option Err :=
  if oldversion = Any then SEntry.testSetFrom e e.Version oldvalue value
  else if oldversion < Lowest ∨ oldversion > Highest then (e, 0, none, some .invalidVersion)
  else SEntry.testSetFrom e oldversion oldvalue value

/-- Go `SEntry.Set`. -/
def SEntry.Set (e : Entry) (value : Blob) : Entry × Nat × Option Err :=
  let r := SEntry.TestSet e Any none value
  (r.1, r.2.1, r.2.2.2)

/-- The end of `SEntry.Atomic`, after the `switch`: stores `val` if it is not
nil and returns `(ver, retvals, err)`. -/
def SEntry.atomicDone (e : Entry) (val : Blob) (retvals : Option (List Blob))
    (err : Option Err) : Entry × Nat × Option (List Blob) × Option Err :=
  match val with
  | some v =>
    let e := { e.IncreaseVersion with Value := some v }
    (e, e.Version, retvals, err)
  | none => (e, e.Version, retvals, err)

/-- Go `SEntry.Atomic`: the entry after the call and the results
`(ver, retvals, err)`; the outer `Option` is a panic. -/
def SEntry.Atomic (e : Entry) (op : Nat) (values : Option (List Blob)) :
    Option (Entry × Nat × Option (List Blob) × Option Err) :=
  let valnum := match values with
    | some vs => vs.length
    | none => 0
  let oldval := e.Value.bytes
  if op = Add then
    if valnum ≠ 1 then some (e, 0, none, some .Eparams)
    else
      match atomicAdd oldval ((values.getD []).headD none).bytes 1 with
      | none => none
      | some (val, err) => some (SEntry.atomicDone e val (some [val]) err)
  else if op = Sub then
    if valnum ≠ 1 then some (e, 0, none, some .Eparams)
    else
      match atomicAdd oldval ((values.getD []).headD none).bytes (-1) with
      | none => none
      | some (val, err) => some (SEntry.atomicDone e val (some [val]) err)
  else if op = BitSet then
    match atomicBitSet oldval values with
    | none => none
    | some (val, retvals, err) => some (SEntry.atomicDone e val retvals err)
  else if op = BitClear then
    match atomicBitClear oldval values with
    | none => none
    | some (val, retvals, err) => some (SEntry.atomicDone e val retvals err)
  else if op = Append then
    if valnum ≠ 1 then some (e, 0, none, some .Eparams)
    else
      let val : Blob := some (oldval ++ ((values.getD []).headD none).bytes)
      some (SEntry.atomicDone e val (some [val]) none)
  else if op = Remove then
    if valnum ≠ 1 then some (e, 0, none, some .Eparams)
    else
      match bytesReplace oldval ((values.getD []).headD none).bytes [] with
      | none => none
      | some ret =>
        let val : Blob := if ret.len ≠ oldval.length then ret else none
        some (SEntry.atomicDone e val (some [ret]) none)
  else if op = Replace then
    if valnum ≠ 2 then some (e, 0, none, some .Eparams)
    else
      match bytesReplace oldval ((values.getD []).headD none).bytes
          (((values.getD []).tail).headD none).bytes with
      | none => none
      | some ret =>
        let val : Blob := if ret.len ≠ oldval.length then ret else none
        some (SEntry.atomicDone e val (some [ret]) none)
  else some (e, 0, none, some .invalidAtomic)

/-! ## The store (`khop.go`, `shop/shop.go`) -/

/-- A value of the map `KHop.entries` of an `SHop`: a pointer to the `Entry`
embedded in `s.keysEntry` or in `s.keynumEntry`, or to an entry that only the
map refers to. -/
inductive Ref where
  | keys
  | keynum
  | own (e : Entry)
  deriving DecidableEq, Repr

/-- The struct `SHop`: the map `entries` of the embedded `KHop` (a list of
pairs with distinct keys) and the two local entries. -/
structure SHop where
  entries : List (List Byte × Ref)
  keysEntry : Entry
  keynumEntry : Entry
  deriving DecidableEq, Repr

/-- The map lookup `h.entries[key]`. -/
def lookup (key : List Byte) : List (List Byte × Ref) → Option Ref
  | [] => none
  | (k, r) :: rest => if k = key then some r else lookup key rest

/-- The map update `h.entries[key] = e`. -/
def insert (key : List Byte) (r : Ref) : List (List Byte × Ref) → List (List Byte × Ref)
  | [] => [(key, r)]
  | (k, r0) :: rest => if k = key then (key, r) :: rest else (k, r0) :: insert key r rest

/-- The map update `delete(h.entries, key)`. -/
def erase (key : List Byte) (m : List (List Byte × Ref)) : List (List Byte × Ref) :=
  m.filter (fun kr => kr.1 ≠ key)

/-- The entry a map value points to. -/
def SHop.deref (s : SHop) : Ref → Entry
  | .keys => s.keysEntry
  | .keynum => s.keynumEntry
  | .own e => e

/-- The store after the entry that `key` maps to through `r` has been changed to `e`. -/
def SHop.store (s : SHop) (key : List Byte) (r : Ref) (e : Entry) : SHop :=
  match r with
  | .keys => { s with keysEntry := e }
  | .keynum => { s with keynumEntry := e }
  | .own _ => { s with entries := insert key (.own e) s.entries }

/-- Go `KHop.AddEntry(key, val, ops)`: the store after the call and the returned
error. A `*SEntry` or `nil` argument gives an entry of its own; `&s.keysEntry`
and `&s.keynumEntry` give the entry embedded in that struct, which is
initialised before the map is looked at. -/
def SHop.AddEntry (s : SHop) (key : List Byte) (val : Blob) (ops : Ops) : SHop × Option Err :=
  let e : Entry := { Version := Lowest, Value := val, ops := ops }
  let (s, r) : SHop × Ref :=
    match ops with
    | .keysEntry => ({ s with keysEntry := e }, Ref.keys)
    | .keynumEntry => ({ s with keynumEntry := e }, Ref.keynum)
    | _ => (s, Ref.own e)
  match lookup key s.entries with
  | none => ({ s with entries := insert key r s.entries }, none)
  | some oe =>
    if (s.deref oe).Version = 0 then ({ s with entries := insert key r s.entries }, none)
    else (s, some .Eexist)

/-- Go `KHop.RemoveEntry(key)`: the store after the call and the returned error. -/
def SHop.RemoveEntry (s : SHop) (key : List Byte) : SHop × Option Err :=
  match lookup key s.entries with
  | none => (s, some .Enoent)
  | some r =>
    let e := s.deref r
    if e.Version ≠ 0 then
      let s := { s with entries := erase key s.entries }
      let e := { e with Version := Removed, ops := .nil }
      match r with
      | .keys => ({ s with keysEntry := e }, none)
      | .keynum => ({ s with keynumEntry := e }, none)
      | .own _ => (s, none)
    else (s, some .Enoent)

/-- Go `KHop.NumEntries`. -/
def SHop.NumEntries (s : SHop) : Nat := s.entries.length

/-- Go `SHop.keysModified`. -/
def SHop.keysModified (s : SHop) : SHop :=
  { s with keysEntry := s.keysEntry.IncreaseVersion,
           keynumEntry := s.keynumEntry.IncreaseVersion }

/-- The test `strings.HasPrefix(key, p)`. -/
def hasPrefix (key p : List Byte) : Bool := p.isPrefixOf key

/-- The bytes of an ASCII string literal of the source. -/
def str (s : String) : List Byte := s.toList.map (fun c => byte c.toNat)

/-- Go `NewSHop`. -/
def NewSHop : SHop :=
  let s : SHop := { entries := [], keysEntry := ⟨0, none, .nil⟩, keynumEntry := ⟨0, none, .nil⟩ }
  let s := (s.AddEntry (str "#/keys") none .keysEntry).1
  let s := (s.AddEntry (str "#/keynum") none .keynumEntry).1
  (s.AddEntry (str "#/id") (some (str "SHop")) .nil).1

/-- Go `SHop.Create`: the store after the call and the results `(version, err)`. -/
def SHop.Create (s : SHop) (key _flags : List Byte) (value : Blob) : SHop × Nat × Option Err :=
  if hasPrefix key (str "#/") then (s, 0, some .Eperm)
  else if value = none then (s, 0, some .Enil)
  else
    let val := copyOf value
    match s.AddEntry key val .sentry with
    | (s, some err) => (s, 0, some err)
    | (s, none) => (s.keysModified, Lowest, none)

/-- Go `SHop.Remove`: the store after the call and the returned error. -/
def SHop.Remove (s : SHop) (key : List Byte) : SHop × Option Err :=
  match s.RemoveEntry key with
  | (s, some err) => (s.keysModified, some err)
  | (s, none) => (s, none)

/-- Go `KeynumEntry.Get`, called on the entry `e` of `#/keynum`. -/
def KeynumEntry.Get (s : SHop) (e : Entry) : Nat × Blob × Option Err :=
  (e.Version, some (str (toString s.NumEntries)), none)

/-- Go `KeysEntry.Get`, called on the entry `e` of `#/keys`. The functions
`regexp.Compile` and `Regexp.MatchString` of the Go library are the parameter
`compile` (`none` for a compile error); the map is visited in the order of the
list `s.entries`. -/
def KeysEntry.Get (compile : List Byte → Option (List Byte → Bool)) (s : SHop) (e : Entry)
    (key : List Byte) : Nat × Blob × Option Err :=
  let listing (re : Option (List Byte → Bool)) : Nat × Blob × Option Err :=
    let val : List Byte :=
      s.entries.foldl (fun val kr =>
        if re.isNone ∨ (re.getD (fun _ => true)) kr.1 then val ++ kr.1 ++ [0] else val) []
    let val := if val.length > 0 then val.take (val.length - 1) else val
    (e.Version, some val, none)
  if hasPrefix key (str "#/keys:") then
    match compile (key.drop 7) with
    | none => (0, none, some .regexp)
    | some re => listing (some re)
  else listing none

/-- The result of a `Get`: the returned `(ver, val, err)`, a caller that is
still blocked in `e.Wait()`, or a run-time panic. -/
inductive GetResult where
  | returned (ver : Nat) (val : Blob) (err : Option Err)
  | blocked
  | panic
  deriving DecidableEq, Repr

/-- The type assertion `e.ops.(*Entry)`; `none` is its panic. -/
def Ops.asEntry : Ops → Option Entry
  | .entry ver val ops => some ⟨ver, val, ops⟩
  | _ => none

/-- The loop `for ver != Removed && ver < version { e.Wait(); … ; ver = e.Version }`
of `KHop.Get`. `e` is the content of the entry the caller holds; each element of
`wakes` is the content of that entry at one return of `e.Wait()`, in order. The
result is the entry the loop ends with, `blocked` when the condition still holds
after the last wake-up, or the panic of `e.ops.(*Entry)`. -/
def getWait (oldver version : Nat) : Entry → List Entry → Option (Option Entry)
  | e, [] => if e.Version ≠ Removed ∧ e.Version < version then some none else some (some e)
  | e, w :: ws =>
    if e.Version ≠ Removed ∧ e.Version < version then
      if oldver = 0 then
        match w.ops.asEntry with
        | none => none
        | some ne => getWait oldver version ne ws
      else getWait oldver version w ws
    else some (some e)

/-- The part of `KHop.Get` behind the lookup of the entry `e`. -/
def SHop.getFrom (compile : List Byte → Option (List Byte → Bool)) (s : SHop)
    (key : List Byte) (version : Nat) (e : Entry) (wakes : List Entry) : GetResult :=
  let e0 : Option Entry := if e.Version = 0 ∧ e.ops ≠ .nil then e.ops.asEntry else some e
  match e0 with
  | none => .panic
  | some e =>
    let ver := e.Version
    let oldver := ver
    let version :=
      if version = PastNewest then (ver + 1) % 2 ^ 64
      else if version = Newest ∨ version = Any then ver
      else version
    match getWait oldver version e wakes with
    | none => .panic
    | some none => .blocked
    | some (some e) =>
      if e.Version = Removed then .returned 0 none none
      else
        match e.ops with
        | .nil => .returned e.Version e.Value none
        | .sentry => let r := SEntry.Get e; .returned r.1 r.2.1 r.2.2
        | .keysEntry => let r := KeysEntry.Get compile s e key; .returned r.1 r.2.1 r.2.2
        | .keynumEntry => let r := KeynumEntry.Get s e; .returned r.1 r.2.1 r.2.2
        | .entry _ _ _ => .returned 0 e.Value (some .Eperm)

/-- Go `KHop.Get`: the store after the call (a placeholder entry may have been
added) and the result. -/
def SHop.KHopGet (compile : List Byte → Option (List Byte → Bool)) (s : SHop)
    (key : List Byte) (version : Nat) (wakes : List Entry) : SHop × GetResult :=
  match lookup key s.entries with
  | none =>
    if version = Any ∨ version = Newest then (s, .returned 0 none none)
    else
      let e : Entry := ⟨0, none, .nil⟩
      let s := { s with entries := insert key (.own e) s.entries }
      (s, s.getFrom compile key version e wakes)
  | some r => (s, s.getFrom compile key version (s.deref r) wakes)

/-- Go `SHop.Get`. -/
def SHop.Get (compile : List Byte → Option (List Byte → Bool)) (s : SHop)
    (key : List Byte) (version : Nat) (wakes : List Entry) : SHop × GetResult :=
  if hasPrefix key (str "#/keys:") then
    let r := KeysEntry.Get compile s s.keysEntry key
    (s, .returned r.1 r.2.1 r.2.2)
  else s.KHopGet compile key version wakes

/-- Go `KHop.Set` (`SHop` does not override it): the store after the call and the
results `(ver, err)`. -/
def SHop.Set (s : SHop) (key : List Byte) (value : Blob) : SHop × Nat × Option Err :=
  match lookup key s.entries with
  | none => (s, 0, none)
  | some r =>
    let e := s.deref r
    if e.Version = 0 then (s, 0, none)
    else
      match e.ops with
      | .sentry =>
        let res := SEntry.Set e value
        (s.store key r res.1, res.2.1, res.2.2)
      | _ => (s, 0, some .Eperm)

/-- Go `KHop.TestSet` (`SHop` does not override it): the store after the call and
the results `(ver, val, err)`. -/
def SHop.TestSet (s : SHop) (key : List Byte) (oldversion : Nat) (oldvalue value : Blob) :
    SHop × Nat × Blob × Option Err :=
  match lookup key s.entries with
  | none => (s, 0, none, none)
  | some r =>
    let e := s.deref r
    if e.Version = 0 then (s, 0, none, none)
    else
      match e.ops with
      | .sentry =>
        let res := SEntry.TestSet e oldversion oldvalue value
        (s.store key r res.1, res.2.1, res.2.2.1, res.2.2.2)
      | _ => (s, 0, none, some .Eperm)

/-- Go `KHop.Atomic` (`SHop` does not override it): the store after the call and
the results `(ver, vals, err)`; the outer `Option` is a panic. -/
def SHop.Atomic (s : SHop) (key : List Byte) (op : Nat) (values : Option (List Blob)) :
    Option (SHop × Nat × Option (List Blob) × Option Err) :=
  match lookup key s.entries with
  | none => some (s, 0, none, none)
  | some r =>
    let e := s.deref r
    if e.Version = 0 then some (s, 0, none, none)
    else
      match e.ops with
      | .sentry =>
        match SEntry.Atomic e op values with
        | none => none
        | some res => some (s.store key r res.1, res.2.1, res.2.2.1, res.2.2.2)
      | _ => some (s, 0, none, some .Eperm)

/-! ## Predicates used in the statements -/

/-- The key has a live entry in the store: the map holds an entry for it whose
version is not `0` (an entry of version `0` is a placeholder for waiting
readers). -/
def SHop.live (s : SHop) (key : List Byte) : Bool :=
  match lookup key s.entries with
  | none => false
  | some r => decide ((s.deref r).Version ≠ 0)

/-- Relation `ReplacedAll a b x r`: `r` is `x` with every non-overlapping match of `a`,
scanned left to right, replaced by `b`. At each position either `a` starts
there, it is replaced by `b` and the scan goes on behind the match, or `a` does
not start there and the byte at that position is kept. -/
inductive ReplacedAll (a b : List Byte) : List Byte → List Byte → Prop where
  | done : ReplacedAll a b [] []
  | hit (x r : List Byte) : ReplacedAll a b x r → ReplacedAll a b (a ++ x) (b ++ r)
  | skip (c : Byte) (x r : List Byte) : a.isPrefixOf (c :: x) = false →
      ReplacedAll a b x r → ReplacedAll a b (c :: x) (c :: r)

/-- The buffer `a` occurs in `x`. -/
def Occurs (a x : List Byte) : Prop := ∃ s t, x = s ++ a ++ t

/-- Bit `j` of a value, bit `k` (least significant first) of byte `i` being
bit `8 * i + k`. -/
def bitAt (x : List Byte) (j : Nat) : Bool := (x.getD (j / 8) 0).val.testBit (j % 8)

/-! ## The static-range router: configuration (`d2hop/conf.go`, `d2hop/srv.go`) -/

namespace d2hop

/-- The constant `math.MaxUint32`. -/
def MaxUint32 : Nat := 4294967295

/-- The struct `Range` of `conf.go`: an address and the two `uint32` bounds of
its key-hash range (the field `end` is named `end_` here). The connection
`conn`, which is not read by the functions below, is left out. -/
structure Range where
  addr : List Byte
  start : Nat
  end_ : Nat
  deriving DecidableEq, Repr

/-- The struct `Conf` of `conf.go`; `routes` is the `RangeList`. -/
structure Conf where
  maddr : List Byte
  srvnum : Int
  srvaddrs : List (List Byte)
  routes : List Range
  deriving DecidableEq, Repr

/-- The errors returned by `parseConf` and `parseRanges`. -/
inductive ConfErr where
  | invalidConf
  | parseUint
  | invalidRouteDescription
  | invalidRange
  | startRange
  | endRange
  | uncoveredRange (start : Nat) (upto : Nat)
  deriving DecidableEq, Repr

/-- Modelled from the Go library: `strings.Split(s, sep)` for a separator `sep`
of one byte; the result has one element more than `s` has separators. -/
def stringsSplit (sep : Byte) : List Byte → List (List Byte)
  | [] => [[]]
  | c :: s =>
    if c = sep then [] :: stringsSplit sep s
    else
      match stringsSplit sep s with
      | [] => [[c]]
      | w :: ws => (c :: w) :: ws

/-- Go `parseRanges(kr, addr, ranges)`. The library function
`strconv.ParseUint(s, 0, 32)` is the parameter `ParseUint` (`none` for an
error); its result is converted with `uint32(..)`. -/
def parseRanges (ParseUint : List Byte → Option Nat) (kr : List Range) (addr : List Byte) :
    List (List Byte) → Except ConfErr (List Range)
  | [] => .ok kr
  | r :: ranges =>
    match bytesIndex r (str ":") with
    | none => .error .invalidRange
    | some n =>
      let start := r.take n
      let end_ := r.drop (n + 1)
      match ParseUint start with
      | none => .error .startRange
      | some s =>
        match ParseUint end_ with
        | none => .error .endRange
        | some e =>
          parseRanges ParseUint (kr ++ [⟨addr, s % 2 ^ 32, e % 2 ^ 32⟩]) addr ranges

/-- The loop of `parseConf` over the lines that follow the first one: the
server addresses and the routes collected so far are `c`. -/
def parseLines (ParseUint : List Byte → Option Nat) (c : Conf) :
    List (List Byte) → Except ConfErr Conf
  | [] => .ok c
  | s :: lines =>
    if s = [] then parseLines ParseUint c lines
    else
      let sd := stringsSplit 32 s
      if sd.length < 2 then .error .invalidRouteDescription
      else
        let addr := sd.headD []
        match parseRanges ParseUint c.routes addr sd.tail with
        | .error err => .error err
        | .ok routes =>
          parseLines ParseUint
            { c with srvaddrs := c.srvaddrs ++ [addr], routes := routes } lines

/-- The check of `parseConf` that the routes cover the whole space:
`start` is the end of the previous range. -/
def checkCover (start : Nat) : List Range → Except ConfErr Unit
  | [] => if start < MaxUint32 then .error (.uncoveredRange start MaxUint32) else .ok ()
  | r :: routes =>
    if r.start ≠ start then .error (.uncoveredRange start r.start)
    else checkCover r.end_ routes

/-- Go `parseConf(confVal)`. The library functions `strconv.ParseUint(s, 0, 32)`
and `sort.Sort` (on the `RangeList`, ordered by `start`) are the parameters
`ParseUint` and `sortRoutes`. -/
def parseConf (ParseUint : List Byte → Option Nat) (sortRoutes : List Range → List Range)
    (confVal : List Byte) : Except ConfErr Conf :=
  let lines := stringsSplit 10 confVal
  if lines.length < 2 then .error .invalidConf
  else
    let line0 := lines.headD []
    let first : Except ConfErr Conf :=
      match bytesIndex line0 (str " ") with
      | none => .ok { maddr := line0, srvnum := 0, srvaddrs := [], routes := [] }
      | some n =>
        match ParseUint (line0.drop (n + 1)) with
        | none => .error .parseUint
        | some m => .ok { maddr := line0.take n, srvnum := m, srvaddrs := [], routes := [] }
    match first with
    | .error err => .error err
    | .ok c =>
      match parseLines ParseUint c lines.tail with
      | .error err => .error err
      | .ok c =>
        let c := { c with routes := sortRoutes c.routes }
        match checkCover 0 c.routes with
        | .error err => .error err
        | .ok _ => .ok c

/-- The fields of the struct `D2Hop` that the master's configuration functions
use: `srvmap` is the list of the addresses that have a connection in the map
`s.srvmap`. -/
structure D2Hop where
  addr : List Byte
  conf : Conf
  srvmap : List (List Byte)
  routes : List Range
  deriving DecidableEq, Repr

/-- The first loop of `masterUpdateConf`, from index `i` on:
`routes[i].start = uint32(i * rsz)` and `routes[i].end = uint32((i + 1) * rsz)`. -/
def setRanges (rsz : Nat) : Nat → List Range → List Range
  | _, [] => []
  | i, r :: routes =>
    { r with start := (i * rsz) % 2 ^ 32, end_ := ((i + 1) * rsz) % 2 ^ 32 } ::
      setRanges rsz (i + 1) routes

/-- The assignment `conf.routes[len(conf.routes)-1].end = math.MaxUint32`. -/
def setLastEnd : List Range → List Range
  | [] => []
  | [r] => [{ r with end_ := MaxUint32 }]
  | r :: r1 :: routes => r :: setLastEnd (r1 :: routes)

/-- The text `fmt.Sprintf("%s %d:%d\n", r.addr, r.start, r.end)` of every route. -/
def routeLines : List Range → List Byte
  | [] => []
  | r :: routes =>
    r.addr ++ str " " ++ str (toString r.start) ++ str ":" ++ str (toString r.end_) ++ [10] ++
      routeLines routes

/-- Go `D2Hop.masterUpdateConf`: the master after the call and the returned
configuration text. `none` is the panic of the integer division
`math.MaxUint32 / n` when there is no route. -/
def D2Hop.masterUpdateConf (s : D2Hop) : Option (D2Hop × List Byte) :=
  let n := s.conf.routes.length
  if n = 0 then none
  else
    let rsz := MaxUint32 / n
    let routes := setLastEnd (setRanges rsz 0 s.conf.routes)
    let c := s.addr ++ str " " ++ str (toString n) ++ [10] ++ routeLines routes
    some ({ s with conf := { s.conf with routes := routes }, routes := routes }, c)

/-- Go `D2Hop.initMaster`, without the key hash and the configuration entry. -/
def D2Hop.initMaster (s : D2Hop) : Option (D2Hop × List Byte) :=
  let conf : Conf :=
    { maddr := s.addr, srvnum := 1, srvaddrs := [s.addr], routes := [⟨s.addr, 0, 0⟩] }
  D2Hop.masterUpdateConf { s with conf := conf }

/-- Go `D2Hop.masterAddServer(addr)`: the master after the call and the
configuration text handed to `confentry.SetLocked`. -/
def D2Hop.masterAddServer (s : D2Hop) (addr : List Byte) : Option (D2Hop × List Byte) :=
  let conf : Conf :=
    { s.conf with
      routes := s.conf.routes ++ [⟨addr, 0, 0⟩],
      srvaddrs := s.conf.srvaddrs ++ [addr],
      srvnum := s.conf.srvnum + 1 }
  D2Hop.masterUpdateConf { s with conf := conf }

/-- Go `D2Hop.masterRemoveServer(addr)`: the master after the call and the
configuration text handed to `confentry.SetLocked` (`none` when the address has
no connection in `srvmap` and nothing is done); the returned error is always
`nil`. The outer `Option` is the panic of `masterUpdateConf`. -/
def D2Hop.masterRemoveServer (s : D2Hop) (addr : List Byte) :
    Option (D2Hop × Option (List Byte)) :=
  if ¬ addr ∈ s.srvmap then some (s, none)
  else
    let conf : Conf :=
      { s.conf with
        srvaddrs := s.conf.srvaddrs.erase addr,
        routes := s.conf.routes.filter (fun r => r.addr ≠ addr),
        srvnum := s.conf.srvnum - 1 }
    match D2Hop.masterUpdateConf
      { s with conf := conf, srvmap := s.srvmap.filter (fun a => a ≠ addr) } with
    | none => none
    | some (s, c) => some (s, some c)

/-- An instance of the parameter `ParseUint` for the examples: unsigned decimal
numerals that fit 32 bits (`strconv.ParseUint(s, 0, 32)` accepts these, and
also the prefixes `0x`, `0o`, `0b`, `0` and underscores). -/
def decimal (s : List Byte) : Option Nat :=
  if s = [] ∨ ¬ s.all (fun b => 48 ≤ b.val ∧ b.val ≤ 57) then none
  else
    let n := s.foldl (fun acc b => acc * 10 + (b.val - 48)) 0
    if n ≤ MaxUint32 then some n else none

end d2hop

open d2hop

/-! ## The cache (`chop/cache.go`)

The pointers `*CEntry` are indices into the list `objs` of the objects
allocated so far; an object is never freed while something points to it. The
cache modelled is the one `NewCache` returns for `proto == ""`, whose `dhop` is
nil, so that the branch of the six operations for keys under `#/cache/` is
never taken. -/

namespace chop

/-- The struct `CEntry`. -/
structure CEntry where
  key : List Byte
  version : Nat
  value : Blob
  lru : Option Nat
  mru : Option Nat
  deriving DecidableEq, Repr

/-- The struct `CHop` without the lock, the cached service `hop` (whose state
is passed along separately) and `dhop`; `entries` is the map, a list of pairs
with distinct keys. -/
structure CHop where
  maxmem : Nat
  maxelem : Int
  entries : List (List Byte × Nat)
  objs : List CEntry
  lru : Option Nat
  mru : Option Nat
  memsz : Nat
  hits : Nat
  drops : Nat
  drecv : Nat
  deriving DecidableEq, Repr

/-- The error `Einval` of the cache, or an error of the cached service. -/
inductive CErr where
  | Einval
  | hop (err : Err)
  deriving DecidableEq, Repr

/-- The cached service `c.hop`, an implementation of the interface `hop.Hop`
with states of type `σ`: every method gives the state after the call and the
results, or `none` when the call does not return. -/
structure Backing (σ : Type) where
  Create : σ → List Byte → List Byte → Blob → Option (σ × Nat × Option Err)
  Remove : σ → List Byte → Option (σ × Option Err)
  Get : σ → List Byte → Nat → Option (σ × Nat × Blob × Option Err)
  Set : σ → List Byte → Blob → Option (σ × Nat × Option Err)
  TestSet : σ → List Byte → Nat → Blob → Blob → Option (σ × Nat × Blob × Option Err)
  Atomic : σ → List Byte → Nat → Option (List Blob) →
    Option (σ × Nat × Option (List Blob) × Option Err)

/-- Go `NewCache(hop, maxmem, maxelem, "", _, _)`. -/
def NewCache (maxmem : Nat) (maxelem : Int) : CHop :=
  { maxmem := maxmem, maxelem := maxelem, entries := [], objs := [], lru := none, mru := none,
    memsz := 0, hits := 0, drops := 0, drecv := 0 }

/-- The map lookup `c.entries[key]`. -/
def mapGet (key : List Byte) : List (List Byte × Nat) → Option Nat
  | [] => none
  | (k, e) :: rest => if k = key then some e else mapGet key rest

/-- The map update `c.entries[key] = e`. -/
def mapSet (key : List Byte) (e : Nat) : List (List Byte × Nat) → List (List Byte × Nat)
  | [] => [(key, e)]
  | (k, e0) :: rest => if k = key then (key, e) :: rest else (k, e0) :: mapSet key e rest

/-- The map update `delete(c.entries, key)`. -/
def mapDelete (key : List Byte) (m : List (List Byte × Nat)) : List (List Byte × Nat) :=
  m.filter (fun ke => ke.1 ≠ key)

/-- The object a pointer refers to. -/
def CHop.obj (c : CHop) (e : Nat) : CEntry :=
  c.objs.getD e ⟨[], 0, none, none, none⟩

/-- The assignment `e.lru = v`. -/
def CHop.setLru (c : CHop) (e : Nat) (v : Option Nat) : CHop :=
  { c with objs := c.objs.set e { c.obj e with lru := v } }

/-- The assignment `e.mru = v`. -/
def CHop.setMru (c : CHop) (e : Nat) (v : Option Nat) : CHop :=
  { c with objs := c.objs.set e { c.obj e with mru := v } }

/-- The `uint64` subtraction `a - b`. -/
def sub64 (a b : Nat) : Nat := (a + 2 ^ 64 - b % 2 ^ 64) % 2 ^ 64

/-- Go `CHop.getEntry(key)`: the cache after the call and `(ver, val)`. -/
def CHop.getEntry (c : CHop) (key : List Byte) : CHop × Nat × Blob :=
  match mapGet key c.entries with
  | none => (c, 0, none)
  | some e =>
    let c := { c with hits := (c.hits + 1) % 2 ^ 64 }
    let ver := (c.obj e).version
    let val := (c.obj e).value
    let c := match (c.obj e).lru with
      | some l => c.setMru l (c.obj e).mru
      | none => { c with lru := (c.obj e).mru }
    let c := match (c.obj e).mru with
      | some m => c.setLru m (c.obj e).lru
      | none => { c with mru := (c.obj e).lru }
    let c := c.setLru e c.mru
    let c := c.setMru e none
    let c := match c.mru with
      | some m => c.setMru m (some e)
      | none => c
    ({ c with mru := some e }, ver, val)

/-- Go `CHop.lruremove(e)`. -/
def CHop.lruremove (c : CHop) (e : Nat) : CHop :=
  let c := match (c.obj e).lru with
    | some l => c.setMru l (c.obj e).mru
    | none => { c with lru := (c.obj e).mru }
  let c := match (c.obj e).mru with
    | some m => c.setLru m (c.obj e).lru
    | none => { c with mru := (c.obj e).lru }
  let c := c.setLru e none
  c.setMru e none

/-- Go `CHop.removeLRU`. -/
def CHop.removeLRU (c : CHop) : CHop :=
  match c.lru with
  | none => c
  | some le =>
    let c := { c with entries := mapDelete (c.obj le).key c.entries }
    let c := match (c.obj le).mru with
      | some m => c.setLru m none
      | none => c
    let c := { c with lru := (c.obj le).mru }
    let c := if c.mru = some le then { c with mru := none } else c
    let c := { c with
      memsz := sub64 c.memsz (((c.obj le).key.length + (c.obj le).value.len) % 2 ^ 64) }
    let c := c.setLru le none
    let c := c.setMru le none
    { c with drops := (c.drops + 1) % 2 ^ 64 }

/-- The loop `for c.memsz + sz > c.maxmem { c.removeLRU() }` of `updateEntry`.
`none` is a loop that does not end: when the LRU list is empty `removeLRU`
changes nothing and the test stays true. `fuel` bounds the number of removals. -/
def CHop.evict (sz : Nat) : Nat → CHop → Option CHop
  | 0, c => if (c.memsz + sz) % 2 ^ 64 > c.maxmem then none else some c
  | fuel + 1, c =>
    if (c.memsz + sz) % 2 ^ 64 > c.maxmem then
      if c.lru = none then none else CHop.evict sz fuel c.removeLRU
    else some c

/-- Go `CHop.updateEntry(key, ver, val)`; `none` when the call does not return.
The eviction loop is given as many steps as there are objects, and two more. -/
def CHop.updateEntry (c : CHop) (key : List Byte) (ver : Nat) (val : Blob) : Option CHop :=
  let sz := (key.length + val.len) % 2 ^ 64
  let e := mapGet key c.entries
  let (c, n) : CHop × Int :=
    match e with
    | some e =>
      let c := { c with
        memsz := sub64 c.memsz ((key.length + (c.obj e).value.len) % 2 ^ 64) }
      (c.lruremove e, 0)
    | none => (c, 1)
  let c := if (c.entries.length : Int) + n > c.maxelem then c.removeLRU else c
  match CHop.evict sz (c.objs.length + 2) c with
  | none => none
  | some c =>
    let (c, e) : CHop × Nat :=
      match e with
      | some e => (c, e)
      | none =>
        ({ c with
            objs := c.objs ++ [⟨key, 0, none, none, none⟩],
            entries := mapSet key c.objs.length c.entries },
          c.objs.length)
    let c := { c with objs := c.objs.set e { c.obj e with version := ver, value := val } }
    let c := c.setLru e c.mru
    let c := match c.mru with
      | some m => c.setMru m (some e)
      | none => c
    let c := if c.lru = none then { c with lru := some e } else c
    some { c with mru := some e, memsz := (c.memsz + sz) % 2 ^ 64 }

/-- Go `CHop.removeEntry(key)`. -/
def CHop.removeEntry (c : CHop) (key : List Byte) : CHop :=
  match mapGet key c.entries with
  | none => c
  | some e =>
    let c := { c with entries := mapDelete key c.entries }
    let c := c.lruremove e
    { c with memsz := sub64 c.memsz (((c.obj e).key.length + (c.obj e).value.len) % 2 ^ 64) }

/-- The beginning of the six operations for a cache without `dhop`: a key
under `#/chop/` loses that prefix and what follows up to the next `/`; `none`
is the return of `Einval` when there is no such `/`. -/
def CHop.localKey (c : CHop) (key : List Byte) : Option (CHop × List Byte) :=
  if hasPrefix key (str "#/chop/") then
    let key := key.drop 7
    match bytesIndex key (str "/") with
    | some n => some ({ c with drecv := (c.drecv + 1) % 2 ^ 64 }, key.drop (n + 1))
    | none => none
  else some (c, key)

/-- Go `CHop.Create`: the cached service and the cache after the call and the
results `(ver, err)`; `none` when the call does not return. -/
def CHop.Create {σ : Type} (h : Backing σ) (s : σ) (c : CHop) (key flags : List Byte)
    (value : Blob) : Option (σ × CHop × Nat × Option CErr) :=
  match c.localKey key with
  | none => some (s, c, 0, some .Einval)
  | some (c, key) =>
    match h.Create s key flags value with
    | none => none
    | some (s, ver, err) =>
      if err = none ∧ ver ≠ 0 then
        (c.updateEntry key ver value).map (fun c => (s, c, ver, err.map .hop))
      else some (s, c, ver, err.map .hop)

/-- Go `CHop.Remove`. -/
def CHop.Remove {σ : Type} (h : Backing σ) (s : σ) (c : CHop) (key : List Byte) :
    Option (σ × CHop × Option CErr) :=
  match c.localKey key with
  | none => some (s, c, some .Einval)
  | some (c, key) =>
    match h.Remove s key with
    | none => none
    | some (s, err) =>
      if err = none then some (s, c.removeEntry key, none)
      else some (s, c, err.map .hop)

/-- Go `CHop.Get`. -/
def CHop.Get {σ : Type} (h : Backing σ) (s : σ) (c : CHop) (key : List Byte) (version : Nat) :
    Option (σ × CHop × Nat × Blob × Option CErr) :=
  match c.localKey key with
  | none => some (s, c, 0, none, some .Einval)
  | some (c, key) =>
    let (c, ver, val) := c.getEntry key
    if ver ≠ 0 ∧ (version = Any ∨ ver > version) then some (s, c, ver, val, none)
    else
      match h.Get s key version with
      | none => none
      | some (s, ver, val, err) =>
        if err = none ∧ ver ≠ 0 then
          (c.updateEntry key ver val).map (fun c => (s, c, ver, val, err.map .hop))
        else some (s, c, ver, val, err.map .hop)

/-- Go `CHop.Set`. -/
def CHop.Set {σ : Type} (h : Backing σ) (s : σ) (c : CHop) (key : List Byte) (value : Blob) :
    Option (σ × CHop × Nat × Option CErr) :=
  match c.localKey key with
  | none => some (s, c, 0, some .Einval)
  | some (c, key) =>
    match h.Set s key value with
    | none => none
    | some (s, ver, err) =>
      if err = none ∧ ver ≠ 0 then
        (c.updateEntry key ver value).map (fun c => (s, c, ver, err.map .hop))
      else some (s, c, ver, err.map .hop)

/-- Go `CHop.TestSet`. -/
def CHop.TestSet {σ : Type} (h : Backing σ) (s : σ) (c : CHop) (key : List Byte)
    (oldversion : Nat) (oldvalue value : Blob) :
    Option (σ × CHop × Nat × Blob × Option CErr) :=
  match c.localKey key with
  | none => some (s, c, 0, none, some .Einval)
  | some (c, key) =>
    match h.TestSet s key oldversion oldvalue value with
    | none => none
    | some (s, ver, val, err) =>
      if err = none ∧ ver ≠ 0 then
        (c.updateEntry key ver val).map (fun c => (s, c, ver, val, err.map .hop))
      else some (s, c, ver, val, err.map .hop)

/-- Go `CHop.Atomic`; the index expression `vals[0]` panics (`none`) for an
empty list that is not nil. -/
def CHop.Atomic {σ : Type} (h : Backing σ) (s : σ) (c : CHop) (key : List Byte) (op : Nat)
    (values : Option (List Blob)) :
    Option (σ × CHop × Nat × Option (List Blob) × Option CErr) :=
  match c.localKey key with
  | none => some (s, c, 0, none, some .Einval)
  | some (c, key) =>
    match h.Atomic s key op values with
    | none => none
    | some (s, ver, vals, err) =>
      if err ≠ none ∨ ver = 0 then some (s, c, ver, vals, err.map .hop)
      else
        match vals with
        | none => some (s, c, ver, vals, err.map .hop)
        | some vs =>
          if op = Add ∨ op = Sub ∨ op = BitSet ∨ op = BitClear ∨ op = Append ∨ op = Hop.Remove ∨
              op = Replace then
            match vs with
            | [] => none
            | v0 :: _ =>
              (c.updateEntry key ver v0).map (fun c => (s, c, ver, vals, err.map .hop))
          else some (s, c, ver, vals, err.map .hop)

/-- An `SHop` store as the cached service. `Get` is the call that finds no
wake-up (it does not return when it has to wait), and `regexp.Compile` is taken
to fail, which only matters for keys under `#/keys:`. -/
def shopBacking : Backing SHop where
  Create := fun s key flags value => some (s.Create key flags value)
  Remove := fun s key => some (s.Remove key)
  Get := fun s key version =>
    match s.Get (fun _ => none) key version [] with
    | (s, .returned ver val err) => some (s, ver, val, err)
    | _ => none
  Set := fun s key value => some (s.Set key value)
  TestSet := fun s key oldversion oldvalue value =>
    some (s.TestSet key oldversion oldvalue value)
  Atomic := fun s key op values => s.Atomic key op values

/-- The sum of `len(key) + len(value)` over the cached entries. -/
def CHop.cachedSize (c : CHop) : Nat :=
  (c.entries.map (fun ke => (c.obj ke.2).key.length + (c.obj ke.2).value.len)).sum

end chop

open chop

/-! ## The multiplexer (`mhop.go`)

The handlers (`interface{}` values) are the elements of a type `H`, `none`
being the nil interface. The nodes form a tree: the pointer `prev` of a node is
its parent, and the elements of `sub` are its children. -/

/-- The struct `mnode` without the pointer `prev`; the field `prefix` is named
`pfx`. -/
inductive mnode (H : Type) where
  | mk (pfx : List Byte) (id : Int) (hop : Option H) (exact cutpref : Bool)
      (sub : List (mnode H))

def mnode.pfx {H : Type} : mnode H → List Byte
  | .mk pfx _ _ _ _ _ => pfx

def mnode.id {H : Type} : mnode H → Int
  | .mk _ id _ _ _ _ => id

def mnode.hop {H : Type} : mnode H → Option H
  | .mk _ _ hop _ _ _ => hop

def mnode.exact {H : Type} : mnode H → Bool
  | .mk _ _ _ exact _ _ => exact

def mnode.cutpref {H : Type} : mnode H → Bool
  | .mk _ _ _ _ cutpref _ => cutpref

def mnode.sub {H : Type} : mnode H → List (mnode H)
  | .mk _ _ _ _ _ sub => sub

/-- The assignment `nd.prefix = pfx`. -/
def mnode.setPfx {H : Type} (nd : mnode H) (pfx : List Byte) : mnode H :=
  .mk pfx nd.id nd.hop nd.exact nd.cutpref nd.sub

/-- The assignment `nd.sub = sub`. -/
def mnode.setSub {H : Type} (nd : mnode H) (sub : List (mnode H)) : mnode H :=
  .mk nd.pfx nd.id nd.hop nd.exact nd.cutpref sub

mutual
/-- The number of nodes of the tree below and including a node. -/
def mnode.size {H : Type} : mnode H → Nat
  | .mk _ _ _ _ _ sub => 1 + mnode.sizeList sub
/-- The number of nodes of the trees of a list. -/
def mnode.sizeList {H : Type} : List (mnode H) → Nat
  | [] => 0
  | nd :: rest => nd.size + mnode.sizeList rest
end

/-- The struct `MHop`. The counters `minid` and `maxid` are Go `int`s; they move
by one per call and are taken as integers. -/
structure MHop (H : Type) where
  dflt : Option H
  root : Option (mnode H)
  minid : Int
  maxid : Int

/-- Go `NewMHop(dflt)`. -/
def NewMHop {H : Type} (dflt : Option H) : MHop H :=
  { dflt := dflt, root := none, minid := 0, maxid := 0 }

/-- A pointer `*mnode` that is not nil: the node it points to, the place of
that node in the tree (the indices into the `sub` lists on the way from the
root) and the nodes `prev`, `prev.prev`, ... up to the root. -/
structure Ptr (H : Type) where
  path : List Nat
  node : mnode H
  prevs : List (mnode H)

/-- The result of a call: returned values, a run-time panic, or a loop that
was not given enough steps. -/
inductive Outcome (α : Type) where
  | ok (a : α)
  | panic
  | fuel

/-- The subtree at a place of the tree. -/
def mnode.at {H : Type} : mnode H → List Nat → Option (mnode H)
  | nd, [] => some nd
  | nd, k :: ks =>
    match nd.sub[k]? with
    | none => none
    | some c => c.at ks

/-- The tree with the subtree at a place replaced by `new`. -/
def mnode.replaceAt {H : Type} (new : mnode H) : mnode H → List Nat → mnode H
  | _, [] => new
  | nd, k :: ks =>
    match nd.sub[k]? with
    | none => nd
    | some c => nd.setSub (nd.sub.set k (mnode.replaceAt new c ks))

/-- The inner loop of `match`,
`for i = 0; i < len(nd.prefix); i++ { if nd.prefix[i] != pattern[i+n] { break } }`,
on `nd.prefix` and `pattern[n:]`: the value of `i` behind the loop, or `none`
for the panic of an index `i+n` out of range. -/
def matchPrefix : List Byte → List Byte → Option Nat
  | [], _ => some 0
  | _ :: _, [] => none
  | a :: pfx, b :: rest => if a ≠ b then some 0 else (matchPrefix pfx rest).map (· + 1)

/-- The variables of `MHop.match`. -/
structure MatchState (H : Type) where
  ndprev : Option (Ptr H)
  nd : Option (Ptr H)
  n : Nat
  i : Nat
  pidx : Nat

/-- The loop `L` of `MHop.match`, one iteration per unit of `fuel`. -/
def matchLoop {H : Type} (pattern : List Byte) : Nat → MatchState H → Outcome (MatchState H)
  | 0, _ => .fuel
  | fuel + 1, st =>
    match st.nd with
    | none => .ok st
    | some nd =>
      if ¬ st.n < pattern.length then .ok st
      else
        match matchPrefix nd.node.pfx (pattern.drop st.n) with
        | none => .panic
        | some i =>
          if i = 0 then
            let next : Option (Ptr H) × Nat :=
              match st.ndprev with
              | none => (none, st.pidx)
              | some ndprev =>
                if st.pidx < ndprev.node.sub.length then
                  ((ndprev.node.sub[st.pidx + 1]?).map
                    (fun c => ⟨ndprev.path ++ [st.pidx + 1], c, ndprev.node :: ndprev.prevs⟩),
                   st.pidx + 1)
                else (none, st.pidx)
            matchLoop pattern fuel { st with nd := next.1, pidx := next.2, i := 0 }
          else if i = nd.node.pfx.length then
            matchLoop pattern fuel
              { ndprev := some nd,
                nd := (nd.node.sub[0]?).map
                  (fun c => ⟨nd.path ++ [0], c, nd.node :: nd.prevs⟩),
                n := st.n + i, i := 0, pidx := 0 }
          else .ok { st with i := i }

/-- Go `MHop.match(pattern)`: the results `(ndprev, nd, n, i)` are fields of the
returned state. The loop is given one step per node of the tree, and one more. -/
def MHop.match_ {H : Type} (m : MHop H) (pattern : List Byte) : Outcome (MatchState H) :=
  let fuel := match m.root with
    | none => 1
    | some root => root.size + 1
  matchLoop pattern fuel
    { ndprev := none, nd := m.root.map (fun root => ⟨[], root, []⟩), n := 0, i := 0, pidx := 0 }

/-- The loop of `MHop.find` over `nd1 = ndprev, ndprev.prev, ...`, which picks
the node `nd`. -/
def findLoop {H : Type} : mnode H → List (mnode H) → mnode H
  | nd, [] => nd
  | nd, nd1 :: rest =>
    if nd.hop.isNone then findLoop nd1 rest
    else if nd1.hop.isSome ∧ nd.id < nd1.id then findLoop nd1 rest
    else findLoop nd rest

/-- Go `MHop.find(key)`: the results `(hop, newkey)`. -/
def MHop.find {H : Type} (m : MHop H) (key : List Byte) : Outcome (Option H × List Byte) :=
  match m.match_ key with
  | .panic => .panic
  | .fuel => .fuel
  | .ok st =>
    match st.ndprev with
    | none => .ok (m.dflt, key)
    | some ndprev =>
      let nd := findLoop ndprev.node (ndprev.node :: ndprev.prevs)
      if nd.hop.isNone ∨ (nd.exact ∧ st.n < key.length) then .ok (m.dflt, key)
      else .ok (nd.hop, if nd.cutpref then key.drop st.n else key)

/-- The error of `MHop.add`. -/
inductive AddErr where
  | alreadyInList
  deriving DecidableEq, Repr

/-- The tree of `m` after `ndprev.sub` has been set to `sub`. -/
def MHop.setSubAt {H : Type} (m : MHop H) (ndprev : Ptr H) (sub : List (mnode H)) : MHop H :=
  { m with
    root := m.root.map (fun root => mnode.replaceAt (ndprev.node.setSub sub) root ndprev.path) }

/-- Go `MHop.add(id, pattern, exact, cutprefix, h)`: the multiplexer after the
call and the returned error. -/
def MHop.add {H : Type} (m : MHop H) (id : Int) (pattern : List Byte) (exact cutprefix : Bool)
    (h : Option H) : Outcome (MHop H × Option AddErr) :=
  match m.match_ pattern with
  | .panic => .panic
  | .fuel => .fuel
  | .ok st =>
    match st.nd with
    | none =>
      if st.n = pattern.length then .ok (m, some .alreadyInList)
      else
        let nd1 : mnode H := .mk (pattern.drop st.n) id h exact cutprefix []
        match st.ndprev with
        | some ndprev => .ok (m.setSubAt ndprev (ndprev.node.sub ++ [nd1]), none)
        | none => .ok ({ m with root := some nd1 }, none)
    | some nd =>
      let nd0 : mnode H := nd.node.setPfx (nd.node.pfx.drop st.i)
      let nd1 : mnode H :=
        if st.n + st.i = pattern.length then
          .mk (nd.node.pfx.take st.i) id h exact cutprefix [nd0]
        else
          .mk (nd.node.pfx.take st.i) 0 none false false
            [.mk (pattern.drop (st.n + st.i)) id h exact cutprefix [], nd0]
      match st.ndprev with
      | none => .ok ({ m with root := some nd1 }, none)
      | some ndprev =>
        .ok (m.setSubAt ndprev (ndprev.node.sub.set st.pidx nd1), none)

/-- Go `MHop.AddBefore`. -/
def MHop.AddBefore {H : Type} (m : MHop H) (pattern : List Byte) (exact cutprefix : Bool)
    (hop : Option H) : Outcome (MHop H × Option AddErr) :=
  MHop.add { m with minid := m.minid - 1 } (m.minid - 1) pattern exact cutprefix hop

/-- Go `MHop.AddAfter`. -/
def MHop.AddAfter {H : Type} (m : MHop H) (pattern : List Byte) (exact cutprefix : Bool)
    (hop : Option H) : Outcome (MHop H × Option AddErr) :=
  MHop.add { m with maxid := m.maxid + 1 } (m.maxid + 1) pattern exact cutprefix hop

/-- One call of `AddBefore` (`after = false`) or `AddAfter` (`after = true`). -/
structure Reg (H : Type) where
  after : Bool
  pattern : List Byte
  exact : Bool
  cutprefix : Bool
  hop : Option H

/-- The multiplexer after the calls `regs`, made in order; `none` unless every
call returns, and returns no error. -/
def MHop.addAll {H : Type} (m : MHop H) : List (Reg H) → Option (MHop H)
  | [] => some m
  | r :: regs =>
    match (if r.after then m.AddAfter r.pattern r.exact r.cutprefix r.hop
        else m.AddBefore r.pattern r.exact r.cutprefix r.hop) with
    | .ok (m1, none) => MHop.addAll m1 regs
    | _ => none

/-! ## Predicates on the tree of a multiplexer, used in the statements -/

/-- The prefixes of the nodes above a place of the tree, root first,
concatenated. -/
def mnode.accAt {H : Type} : mnode H → List Nat → List Byte
  | _, [] => []
  | nd, k :: ks =>
    nd.pfx ++ (match nd.sub[k]? with
      | none => []
      | some c => c.accAt ks)

/-- Every node of the tree `nd`, which hangs below the word `acc`, satisfies
`P w hop exact cutpref`, where `w` is the word of the node (`acc` followed by
the prefixes on the way down to the node, its own included) and `hop`, `exact`
and `cutpref` are its fields. -/
inductive AllNodes {H : Type} (P : List Byte → Option H → Bool → Bool → Prop) :
    List Byte → mnode H → Prop where
  | mk (acc pfx : List Byte) (id : Int) (hop : Option H) (exact cutpref : Bool)
      (sub : List (mnode H)) :
      P (acc ++ pfx) hop exact cutpref → (∀ c ∈ sub, AllNodes P (acc ++ pfx) c) →
      AllNodes P acc (.mk pfx id hop exact cutpref sub)

/-- The word `w` is the beginning of a pattern of `regs`, and a handler `hop`
that is not nil was registered in `regs` with the pattern `w` and the flags
`exact` and `cutpref`. -/
def RegP {H : Type} (regs : List (Reg H)) (w : List Byte) (hop : Option H)
    (exact cutpref : Bool) : Prop :=
  (∃ r ∈ regs, w <+: r.pattern) ∧
  (hop ≠ none →
    ∃ r ∈ regs, r.pattern = w ∧ r.hop = hop ∧ r.exact = exact ∧ r.cutprefix = cutpref)

/-- Every node of the multiplexer comes from the calls `regs`. -/
def TreeOK {H : Type} (regs : List (Reg H)) (m : MHop H) : Prop :=
  ∀ root, m.root = some root → AllNodes (RegP regs) [] root

/-- What the variables of `MHop.match(pattern)` satisfy at the head of the loop
and at the return, for the tree `root`. -/
def MatchOK {H : Type} (P : List Byte → Option H → Bool → Bool → Prop) (root : mnode H)
    (pattern : List Byte) (st : MatchState H) : Prop :=
  st.n ≤ pattern.length ∧
  (∀ y, st.nd = some y →
    root.at y.path = some y.node ∧ root.accAt y.path = pattern.take st.n ∧
    st.i ≤ y.node.pfx.length ∧ y.node.pfx.take st.i = (pattern.drop st.n).take st.i ∧
    st.n + st.i ≤ pattern.length) ∧
  (match st.ndprev with
    | none => st.n = 0 ∧ ∀ y, st.nd = some y → y.path = [] ∧ y.prevs = []
    | some pp =>
      root.at pp.path = some pp.node ∧
      root.accAt pp.path ++ pp.node.pfx = pattern.take st.n ∧
      (∀ x ∈ pp.node :: pp.prevs,
        ∃ w, w <+: pattern ∧ w.length ≤ st.n ∧ P w x.hop x.exact x.cutpref) ∧
      ∀ y, st.nd = some y →
        pp.node.sub[st.pidx]? = some y.node ∧ y.path = pp.path ++ [st.pidx] ∧
        y.prevs = pp.node :: pp.prevs)

/-- A bound on the number of iterations that `MHop.match` still makes. -/
def potential {H : Type} (st : MatchState H) : Nat :=
  match st.nd with
  | none => 0
  | some y =>
    match st.ndprev with
    | none => y.node.size
    | some pp => mnode.sizeList (pp.node.sub.drop st.pidx)

/-! ## The static-range router: searching the routes (`d2hop/conf.go`) -/

namespace d2hop

/-- Modelled from the Go library: the loop
`for i < j { h := int(uint(i+j) >> 1); if !f(h) { i = h + 1 } else { j = h } }`
of `sort.Search(n, f)`, one iteration per unit of `fuel`; the result is `i`.
The function `f` is `none` where the call of `f` panics. -/
def sortSearchLoop (f : Nat → Option Bool) : Nat → Nat → Nat → Outcome Nat
  | 0, i, j => if i < j then .fuel else .ok i
  | fuel + 1, i, j =>
    if i < j then
      match f ((i + j) / 2) with
      | none => .panic
      | some false => sortSearchLoop f fuel ((i + j) / 2 + 1) j
      | some true => sortSearchLoop f fuel i ((i + j) / 2)
    else .ok i

/-- Modelled from the Go library: `sort.Search(n, f)`, which starts the loop
with `i, j := 0, n`. The loop is given `n` steps. -/
def sortSearch (n : Nat) (f : Nat → Option Bool) : Outcome Nat :=
  sortSearchLoop f n 0 n

/-- Go `RangeList.Search(hash)`: the range `rl[n]` that the returned pointer
points to. The function handed to `sort.Search` is
`func(i int) bool { return rl[i].end >= hash }`, which panics for an index out
of range; `Search` itself panics when `n >= len(rl)`. -/
def RangeList.Search (rl : List Range) (hash : Nat) : Outcome Range :=
  match sortSearch rl.length (fun i => (rl[i]?).map (fun r => decide (r.end_ ≥ hash))) with
  | .panic => .panic
  | .fuel => .fuel
  | .ok n =>
    if n ≥ rl.length then .panic
    else
      match rl[n]? with
      | none => .panic
      | some r => .ok r

end d2hop

/-! ## The Chord server (`chord/srv.go`, `chord/hop.go`)

The `Node` values that the server has allocated are the elements of the list
`nodes`, and a pointer `*Node` that is not nil is an index into that list. The
locks are left out: a call is followed from its beginning to its return. -/

namespace chord

/-- The constant `PredAndNotify = hop.Replace + 1`. -/
def PredAndNotify : Nat := Replace + 1

/-- Go `between(n, low, high)`, on `uint64` values. -/
def between (n low high : Nat) : Bool :=
  if low > high then decide (n > low) || decide (n ≤ high)
  else decide (n > low) && decide (n ≤ high)

/-- The field `clnt` of a `Node`: the nil interface, a `hop.Hop` that is not a
`rmt.RemoteHop`, or a remote connection together with what its method
`Closed()` returns. -/
inductive Clnt where
  | none
  | other
  | remote (closed : Bool)
  deriving DecidableEq, Repr

/-- The struct `Node`, without the lock and the field `srv`. -/
structure Node where
  id : Nat
  addr : List Byte
  ref : Int
  oncycle : Bool
  clnt : Clnt
  deriving DecidableEq, Repr

/-- The errors returned by the functions of the Chord server below. -/
inductive ChordErr where
  | invalidOp       -- errors.New("invalid atomic operation")
  | invalidSpec     -- "invalid node spec: ..."
  | parseUint       -- the error of `strconv.ParseUint`
  | connect         -- the error of `hopclnt.Connect`
  | Edisconnect     -- "disconnected"
  deriving DecidableEq, Repr

/-- The fields of the struct `Chord` that the functions below use. `modchan`
is the number of values waiting in the channel `s.modchan`, which holds four. -/
structure Chord where
  addr : List Byte
  self : Node
  finger : List (Option Nat)
  predecessor : Option Nat
  nodecache : List (List Byte × Nat)
  nodes : List Node
  modchan : Nat
  deriving DecidableEq, Repr

/-- The result of a call: returned values, a run-time panic, or a call that
waits on a channel. -/
inductive Call (α : Type) where
  | ret (a : α)
  | panic
  | blocked

/-- The conversion of an integer to `int32`. -/
def int32 (x : Int) : Int := (x + 2147483648) % 4294967296 - 2147483648

/-- The `Node` a pointer refers to. -/
def Chord.node (s : Chord) (nd : Nat) : Node :=
  s.nodes.getD nd ⟨0, [], 0, false, .none⟩

/-- The assignment `*nd = v`. -/
def Chord.setNode (s : Chord) (nd : Nat) (v : Node) : Chord :=
  { s with nodes := s.nodes.set nd v }

/-- Go `Chord.isServer`. -/
def Chord.isServer (s : Chord) : Bool := decide (s.addr ≠ [])

/-- What `findLocalSuccessor` returns a pointer to: `&s.self`, or a `Node` of
the list `nodes`. -/
inductive NodePtr where
  | self
  | node (nd : Nat)
  deriving DecidableEq, Repr

/-- The loop of `findLocalSuccessor`,
`for i := len(s.finger) - 1; i >= 0; i-- { if s.finger[i]!=nil && between(s.finger[i].id, s.self.id, id-1) { return s.finger[i], false } }`,
with `i + 1 = k`: the finger returned in the loop, or `none` when the loop
ends. -/
def Chord.closestFinger (s : Chord) (id : Nat) : Nat → Option Nat
  | 0 => none
  | i + 1 =>
    match (s.finger[i]?).join with
    | some nd =>
      if between (s.node nd).id s.self.id ((id + 2 ^ 64 - 1) % 2 ^ 64) then some nd
      else Chord.closestFinger s id i
    | none => Chord.closestFinger s id i

/-- Go `Chord.findLocalSuccessor(id)`: the results `(nd, exact)`; `none` is the
panic of `s.finger[0]` on an empty slice. -/
def Chord.findLocalSuccessor (s : Chord) (id : Nat) : Option (NodePtr × Bool) :=
  if s.isServer &&
      (match s.predecessor with
        | some p => between id (s.node p).id s.self.id
        | none => false) then some (.self, true)
  else
    match s.finger with
    | [] => none
    | none :: _ => some (.self, true)
    | some f0 :: _ =>
      if between id s.self.id (s.node f0).id then some (.node f0, true)
      else
        match s.closestFinger id s.finger.length with
        | some nd => some (.node nd, false)
        | none => some (.self, true)

/-- One hexadecimal digit, in lower case. -/
def hexDigit (d : Nat) : Byte := byte (if d < 10 then 48 + d else 87 + d)

/-- Modelled from the Go library: `fmt.Sprintf("%016x", id)` for a `uint64`. -/
def hex16 (id : Nat) : List Byte :=
  (List.range 16).reverse.map (fun k => hexDigit (id / 16 ^ k % 16))

/-- Go `Node.String` for a pointer that is not nil:
`fmt.Sprintf("%016x %s %v", nd.id, nd.addr, nd.oncycle)`. -/
def Node.String (nd : Node) : List Byte :=
  hex16 nd.id ++ str " " ++ nd.addr ++ str " " ++ str (if nd.oncycle then "true" else "false")

/-- Go `Chord.newNode(spec)`: the server after the call and the node or the
error returned. The library function `strconv.ParseUint(s, 16, 64)` is the
parameter `ParseUint16` (`none` for an error). -/
def Chord.newNode (ParseUint16 : List Byte → Option Nat) (s : Chord) (spec : List Byte) :
    Chord × Except ChordErr Nat :=
  let ss := stringsSplit 32 spec
  if ss.length < 2 ∨ ss.length > 3 then (s, .error .invalidSpec)
  else
    let addr := ss.getD 1 []
    match ParseUint16 (ss.getD 0 []) with
    | none => (s, .error .parseUint)
    | some n =>
      let oncycle : Bool := decide (ss.length = 3 ∧ ss.getD 2 [] = str "true")
      let (s, nd) : Chord × Nat :=
        match mapGet addr s.nodecache with
        | some nd => (s, nd)
        | none =>
          ({ s with
              nodes := s.nodes ++ [⟨n % 2 ^ 64, addr, 0, false, .none⟩],
              nodecache := mapSet addr s.nodes.length s.nodecache },
            s.nodes.length)
      let s := if oncycle then s.setNode nd { s.node nd with oncycle := true } else s
      (s, .ok nd)

/-- Go `Node.ConnectLocked`: the server after the call and the returned error.
Whether `hopclnt.Connect(nd.srv.proto, nd.addr)` succeeds is given by the
parameter `dial`; a connection that was just made is taken to be open. -/
def Chord.ConnectLocked (dial : List Byte → Bool) (s : Chord) (nd : Nat) :
    Chord × Option ChordErr :=
  let s := s.setNode nd { s.node nd with ref := int32 ((s.node nd).ref + 1) }
  let (s, err) : Chord × Option ChordErr :=
    if (s.node nd).ref = 1 then
      if dial (s.node nd).addr then
        ({ (s.setNode nd { s.node nd with clnt := .remote false }) with
            nodecache := mapSet (s.node nd).addr nd s.nodecache }, none)
      else
        (s.setNode nd { s.node nd with clnt := .none, ref := int32 ((s.node nd).ref - 1) },
          some .connect)
    else (s, none)
  (s, if (s.node nd).clnt = .remote true then some .Edisconnect else err)

/-- Go `Node.DisconnectLocked`; `none` is the panic of the type assertion
`nd.clnt.(rmt.RemoteHop)` on a client that is no remote connection. -/
def Chord.DisconnectLocked (s : Chord) : Option Nat → Option Chord
  | none => some s
  | some nd =>
    let s := s.setNode nd { s.node nd with ref := int32 ((s.node nd).ref - 1) }
    if (s.node nd).ref = 0 then
      let s := { s with nodecache := mapDelete (s.node nd).addr s.nodecache }
      match (s.node nd).clnt with
      | .remote _ => some (s.setNode nd { s.node nd with clnt := .remote true })
      | _ => none
    else some s

/-- Go `Chord.ringModified`, `select { case s.modchan <- true: }`: a send that
waits while the channel is full (`none`). -/
def Chord.ringModified (s : Chord) : Option Chord :=
  if s.modchan < 4 then some { s with modchan := s.modchan + 1 } else none

/-- The end of `PredEntry.Atomic`, from `if srv.finger[0] == nil` on: `pred` is
the predecessor read at the beginning, `nd` the proposed node. -/
def PredEntry.finish (dial : List Byte → Bool) (s : Chord) (pred : Option Nat) (nd : Nat)
    (modified : Bool) : Call (Chord × Nat × Option (List Blob) × Option ChordErr) :=
  match s.finger with
  | [] => .panic
  | f0 :: rest =>
    let r : Except (Chord × ChordErr) (Chord × Bool) :=
      if f0 = none then
        match s.ConnectLocked dial nd with
        | (s, some err) => .error (s, err)
        | (s, none) => .ok ({ s with finger := some nd :: rest }, true)
      else .ok (s, modified)
    match r with
    | .error (s, err) => .ret (s, Lowest, some [none], some err)
    | .ok (s, modified) =>
      match (if modified then s.ringModified else some s) with
      | none => .blocked
      | some s =>
        .ret (s, Lowest,
          some [match pred with
            | some p => some (s.node p).String
            | none => some []],
          none)

/-- Go `PredEntry.Atomic(key, op, values)`: the server after the call and the
results `(ver, vals, err)`. The panic is the one of `values[0]` on an empty
slice, of `srv.finger[0]` on an empty slice, or of `DisconnectLocked`. -/
def PredEntry.Atomic (ParseUint16 : List Byte → Option Nat) (dial : List Byte → Bool)
    (s : Chord) (_key : List Byte) (op : Nat) (values : List (List Byte)) :
    Call (Chord × Nat × Option (List Blob) × Option ChordErr) :=
  if op ≠ PredAndNotify then .ret (s, 0, none, some .invalidOp)
  else
    match values with
    | [] => .panic
    | val :: _ =>
      match s.newNode ParseUint16 val with
      | (s, .error err) => .ret (s, 0, none, some err)
      | (s, .ok nd) =>
        let pred := s.predecessor
        if (match pred with
            | none => true
            | some p => between (s.node nd).id (s.node p).id s.self.id) then
          match s.ConnectLocked dial nd with
          | (s, some err) => .ret (s, Lowest, some [none], some err)
          | (s, none) =>
            match s.DisconnectLocked pred with
            | none => .panic
            | some s => PredEntry.finish dial { s with predecessor := some nd } pred nd true
        else PredEntry.finish dial s pred nd false

/-- The variables `period`, `modcnt` and `runcnt` of `stabilizeproc`; the period
is a `time.Duration`, a number of nanoseconds. The two counters, Go `int`s that
count passes, are taken as natural numbers. -/
structure Pace where
  period : Nat
  modcnt : Nat
  runcnt : Nat
  deriving DecidableEq, Repr

/-- The constants `time.Millisecond` and `time.Second`. -/
def Millisecond : Nat := 1000000
def Second : Nat := 1000000000

/-- The end of the loop body of `stabilizeproc`, from `nperiod := period` on,
for the value `modified` of the pass. -/
def pace (st : Pace) (modified : Bool) : Pace :=
  let nperiod := st.period
  let (nperiod, modcnt, runcnt) : Nat × Nat × Nat :=
    if modified then
      let runcnt := 0
      let modcnt := st.modcnt + 1
      let nperiod := if modcnt ≥ 1 then nperiod / 2 else nperiod
      let nperiod := if nperiod > Second then Second else nperiod
      (nperiod, modcnt, runcnt)
    else
      let runcnt := st.runcnt + 1
      let modcnt := 0
      let nperiod := if runcnt > 7 then nperiod + nperiod / 3 else nperiod
      (nperiod, modcnt, runcnt)
  let period :=
    if nperiod ≠ st.period ∧ nperiod > 10 * Millisecond ∧ nperiod < 1 * Second then nperiod
    else st.period
  { period := period, modcnt := modcnt, runcnt := runcnt }

/-- The variables of `stabilizeproc` after passes with the values `ms` of
`modified`, from `period := 20 * time.Millisecond`, `modcnt := 0` and
`runcnt := 0`. -/
def paceRun (ms : List Bool) : Pace :=
  ms.foldl pace ⟨20 * Millisecond, 0, 0⟩

end chord

open chord

/-! ## Intervals of the ring of ids, and example states of a Chord server -/

namespace chord

/-- The way from `a` up to `b` on the ring of the 64-bit ids, on which
`2^64 - 1` is followed by `0`. -/
def ringDist (a b : Nat) : Nat := (b + 2 ^ 64 - a) % 2 ^ 64

/-- The interval `(low, high]` of the ring, in the words of the spec: going up
from `low`, the id `n` comes after `low` and not after `high`. The interval
`(low, low]` is empty. -/
def ringIn (n low high : Nat) : Prop :=
  0 < ringDist low n ∧ ringDist low n ≤ ringDist low high

/-- The interval `(low, high)` of the ring, in the words of the spec: going up
from `low`, the id `n` comes after `low` and before `high`. -/
def ringInside (n low high : Nat) : Prop :=
  0 < ringDist low n ∧ ringDist low n < ringDist low high

instance (n low high : Nat) : Decidable (ringIn n low high) :=
  inferInstanceAs (Decidable (_ ∧ _))

instance (n low high : Nat) : Decidable (ringInside n low high) :=
  inferInstanceAs (Decidable (_ ∧ _))

/-- The fields of the server other than `nodes` and `nodecache` are the same
in the states `s` and `t`, and so are the fields of every node that
`Node.String` prints. -/
def SameIds (s t : Chord) : Prop :=
  t.self = s.self ∧ t.addr = s.addr ∧ t.predecessor = s.predecessor ∧ t.finger = s.finger ∧
  t.modchan = s.modchan ∧
  ∀ j, (t.node j).id = (s.node j).id ∧ (t.node j).addr = (s.node j).addr ∧
    (t.node j).oncycle = (s.node j).oncycle

/-- An example: the server "s" with the id 100, the predecessor "p" with the id
50 (the node 0), the first finger "f" with the id 200 (the node 1), the
finger "g" with the id 300 (the node 2) at the index 5, and no other
finger. -/
def exampleChord : Chord :=
  { addr := str "s",
    self := ⟨100, str "s", 0, true, .other⟩,
    finger := some 1 :: (List.replicate 4 none ++ some 2 :: List.replicate 58 none),
    predecessor := some 0,
    nodecache := [(str "p", 0), (str "f", 1), (str "g", 2)],
    nodes := [⟨50, str "p", 1, true, .remote false⟩, ⟨200, str "f", 1, true, .remote false⟩,
      ⟨300, str "g", 1, true, .remote false⟩],
    modchan := 0 }

/-- An instance of the parameter `ParseUint16` for the examples: numerals of
one to sixteen hexadecimal digits, in lower case. -/
def hexadecimal (s : List Byte) : Option Nat :=
  if s = [] ∨ s.length > 16 ∨
      ¬ s.all (fun b => (48 ≤ b.val ∧ b.val ≤ 57) ∨ (97 ≤ b.val ∧ b.val ≤ 102)) then none
  else some (s.foldl (fun acc b => acc * 16 + (if b.val ≤ 57 then b.val - 48 else b.val - 87)) 0)

end chord

/-! ## The ids of the calls, and trees in which `match` finds every node -/

/-- The ids that the calls `regs` hand to `add`, in order: `AddAfter` counts
`maxid` up (`m.maxid++`) and `AddBefore` counts `minid` down (`m.minid--`),
starting from the counters `minid` and `maxid`. -/
def regIds {H : Type} (minid maxid : Int) : List (Reg H) → List (Int × Reg H)
  | [] => []
  | r :: rs =>
    if r.after then (maxid + 1, r) :: regIds minid (maxid + 1) rs
    else (minid - 1, r) :: regIds (minid - 1) maxid rs

/-- In the tree `nd`, which hangs below the word `acc`, no node has an empty
prefix, the prefixes of the children of a node begin with different bytes, and
every node satisfies `R w id hop exact cutpref`, where `w` is the word of the
node and `id`, `hop`, `exact` and `cutpref` are its fields. -/
inductive Good {H : Type} (R : List Byte → Int → Option H → Bool → Bool → Prop) :
    List Byte → mnode H → Prop where
  | mk (acc pfx : List Byte) (id : Int) (hop : Option H) (exact cutpref : Bool)
      (sub : List (mnode H)) :
      pfx ≠ [] → (sub.map (fun c => c.pfx.head?)).Nodup →
      R (acc ++ pfx) id hop exact cutpref → (∀ c ∈ sub, Good R (acc ++ pfx) c) →
      Good R acc (.mk pfx id hop exact cutpref sub)

/-- Some node of the tree `nd`, which hangs below the word `acc`, satisfies
`Q w id hop exact cutpref`. -/
inductive SomeNode {H : Type} (Q : List Byte → Int → Option H → Bool → Bool → Prop) :
    List Byte → mnode H → Prop where
  | top (acc pfx : List Byte) (id : Int) (hop : Option H) (exact cutpref : Bool)
      (sub : List (mnode H)) :
      Q (acc ++ pfx) id hop exact cutpref → SomeNode Q acc (.mk pfx id hop exact cutpref sub)
  | inSub (acc pfx : List Byte) (id : Int) (hop : Option H) (exact cutpref : Bool)
      (sub : List (mnode H)) (c : mnode H) :
      c ∈ sub → SomeNode Q (acc ++ pfx) c → SomeNode Q acc (.mk pfx id hop exact cutpref sub)

/-- The word `w` is the beginning of a pattern of the calls `ids`, and a
handler `hop` that is not nil was registered by the call of `ids` that has the
id `id`, with the pattern `w` and the flags `exact` and `cutpref`. -/
def RegI {H : Type} (ids : List (Int × Reg H)) (w : List Byte) (id : Int) (hop : Option H)
    (exact cutpref : Bool) : Prop :=
  (∃ e ∈ ids, w <+: e.2.pattern) ∧
  (hop ≠ none →
    ∃ e ∈ ids, e.1 = id ∧ e.2.pattern = w ∧ e.2.hop = hop ∧ e.2.exact = exact ∧
      Reg.cutprefix e.2 = cutpref)

/-- The node of the call `e`: its word is the pattern, and it has the id and
the handler of the call. -/
def IsReg {H : Type} (e : Int × Reg H) (w : List Byte) (id : Int) (hop : Option H)
    (_exact _cutpref : Bool) : Prop :=
  w = e.2.pattern ∧ id = e.1 ∧ hop = e.2.hop

/-- The tree of the multiplexer is well formed, its nodes come from the calls
`ids`, and every call of `ids` has its node. -/
def TreeGood {H : Type} (ids : List (Int × Reg H)) (m : MHop H) : Prop :=
  (∀ root, m.root = some root → Good (RegI ids) [] root) ∧
  (∀ e ∈ ids, ∃ root, m.root = some root ∧ SomeNode (IsReg e) [] root)

/-- The nodes on the way from the root to a place of the tree, root first. -/
def mnode.chain {H : Type} : mnode H → List Nat → List (mnode H)
  | nd, [] => [nd]
  | nd, k :: ks =>
    nd :: (match nd.sub[k]? with
      | none => []
      | some c => c.chain ks)

/-- What the variables of `MHop.match(pattern)` satisfy at the head of the loop
and at the return, in a well-formed tree `root`: `ndprev` and its `prev`
pointers are the nodes on the way from the root, `nd` is the child `pidx` of
`ndprev`, the children before it begin with another byte than the rest of the
pattern, and every node whose word is the beginning of the pattern is on the
way to `ndprev` or below a child of `ndprev` that is still to be examined. -/
def MatchInv {H : Type} (root : mnode H) (pattern : List Byte) (st : MatchState H) : Prop :=
  match st.ndprev with
  | none =>
    (st.nd = none → root.pfx.head? ≠ pattern.head?) ∧
    (∀ q x, root.at q = some x → root.accAt q ++ x.pfx <+: pattern → st.nd ≠ none)
  | some pp =>
    pp.node :: pp.prevs = (root.chain pp.path).reverse ∧
    st.nd.map (fun y => y.node) = pp.node.sub[st.pidx]? ∧
    (∀ k c, k < st.pidx → pp.node.sub[k]? = some c →
      c.pfx.head? ≠ (pattern.drop st.n).head?) ∧
    (∀ q x, root.at q = some x → root.accAt q ++ x.pfx <+: pattern →
      q <+: pp.path ∨ ∃ k rest, q = pp.path ++ k :: rest ∧ st.pidx ≤ k)

/-- What the variables of `MHop.match(pattern)` satisfy at the return: the loop
has ended with `nd == nil`, with `n == len(pattern)`, or at a node of which a
part of the prefix, and not all of it, matches. -/
def MatchExit {H : Type} (pattern : List Byte) (st : MatchState H) : Prop :=
  st.nd = none ∨ st.n = pattern.length ∨
  ∃ y, st.nd = some y ∧ st.n < pattern.length ∧ 0 < st.i ∧ st.i < y.node.pfx.length ∧
    matchPrefix y.node.pfx (pattern.drop st.n) = some st.i

/-! # Theorems -/

/-! ## The wire codec: little-endian integers, strings, blobs -/

theorem byte_val (x : Nat) : (byte x).val = x % 256 := rfl

theorem leEncode_length (n x : Nat) : (leEncode n x).length = n := by
  induction n generalizing x with
  | zero => rfl
  | succ n ih => simp [leEncode, ih]

theorem leDecode_leEncode (n x : Nat) : leDecode (leEncode n x) = x % 256 ^ n := by
  induction n generalizing x with
  | zero => simp [leEncode, leDecode, Nat.mod_one]
  | succ n ih =>
    simp only [leEncode, leDecode, ih, byte_val]
    rw [pow_succ, Nat.mul_comm (256 ^ n) 256, Nat.mod_mul]

theorem leDecode_lt (bs : List Byte) : leDecode bs < 256 ^ bs.length := by
  induction bs with
  | nil => simp [leDecode]
  | cons b bs ih =>
    simp only [leDecode, List.length_cons, pow_succ]
    have := b.isLt
    omega

theorem lor_shift (a b k : Nat) (h : a < 2 ^ k) : a ||| (b <<< k) = a + 2 ^ k * b := by
  rw [Nat.shiftLeft_eq, Nat.mul_comm b, Nat.lor_comm, ← Nat.mul_add_lt_is_or h, Nat.add_comm]

theorem Gint16_cons (b0 b1 : Byte) (rest : List Byte) :
    Gint16 (b0 :: b1 :: rest) = some (leDecode [b0, b1], rest) := by
  have h0 := b0.isLt
  simp only [Gint16, leDecode]
  rw [lor_shift _ _ 8 (by omega)]
  norm_num

theorem Gint32_cons (b0 b1 b2 b3 : Byte) (rest : List Byte) :
    Gint32 (b0 :: b1 :: b2 :: b3 :: rest) = some (leDecode [b0, b1, b2, b3], rest) := by
  have h0 := b0.isLt; have h1 := b1.isLt; have h2 := b2.isLt
  simp only [Gint32, leDecode]
  rw [lor_shift _ _ 8 (by omega), lor_shift _ _ 16 (by omega), lor_shift _ _ 24 (by omega)]
  simp only [Option.some.injEq, Prod.mk.injEq, and_true]
  omega

theorem Gint64_cons (b0 b1 b2 b3 b4 b5 b6 b7 : Byte) (rest : List Byte) :
    Gint64 (b0 :: b1 :: b2 :: b3 :: b4 :: b5 :: b6 :: b7 :: rest) =
      some (leDecode [b0, b1, b2, b3, b4, b5, b6, b7], rest) := by
  have h0 := b0.isLt; have h1 := b1.isLt; have h2 := b2.isLt; have h3 := b3.isLt
  have h4 := b4.isLt; have h5 := b5.isLt; have h6 := b6.isLt
  simp only [Gint64, leDecode]
  rw [lor_shift _ _ 8 (by omega), lor_shift _ _ 16 (by omega), lor_shift _ _ 24 (by omega),
    lor_shift _ _ 32 (by omega), lor_shift _ _ 40 (by omega), lor_shift _ _ 48 (by omega),
    lor_shift _ _ 56 (by omega)]
  simp only [Option.some.injEq, Prod.mk.injEq, and_true]
  omega



theorem pint16_bytes (v : Nat) : [byte v, byte (v >>> 8)] = leEncode 2 v := by
  simp [leEncode, Nat.shiftRight_eq_div_pow]

theorem pint32_bytes (v : Nat) :
    [byte v, byte (v >>> 8), byte (v >>> 16), byte (v >>> 24)] = leEncode 4 v := by
  simp [leEncode, Nat.shiftRight_eq_div_pow, Nat.div_div_eq_div_mul]

theorem pint64_bytes (v : Nat) :
    [byte v, byte (v >>> 8), byte (v >>> 16), byte (v >>> 24),
      byte (v >>> 32), byte (v >>> 40), byte (v >>> 48), byte (v >>> 56)] = leEncode 8 v := by
  simp [leEncode, Nat.shiftRight_eq_div_pow, Nat.div_div_eq_div_mul]

theorem Gint16_leEncode (v : Nat) (rest : List Byte) :
    Gint16 (leEncode 2 v ++ rest) = some (v % 2 ^ 16, rest) := by
  have h := leDecode_leEncode 2 v
  simp only [leEncode, List.cons_append, List.nil_append, Gint16_cons] at h ⊢
  rw [h]; norm_num

theorem Gint32_leEncode (v : Nat) (rest : List Byte) :
    Gint32 (leEncode 4 v ++ rest) = some (v % 2 ^ 32, rest) := by
  have h := leDecode_leEncode 4 v
  simp only [leEncode, List.cons_append, List.nil_append, Gint32_cons] at h ⊢
  rw [h]; norm_num

theorem Gint64_leEncode (v : Nat) (rest : List Byte) :
    Gint64 (leEncode 8 v ++ rest) = some (v % 2 ^ 64, rest) := by
  have h := leDecode_leEncode 8 v
  simp only [leEncode, List.cons_append, List.nil_append, Gint64_cons] at h ⊢
  rw [h]; norm_num

theorem encStr_length (s : List Byte) : (encStr s).length = 2 + s.length := by
  simp [encStr, leEncode_length]

theorem encBlob_length (v : Blob) : (encBlob v).length = 4 + v.len := by
  cases v <;> simp [encBlob, leEncode_length, Blob.len]

theorem encVals_length (vs : List Blob) : (encVals vs).length = rmt.valuesSize vs := by
  induction vs with
  | nil => rfl
  | cons v vs ih => simp [encVals, rmt.valuesSize, encBlob_length, ih] at *

theorem Gstr_encStr (s rest : List Byte) (h : s.length < 2 ^ 16) :
    Gstr (some (encStr s ++ rest)) = some (s, some rest) := by
  simp only [Gstr, encStr, List.append_assoc, Gint16_leEncode, Nat.mod_eq_of_lt h]
  simp

theorem Gblob_encBlob (v : Blob) (rest : List Byte) (h : v.len < 2 ^ 32 - 1) :
    Gblob (some (encBlob v ++ rest)) = some (v, some rest) := by
  cases v with
  | none => simp [Gblob, encBlob, Gint32_leEncode]
  | some v =>
    have h1 : v.length < 2 ^ 32 - 1 := h
    have h2 : v.length % 2 ^ 32 = v.length := Nat.mod_eq_of_lt (by omega)
    simp only [Gblob, encBlob, List.append_assoc, Gint32_leEncode, h2]
    rw [if_neg (by omega)]
    simp

theorem put_bind_put (a b : List Byte) (c : Cursor) :
    (c.put a).bind (Cursor.put b) = c.put (a ++ b) := by
  unfold Cursor.put
  by_cases h : a.length ≤ c.rest.length
  · simp only [h, if_true, Option.some_bind, List.length_drop, List.length_append,
      List.append_assoc, List.drop_drop]
    by_cases h2 : b.length ≤ c.rest.length - a.length
    · rw [if_pos h2, if_pos (by omega)]
    · rw [if_neg h2, if_neg (by omega)]
  · rw [if_neg h, if_neg (by simp; omega)]; rfl

theorem Pint16_eq (v : Nat) (c : Cursor) : Pint16 v c = c.put (leEncode 2 v) := by
  rw [Pint16, pint16_bytes]

theorem Pint32_eq (v : Nat) (c : Cursor) : Pint32 v c = c.put (leEncode 4 v) := by
  rw [Pint32, pint32_bytes]

theorem Pint64_eq (v : Nat) (c : Cursor) : Pint64 v c = c.put (leEncode 8 v) := by
  rw [Pint64, pint64_bytes]

theorem copyAdvance_eq (b : List Byte) (c : Cursor) :
    c.copyAdvance b b.length = c.put b := by
  unfold Cursor.copyAdvance Cursor.put
  by_cases h : b.length ≤ c.rest.length
  · simp [h, Nat.min_eq_right h]
  · have h1 : c.rest.length < b.length := by omega
    simp only [Nat.min_eq_left (Nat.le_of_lt h1), List.drop_length, List.append_nil,
      List.length_take]
    rw [if_neg (by omega), if_neg h]

theorem Pstr_eq (s : List Byte) (c : Cursor) (h : s.length < 2 ^ 16) :
    Pstr s c = c.put (encStr s) := by
  unfold Pstr
  simp only [Nat.mod_eq_of_lt h, Pint16_eq, encStr, ← put_bind_put]
  cases hp : c.put (leEncode 2 s.length) with
  | none => rfl
  | some c1 => simp [copyAdvance_eq]

theorem Pblob_eq (v : Blob) (c : Cursor) (h : v.len < 2 ^ 32) :
    Pblob v c = c.put (encBlob v) := by
  cases v with
  | none => simp [Pblob, encBlob, Pint32_eq]
  | some v =>
    have h1 : v.length < 2 ^ 32 := h
    unfold Pblob
    simp only [Nat.mod_eq_of_lt h1, Pint32_eq, encBlob, ← put_bind_put]
    cases hp : c.put (leEncode 4 v.length) with
    | none => rfl
    | some c1 => simp [copyAdvance_eq]



theorem encHdr_length (size typ tag : Nat) : (encHdr size typ tag).length = 8 := by
  simp [encHdr, leEncode_length]

theorem put_fits (bs : List Byte) (c : Cursor) (h : bs.length ≤ c.rest.length) :
    c.put bs = some ⟨c.done ++ bs, c.rest.drop bs.length⟩ := by
  simp [Cursor.put, h]

theorem packCommon_spec (m : Msg) (size id : Nat) :
    ∃ B : List Byte, ∃ p : Cursor,
      packCommon m size id =
        some ({ m with Buf := some B, Size := (size + 8) % 2 ^ 32, Typ := id, Tag := NOTAG },
          size + 8, p) ∧
      ∀ (g : Msg) (body : List Byte), body.length = size →
        ∃ B1, packFinish g (size + 8) (p.put body) =
          .done { g with Buf := some B1,
                         Pkt := some (encHdr ((size + 8) % 2 ^ 32) id NOTAG ++ body) } none := by
  obtain ⟨B, hB, hBuf⟩ : ∃ B : List Byte, size + 8 ≤ B.length ∧
      (match m.Buf with
        | none => List.replicate (if size + (4 + 2 + 2) < 8 * 1024 then 8 * 1024
            else size + (4 + 2 + 2)) (0 : Byte)
        | some b =>
          if b.length < size + (4 + 2 + 2) then
            List.replicate (if size + (4 + 2 + 2) < 8 * 1024 then 8 * 1024
              else size + (4 + 2 + 2)) 0
          else b) = B := by
    refine ⟨_, ?_, rfl⟩
    cases m.Buf with
    | none => simp only [List.length_replicate]; split <;> omega
    | some b =>
      simp only
      split
      · simp only [List.length_replicate]; split <;> omega
      · omega
  refine ⟨B, ⟨encHdr ((size + 8) % 2 ^ 32) id NOTAG, B.drop 8⟩, ?_, ?_⟩
  · unfold packCommon
    simp only [hBuf, Pint32_eq, Pint16_eq]
    have e1 : (⟨[], B⟩ : Cursor).put (leEncode 4 ((size + (4 + 2 + 2)) % 2 ^ 32)) =
        some ⟨leEncode 4 ((size + 8) % 2 ^ 32), B.drop 4⟩ := by
      rw [put_fits _ _ (by simp [leEncode_length]; omega)]; simp [leEncode_length]
    rw [e1]
    simp only
    rw [put_fits _ _ (by simp [leEncode_length]; omega)]
    simp only
    rw [put_fits _ _ (by simp [leEncode_length]; omega)]
    simp [leEncode_length, encHdr]
  · intro g body hb
    rw [put_fits _ _ (by simp; omega)]
    refine ⟨(encHdr ((size + 8) % 2 ^ 32) id NOTAG ++ body) ++
      (List.drop 8 B).drop body.length, ?_⟩
    simp only [packFinish]
    have e : List.take (size + 8) (encHdr ((size + 8) % 2 ^ 32) id NOTAG ++ body ++
        List.drop body.length (List.drop 8 B)) = encHdr ((size + 8) % 2 ^ 32) id NOTAG ++ body := by
      apply List.take_left'
      simp [encHdr_length, hb, Nat.add_comm]
    rw [e]

theorem Unpack_hdr (m : Msg) (size typ tag : Nat) (body : List Byte)
    (hs : size = 8 + body.length) (hs32 : size < 2 ^ 32) (ht : typ < 2 ^ 16)
    (hg : tag < 2 ^ 16) (hr : Rerror ≤ typ ∧ typ < Tlast)
    (hmin : minMsgsize.getD (typ - Rerror) 0 ≤ size) :
    Unpack m (encHdr size typ tag ++ body) =
      match unpackBody { m with Size := size, Typ := typ, Tag := tag,
                                Pkt := some (encHdr size typ tag ++ body) } body with
      | none => .panic
      | some (.error e) => .error e
      | some (.ok (_, none)) => .error .invalidSize
      | some (.ok (m, some p)) => if p.length > 0 then .error .invalidSize else .ok m := by
  unfold Unpack
  have hlen : (encHdr size typ tag ++ body).length = size := by
    simp [encHdr_length, hs]
  rw [if_neg (by rw [hlen]; omega)]
  simp only [encHdr, List.append_assoc, Gint32_leEncode, Gint16_leEncode,
    Nat.mod_eq_of_lt hs32, Nat.mod_eq_of_lt ht, Nat.mod_eq_of_lt hg]
  have hlen2 : (leEncode 4 size ++ (leEncode 2 typ ++ (leEncode 2 tag ++ body))).length = size := by
    simp [leEncode_length, hs]; omega
  rw [if_neg (by rw [hlen2]; omega), if_neg (by omega), if_neg (by omega)]
  have e1 : List.take (size - 8) body = body := by
    apply List.take_of_length_le; omega
  have e2 : List.take size (leEncode 4 size ++ (leEncode 2 typ ++ (leEncode 2 tag ++ body))) =
      leEncode 4 size ++ (leEncode 2 typ ++ (leEncode 2 tag ++ body)) := by
    apply List.take_of_length_le; omega
  rw [e1, e2]



theorem size_if (v : Blob) (s : Nat) : (if v ≠ none then s + v.len else s) = s + v.len := by
  cases v <;> simp [Blob.len]

theorem roundTrip_of (r : PackResult) (m0 : Msg) (size id : Nat) (f : Msg → Msg)
    (body : List Byte) (expect : Msg)
    (hr : ∀ m1 sz p, packCommon m0 size id = some (m1, sz, p) →
      r = packFinish (f m1) sz (p.put body))
    (hf : ∀ m1, (f m1).Size = m1.Size ∧ (f m1).Typ = m1.Typ ∧ (f m1).Tag = m1.Tag)
    (hb : body.length = size) (hs : size + 8 < 2 ^ 32) (hid : Rerror ≤ id ∧ id < Tlast)
    (hmin : minMsgsize.getD (id - Rerror) 0 ≤ size + 8)
    (hu : ∀ sz tag pkt,
      unpackBody { Size := sz, Typ := id, Tag := tag, Pkt := pkt } body = some (.ok
        ({ expect with Size := sz, Typ := id, Tag := tag, Pkt := pkt }, some []))) :
    RoundTrip r id expect := by
  obtain ⟨B, p, hpc, hfin⟩ := packCommon_spec m0 size id
  have hsz : (size + 8) % 2 ^ 32 = size + 8 := Nat.mod_eq_of_lt hs
  rw [hsz] at hpc
  simp only [hsz] at hfin
  obtain ⟨B1, hB1⟩ := hfin (f _) body hb
  have hr1 := hr _ _ _ hpc
  rw [hB1] at hr1
  have h1 := (hf { m0 with Buf := some B, Size := size + 8, Typ := id, Tag := NOTAG })
  refine ⟨_, _, hr1, ?_, rfl, ?_⟩
  · exact h1.2.1
  · rw [Unpack_hdr _ (size + 8) id NOTAG body (by omega) hs
      (by have := hid.2; simp only [Tlast] at this; omega) (by decide) hid hmin]
    rw [hu]
    simp only [List.length_nil, gt_iff_lt, Nat.lt_irrefl, if_false, UnpackResult.ok.injEq,
      Msg.mk.injEq, true_and, and_true]
    exact ⟨h1.1.symm, h1.2.1.symm, h1.2.2.symm⟩

theorem roundTrip_Tget (m0 : Msg) (key : List Byte) (version : Nat)
    (hk : key.length ≤ 65535) (hv : version < 2 ^ 64) :
    RoundTrip (PackTget m0 key version) Tget { Key := key, Version := version } := by
  apply roundTrip_of _ m0 (2 + key.length + 8) Tget
    (fun m => { m with Key := key, Version := version }) (encStr key ++ leEncode 8 version)
  · intro m1 sz p h
    simp only [PackTget, h, Pint64_eq, Pstr_eq key _ (by omega), put_bind_put]
  · intro m1; exact ⟨rfl, rfl, rfl⟩
  · simp [encStr_length, leEncode_length]
  · omega
  · decide
  · simp [minMsgsize, Tget, Rerror]
  · intro sz tag pkt
    have := Gint64_leEncode version []
    simp only [List.append_nil] at this
    simp [unpackBody, Tget, Rerror, Gstr_encStr _ _ (show key.length < 2 ^ 16 by omega), this]
    omega



theorem valuesSize_cons (v : Blob) (vs : List Blob) :
    valuesSize (v :: vs) = 4 + v.len + valuesSize vs := by
  simp [valuesSize]

theorem packValues_eq (vs : List Blob) (p : Cursor) (h : valuesSize vs < 2 ^ 32) :
    packValues vs.length vs p = p.put (encVals vs) := by
  induction vs generalizing p with
  | nil => simp [packValues, encVals, Cursor.put]
  | cons v vs ih =>
    rw [valuesSize_cons] at h
    simp only [List.length_cons, packValues, encVals, ← put_bind_put, Pblob_eq v p (by omega)]
    cases hp : p.put (encBlob v) with
    | none => rfl
    | some c => simpa using ih c (by omega)

theorem bind_packValues (o : Option Cursor) (vs : List Blob) (h : valuesSize vs < 2 ^ 32) :
    o.bind (packValues vs.length vs) = o.bind (Cursor.put (encVals vs)) := by
  cases o with
  | none => rfl
  | some c => simpa using packValues_eq vs c h

theorem unpackVals_eq (vs : List Blob) (rest : List Byte) (h : valuesSize vs < 2 ^ 32) :
    unpackVals vs.length (encVals vs ++ rest) = some (.ok (vs, rest)) := by
  induction vs with
  | nil => simp [unpackVals, encVals]
  | cons v vs ih =>
    rw [valuesSize_cons] at h
    simp only [List.length_cons, unpackVals, encVals, List.append_assoc,
      Gblob_encBlob v _ (by omega), ih (by omega)]

theorem Gint64_leEncode_nil (v : Nat) (h : v < 2 ^ 64) : Gint64 (leEncode 8 v) = some (v, []) := by
  have := Gint64_leEncode v []
  rwa [List.append_nil, Nat.mod_eq_of_lt h] at this

theorem Gstr_encStr_nil (s : List Byte) (h : s.length < 2 ^ 16) :
    Gstr (some (encStr s)) = some (s, some []) := by
  have := Gstr_encStr s [] h
  rwa [List.append_nil] at this

theorem Gblob_encBlob_nil (v : Blob) (h : v.len < 2 ^ 32 - 1) :
    Gblob (some (encBlob v)) = some (v, some []) := by
  have := Gblob_encBlob v [] h
  rwa [List.append_nil] at this

theorem roundTrip_Tset (m0 : Msg) (key : List Byte) (value : Blob)
    (hk : key.length ≤ 65535) (hs : (2 + key.length + 4 + value.len) + 8 < 2 ^ 32) :
    RoundTrip (PackTset m0 key value) Tset { Key := key, Value := value } := by
  apply roundTrip_of _ m0 (2 + key.length + 4 + value.len) Tset
    (fun m => { m with Key := key, Value := value }) (encStr key ++ encBlob value)
  · intro m1 sz p h
    simp only [PackTset, size_if, h, Pblob_eq value _ (by omega), Pstr_eq key _ (by omega),
      put_bind_put]
  · intro m1; exact ⟨rfl, rfl, rfl⟩
  · simp [encStr_length, encBlob_length]; omega
  · omega
  · decide
  · simp [minMsgsize, Tset, Rerror]; omega
  · intro sz tag pkt
    simp [unpackBody, Tset, Rerror, Tget, Rget, Rtestset,
      Gstr_encStr _ _ (show key.length < 2 ^ 16 by omega),
      Gblob_encBlob_nil value (by omega)]

theorem roundTrip_Tcreate (m0 : Msg) (key flags : List Byte) (value : Blob)
    (hk : key.length ≤ 65535) (hfl : flags.length ≤ 65535)
    (hs : (2 + key.length + 2 + flags.length + 4 + value.len) + 8 < 2 ^ 32) :
    RoundTrip (PackTcreate m0 key flags value) Tcreate
      { Key := key, Flags := flags, Value := value } := by
  apply roundTrip_of _ m0 (2 + key.length + 2 + flags.length + 4 + value.len) Tcreate
    (fun m => { m with Key := key, Flags := flags, Value := value })
    (encStr key ++ encStr flags ++ encBlob value)
  · intro m1 sz p h
    simp only [PackTcreate, size_if, h, Pblob_eq value _ (by omega), Pstr_eq key _ (by omega),
      Pstr_eq flags _ (by omega), put_bind_put]
  · intro m1; exact ⟨rfl, rfl, rfl⟩
  · simp [encStr_length, encBlob_length]; omega
  · omega
  · decide
  · simp [minMsgsize, Tcreate, Rerror]; omega
  · intro sz tag pkt
    simp [unpackBody, Tset, Rerror, Tget, Rget, Rtestset, Tcreate, Rset, Rcreate,
      Gstr_encStr _ _ (show key.length < 2 ^ 16 by omega),
      Gstr_encStr _ _ (show flags.length < 2 ^ 16 by omega),
      Gblob_encBlob_nil value (by omega)]

theorem roundTrip_Tremove (m0 : Msg) (key : List Byte)
    (hk : key.length ≤ 65535) :
    RoundTrip (PackTremove m0 key) Tremove { Key := key } := by
  apply roundTrip_of _ m0 (2 + key.length) Tremove
    (fun m => { m with Key := key }) (encStr key)
  · intro m1 sz p h
    simp only [PackTremove, h, Pstr_eq key _ (by omega)]
  · intro m1; exact ⟨rfl, rfl, rfl⟩
  · simp [encStr_length]
  · omega
  · decide
  · simp [minMsgsize, Tremove, Rerror]
  · intro sz tag pkt
    simp [unpackBody, Tset, Rerror, Tget, Rget, Rtestset, Tcreate, Rset, Rcreate, Tremove,
      Gstr_encStr_nil _ (show key.length < 2 ^ 16 by omega)]

theorem roundTrip_Ttestset (m0 : Msg) (key : List Byte) (version : Nat) (oldvalue value : Blob)
    (hk : key.length ≤ 65535) (hv : version < 2 ^ 64)
    (hs : (2 + key.length + 8 + 4 + 4 + oldvalue.len + value.len) + 8 < 2 ^ 32) :
    RoundTrip (PackTtestset m0 key version oldvalue value) Ttestset
      { Key := key, Version := version, Oldval := oldvalue, Value := value } := by
  apply roundTrip_of _ m0 (2 + key.length + 8 + 4 + 4 + oldvalue.len + value.len) Ttestset
    (fun m => { m with Key := key, Version := version, Oldval := oldvalue, Value := value })
    (encStr key ++ leEncode 8 version ++ encBlob oldvalue ++ encBlob value)
  · intro m1 sz p h
    simp only [PackTtestset, size_if, h, Pblob_eq value _ (by omega),
      Pblob_eq oldvalue _ (by omega), Pstr_eq key _ (by omega), Pint64_eq, put_bind_put]
  · intro m1; exact ⟨rfl, rfl, rfl⟩
  · simp [encStr_length, encBlob_length, leEncode_length]; omega
  · omega
  · decide
  · simp [minMsgsize, Ttestset, Rerror]; omega
  · intro sz tag pkt
    simp [unpackBody, Tset, Rerror, Tget, Rget, Rtestset, Tcreate, Rset, Rcreate, Tremove,
      Rremove, Ttestset, Gstr_encStr _ _ (show key.length < 2 ^ 16 by omega),
      Gint64_leEncode, Gblob_encBlob oldvalue _ (by omega), Gblob_encBlob_nil value (by omega)]
    omega

theorem roundTrip_Tatomic (m0 : Msg) (op : Nat) (key : List Byte) (values : Option (List Blob))
    (hk : key.length ≤ 65535) (hop : op < 2 ^ 16)
    (hn : (values.getD []).length ≤ 65535)
    (hs : (2 + 2 + key.length + 2 + valuesSize (values.getD [])) + 8 < 2 ^ 32) :
    RoundTrip (PackTatomic m0 op key values) Tatomic
      { Atmop := op, Key := key, Vals := normVals values } := by
  have hu : ∀ (vs : List Blob), vs.length ≤ 65535 → valuesSize vs < 2 ^ 32 →
      ∀ sz tag pkt, unpackBody { Size := sz, Typ := Tatomic, Tag := tag, Pkt := pkt }
        (leEncode 2 op ++ encStr key ++ leEncode 2 vs.length ++ encVals vs) = some (.ok
        ({ Atmop := op, Key := key, Vals := normVals (some vs), Size := sz, Typ := Tatomic,
           Tag := tag, Pkt := pkt }, some [])) := by
    intro vs hvs hvsz sz tag pkt
    have h1 := unpackVals_eq vs [] hvsz
    rw [List.append_nil] at h1
    have h2 : vs.length % 65536 = vs.length := Nat.mod_eq_of_lt (by omega)
    have h3 : op % 65536 = op := Nat.mod_eq_of_lt (by omega)
    simp [unpackBody, Tset, Rerror, Tget, Rget, Rtestset, Tcreate, Rset, Rcreate, Tremove,
      Rremove, Ttestset, Tatomic, Gstr_encStr _ _ (show key.length < 2 ^ 16 by omega),
      Gint16_leEncode, leEncode_length, h2, h3]
    cases vs with
    | nil => simp [normVals, encVals]
    | cons v vs =>
      simp only [List.length_cons] at h1
      simp [normVals, h1]
  cases values with
  | none =>
    apply roundTrip_of _ m0 (2 + 2 + key.length + 2) Tatomic
      (fun m => { m with Atmop := op, Key := key, Vals := none })
      (leEncode 2 op ++ encStr key ++ leEncode 2 0 ++ encVals [])
    · intro m1 sz p h
      simp only [PackTatomic, h, Pstr_eq key _ (by omega), Pint16_eq, put_bind_put,
        packValues, Option.bind_some, encVals, List.append_nil]
    · intro m1; exact ⟨rfl, rfl, rfl⟩
    · simp [encStr_length, leEncode_length, encVals]; omega
    · omega
    · decide
    · simp [minMsgsize, Tatomic, Rerror]
    · exact hu [] (by simp) (by simp [valuesSize])
  | some vs =>
    simp only [Option.getD_some] at hn hs
    apply roundTrip_of _ m0 (2 + 2 + key.length + 2 + valuesSize vs) Tatomic
      (fun m => { m with Atmop := op, Key := key, Vals := some vs })
      (leEncode 2 op ++ encStr key ++ leEncode 2 vs.length ++ encVals vs)
    · intro m1 sz p h
      have h2 : vs.length % 2 ^ 16 = vs.length := Nat.mod_eq_of_lt (by omega)
      simp only [PackTatomic, if_neg (show ¬ vs.length > 65535 by omega), h,
        Pstr_eq key _ (by omega), Pint16_eq, h2]
      rw [bind_packValues _ vs (by omega)]
      simp only [put_bind_put]
    · intro m1; exact ⟨rfl, rfl, rfl⟩
    · simp [encStr_length, leEncode_length, encVals_length]; omega
    · omega
    · decide
    · simp [minMsgsize, Tatomic, Rerror]; omega
    · exact hu vs hn (by omega)

theorem roundTrip_Rerror (m0 : Msg) (edescr : List Byte) (ecode : Nat)
    (hk : edescr.length ≤ 65535) (he : ecode < 2 ^ 32) :
    RoundTrip (PackRerror m0 edescr ecode) Rerror { Edescr := edescr, Ecode := ecode } := by
  apply roundTrip_of _ m0 (4 + 2 + edescr.length) Rerror
    (fun m => { m with Edescr := edescr, Ecode := ecode }) (leEncode 4 ecode ++ encStr edescr)
  · intro m1 sz p h
    simp only [PackRerror, h, Pstr_eq edescr _ (by omega), Pint32_eq, put_bind_put]
  · intro m1; exact ⟨rfl, rfl, rfl⟩
  · simp [encStr_length, leEncode_length]; omega
  · omega
  · decide
  · simp [minMsgsize, Rerror]
  · intro sz tag pkt
    simp [unpackBody, Rerror, Gint32_leEncode,
      Gstr_encStr_nil _ (show edescr.length < 2 ^ 16 by omega)]
    omega

theorem roundTrip_Rget (m0 : Msg) (version : Nat) (value : Blob)
    (hv : version < 2 ^ 64) (hs : (8 + 4 + value.len) + 8 < 2 ^ 32) :
    RoundTrip (PackRget m0 version value) Rget { Version := version, Value := value } := by
  apply roundTrip_of _ m0 (8 + 4 + value.len) Rget
    (fun m => { m with Version := version, Value := value })
    (leEncode 8 version ++ encBlob value)
  · intro m1 sz p h
    simp only [PackRget, size_if, h, Pblob_eq value _ (by omega), Pint64_eq, put_bind_put]
  · intro m1; exact ⟨rfl, rfl, rfl⟩
  · simp [encBlob_length, leEncode_length]; omega
  · omega
  · decide
  · simp [minMsgsize, Rget, Rerror]
  · intro sz tag pkt
    simp [unpackBody, Rerror, Tget, Rget, Gint64_leEncode, Gblob_encBlob_nil value (by omega)]
    omega

theorem roundTrip_Rtestset (m0 : Msg) (version : Nat) (value : Blob)
    (hv : version < 2 ^ 64) (hs : (8 + 4 + value.len) + 8 < 2 ^ 32) :
    RoundTrip (PackRtestset m0 version value) Rtestset { Version := version, Value := value } := by
  apply roundTrip_of _ m0 (8 + 4 + value.len) Rtestset
    (fun m => { m with Version := version, Value := value })
    (leEncode 8 version ++ encBlob value)
  · intro m1 sz p h
    simp only [PackRtestset, size_if, h, Pblob_eq value _ (by omega), Pint64_eq, put_bind_put]
  · intro m1; exact ⟨rfl, rfl, rfl⟩
  · simp [encBlob_length, leEncode_length]; omega
  · omega
  · decide
  · simp [minMsgsize, Rtestset, Rerror]
  · intro sz tag pkt
    simp [unpackBody, Rerror, Tget, Rget, Rtestset, Gint64_leEncode,
      Gblob_encBlob_nil value (by omega)]
    omega

theorem roundTrip_Rset (m0 : Msg) (version : Nat) (hv : version < 2 ^ 64) :
    RoundTrip (PackRset m0 version) Rset { Version := version } := by
  apply roundTrip_of _ m0 8 Rset (fun m => { m with Version := version }) (leEncode 8 version)
  · intro m1 sz p h
    simp only [PackRset, h, Pint64_eq]
  · intro m1; exact ⟨rfl, rfl, rfl⟩
  · simp [leEncode_length]
  · omega
  · decide
  · simp [minMsgsize, Rset, Rerror]
  · intro sz tag pkt
    simp [unpackBody, Rerror, Tget, Rget, Rtestset, Tset, Rset, Gint64_leEncode_nil _ hv]

theorem roundTrip_Rcreate (m0 : Msg) (version : Nat) (hv : version < 2 ^ 64) :
    RoundTrip (PackRcreate m0 version) Rcreate { Version := version } := by
  apply roundTrip_of _ m0 8 Rcreate (fun m => { m with Version := version }) (leEncode 8 version)
  · intro m1 sz p h
    simp only [PackRcreate, h, Pint64_eq]
  · intro m1; exact ⟨rfl, rfl, rfl⟩
  · simp [leEncode_length]
  · omega
  · decide
  · simp [minMsgsize, Rcreate, Rerror]
  · intro sz tag pkt
    simp [unpackBody, Rerror, Tget, Rget, Rtestset, Tset, Rset, Rcreate,
      Gint64_leEncode_nil _ hv]

theorem roundTrip_Rremove (m0 : Msg) :
    RoundTrip (PackRremove m0) Rremove {} := by
  apply roundTrip_of _ m0 0 Rremove (fun m => m) []
  · intro m1 sz p h
    simp only [PackRremove, h]
    congr 1
    simp [Cursor.put]
  · intro m1; exact ⟨rfl, rfl, rfl⟩
  · rfl
  · omega
  · decide
  · simp [minMsgsize, Rremove, Rerror]
  · intro sz tag pkt
    simp [unpackBody, Rerror, Tget, Rget, Rtestset, Tset, Rset, Rcreate, Tcreate, Tremove,
      Rremove]

theorem roundTrip_Ratomic (m0 : Msg) (version : Nat) (values : Option (List Blob))
    (hv : version < 2 ^ 64) (hn : (values.getD []).length ≤ 65535)
    (hs : (8 + 2 + valuesSize (values.getD [])) + 8 < 2 ^ 32) :
    RoundTrip (PackRatomic m0 version values) Ratomic
      { Version := version, Vals := normVals values } := by
  have hu : ∀ (vs : List Blob), vs.length ≤ 65535 → valuesSize vs < 2 ^ 32 →
      ∀ sz tag pkt, unpackBody { Size := sz, Typ := Ratomic, Tag := tag, Pkt := pkt }
        (leEncode 8 version ++ leEncode 2 vs.length ++ encVals vs) = some (.ok
        ({ Version := version, Vals := normVals (some vs), Size := sz, Typ := Ratomic,
           Tag := tag, Pkt := pkt }, some [])) := by
    intro vs hvs hvsz sz tag pkt
    have h1 := unpackVals_eq vs [] hvsz
    rw [List.append_nil] at h1
    have h2 : vs.length % 65536 = vs.length := Nat.mod_eq_of_lt (by omega)
    have h3 : version % 18446744073709551616 = version := Nat.mod_eq_of_lt (by omega)
    simp [unpackBody, Tset, Rerror, Tget, Rget, Rtestset, Tcreate, Rset, Rcreate, Tremove,
      Rremove, Ttestset, Tatomic, Ratomic, Gint64_leEncode, Gint16_leEncode, h2, h3]
    cases vs with
    | nil => simp [normVals, encVals]
    | cons v vs =>
      simp only [List.length_cons] at h1
      simp [normVals, h1]
  cases values with
  | none =>
    apply roundTrip_of _ m0 (8 + 2) Ratomic
      (fun m => { m with Version := version, Vals := none })
      (leEncode 8 version ++ leEncode 2 0 ++ encVals [])
    · intro m1 sz p h
      simp only [PackRatomic, h, Pint16_eq, Pint64_eq, put_bind_put,
        packValues, Option.bind_some, encVals, List.append_nil]
    · intro m1; exact ⟨rfl, rfl, rfl⟩
    · simp [leEncode_length, encVals]
    · omega
    · decide
    · simp [minMsgsize, Ratomic, Rerror]
    · exact hu [] (by simp) (by simp [valuesSize])
  | some vs =>
    simp only [Option.getD_some] at hn hs
    apply roundTrip_of _ m0 (8 + 2 + valuesSize vs) Ratomic
      (fun m => { m with Version := version, Vals := some vs })
      (leEncode 8 version ++ leEncode 2 vs.length ++ encVals vs)
    · intro m1 sz p h
      have h2 : vs.length % 2 ^ 16 = vs.length := Nat.mod_eq_of_lt (by omega)
      simp only [PackRatomic, if_neg (show ¬ vs.length > 65535 by omega), h,
        Pint64_eq, Pint16_eq, h2]
      rw [bind_packValues _ vs (by omega)]
      simp only [put_bind_put]
    · intro m1; exact ⟨rfl, rfl, rfl⟩
    · simp [leEncode_length, encVals_length]; omega
    · omega
    · decide
    · simp [minMsgsize, Ratomic, Rerror]; omega
    · exact hu vs hn (by omega)




/-! ### C1: pack, then unpack -/

/-- C1 (as amended). For every message of each wire type whose strings are at
most 65535 bytes long, whose list of values has at most 65535 elements and whose
packed size is below `2 ^ 32`, the `Pack…` function returns no error, and
`Unpack` of the produced packet into a fresh `Msg` succeeds and yields the type,
size and tag of the packed message and the packed field values (key, flags,
version, value, old value, atomic op, error code and description); a nil blob is
read back as nil and an empty blob as empty, and the list of values is read back
as it was packed except that an empty list is read back as a nil list. The
message `m0` that is packed into is arbitrary (it may carry a buffer to reuse). -/
theorem pack_unpack_roundtrip (m0 : Msg) (key flags edescr : List Byte)
    (version ecode op : Nat) (value oldvalue : Blob) (values : Option (List Blob))
    (hkey : key.length ≤ 65535) (hflags : flags.length ≤ 65535)
    (hedescr : edescr.length ≤ 65535)
    (hversion : version < 2 ^ 64) (hecode : ecode < 2 ^ 32) (hop : op < 2 ^ 16)
    (hnum : (values.getD []).length ≤ 65535) :
    RoundTrip (PackRerror m0 edescr ecode) Rerror { Edescr := edescr, Ecode := ecode } ∧
    RoundTrip (PackTget m0 key version) Tget { Key := key, Version := version } ∧
    ((8 + 4 + value.len) + 8 < 2 ^ 32 →
      RoundTrip (PackRget m0 version value) Rget { Version := version, Value := value }) ∧
    ((2 + key.length + 4 + value.len) + 8 < 2 ^ 32 →
      RoundTrip (PackTset m0 key value) Tset { Key := key, Value := value }) ∧
    RoundTrip (PackRset m0 version) Rset { Version := version } ∧
    ((2 + key.length + 2 + flags.length + 4 + value.len) + 8 < 2 ^ 32 →
      RoundTrip (PackTcreate m0 key flags value) Tcreate
        { Key := key, Flags := flags, Value := value }) ∧
    RoundTrip (PackRcreate m0 version) Rcreate { Version := version } ∧
    RoundTrip (PackTremove m0 key) Tremove { Key := key } ∧
    RoundTrip (PackRremove m0) Rremove {} ∧
    ((2 + key.length + 8 + 4 + 4 + oldvalue.len + value.len) + 8 < 2 ^ 32 →
      RoundTrip (PackTtestset m0 key version oldvalue value) Ttestset
        { Key := key, Version := version, Oldval := oldvalue, Value := value }) ∧
    ((8 + 4 + value.len) + 8 < 2 ^ 32 →
      RoundTrip (PackRtestset m0 version value) Rtestset
        { Version := version, Value := value }) ∧
    ((2 + 2 + key.length + 2 + valuesSize (values.getD [])) + 8 < 2 ^ 32 →
      RoundTrip (PackTatomic m0 op key values) Tatomic
        { Atmop := op, Key := key, Vals := normVals values }) ∧
    ((8 + 2 + valuesSize (values.getD [])) + 8 < 2 ^ 32 →
      RoundTrip (PackRatomic m0 version values) Ratomic
        { Version := version, Vals := normVals values }) :=
  ⟨roundTrip_Rerror m0 edescr ecode hedescr hecode,
   roundTrip_Tget m0 key version hkey hversion,
   roundTrip_Rget m0 version value hversion,
   roundTrip_Tset m0 key value hkey,
   roundTrip_Rset m0 version hversion,
   roundTrip_Tcreate m0 key flags value hkey hflags,
   roundTrip_Rcreate m0 version hversion,
   roundTrip_Tremove m0 key hkey,
   roundTrip_Rremove m0,
   roundTrip_Ttestset m0 key version oldvalue value hkey hversion,
   roundTrip_Rtestset m0 version value hversion,
   roundTrip_Tatomic m0 op key values hkey hop hnum,
   roundTrip_Ratomic m0 version values hversion hnum⟩

theorem PackTatomic_tooMany (m : Msg) (op : Nat) (key : List Byte) (vs : List Blob)
    (h : vs.length > 65535) :
    PackTatomic m op key (some vs) = .done m (some .tooManyValues) := by
  simp only [PackTatomic, if_pos h]

/-- Witness for C1: a `Ttestset` message with key "k" (one byte), version 2, a
nil old value and an empty new value is read back with the same fields. -/
theorem pack_unpack_roundtrip_witness :
    RoundTrip (PackTtestset {} [107] 2 none (some [])) Ttestset
      { Key := [107], Version := 2, Oldval := none, Value := some [] } :=
  (pack_unpack_roundtrip {} [107] [] [] 2 0 0 (some []) none none
    (by decide) (by decide) (by decide) (by decide) (by decide) (by decide)
    (by decide)).2.2.2.2.2.2.2.2.2.1 (by decide)

/-- A value of `2^32 - 12` bytes: the packed size `2^32 + 8` is stored as `8` in the
`uint32` size field, and `Unpack` rejects the packet. -/
theorem PackRget_wraps (m0 : Msg) (v : List Byte) (hv : v.length = 2 ^ 32 - 12) :
    ∃ m, PackRget m0 0 (some v) = .done m none ∧ m.Size = 8 ∧
      m.Pkt = some (encHdr 8 Rget NOTAG ++ (leEncode 8 0 ++ encBlob (some v))) ∧
      Unpack {} (encHdr 8 Rget NOTAG ++ (leEncode 8 0 ++ encBlob (some v))) =
        .error .invalidSize := by
  obtain ⟨B, p, hpc, hfin⟩ := packCommon_spec m0 (8 + 4 + v.length) Rget
  have hsz : (8 + 4 + v.length + 8) % 2 ^ 32 = 8 := by rw [hv]; decide
  rw [hsz] at hpc
  simp only [hsz] at hfin
  obtain ⟨B1, hB1⟩ := hfin
    { m0 with
      Buf := some B, Size := 8, Typ := Rget, Tag := NOTAG, Version := 0, Value := some v }
    (leEncode 8 0 ++ encBlob (some v)) (by simp [encBlob, leEncode_length]; omega)
  have hlen : Blob.len (some v) = v.length := rfl
  have hp : PackRget m0 0 (some v) = .done
      { m0 with
        Buf := some B1, Size := 8, Typ := Rget, Tag := NOTAG, Version := 0, Value := some v,
        Pkt := some (encHdr 8 Rget NOTAG ++ (leEncode 8 0 ++ encBlob (some v))) } none := by
    simp only [PackRget, size_if]
    rw [hlen, hpc]
    simp only [Pint64_eq,
      Pblob_eq (some v) _ (show Blob.len (some v) < 2 ^ 32 by rw [hlen, hv]; decide),
      put_bind_put]
    exact hB1
  refine ⟨_, hp, rfl, rfl, ?_⟩
  · have hl : (encHdr 8 Rget NOTAG ++ (leEncode 8 0 ++ encBlob (some v))).length =
        v.length + 20 := by
      simp [encHdr_length, encBlob, leEncode_length]; omega
    unfold Unpack
    rw [if_neg (by rw [hl]; omega)]
    simp only [encHdr, List.append_assoc, Gint32_leEncode, Gint16_leEncode]
    have hl2 : (leEncode 4 8 ++ (leEncode 2 Rget ++ (leEncode 2 NOTAG ++
        (leEncode 8 0 ++ encBlob (some v))))).length = v.length + 20 := by
      simpa [encHdr] using hl
    rw [if_neg (by rw [hl2]; omega)]
    simp [Rget, Rerror, Tlast, NOTAG, minMsgsize]

/-- C1 as stated fails: (1) an empty, non-nil list of values is not read back as
it was packed (`Unpack` leaves `Vals` nil when `valnum = 0`); (2) a list of 65536
values, all strings being short, is refused by `PackTatomic` with "too many
values", so no packet is produced; (3) for a value of `2^32 - 12` bytes the
packed size does not fit the `uint32` size field and `Unpack` rejects the packet
that `PackRget` produces. -/
theorem pack_unpack_counterexample :
    ¬ RoundTrip (PackTatomic {} Add [] (some [])) Tatomic
        { Atmop := Add, Key := [], Vals := some [] } ∧
    PackTatomic {} Add [] (some (List.replicate 65536 none)) =
      .done {} (some .tooManyValues) ∧
    ¬ RoundTrip (PackRget {} 0 (some (List.replicate (2 ^ 32 - 12) 0))) Rget
        { Version := 0, Value := some (List.replicate (2 ^ 32 - 12) 0) } := by
  refine ⟨?_, ?_, ?_⟩
  · rintro ⟨m, pkt, h1, -, h3, h4⟩
    obtain ⟨m', pkt', h1', -, h3', h4'⟩ :=
      roundTrip_Tatomic {} Add [] (some []) (by decide) (by decide) (by decide) (by decide)
    rw [h1] at h1'
    injection h1' with hm
    subst hm
    rw [h3] at h3'
    injection h3' with hp
    subst hp
    rw [h4] at h4'
    injection h4' with h
    have := congrArg Msg.Vals h
    simp [normVals] at this
  · exact PackTatomic_tooMany {} Add [] _ (by rw [List.length_replicate]; decide)
  · rintro ⟨m, pkt, h1, -, h3, h4⟩
    obtain ⟨m', h1', -, h3', h4'⟩ :=
      PackRget_wraps {} (List.replicate (2 ^ 32 - 12) 0) (List.length_replicate _ _)
    rw [h1] at h1'
    injection h1' with hm
    subst hm
    rw [h3] at h3'
    injection h3' with hp
    subst hp
    rw [h4] at h4'
    exact UnpackResult.noConfusion h4'


/-! ## Versions -/

theorem IncreaseVersion_lt (e : Entry) (h : e.Version + 1 < Highest) :
    e.IncreaseVersion = { e with Version := e.Version + 1 } := by
  have h1 : Highest = 9223372036854775806 := by decide
  rw [h1] at h
  have h2 : (e.Version + 1) % 2 ^ 64 = e.Version + 1 := Nat.mod_eq_of_lt (by omega)
  simp only [Entry.IncreaseVersion, h2, h1]
  rw [if_neg (by omega)]

theorem IncreaseVersion_ge (e : Entry) (h : Highest ≤ e.Version + 1)
    (h64 : e.Version + 1 < 2 ^ 64) :
    e.IncreaseVersion = { e with Version := Lowest } := by
  have h2 : (e.Version + 1) % 2 ^ 64 = e.Version + 1 := Nat.mod_eq_of_lt h64
  simp only [Entry.IncreaseVersion, h2]
  rw [if_pos h]

/-- C7 (code evaluated at the failing input). An entry at version
`Highest - 1 = 2^63 - 3` is taken by `IncreaseVersion` to `Lowest = 1`, not to
`Highest`: the reset happens on reaching `Highest`, one step before
`Highest + 1`, so no entry ever holds the version `Highest`. -/
theorem IncreaseVersion_resets_on_reaching_Highest (val : Blob) (ops : Ops) :
    Lowest ≤ Highest - 1 ∧ Highest - 1 < Highest ∧
    (Entry.IncreaseVersion ⟨Highest - 1, val, ops⟩).Version = Lowest ∧
    Lowest ≠ (Highest - 1) + 1 := by
  refine ⟨by decide, by decide, ?_, by decide⟩
  rw [IncreaseVersion_ge _ (show Highest ≤ Highest - 1 + 1 by decide)
    (show Highest - 1 + 1 < 2 ^ 64 by decide)]

/-! ## `SEntry.TestSet` -/

theorem bytesDiffer_iff (a b : List Byte) (h : a.length = b.length) :
    bytesDiffer a b = true ↔ a ≠ b := by
  induction a generalizing b with
  | nil =>
    cases b with
    | nil => simp [bytesDiffer]
    | cons _ _ => simp at h
  | cons x xs ih =>
    cases b with
    | nil => simp at h
    | cons y ys =>
      simp only [List.length_cons, Nat.add_right_cancel_iff] at h
      by_cases hxy : x = y
      · simp [bytesDiffer, hxy, ih ys h]
      · simp [bytesDiffer, hxy]

/-- The value test of `SEntry.TestSet` passes exactly when `oldvalue` is nil or
equals the entry's value byte for byte. -/
theorem testSet_differs (oldvalue : Blob) (x : Blob) :
    (match oldvalue with
      | none => false
      | some ov => if ov.length ≠ x.len then true else bytesDiffer ov x.bytes) = false ↔
    (oldvalue = none ∨ oldvalue.bytes = x.bytes) := by
  cases oldvalue with
  | none => simp
  | some ov =>
    simp only [Blob.bytes, Option.getD_some, reduceCtorEq, false_or, Blob.len]
    by_cases hl : ov.length = (x.getD []).length
    · have := bytesDiffer_iff ov (x.getD []) hl
      simp only [hl, ne_eq, not_true_eq_false, if_false]
      constructor
      · intro h
        by_contra hne
        rw [this.mpr hne] at h
        exact Bool.noConfusion h
      · intro h
        cases hb : bytesDiffer ov (x.getD []) with
        | false => rfl
        | true => exact absurd h (this.mp hb)
    · simp only [ne_eq, hl, not_false_eq_true, if_true, Bool.true_eq_false, false_iff]
      intro h
      exact hl (by rw [h])

theorem testSetFrom_match (e : Entry) (oldvalue value : Blob)
    (hv : oldvalue = none ∨ oldvalue.bytes = e.Value.bytes) :
    SEntry.testSetFrom e e.Version oldvalue value =
      ({ e.IncreaseVersion with Value := copyOf value }, e.IncreaseVersion.Version,
        copyOf value, none) := by
  have h := (testSet_differs oldvalue e.Value).mpr hv
  simp only [SEntry.testSetFrom, ne_eq, not_true_eq_false, if_false, h, Bool.false_eq_true]

theorem testSetFrom_mismatch (e : Entry) (oldversion : Nat) (oldvalue value : Blob)
    (hm : ¬ (oldversion = e.Version ∧ (oldvalue = none ∨ oldvalue.bytes = e.Value.bytes))) :
    SEntry.testSetFrom e oldversion oldvalue value = (e, 0, none, none) := by
  by_cases hv : oldversion = e.Version
  · have h : ¬ (oldvalue = none ∨ oldvalue.bytes = e.Value.bytes) := fun h => hm ⟨hv, h⟩
    have h2 := (not_congr (testSet_differs oldvalue e.Value)).mpr h
    simp only [Bool.not_eq_false] at h2
    simp only [SEntry.testSetFrom, hv, ne_eq, not_true_eq_false, if_false, h2, if_true]
  · simp only [SEntry.testSetFrom, ne_eq, hv, not_false_eq_true, if_true]

/-- C2. For a client entry `e` with current version `c = e.Version` (a version
of a live entry, `c ≤ Highest`) and value `x = e.Value`, and a call
`TestSet(key, oldversion, oldvalue, value)`: if (`oldversion` is `Any` or
`oldversion = c`) and (`oldvalue` is nil or equals `x` byte for byte), the
entry's value becomes a copy of `value`, its version becomes the wrap-increment
of `c` (`IncreaseVersion`), and the call returns (new version, copy of `value`,
no error); in every other case the entry is left unchanged. -/
theorem SEntry_TestSet_spec (e : Entry) (oldversion : Nat) (oldvalue value : Blob)
    (hc : e.Version ≤ Highest) :
    (((oldversion = Any ∨ oldversion = e.Version) ∧
        (oldvalue = none ∨ oldvalue.bytes = e.Value.bytes)) →
      SEntry.TestSet e oldversion oldvalue value =
        ({ e.IncreaseVersion with Value := copyOf value }, e.IncreaseVersion.Version,
          copyOf value, none) ∧
      (copyOf value).bytes = value.bytes) ∧
    (¬ ((oldversion = Any ∨ oldversion = e.Version) ∧
        (oldvalue = none ∨ oldvalue.bytes = e.Value.bytes)) →
      (SEntry.TestSet e oldversion oldvalue value).1 = e) := by
  constructor
  · rintro ⟨hver, hval⟩
    refine ⟨?_, rfl⟩
    by_cases h0 : oldversion = Any
    · simp only [SEntry.TestSet, h0, if_true]
      exact testSetFrom_match e oldvalue value hval
    · have h1 : oldversion = e.Version := hver.resolve_left h0
      have h2 : ¬ (oldversion < Lowest ∨ oldversion > Highest) := by
        have : Lowest = 1 := rfl
        have : Any = 0 := rfl
        omega
      simp only [SEntry.TestSet, h0, if_false, h2]
      rw [h1]
      exact testSetFrom_match e oldvalue value hval
  · intro hm
    by_cases h0 : oldversion = Any
    · simp only [SEntry.TestSet, h0, if_true]
      rw [testSetFrom_mismatch]
      rintro ⟨-, h⟩
      exact hm ⟨Or.inl h0, h⟩
    · simp only [SEntry.TestSet, h0, if_false]
      split
      · rfl
      · rw [testSetFrom_mismatch]
        rintro ⟨h1, h⟩
        exact hm ⟨Or.inr h1, h⟩

/-- Witness for C2: the entry ("bar" at version 1) and the call
`TestSet(key, 1, "bar", "baz")`. -/
theorem SEntry_TestSet_spec_witness :
    SEntry.TestSet ⟨1, some [98, 97, 114], .sentry⟩ 1 (some [98, 97, 114]) (some [98, 97, 122]) =
      (⟨2, some [98, 97, 122], .sentry⟩, 2, some [98, 97, 122], none) :=
  ((SEntry_TestSet_spec ⟨1, some [98, 97, 114], .sentry⟩ 1 (some [98, 97, 114])
    (some [98, 97, 122]) (by decide)).1 ⟨Or.inr rfl, Or.inr rfl⟩).1

/-- C3 (what the code returns on a mismatch). For every client entry and every
`TestSet` call whose `oldversion` or `oldvalue` does not match the entry, the
entry is left unchanged and the results are the zero values of the named
results: `(0, nil, nil)` when `oldversion` is `Any` or lies within
`[Lowest, Highest]` (the `goto done` of `SEntry.TestSet` skips the assignments
of `ver` and `val`), and `(0, nil, "invalid version")` otherwise. So the
returned version is not the current version of any entry that has one
(`Lowest ≤ e.Version`). On the entry ("baz" at version 2) the call
`TestSet(key, 1, nil, "qux")` returns `(0, nil)`, not `(2, "baz")`; and on the
store after `Create("foo", "", "bar")` and `Set("foo", "baz")` the call
`TestSet("foo", 1, nil, "qux")` of `KHop` returns `(0, nil, nil)` while
`Get("foo", Any)` returns `(2, "baz")`. -/
theorem SEntry_TestSet_mismatch_returns_zero (e : Entry) (oldversion : Nat)
    (oldvalue value : Blob)
    (hm : ¬ ((oldversion = Any ∨ oldversion = e.Version) ∧
        (oldvalue = none ∨ oldvalue.bytes = e.Value.bytes))) :
    ((oldversion = Any ∨ (Lowest ≤ oldversion ∧ oldversion ≤ Highest)) →
      SEntry.TestSet e oldversion oldvalue value = (e, 0, none, none)) ∧
    (¬ (oldversion = Any ∨ (Lowest ≤ oldversion ∧ oldversion ≤ Highest)) →
      SEntry.TestSet e oldversion oldvalue value = (e, 0, none, some .invalidVersion)) ∧
    (Lowest ≤ e.Version → (SEntry.TestSet e oldversion oldvalue value).2.1 ≠ e.Version) ∧
    SEntry.TestSet ⟨2, some (str "baz"), .sentry⟩ 1 none (some (str "qux")) =
      (⟨2, some (str "baz"), .sentry⟩, 0, none, none) ∧
    ((((NewSHop.Create (str "foo") [] (some (str "bar"))).1.Set (str "foo")
        (some (str "baz"))).1.TestSet (str "foo") 1 none (some (str "qux"))).2 =
      (0, none, none) ∧
     (((NewSHop.Create (str "foo") [] (some (str "bar"))).1.Set (str "foo")
        (some (str "baz"))).1.Get (fun _ => none) (str "foo") Any []).2 =
      .returned 2 (some (str "baz")) none) := by
  have hL : Lowest = 1 := rfl
  have hcases : SEntry.TestSet e oldversion oldvalue value = (e, 0, none, none) ∧
        (oldversion = Any ∨ (Lowest ≤ oldversion ∧ oldversion ≤ Highest)) ∨
      SEntry.TestSet e oldversion oldvalue value = (e, 0, none, some .invalidVersion) ∧
        ¬ (oldversion = Any ∨ (Lowest ≤ oldversion ∧ oldversion ≤ Highest)) := by
    by_cases h0 : oldversion = Any
    · left
      refine ⟨?_, Or.inl h0⟩
      simp only [SEntry.TestSet, h0, if_true]
      rw [testSetFrom_mismatch]
      rintro ⟨-, h⟩
      exact hm ⟨Or.inl h0, h⟩
    · by_cases h2 : oldversion < Lowest ∨ oldversion > Highest
      · right
        refine ⟨by simp only [SEntry.TestSet, h0, if_false, h2, if_true], ?_⟩
        rintro (h | h)
        · exact h0 h
        · omega
      · left
        refine ⟨?_, Or.inr (by omega)⟩
        simp only [SEntry.TestSet, h0, if_false, h2]
        rw [testSetFrom_mismatch]
        rintro ⟨h1, h⟩
        exact hm ⟨Or.inr h1, h⟩
  refine ⟨fun h => ?_, fun h => ?_, fun h => ?_, by decide, by decide, by decide⟩
  · rcases hcases with ⟨h1, -⟩ | ⟨-, h1⟩
    · exact h1
    · exact absurd h h1
  · rcases hcases with ⟨-, h1⟩ | ⟨h1, -⟩
    · exact absurd h1 h
    · exact h1
  · rcases hcases with ⟨h1, -⟩ | ⟨h1, -⟩ <;> rw [h1] <;> simp only <;> omega

/-- Witness for C3: the entry ("baz" at version 2) and the call
`TestSet(key, 1, nil, "qux")` of the specification's example, which returns
`(0, nil)` with no error and a version that is not the current version 2. -/
theorem SEntry_TestSet_mismatch_returns_zero_witness :
    SEntry.TestSet ⟨2, some (str "baz"), .sentry⟩ 1 none (some (str "qux")) =
      (⟨2, some (str "baz"), .sentry⟩, 0, none, none) ∧
    (SEntry.TestSet ⟨2, some (str "baz"), .sentry⟩ 1 none (some (str "qux"))).2.1 ≠ 2 :=
  have h := SEntry_TestSet_mismatch_returns_zero ⟨2, some (str "baz"), .sentry⟩ 1 none
    (some (str "qux")) (by decide)
  ⟨h.1 (by decide), h.2.2.1 (by decide)⟩


/-! ## The store: `Create`, `Remove`, `Get` -/

theorem str_hash : str "#/" = [35, 47] := by decide
theorem str_keys : str "#/keys:" = [35, 47, 107, 101, 121, 115, 58] := by decide

theorem lookup_insert (k : List Byte) (r : Ref) (m : List (List Byte × Ref)) :
    lookup k (insert k r m) = some r := by
  induction m with
  | nil => simp [insert, lookup]
  | cons kr m ih =>
    obtain ⟨k0, r0⟩ := kr
    by_cases h : k0 = k
    · simp [insert, lookup, h]
    · simp [insert, lookup, h, ih]

theorem lookup_erase (k : List Byte) (m : List (List Byte × Ref)) :
    lookup k (erase k m) = none := by
  induction m with
  | nil => rfl
  | cons kr m ih =>
    obtain ⟨k0, r0⟩ := kr
    by_cases h : k0 = k
    · simpa [erase, List.filter, h] using ih
    · simp only [erase, List.filter, ne_eq, h, not_false_eq_true, decide_True, lookup, if_false]
      exact ih

theorem hasPrefix_keys (k : List Byte) (h : hasPrefix k (str "#/") = false) :
    hasPrefix k (str "#/keys:") = false := by
  rw [hasPrefix, str_hash] at h
  rw [hasPrefix, str_keys]
  rcases k with _ | ⟨a, _ | ⟨b, k⟩⟩
  · rfl
  · simp [List.isPrefixOf]
  · simp only [List.isPrefixOf, Bool.and_true, Bool.and_eq_false_imp, beq_iff_eq] at h ⊢
    intro ha hb
    exact absurd hb (by simpa using h ha)

theorem getWait_now (oldver version : Nat) (e : Entry) (wakes : List Entry)
    (h : ¬ (e.Version ≠ Removed ∧ e.Version < version)) :
    getWait oldver version e wakes = some (some e) := by
  cases wakes <;> simp only [getWait, h, if_false]

theorem getWait_blocked (oldver version : Nat) (e : Entry) (wakes : List Entry)
    (ho : oldver ≠ 0) (h : e.Version ≠ Removed ∧ e.Version < version)
    (hw : ∀ w ∈ wakes, w.Version = e.Version) :
    getWait oldver version e wakes = some none := by
  induction wakes generalizing e with
  | nil => rw [getWait, if_pos h]
  | cons w ws ih =>
    have hwv : w.Version = e.Version := hw w (List.mem_cons_self _ _)
    rw [getWait, if_pos h, if_neg ho]
    apply ih
    · rw [hwv]; exact h
    · intro w' hw'
      rw [hwv]
      exact hw w' (List.mem_cons_of_mem _ hw')

/-- The store reached by a successful `Create`. -/
theorem Create_fresh (s : SHop) (k flags v : List Byte)
    (hk : hasPrefix k (str "#/") = false) (hl : s.live k = false) :
    s.Create k flags (some v) =
      ({ entries := insert k (.own ⟨Lowest, some v, .sentry⟩) s.entries,
         keysEntry := s.keysEntry.IncreaseVersion,
         keynumEntry := s.keynumEntry.IncreaseVersion }, Lowest, none) := by
  unfold SHop.live at hl
  unfold SHop.Create
  rw [hk]
  simp only [Bool.false_eq_true, if_false, reduceCtorEq, SHop.AddEntry, copyOf, Blob.bytes,
    Option.getD_some]
  cases hlk : lookup k s.entries with
  | none => simp [SHop.keysModified]
  | some r =>
    rw [hlk] at hl
    simp only [ne_eq, decide_not, Bool.not_eq_eq_eq_not, Bool.not_false, decide_eq_true_eq] at hl
    simp [hl, SHop.keysModified]

theorem Create_exists (s : SHop) (k flags v : List Byte)
    (hk : hasPrefix k (str "#/") = false) (hl : s.live k = true) :
    s.Create k flags (some v) = (s, 0, some .Eexist) := by
  unfold SHop.live at hl
  unfold SHop.Create
  rw [hk]
  simp only [Bool.false_eq_true, if_false, reduceCtorEq, SHop.AddEntry, copyOf, Blob.bytes,
    Option.getD_some]
  cases hlk : lookup k s.entries with
  | none => rw [hlk] at hl; exact absurd hl (by simp)
  | some r =>
    rw [hlk] at hl
    simp only [ne_eq, decide_not, Bool.not_eq_eq_eq_not, Bool.not_true, decide_eq_false_iff_not]
      at hl
    simp [hl]

theorem Get_sentry_now (compile : List Byte → Option (List Byte → Bool)) (s : SHop)
    (key : List Byte) (version c : Nat) (x : Blob) (wakes : List Entry)
    (hk : hasPrefix key (str "#/keys:") = false)
    (hl : lookup key s.entries = some (.own ⟨c, x, .sentry⟩))
    (hc : c ≠ 0) (hr : c ≠ Removed)
    (hv : version = Any ∨ version = Newest ∨ (version ≠ PastNewest ∧ version ≤ c)) :
    s.Get compile key version wakes = (s, .returned c x none) := by
  unfold SHop.Get
  rw [hk]
  simp only [Bool.false_eq_true, if_false, SHop.KHopGet, hl, SHop.deref, SHop.getFrom, hc,
    false_and]
  have hAN : Any ≠ PastNewest ∧ Newest ≠ PastNewest := by decide
  rw [getWait_now]
  · simp [hr, SEntry.Get]
  · rintro ⟨-, h⟩
    simp only at h
    rcases hv with h1 | h1 | ⟨h1, h2⟩
    · rw [h1, if_neg hAN.1] at h; simp at h
    · rw [h1, if_neg hAN.2] at h; simp at h
    · rw [if_neg h1] at h
      split at h <;> omega

/-- C4. For a store `s`, a key `k` that does not begin with "#/" and a non-nil
value `v`: if `k` has no live entry, `Create(k, flags, v)` returns
`(Lowest, nil)` and a following `Get(k, Any)` returns `(Lowest, v)` without an
error; if `k` already has a live entry, `Create` fails with `Eexist` and the
store (so that entry's version and value) is unchanged. For a key beginning with
"#/", `Create` fails with `Eperm` and the store is unchanged. -/
theorem SHop_Create_spec (compile : List Byte → Option (List Byte → Bool)) (s : SHop)
    (k flags v : List Byte) (value : Blob) (wakes : List Entry) :
    (hasPrefix k (str "#/") = false →
      (s.live k = false →
        (s.Create k flags (some v)).2 = (Lowest, none) ∧
        (s.Create k flags (some v)).1.Get compile k Any wakes =
          ((s.Create k flags (some v)).1, .returned Lowest (some v) none)) ∧
      (s.live k = true → s.Create k flags (some v) = (s, 0, some .Eexist))) ∧
    (hasPrefix k (str "#/") = true → s.Create k flags value = (s, 0, some .Eperm)) := by
  refine ⟨fun hk => ⟨fun hl => ?_, fun hl => Create_exists s k flags v hk hl⟩, fun hk => ?_⟩
  · rw [Create_fresh s k flags v hk hl]
    refine ⟨rfl, ?_⟩
    exact Get_sentry_now compile _ k Any Lowest (some v) wakes (hasPrefix_keys k hk)
      (lookup_insert k _ _) (by decide) (by decide) (Or.inl rfl)
  · simp only [SHop.Create, hk, if_true]

/-- Witness for C4: on the new store, `Create("foo", "", "bar")` returns
`(Lowest, nil)`, a following `Get("foo", Any)` returns `(Lowest, "bar")`, and a
second `Create` of the same key fails with `Eexist`. -/
theorem SHop_Create_spec_witness :
    (NewSHop.Create (str "foo") [] (some (str "bar"))).2 = (Lowest, none) ∧
    ((NewSHop.Create (str "foo") [] (some (str "bar"))).1.Get (fun _ => none) (str "foo") Any
      []).2 = .returned Lowest (some (str "bar")) none ∧
    ((NewSHop.Create (str "foo") [] (some (str "bar"))).1.Create (str "foo") []
      (some (str "qux"))).2 = (0, some .Eexist) :=
  have h1 := ((SHop_Create_spec (fun _ => none) NewSHop (str "foo") [] (str "bar") none []).1
    (by decide)).1 (by decide)
  have h2 := ((SHop_Create_spec (fun _ => none)
    (NewSHop.Create (str "foo") [] (some (str "bar"))).1 (str "foo") [] (str "qux") none []).1
    (by decide)).2 (by decide)
  ⟨h1.1, by rw [h1.2], by rw [h2]⟩

/-- C5 as stated fails: on the new store `Get("k", Any)` and `Get("k", Newest)`
for the missing key "k" return version `0`, a nil value and no error (not
`Enoent`), and so does `Get("k", Any)` after `Create("k", "", "v")` and
`Remove("k")`; and `Get("#/keys:", Any)`, a key without an entry, returns the
list of the keys at version 1 (here with a regular expression that matches every
key). -/
theorem Get_missing_counterexample :
    (NewSHop.Get (fun _ => none) [107] Any []).2 = .returned 0 none none ∧
    (NewSHop.Get (fun _ => none) [107] Newest []).2 = .returned 0 none none ∧
    ((NewSHop.Create [107] [] (some [118])).1.Remove [107]).2 = none ∧
    (((NewSHop.Create [107] [] (some [118])).1.Remove [107]).1.Get (fun _ => none) [107] Any
      []).2 = .returned 0 none none ∧
    lookup (str "#/keys:") NewSHop.entries = none ∧
    (NewSHop.Get (fun _ => some (fun _ => true)) (str "#/keys:") Any []).2 =
      .returned 1 (some (str "#/keys" ++ [0] ++ str "#/keynum" ++ [0] ++ str "#/id")) none := by
  decide

theorem Get_absent (compile : List Byte → Option (List Byte → Bool)) (s : SHop)
    (key : List Byte) (version : Nat) (wakes : List Entry)
    (hk : hasPrefix key (str "#/keys:") = false)
    (hl : lookup key s.entries = none ∨ lookup key s.entries = some (.own ⟨0, none, .nil⟩))
    (hv : version = Any ∨ version = Newest) :
    s.Get compile key version wakes = (s, .returned 0 none none) := by
  unfold SHop.Get
  rw [hk]
  rcases hl with hl | hl
  · simp only [Bool.false_eq_true, if_false, SHop.KHopGet, hl, hv, if_true]
  · have hAN : Any ≠ PastNewest ∧ Newest ≠ PastNewest := by decide
    have hver : (if version = PastNewest then (0 + 1) % 2 ^ 64
        else if version = Newest ∨ version = Any then 0 else version) = 0 := by
      rcases hv with h | h
      · rw [h, if_neg hAN.1]; simp
      · rw [h, if_neg hAN.2]; simp
    simp only [Bool.false_eq_true, if_false, SHop.KHopGet, hl, SHop.deref, SHop.getFrom,
      ne_eq, not_true_eq_false, and_false, hver]
    rw [getWait_now _ _ _ _ (by simp)]
    simp [Removed]

theorem Create_Remove_absent (s : SHop) (k flags v : List Byte)
    (hk : hasPrefix k (str "#/") = false) :
    ((s.Create k flags (some v)).1.Remove k).2 = none ∧
    lookup k ((s.Create k flags (some v)).1.Remove k).1.entries = none := by
  have key : ∀ t : SHop, t.live k = true →
      (t.Remove k).2 = none ∧ lookup k (t.Remove k).1.entries = none := by
    intro t ht
    unfold SHop.live at ht
    cases hlk : lookup k t.entries with
    | none => rw [hlk] at ht; exact absurd ht (by simp)
    | some r =>
      rw [hlk] at ht
      simp only [ne_eq, decide_not, Bool.not_eq_eq_eq_not, Bool.not_true,
        decide_eq_false_iff_not] at ht
      cases r <;> simp [SHop.Remove, SHop.RemoveEntry, hlk, ht, lookup_erase]
  cases hl : s.live k with
  | true =>
    rw [Create_exists s k flags v hk hl]
    exact key s hl
  | false =>
    rw [Create_fresh s k flags v hk hl]
    apply key
    simp [SHop.live, lookup_insert, SHop.deref, Lowest]

/-- The code of `KHop.Set` on a key with no live entry: it returns version `0`
and a nil error and leaves the store unchanged (`if !ok { return 0, nil }`),
where `KHop.RemoveEntry` returns `Enoent`. -/
theorem Set_absent (s : SHop) (key : List Byte) (value : Blob)
    (hl : lookup key s.entries = none ∨ lookup key s.entries = some (.own ⟨0, none, .nil⟩)) :
    s.Set key value = (s, 0, none) := by
  rcases hl with hl | hl <;> simp [SHop.Set, hl, SHop.deref]

/-- C5 (as amended). For every store and every key with no live entry (no entry
at all, or only the placeholder of a waiting reader) that does not begin with
"#/keys:", `Get(key, Any)` and `Get(key, Newest)` return version `0` and a nil
value with no error, and leave the store unchanged; in particular, for a key
that does not begin with "#/", `Create(k, flags, v)`, `Remove(k)`,
`Get(k, Any)` ends with `Remove` succeeding and `Get` returning version `0`, a
nil value and no error. -/
theorem Get_missing (compile : List Byte → Option (List Byte → Bool)) (s : SHop)
    (key flags v : List Byte) (wakes : List Entry) :
    ((lookup key s.entries = none ∨ lookup key s.entries = some (.own ⟨0, none, .nil⟩)) →
      hasPrefix key (str "#/keys:") = false →
        s.Get compile key Any wakes = (s, .returned 0 none none) ∧
        s.Get compile key Newest wakes = (s, .returned 0 none none)) ∧
    (hasPrefix key (str "#/") = false →
      ((s.Create key flags (some v)).1.Remove key).2 = none ∧
      (((s.Create key flags (some v)).1.Remove key).1.Get compile key Any wakes).2 =
        .returned 0 none none) := by
  refine ⟨fun hl hk =>
    ⟨Get_absent compile s key Any wakes hk hl (Or.inl rfl),
     Get_absent compile s key Newest wakes hk hl (Or.inr rfl)⟩, fun hk => ?_⟩
  have h := Create_Remove_absent s key flags v hk
  refine ⟨h.1, ?_⟩
  rw [Get_absent compile _ key Any wakes (hasPrefix_keys key hk) (Or.inl h.2) (Or.inl rfl)]

/-- Witness for C5: the key "k" on the new store. -/
theorem Get_missing_witness :
    NewSHop.Get (fun _ => none) [107] Any [] = (NewSHop, .returned 0 none none) ∧
    NewSHop.Get (fun _ => none) [107] Newest [] = (NewSHop, .returned 0 none none) ∧
    (((NewSHop.Create [107] [] (some [118])).1.Remove [107]).1.Get (fun _ => none) [107] Any
      []).2 = .returned 0 none none :=
  have h := Get_missing (fun _ => none) NewSHop [107] [] [118] []
  ⟨(h.1 (by decide) (by decide)).1, (h.1 (by decide) (by decide)).2, (h.2 (by decide)).2⟩

/-- C6. For a store holding a live client entry for `key` at version `c`
(`Lowest ≤ c ≤ Highest`) with value `x`: for a requested version `v` that is
`Any`, `Newest` or a number with `Lowest ≤ v ≤ c`, `Get(key, v)` returns
`(c, x)` with no error whatever wake-ups follow (so without waiting); for
`v = PastNewest` or a number `v` with `c < v ≤ Highest` the call is still
blocked after any sequence of wake-ups at which the entry's version is `c` (the
entry has not changed version and has not been removed). -/
theorem Get_live_entry (compile : List Byte → Option (List Byte → Bool)) (s : SHop)
    (key : List Byte) (c : Nat) (x : Blob) (v : Nat) (wakes : List Entry)
    (hk : hasPrefix key (str "#/keys:") = false)
    (hl : lookup key s.entries = some (.own ⟨c, x, .sentry⟩))
    (hc : Lowest ≤ c ∧ c ≤ Highest) :
    ((v = Any ∨ v = Newest ∨ (Lowest ≤ v ∧ v ≤ c)) →
      s.Get compile key v wakes = (s, .returned c x none)) ∧
    ((v = PastNewest ∨ (c < v ∧ v ≤ Highest)) → (∀ w ∈ wakes, w.Version = c) →
      s.Get compile key v wakes = (s, .blocked)) := by
  have hL : Lowest = 1 := rfl
  have hH : Highest = 9223372036854775806 := by decide
  have hR : Removed = 9223372036854775808 := by decide
  have hP : PastNewest = 18446744073709551615 := by decide
  have hN : Newest = 9223372036854775807 := by decide
  have hA : Any = 0 := rfl
  constructor
  · intro hv
    apply Get_sentry_now compile s key v c x wakes hk hl (by omega) (by omega)
    rcases hv with h | h | h
    · exact Or.inl h
    · exact Or.inr (Or.inl h)
    · exact Or.inr (Or.inr ⟨by omega, h.2⟩)
  · intro hv hw
    unfold SHop.Get
    rw [hk]
    simp only [Bool.false_eq_true, if_false, SHop.KHopGet, hl, SHop.deref, SHop.getFrom,
      show c ≠ 0 by omega, false_and]
    rw [getWait_blocked _ _ _ _ (by omega) _ hw]
    simp only
    rcases hv with h | h
    · rw [if_pos h]
      exact ⟨by omega, by rw [Nat.mod_eq_of_lt (by omega)]; omega⟩
    · rw [if_neg (by omega), if_neg (by omega)]
      exact ⟨by omega, h.1⟩

/-- Witness for C6: the store holding "foo" = "bar" at version 1. -/
theorem Get_live_entry_witness :
    (NewSHop.Create (str "foo") [] (some (str "bar"))).1.Get (fun _ => none) (str "foo") 1 [] =
      ((NewSHop.Create (str "foo") [] (some (str "bar"))).1,
        .returned 1 (some (str "bar")) none) ∧
    (NewSHop.Create (str "foo") [] (some (str "bar"))).1.Get (fun _ => none) (str "foo") 2
        [⟨1, some [0], .sentry⟩] =
      ((NewSHop.Create (str "foo") [] (some (str "bar"))).1, .blocked) :=
  ⟨(Get_live_entry (fun _ => none) (NewSHop.Create (str "foo") [] (some (str "bar"))).1
      (str "foo") 1 (some (str "bar")) 1 [] (by decide) (by decide) (by decide)).1
      (by decide),
   (Get_live_entry (fun _ => none) (NewSHop.Create (str "foo") [] (some (str "bar"))).1
      (str "foo") 1 (some (str "bar")) 2 [⟨1, some [0], .sentry⟩] (by decide) (by decide)
      (by decide)).2 (by decide) (by decide)⟩


/-! ## `SEntry.Atomic`: `Add` and `Sub` -/

theorem written_put (bs : List Byte) (n : Nat) (h : bs.length = n) :
    written ((⟨[], List.replicate n 0⟩ : Cursor).put bs) = some (some bs) := by
  rw [put_fits _ _ (by simp [h])]
  simp [written, h]

theorem atomicAdd_ok (v n : List Byte) (sign : Int) (N : Nat)
    (hN : N = 1 ∨ N = 2 ∨ N = 4 ∨ N = 8) (hv : v.length = N) (hn : n.length = N) :
    atomicAdd v n sign =
      some (some (leEncode N (addSub (8 * N) sign (leDecode v) (leDecode n))), none) := by
  rcases hN with rfl | rfl | rfl | rfl
  · rcases v with _ | ⟨a0, _ | ⟨a1, v⟩⟩ <;> simp at hv
    rcases n with _ | ⟨b0, _ | ⟨b1, n⟩⟩ <;> simp at hn
    simp only [atomicAdd, List.length_cons, List.length_nil, ne_eq, not_true_eq_false,
      if_false, if_true, Gint8, Pint8, Nat.zero_add]
    rw [show [byte (addSub 8 sign a0.val b0.val)] = leEncode 1 (addSub 8 sign a0.val b0.val)
      from rfl, written_put _ _ (leEncode_length _ _)]
    simp [leDecode]
  · rcases v with _ | ⟨a0, _ | ⟨a1, _ | ⟨a2, v⟩⟩⟩ <;> simp at hv
    rcases n with _ | ⟨b0, _ | ⟨b1, _ | ⟨b2, n⟩⟩⟩ <;> simp at hn
    simp only [atomicAdd, List.length_cons, List.length_nil, ne_eq, not_true_eq_false,
      if_false, if_true, Gint16_cons, Pint16_eq, Nat.zero_add, Nat.reduceAdd,
      OfNat.ofNat_ne_one]
    rw [written_put _ _ (leEncode_length _ _)]
    simp
  · rcases v with _ | ⟨a0, _ | ⟨a1, _ | ⟨a2, _ | ⟨a3, _ | ⟨a4, v⟩⟩⟩⟩⟩ <;> simp at hv
    rcases n with _ | ⟨b0, _ | ⟨b1, _ | ⟨b2, _ | ⟨b3, _ | ⟨b4, n⟩⟩⟩⟩⟩ <;> simp at hn
    simp only [atomicAdd, List.length_cons, List.length_nil, ne_eq, not_true_eq_false,
      if_false, if_true, Gint32_cons, Pint32_eq, Nat.zero_add, Nat.reduceAdd,
      OfNat.ofNat_ne_one, Nat.reduceEqDiff]
    rw [written_put _ _ (leEncode_length _ _)]
    simp
  · rcases v with _ | ⟨a0, _ | ⟨a1, _ | ⟨a2, _ | ⟨a3, _ | ⟨a4, _ | ⟨a5, _ | ⟨a6, _ | ⟨a7,
      _ | ⟨a8, v⟩⟩⟩⟩⟩⟩⟩⟩⟩ <;> simp at hv
    rcases n with _ | ⟨b0, _ | ⟨b1, _ | ⟨b2, _ | ⟨b3, _ | ⟨b4, _ | ⟨b5, _ | ⟨b6, _ | ⟨b7,
      _ | ⟨b8, n⟩⟩⟩⟩⟩⟩⟩⟩⟩ <;> simp at hn
    simp only [atomicAdd, List.length_cons, List.length_nil, ne_eq, not_true_eq_false,
      if_false, if_true, Gint64_cons, Pint64_eq, Nat.zero_add, Nat.reduceAdd,
      OfNat.ofNat_ne_one, Nat.reduceEqDiff]
    rw [written_put _ _ (leEncode_length _ _)]
    simp

theorem atomicAdd_mismatch (v n : List Byte) (sign : Int) (h : v.length ≠ n.length) :
    atomicAdd v n sign = some (none, some .typeMismatch) := by
  simp only [atomicAdd, ne_eq, h, not_false_eq_true, if_true]

theorem atomicAdd_size (v n : List Byte) (sign : Int) (h : v.length = n.length)
    (hN : ¬ (n.length = 1 ∨ n.length = 2 ∨ n.length = 4 ∨ n.length = 8)) :
    atomicAdd v n sign = some (none, some .invalidIntSize) := by
  simp only [not_or] at hN
  simp only [atomicAdd, ne_eq, h, not_true_eq_false, if_false, hN.1, hN.2.1, hN.2.2.1,
    hN.2.2.2]

theorem addSub_add (w a b : Nat) : addSub w 1 a b = (a + b) % 2 ^ w := by
  simp [addSub]

theorem addSub_sub (N a b : Nat) (hN : N = 1 ∨ N = 2 ∨ N = 4 ∨ N = 8)
    (ha : a < 256 ^ N) (hb : b < 256 ^ N) :
    addSub (8 * N) (-1) a b = (((a : Int) - (b : Int)) % 2 ^ (8 * N)).toNat := by
  simp only [addSub, gt_iff_lt, Left.neg_pos_iff, Int.reduceNeg]
  rw [if_neg (by decide)]
  rcases hN with rfl | rfl | rfl | rfl <;> norm_num at ha hb ⊢ <;> omega

/-- C8. For a client entry `e` whose value has length `N ∈ {1, 2, 4, 8}` and an
argument of the same length `N`, Atomic `Add` (resp. `Sub`) replaces the value
by the `N`-byte little-endian encoding of `(old + arg) mod 2^(8N)` (resp.
`(old - arg) mod 2^(8N)`), where `old` and `arg` are the little-endian values of
the entry's value and of the argument, advances the version once
(`IncreaseVersion`) and returns exactly one value, the new value; if the two
lengths differ or `N ∉ {1, 2, 4, 8}`, the call returns an error and leaves the
entry, so its value and version, unchanged. -/
theorem Atomic_Add_Sub_spec (e : Entry) (arg : Blob) (N : Nat) (hN : e.Value.len = N) :
    ((arg.len = N ∧ (N = 1 ∨ N = 2 ∨ N = 4 ∨ N = 8)) →
      SEntry.Atomic e Add (some [arg]) =
        some ({ e.IncreaseVersion with
                  Value := some (leEncode N
                    ((leDecode e.Value.bytes + leDecode arg.bytes) % 2 ^ (8 * N))) },
          e.IncreaseVersion.Version,
          some [some (leEncode N ((leDecode e.Value.bytes + leDecode arg.bytes) % 2 ^ (8 * N)))],
          none) ∧
      SEntry.Atomic e Sub (some [arg]) =
        some ({ e.IncreaseVersion with
                  Value := some (leEncode N
                    ((((leDecode e.Value.bytes : Int) - (leDecode arg.bytes : Int)) %
                      2 ^ (8 * N)).toNat)) },
          e.IncreaseVersion.Version,
          some [some (leEncode N
            ((((leDecode e.Value.bytes : Int) - (leDecode arg.bytes : Int)) %
              2 ^ (8 * N)).toNat))],
          none)) ∧
    (¬ (arg.len = N ∧ (N = 1 ∨ N = 2 ∨ N = 4 ∨ N = 8)) →
      ∃ err : Err,
        SEntry.Atomic e Add (some [arg]) = some (e, e.Version, some [none], some err) ∧
        SEntry.Atomic e Sub (some [arg]) = some (e, e.Version, some [none], some err)) := by
  have hlen : e.Value.bytes.length = N := hN
  constructor
  · rintro ⟨ha, hN4⟩
    have hla : arg.bytes.length = N := ha
    have h1 := atomicAdd_ok e.Value.bytes arg.bytes 1 N hN4 hlen hla
    have h2 := atomicAdd_ok e.Value.bytes arg.bytes (-1) N hN4 hlen hla
    rw [addSub_add] at h1
    rw [addSub_sub N _ _ hN4 (hlen ▸ leDecode_lt _) (hla ▸ leDecode_lt _)] at h2
    constructor
    · simp [SEntry.Atomic, Add, h1, SEntry.atomicDone]
    · simp [SEntry.Atomic, Add, Sub, h2, SEntry.atomicDone]
  · intro h
    by_cases hl : e.Value.bytes.length = arg.bytes.length
    · have hNN : ¬ (arg.bytes.length = 1 ∨ arg.bytes.length = 2 ∨ arg.bytes.length = 4 ∨
          arg.bytes.length = 8) := by
        intro h4
        apply h
        have : arg.len = N := by rw [← hlen, hl]; rfl
        refine ⟨this, ?_⟩
        rw [← hlen, hl]
        exact h4
      refine ⟨.invalidIntSize, ?_, ?_⟩
      · simp [SEntry.Atomic, Add, atomicAdd_size _ _ _ hl hNN, SEntry.atomicDone]
      · simp [SEntry.Atomic, Add, Sub, atomicAdd_size _ _ _ hl hNN, SEntry.atomicDone]
    · refine ⟨.typeMismatch, ?_, ?_⟩
      · simp [SEntry.Atomic, Add, atomicAdd_mismatch _ _ _ hl, SEntry.atomicDone]
      · simp [SEntry.Atomic, Add, Sub, atomicAdd_mismatch _ _ _ hl, SEntry.atomicDone]

/-- Witness for C8: the counter of eight zero bytes at version 1 and the
argument `[1, 0, 0, 0, 0, 0, 0, 0]`: `Add` gives `(2, [[1, 0, 0, 0, 0, 0, 0, 0]])`. -/
theorem Atomic_Add_Sub_spec_witness :
    SEntry.Atomic ⟨1, some [0, 0, 0, 0, 0, 0, 0, 0], .sentry⟩ Add
        (some [some [1, 0, 0, 0, 0, 0, 0, 0]]) =
      some (⟨2, some [1, 0, 0, 0, 0, 0, 0, 0], .sentry⟩, 2,
        some [some [1, 0, 0, 0, 0, 0, 0, 0]], none) :=
  ((Atomic_Add_Sub_spec ⟨1, some [0, 0, 0, 0, 0, 0, 0, 0], .sentry⟩
    (some [1, 0, 0, 0, 0, 0, 0, 0]) 8 rfl).1 ⟨rfl, by decide⟩).1


/-! ## `SEntry.Atomic`: `Remove` and `Replace` -/

theorem isPrefixOf_split (a s : List Byte) (h : a.isPrefixOf s = true) :
    s = a ++ s.drop a.length := by
  induction a generalizing s with
  | nil => simp
  | cons x a ih =>
    cases s with
    | nil => simp [List.isPrefixOf] at h
    | cons y s =>
      simp only [List.isPrefixOf, Bool.and_eq_true, beq_iff_eq] at h
      simp only [List.cons_append, List.length_cons, List.drop_succ_cons]
      rw [← ih s h.2, h.1]

theorem isPrefixOf_append (a t : List Byte) : a.isPrefixOf (a ++ t) = true := by
  induction a with
  | nil => simp [List.isPrefixOf]
  | cons x a ih => simp [List.isPrefixOf, ih]

theorem bytesIndex_nil (a : List Byte) (ha : a ≠ []) : bytesIndex [] a = none := by
  cases a with
  | nil => exact absurd rfl ha
  | cons x a => simp [bytesIndex, List.isPrefixOf]

theorem bytesIndex_cons (c : Byte) (s a : List Byte) (h : a.isPrefixOf (c :: s) = false) :
    bytesIndex (c :: s) a = (bytesIndex s a).map (· + 1) := by
  rw [bytesIndex, h]
  simp

theorem bytesIndex_hit (s a : List Byte) (h : a.isPrefixOf s = true) :
    bytesIndex s a = some 0 := by
  rw [bytesIndex.eq_def, h]
  simp

/-- Without an instance of `a`, nothing is replaced. -/
theorem replacedAll_of_index_none (a b s : List Byte) (h : bytesIndex s a = none) :
    ReplacedAll a b s s := by
  induction s with
  | nil => exact .done
  | cons c s ih =>
    cases hp : a.isPrefixOf (c :: s) with
    | true => rw [bytesIndex_hit _ _ hp] at h; exact absurd h (by simp)
    | false =>
      rw [bytesIndex_cons _ _ _ hp] at h
      refine .skip c s s hp (ih ?_)
      cases hi : bytesIndex s a with
      | none => rfl
      | some j => rw [hi] at h; exact absurd h (by simp)

/-- The first instance of `a` is replaced and the scan goes on behind it. -/
theorem replacedAll_of_index_some (a b s : List Byte) (j : Nat) (h : bytesIndex s a = some j)
    (r : List Byte) (hr : ReplacedAll a b (s.drop (j + a.length)) r) :
    ReplacedAll a b s (s.take j ++ b ++ r) := by
  induction s generalizing j with
  | nil =>
    cases hp : a.isPrefixOf [] with
    | true =>
      rw [bytesIndex_hit _ _ hp] at h
      have hj : j = 0 := by simpa using h.symm
      subst hj
      have := isPrefixOf_split a [] hp
      have ha : a = [] := by
        cases a with
        | nil => rfl
        | cons _ _ => simp at this
      subst ha
      simpa using ReplacedAll.hit (a := []) (b := b) _ _ hr
    | false =>
      rw [bytesIndex, hp] at h
      simp at h
  | cons c s ih =>
    cases hp : a.isPrefixOf (c :: s) with
    | true =>
      rw [bytesIndex_hit _ _ hp] at h
      have hj : j = 0 := by simpa using h.symm
      subst hj
      have hs := isPrefixOf_split a (c :: s) hp
      simp only [Nat.zero_add] at hr
      have := ReplacedAll.hit (a := a) (b := b) _ _ hr
      rw [← hs] at this
      simpa using this
    | false =>
      rw [bytesIndex_cons _ _ _ hp] at h
      cases hi : bytesIndex s a with
      | none => rw [hi] at h; simp at h
      | some j' =>
        rw [hi] at h
        have hj : j = j' + 1 := by simpa using h.symm
        subst hj
        have hr' : ReplacedAll a b (s.drop (j' + a.length)) r := by
          have e : j' + 1 + a.length = (j' + a.length) + 1 := by omega
          rw [e, List.drop_succ_cons] at hr
          exact hr
        have := ReplacedAll.skip c s _ hp (ih j' hi hr')
        simpa using this

theorem bytesIndex_lt (a s : List Byte) (j : Nat) (ha : a ≠ [])
    (h : bytesIndex s a = some j) : j + a.length ≤ s.length := by
  induction s generalizing j with
  | nil => rw [bytesIndex_nil a ha] at h; simp at h
  | cons c s ih =>
    cases hp : a.isPrefixOf (c :: s) with
    | true =>
      rw [bytesIndex_hit _ _ hp] at h
      have hj : j = 0 := by simpa using h.symm
      subst hj
      have hs := congrArg List.length (isPrefixOf_split a (c :: s) hp)
      simp only [List.length_append] at hs
      omega
    | false =>
      rw [bytesIndex_cons _ _ _ hp] at h
      cases hi : bytesIndex s a with
      | none => rw [hi] at h; simp at h
      | some j' =>
        rw [hi] at h
        have hj : j = j' + 1 := by simpa using h.symm
        subst hj
        have := ih j' hi
        simp only [List.length_cons]
        omega

/-- The loops of `bytes.Count` and `bytes.Replace` for a non-empty `old`: with
enough fuel for the count, the replace loop does not panic and returns `out`
followed by the rest of the slice with all instances replaced. -/
theorem bytesReplaceLoop_spec (a b : List Byte) (ha : a ≠ []) (fuel : Nat) (s out : List Byte)
    (first : Bool) (hf : s.length < fuel) :
    ∃ r, bytesReplaceLoop a b (bytesCountLoop fuel s a) first s out = some (out ++ r) ∧
      ReplacedAll a b s r := by
  have hal : a.length ≠ 0 := by
    cases a with
    | nil => exact absurd rfl ha
    | cons _ _ => simp
  induction fuel generalizing s out first with
  | zero => omega
  | succ f ih =>
    cases hi : bytesIndex s a with
    | none =>
      refine ⟨s, ?_, replacedAll_of_index_none a b s hi⟩
      simp [bytesCountLoop, hi, bytesReplaceLoop]
    | some j =>
      have hj := bytesIndex_lt a s j ha hi
      have hlen : (s.drop (j + a.length)).length < f := by
        simp only [List.length_drop]
        have : 0 < a.length := Nat.pos_of_ne_zero hal
        omega
      obtain ⟨r, h1, h2⟩ := ih (s.drop (j + a.length)) (out ++ s.take j ++ b) false hlen
      refine ⟨s.take j ++ b ++ r, ?_, replacedAll_of_index_some a b s j hi r h2⟩
      simp only [bytesCountLoop, hi, Nat.add_comm 1, bytesReplaceLoop, hal, if_false, h1]
      simp

/-- The call `bytes.Replace(s, old, new, -1)` for a non-empty `old` does not panic and
returns `s` with all instances of `old` replaced; the result is not nil unless
`s` is empty. -/
theorem bytesReplace_spec (s a b : List Byte) (ha : a ≠ []) :
    ∃ r : Blob, bytesReplace s a b = some r ∧ ReplacedAll a b s r.bytes ∧
      (s ≠ [] → r ≠ none) := by
  have hal : a.length ≠ 0 := by
    cases a with
    | nil => exact absurd rfl ha
    | cons _ _ => simp
  simp only [bytesReplace, bytesCount, hal, if_false]
  by_cases hm : bytesCountLoop (s.length + 1) s a = 0
  · have hi : bytesIndex s a = none := by
      cases hi : bytesIndex s a with
      | none => rfl
      | some j => simp [bytesCountLoop, hi] at hm
    simp only [hm, if_true]
    refine ⟨_, rfl, ?_, ?_⟩
    · have := replacedAll_of_index_none a b s hi
      cases s with
      | nil => simpa [Blob.bytes] using this
      | cons c s => simpa [Blob.bytes] using this
    · intro hs
      cases s with
      | nil => exact absurd rfl hs
      | cons c s => simp
  · obtain ⟨r, h1, h2⟩ := bytesReplaceLoop_spec a b ha (s.length + 1) s [] true (by omega)
    simp only [hm, if_false, h1, List.nil_append, Option.map_some']
    exact ⟨some r, rfl, h2, fun _ => by simp⟩

theorem occurs_nil (a : List Byte) (ha : a ≠ []) : ¬ Occurs a [] := by
  rintro ⟨s, t, h⟩
  have := congrArg List.length h
  simp only [List.length_nil, List.length_append] at this
  have : a.length = 0 := by omega
  exact ha (List.length_eq_zero.mp this)

theorem occurs_cons (a : List Byte) (c : Byte) (x : List Byte)
    (hp : a.isPrefixOf (c :: x) = false) : Occurs a (c :: x) ↔ Occurs a x := by
  constructor
  · rintro ⟨s, t, h⟩
    cases s with
    | nil =>
      rw [List.nil_append] at h
      rw [h, isPrefixOf_append] at hp
      exact absurd hp (by simp)
    | cons d s =>
      simp only [List.cons_append, List.cons.injEq] at h
      exact ⟨s, t, by rw [h.2]⟩
  · rintro ⟨s, t, h⟩
    exact ⟨c :: s, t, by rw [h]; simp⟩

/-- Deleting all matches of a non-empty `a`: the result is shorter exactly when
`a` occurs, and it is the value itself when `a` does not occur. -/
theorem replacedAll_delete (a x r : List Byte) (ha : a ≠ []) (h : ReplacedAll a [] x r) :
    (Occurs a x → r.length < x.length) ∧ (¬ Occurs a x → r = x) := by
  have hal : 0 < a.length := by
    cases a with
    | nil => exact absurd rfl ha
    | cons _ _ => simp
  induction h with
  | done => exact ⟨fun h => absurd h (occurs_nil a ha), fun _ => rfl⟩
  | hit x r _ ih =>
    have hle : r.length ≤ x.length := by
      by_cases ho : Occurs a x
      · exact Nat.le_of_lt (ih.1 ho)
      · rw [ih.2 ho]
    refine ⟨fun _ => ?_, fun hn => absurd ⟨[], x, by simp⟩ hn⟩
    simp only [List.nil_append, List.length_append]
    omega
  | skip c x r hp _ ih =>
    rw [occurs_cons a c x hp]
    refine ⟨fun ho => ?_, fun hn => ?_⟩
    · simp only [List.length_cons]
      have := ih.1 ho
      omega
    · rw [ih.2 hn]

theorem replacedAll_inv (a b y r : List Byte) (h : ReplacedAll a b y r) :
    (y = [] ∧ r = []) ∨
    (∃ x r1, y = a ++ x ∧ r = b ++ r1 ∧ ReplacedAll a b x r1) ∨
    (∃ c x r1, y = c :: x ∧ r = c :: r1 ∧ a.isPrefixOf (c :: x) = false ∧
      ReplacedAll a b x r1) := by
  cases h with
  | done => exact Or.inl ⟨rfl, rfl⟩
  | hit x r1 h1 => exact Or.inr (Or.inl ⟨x, r1, rfl, rfl, h1⟩)
  | skip c x r1 hp h1 => exact Or.inr (Or.inr ⟨c, x, r1, rfl, rfl, hp, h1⟩)

/-- For a non-empty `a` the relation `ReplacedAll a b` determines its result. -/
theorem replacedAll_unique (a b : List Byte) (ha : a ≠ []) (n : Nat) :
    ∀ y r1 r2, y.length ≤ n → ReplacedAll a b y r1 → ReplacedAll a b y r2 → r1 = r2 := by
  have hal : 0 < a.length := by
    cases a with
    | nil => exact absurd rfl ha
    | cons _ _ => simp
  induction n with
  | zero =>
    intro y r1 r2 hn h1 h2
    have hy : y = [] := List.length_eq_zero.mp (by omega)
    subst hy
    have key : ∀ r, ReplacedAll a b [] r → r = [] := by
      intro r h
      rcases replacedAll_inv a b [] r h with ⟨-, hr⟩ | ⟨x, r', hy, -, -⟩ | ⟨c, x, r', hy, -⟩
      · exact hr
      · have := congrArg List.length hy
        simp only [List.length_nil, List.length_append] at this
        omega
      · simp at hy
    rw [key r1 h1, key r2 h2]
  | succ n ih =>
    intro y r1 r2 hn h1 h2
    rcases replacedAll_inv a b y r1 h1 with ⟨hy, hr⟩ | ⟨x, r', hy, hr, h'⟩ |
      ⟨c, x, r', hy, hr, hp, h'⟩
    · subst hy
      rcases replacedAll_inv a b [] r2 h2 with ⟨-, hr2⟩ | ⟨x, r', hy, -, -⟩ | ⟨c, x, r', hy, -⟩
      · rw [hr, hr2]
      · have := congrArg List.length hy
        simp only [List.length_nil, List.length_append] at this
        omega
      · simp at hy
    · rcases replacedAll_inv a b y r2 h2 with ⟨hy2, -⟩ | ⟨x2, r2', hy2, hr2, h2'⟩ |
        ⟨c, x2, r2', hy2, -, hp, -⟩
      · rw [hy2] at hy
        have := congrArg List.length hy
        simp only [List.length_nil, List.length_append] at this
        omega
      · have hx : x = x2 := List.append_cancel_left (hy.symm.trans hy2)
        subst hx
        have hlen : x.length ≤ n := by
          have := congrArg List.length hy
          simp only [List.length_append] at this
          omega
        rw [hr, hr2, ih x r' r2' hlen h' h2']
      · rw [← hy2, hy, isPrefixOf_append] at hp
        exact absurd hp (by simp)
    · rcases replacedAll_inv a b y r2 h2 with ⟨hy2, -⟩ | ⟨x2, r2', hy2, -, -⟩ |
        ⟨c2, x2, r2', hy2, hr2, -, h2'⟩
      · rw [hy2] at hy; simp at hy
      · rw [← hy, hy2, isPrefixOf_append] at hp
        exact absurd hp (by simp)
      · have h12 := hy.symm.trans hy2
        simp only [List.cons.injEq] at h12
        obtain ⟨hc, hx⟩ := h12
        subst hc hx
        have hlen : x.length ≤ n := by
          rw [hy] at hn
          simp only [List.length_cons] at hn
          omega
        rw [hr, hr2, ih x r' r2' hlen h' h2']

/-- What `SEntry.Atomic` does for `Replace [a, b]` with a non-empty `a`: it
returns the value `r` with all matches replaced, and stores it (advancing the
version) exactly when the length of `r` differs from the length of the value. -/
theorem Atomic_Replace_by_length (e : Entry) (a b : Blob) (ha : a.bytes ≠ []) :
    ∃ r : Blob, ReplacedAll a.bytes b.bytes e.Value.bytes r.bytes ∧
      (r.len = e.Value.len →
        SEntry.Atomic e Replace (some [a, b]) = some (e, e.Version, some [r], none)) ∧
      (r.len ≠ e.Value.len →
        SEntry.Atomic e Replace (some [a, b]) =
          some ({ e.IncreaseVersion with Value := r }, e.IncreaseVersion.Version,
            some [r], none)) := by
  obtain ⟨r, hr, hrep, hnn⟩ := bytesReplace_spec e.Value.bytes a.bytes b.bytes ha
  refine ⟨r, hrep, fun hl => ?_, fun hl => ?_⟩
  · have hlen : r.len = e.Value.bytes.length := hl
    simp [SEntry.Atomic, Replace, Remove, Add, Sub, BitSet, BitClear, Append, hr, hlen,
      SEntry.atomicDone]
  · have hlen : r.len ≠ e.Value.bytes.length := hl
    cases r with
    | none =>
      have hx : e.Value.bytes ≠ [] := by
        intro h
        apply hlen
        rw [h]
        rfl
      exact absurd rfl (hnn hx)
    | some r' =>
      simp [SEntry.Atomic, Replace, Remove, Add, Sub, BitSet, BitClear, Append, hr, hlen,
        SEntry.atomicDone]

/-- C9 (code evaluated at the failing input). On the entry ("a" at version 1)
Atomic `Replace ["a", "b"]` returns the single value "b", but the entry still
holds "a" at version 1: a replacement that keeps the length is returned and not
stored, because the value is stored only when `len(ret) != len(oldval)`. -/
theorem Atomic_Replace_same_length_not_stored :
    SEntry.Atomic ⟨1, some [97], .sentry⟩ Replace (some [some [97], some [98]]) =
      some (⟨1, some [97], .sentry⟩, 1, some [some [98]], none) := by
  rfl

/-- C10. For a client entry `e` with value `x` and a non-empty buffer `a`,
Atomic `Remove [a]` returns exactly one value `r`, equal to `x` with all
non-overlapping matches of `a` deleted (`ReplacedAll`, which determines `r`); if
`a` does not occur in `x`, the entry
(value and version) is unchanged and the returned `r` is the unchanged value;
otherwise `r` is stored as the entry's value and the version advances once
(`IncreaseVersion`). -/
theorem Atomic_Remove_spec (e : Entry) (arg : Blob) (ha : arg.bytes ≠ []) :
    ∃ r : Blob, ReplacedAll arg.bytes [] e.Value.bytes r.bytes ∧
      (∀ r1, ReplacedAll arg.bytes [] e.Value.bytes r1 → r1 = r.bytes) ∧
      (¬ Occurs arg.bytes e.Value.bytes →
        r.bytes = e.Value.bytes ∧
        SEntry.Atomic e Remove (some [arg]) = some (e, e.Version, some [r], none)) ∧
      (Occurs arg.bytes e.Value.bytes →
        SEntry.Atomic e Remove (some [arg]) =
          some ({ e.IncreaseVersion with Value := r }, e.IncreaseVersion.Version,
            some [r], none)) := by
  obtain ⟨r, hr, hrep, hnn⟩ := bytesReplace_spec e.Value.bytes arg.bytes [] ha
  have hd := replacedAll_delete _ _ _ ha hrep
  refine ⟨r, hrep, fun r1 h1 => replacedAll_unique _ _ ha _ _ _ _ (Nat.le_refl _) h1 hrep,
    fun ho => ?_, fun ho => ?_⟩
  · have hb := hd.2 ho
    refine ⟨hb, ?_⟩
    have hlen : r.len = e.Value.bytes.length := by
      show r.bytes.length = _
      rw [hb]
    simp [SEntry.Atomic, Remove, Add, Sub, BitSet, BitClear, Append, hr, hlen,
      SEntry.atomicDone]
  · have hlt := hd.1 ho
    have hlen : r.len ≠ e.Value.bytes.length := by
      show r.bytes.length ≠ _
      omega
    have hx : e.Value.bytes ≠ [] := by
      intro h
      rw [h] at hlt
      simp at hlt
    cases r with
    | none => exact absurd rfl (hnn hx)
    | some r' =>
      simp [SEntry.Atomic, Remove, Add, Sub, BitSet, BitClear, Append, hr, hlen,
        SEntry.atomicDone]

/-- Witness for C10: the entry ("abcabc" at version 1) and the buffer "bc". -/
theorem Atomic_Remove_spec_witness :
    ∃ r : Blob, ReplacedAll [98, 99] [] [97, 98, 99, 97, 98, 99] r.bytes ∧
      (∀ r1, ReplacedAll [98, 99] [] [97, 98, 99, 97, 98, 99] r1 → r1 = r.bytes) ∧
      (¬ Occurs [98, 99] [97, 98, 99, 97, 98, 99] →
        r.bytes = [97, 98, 99, 97, 98, 99] ∧
        SEntry.Atomic ⟨1, some [97, 98, 99, 97, 98, 99], .sentry⟩ Remove (some [some [98, 99]]) =
          some (⟨1, some [97, 98, 99, 97, 98, 99], .sentry⟩, 1, some [r], none)) ∧
      (Occurs [98, 99] [97, 98, 99, 97, 98, 99] →
        SEntry.Atomic ⟨1, some [97, 98, 99, 97, 98, 99], .sentry⟩ Remove (some [some [98, 99]]) =
          some (⟨2, r, .sentry⟩, 2, some [r], none)) :=
  Atomic_Remove_spec ⟨1, some [97, 98, 99, 97, 98, 99], .sentry⟩ (some [98, 99]) (by decide)

/-! ## Atomic BitSet / BitClear without an argument -/

theorem and_two_pow_eq_zero (x k : Nat) : x &&& 2 ^ k = 0 ↔ x.testBit k = false := by
  rw [Nat.and_two_pow]
  cases h : x.testBit k <;> simp [Nat.pos_pow_of_pos]

/-- The loop of `atomicBitSet` over the bits of a byte finds its lowest zero
bit `j`: it sets the bit and adds `j` to `bitnum`. -/
theorem bitSetLoop_found (x bn j : Nat) (hj : j < 8) (hclear : x.testBit j = false) :
    ∀ (d k fuel : Nat), k + d = j → (∀ t, k ≤ t → t < j → x.testBit t = true) → d < fuel →
      bitSetLoop fuel x (2 ^ k) k bn = (x ||| 2 ^ j, (bn + j % 2 ^ 32) % 2 ^ 32) := by
  intro d
  induction d with
  | zero =>
    intro k fuel hk _ hf
    have hkj : k = j := by omega
    subst hkj
    cases fuel with
    | zero => omega
    | succ fuel =>
      have hb : (2 : Nat) ^ k ≠ 0 := by positivity
      simp [bitSetLoop, hb, (and_two_pow_eq_zero x k).mpr hclear]
  | succ d ih =>
    intro k fuel hk hset hf
    cases fuel with
    | zero => omega
    | succ fuel =>
      have hb : (2 : Nat) ^ k ≠ 0 := by positivity
      have hk1 : x &&& 2 ^ k ≠ 0 := by
        rw [Ne, and_two_pow_eq_zero, hset k (Nat.le_refl _) (by omega)]
        simp
      have hsh : (2 ^ k <<< 1) % 2 ^ 8 = 2 ^ (k + 1) := by
        rw [Nat.shiftLeft_eq, ← Nat.pow_succ]
        exact Nat.mod_eq_of_lt (Nat.pow_lt_pow_right (by omega) (by omega))
      simp only [bitSetLoop, hb, hk1, if_false, hsh]
      exact ih (k + 1) fuel (by omega) (fun t h1 h2 => hset t (by omega) h2) (by omega)

theorem firstNot_spec (skip : Byte) (l : List Byte) :
    ∀ (i m : Nat), m < l.length → (∀ t < m, l.getD t 0 = skip) → l.getD m 0 ≠ skip →
      firstNot skip l i = i + m := by
  induction l with
  | nil => intro i m hm; simp at hm
  | cons b bs ih =>
    intro i m hm hpre hne
    cases m with
    | zero =>
      have : b ≠ skip := by simpa using hne
      simp [firstNot, this]
    | succ m =>
      have hb : b = skip := by simpa using hpre 0 (by omega)
      simp only [firstNot, hb, ne_eq, not_true_eq_false, if_false]
      rw [ih (i + 1) m (by simpa using hm)
        (fun t ht => by simpa using hpre (t + 1) (by omega)) (by simpa using hne)]
      omega

theorem firstNot_all (skip : Byte) (l : List Byte) :
    ∀ i : Nat, (∀ t < l.length, l.getD t 0 = skip) → firstNot skip l i = i + l.length := by
  induction l with
  | nil => intro i _; rfl
  | cons b bs ih =>
    intro i hpre
    have hb : b = skip := by simpa using hpre 0 (by simp)
    simp only [firstNot, hb, ne_eq, not_true_eq_false, if_false]
    rw [ih (i + 1) (fun t ht => by simpa using hpre (t + 1) (by simpa using ht))]
    simp only [List.length_cons]
    omega

theorem byte_all_ones (b : Byte) (h : ∀ t < 8, b.val.testBit t = true) : b = 255 := by
  apply Fin.ext
  apply Nat.eq_of_testBit_eq
  intro i
  by_cases hi : i < 8
  · rw [h i hi]
    have : ∀ t : Fin 8, (255 : Nat).testBit t.val = true := by decide
    exact (this ⟨i, hi⟩).symm
  · have hi8 : 8 ≤ i := by omega
    have hle : 2 ^ 8 ≤ 2 ^ i := Nat.pow_le_pow_right (by decide) hi8
    have hb := b.isLt
    have h1 : b.val < 2 ^ i := by omega
    have h2 : (255 : Nat) < 2 ^ i := by omega
    show b.val.testBit i = (255 : Nat).testBit i
    rw [Nat.testBit_lt_two_pow h1, Nat.testBit_lt_two_pow h2]

theorem byte_not_all_ones (b : Byte) (t : Nat) (ht : t < 8) (h : b.val.testBit t = false) :
    b ≠ 255 := by
  intro hb
  subst hb
  have : ∀ t : Fin 8, (255 : Nat).testBit t.val = true := by decide
  have h1 := this ⟨t, ht⟩
  simp only at h1
  have h2 : ((255 : Byte).val).testBit t = true := h1
  rw [h] at h2
  exact absurd h2 (by simp)

/-- Go `atomicBitSet` without an argument on a value `x` whose lowest zero bit
is bit `j`: the new value is `x` with `2^(j mod 8)` or-ed into byte `j / 8`, and
the second value returned is `j` in four bytes. -/
theorem atomicBitSet_first_zero (x : List Byte) (j : Nat) (hj : j < 8 * x.length)
    (h32 : 8 * x.length ≤ 2 ^ 32) (h0 : bitAt x j = false) (hmin : ∀ t < j, bitAt x t = true) :
    atomicBitSet x none =
      some (some (x.set (j / 8) (byte ((x.getD (j / 8) 0).val ||| 2 ^ (j % 8)))),
        some [some (x.set (j / 8) (byte ((x.getD (j / 8) 0).val ||| 2 ^ (j % 8)))),
          some (leEncode 4 j)], none) := by
  have hi0 : j / 8 < x.length := by omega
  have hk : j % 8 < 8 := Nat.mod_lt _ (by omega)
  have hfirst : firstNot 255 x 0 = 0 + j / 8 := by
    refine firstNot_spec 255 x 0 (j / 8) hi0 ?_ ?_
    · intro t ht
      refine byte_all_ones _ (fun s hs => ?_)
      have h1 := hmin (8 * t + s) (by omega)
      have h2 : (8 * t + s) / 8 = t := by omega
      have h3 : (8 * t + s) % 8 = s := by omega
      simpa [bitAt, h2, h3] using h1
    · exact byte_not_all_ones _ (j % 8) hk h0
  have hloop := bitSetLoop_found (x.getD (j / 8) 0).val ((j / 8 * 8) % 2 ^ 32) (j % 8) hk h0
    (j % 8) 0 9 (by omega)
    (fun t _ ht => by
      have h1 := hmin (8 * (j / 8) + t) (by omega)
      have h2 : (8 * (j / 8) + t) / 8 = j / 8 := by omega
      have h3 : (8 * (j / 8) + t) % 8 = t := by omega
      simpa [bitAt, h2, h3] using h1)
    (by omega)
  have hbit : ((j / 8 * 8) % 2 ^ 32 + j % 8 % 2 ^ 32) % 2 ^ 32 = j := by
    have hj32 : j < 2 ^ 32 := by omega
    have h1 : j / 8 * 8 + j % 8 = j := by omega
    have h2 : j / 8 * 8 < 2 ^ 32 := by omega
    have h3 : j % 8 < 2 ^ 32 := by omega
    rw [Nat.mod_eq_of_lt h2, Nat.mod_eq_of_lt h3, h1, Nat.mod_eq_of_lt hj32]
  rw [hbit] at hloop
  have hw : written (Pint32 j ⟨[], List.replicate 4 0⟩) = some (some (leEncode 4 j)) := by
    rw [Pint32_eq]
    exact written_put _ 4 (leEncode_length 4 j)
  unfold atomicBitSet
  simp only
  have hff : (0xff : Byte) = 255 := rfl
  rw [hff, hfirst, Nat.zero_add, if_neg (by omega)]
  simp only [pow_zero] at hloop
  rw [hloop]
  simp only [hw]

theorem byte_all_zeros (b : Byte) (h : ∀ t < 8, b.val.testBit t = false) : b = 0 := by
  apply Fin.ext
  apply Nat.eq_of_testBit_eq
  intro i
  show b.val.testBit i = (0 : Nat).testBit i
  rw [Nat.zero_testBit]
  by_cases hi : i < 8
  · exact h i hi
  · have hi8 : 8 ≤ i := by omega
    have hle : 2 ^ 8 ≤ 2 ^ i := Nat.pow_le_pow_right (by decide) hi8
    have hb := b.isLt
    exact Nat.testBit_lt_two_pow (by omega)

/-- The bits of the value that `atomicBitSet` stores: bit `j` is set and the
other bits are those of `x`. -/
theorem bitAt_set (x : List Byte) (j : Nat) (hj : j / 8 < x.length) (t : Nat) :
    bitAt (x.set (j / 8) (byte ((x.getD (j / 8) 0).val ||| 2 ^ (j % 8)))) t =
      (decide (t = j) || bitAt x t) := by
  have hk : j % 8 < 8 := Nat.mod_lt _ (by omega)
  have hv : (x.getD (j / 8) 0).val ||| 2 ^ (j % 8) < 2 ^ 8 :=
    Nat.or_lt_two_pow (x.getD (j / 8) 0).isLt (Nat.pow_lt_pow_right (by omega) hk)
  have hbyte : (byte ((x.getD (j / 8) 0).val ||| 2 ^ (j % 8))).val =
      (x.getD (j / 8) 0).val ||| 2 ^ (j % 8) := by
    rw [byte_val]
    exact Nat.mod_eq_of_lt hv
  simp only [bitAt, List.getD_eq_getElem?_getD, List.getElem?_set]
  by_cases ht : j / 8 = t / 8
  · simp only [ht, if_true]
    rw [← ht, if_pos hj]
    simp only [Option.getD_some]
    rw [← List.getD_eq_getElem?_getD, hbyte, Nat.testBit_or, Nat.testBit_two_pow]
    have hd : decide (j % 8 = t % 8) = decide (t = j) := by
      by_cases h1 : t = j
      · simp [h1]
      · have : j % 8 ≠ t % 8 := by omega
        simp [h1, this]
    rw [hd, Bool.or_comm]
  · simp only [ht, if_false]
    have h1 : t ≠ j := by
      intro h
      exact ht (by rw [h])
    simp [h1]

/-- C11. Atomic BitSet and BitClear without an argument on a client entry with
value `x` of fewer than `2^29` bytes. BitSet: when bit `j` is the lowest zero
bit of `x`, the call stores `x` with bit `j` set and the other bits unchanged,
advances the version once (`IncreaseVersion`) and returns the new value and `j`
in four bytes, little-endian; without a zero bit it returns an error and leaves
the entry alone. BitClear: without a one bit it returns an error and leaves the
entry alone; but on the value `[0x02]`, whose lowest one bit is bit 1, it stores
the value unchanged, advances the version and returns the bit index 0. -/
theorem Atomic_BitSet_BitClear_no_argument (e : Entry) :
    (∀ j, j < 8 * e.Value.bytes.length → 8 * e.Value.bytes.length ≤ 2 ^ 32 →
      bitAt e.Value.bytes j = false → (∀ t < j, bitAt e.Value.bytes t = true) →
      ∃ x1 : List Byte,
        SEntry.Atomic e BitSet none =
          some ({ e.IncreaseVersion with Value := some x1 }, e.IncreaseVersion.Version,
            some [some x1, some (leEncode 4 j)], none) ∧
        x1.length = e.Value.bytes.length ∧
        ∀ t, bitAt x1 t = (decide (t = j) || bitAt e.Value.bytes t)) ∧
    ((∀ t < 8 * e.Value.bytes.length, bitAt e.Value.bytes t = true) →
      SEntry.Atomic e BitSet none = some (e, e.Version, none, some .allBitsSet)) ∧
    ((∀ t < 8 * e.Value.bytes.length, bitAt e.Value.bytes t = false) →
      SEntry.Atomic e BitClear none = some (e, e.Version, none, some .allBitsCleared)) ∧
    SEntry.Atomic ⟨1, some [2], .sentry⟩ BitClear none =
      some (⟨2, some [2], .sentry⟩, 2, some [some [2], some [0, 0, 0, 0]], none) := by
  refine ⟨?_, ?_, ?_, rfl⟩
  · intro j hj h32 h0 hmin
    refine ⟨_, ?_, ?_, bitAt_set e.Value.bytes j (by omega)⟩
    · simp [SEntry.Atomic, BitSet, Add, Sub, atomicBitSet_first_zero _ j hj h32 h0 hmin,
        SEntry.atomicDone]
    · simp
  · intro hall
    have hfirst : firstNot 255 e.Value.bytes 0 = 0 + e.Value.bytes.length := by
      refine firstNot_all 255 _ 0 (fun t ht => byte_all_ones _ (fun s hs => ?_))
      have h1 := hall (8 * t + s) (by omega)
      have h2 : (8 * t + s) / 8 = t := by omega
      have h3 : (8 * t + s) % 8 = s := by omega
      simpa [bitAt, h2, h3] using h1
    have hff : (0xff : Byte) = 255 := rfl
    simp [SEntry.Atomic, BitSet, Add, Sub, atomicBitSet, hff, hfirst, SEntry.atomicDone]
  · intro hall
    have hfirst : firstNot 0 e.Value.bytes 0 = 0 + e.Value.bytes.length := by
      refine firstNot_all 0 _ 0 (fun t ht => byte_all_zeros _ (fun s hs => ?_))
      have h1 := hall (8 * t + s) (by omega)
      have h2 : (8 * t + s) / 8 = t := by omega
      have h3 : (8 * t + s) % 8 = s := by omega
      simpa [bitAt, h2, h3] using h1
    simp [SEntry.Atomic, BitSet, BitClear, Add, Sub, atomicBitClear, hfirst, SEntry.atomicDone]

/-- Witness for C11: BitSet on the value `[0xff, 0xfb]` at version 1, whose
lowest zero bit is bit 10. -/
theorem Atomic_BitSet_BitClear_no_argument_witness :
    ∃ x1 : List Byte,
      SEntry.Atomic ⟨1, some [255, 251], .sentry⟩ BitSet none =
        some (⟨2, some x1, .sentry⟩, 2, some [some x1, some (leEncode 4 10)], none) ∧
      x1.length = 2 ∧
      ∀ t, bitAt x1 t = (decide (t = 10) || bitAt [255, 251] t) :=
  (Atomic_BitSet_BitClear_no_argument ⟨1, some [255, 251], .sentry⟩).1 10 (by decide)
    (by decide) (by decide) (by decide)

/-! ## Atomic Append followed by Atomic Remove -/

/-- With an empty `old` and an empty `new` the replace loop copies its input. -/
theorem bytesReplaceLoop_empty (n : Nat) (first : Bool) (rest out : List Byte) :
    bytesReplaceLoop [] [] n first rest out = some (out ++ rest) := by
  induction n generalizing first rest out with
  | zero => rfl
  | succ n ih =>
    cases first <;>
      simp [bytesReplaceLoop, ih, List.append_assoc, List.take_append_drop]

theorem bytesReplace_empty (s : List Byte) :
    ∃ r : Blob, bytesReplace s [] [] = some r ∧ r.bytes = s := by
  unfold bytesReplace
  have hm : bytesCount s [] ≠ 0 := by simp [bytesCount]
  simp only [hm, if_false, bytesReplaceLoop_empty]
  exact ⟨some s, rfl, rfl⟩

/-- When `a` starts nowhere in `x ++ a` but at the end, deleting the matches of
`a` from `x ++ a` gives `x`. -/
theorem replacedAll_suffix (a x : List Byte)
    (h : ∀ s t, x ++ a = s ++ a ++ t → s = x) : ReplacedAll a [] (x ++ a) x := by
  induction x with
  | nil =>
    have := ReplacedAll.hit (a := a) (b := []) [] [] ReplacedAll.done
    simpa using this
  | cons c x ih =>
    have hp : a.isPrefixOf (c :: (x ++ a)) = false := by
      cases hpre : a.isPrefixOf (c :: (x ++ a)) with
      | false => rfl
      | true =>
        have ht := isPrefixOf_split a _ hpre
        have := h [] _ (by simpa using ht)
        simp at this
    refine ReplacedAll.skip c _ _ hp (ih ?_)
    intro s t hst
    have := h (c :: s) t (by simp [hst])
    simpa using this

/-- The entry after Atomic `Remove [a]` on an entry holding `y`, in terms of the
result `r` of `bytes.Replace`. -/
theorem Atomic_Remove_eq (e : Entry) (a r : Blob)
    (hr : bytesReplace e.Value.bytes a.bytes [] = some r) :
    SEntry.Atomic e Remove (some [a]) =
      some (SEntry.atomicDone e (if r.len ≠ e.Value.bytes.length then r else none)
        (some [r]) none) := by
  simp [SEntry.Atomic, Remove, Add, Sub, BitSet, BitClear, Append, hr]

theorem Atomic_Append_eq (e : Entry) (a : Blob) :
    SEntry.Atomic e Append (some [a]) =
      some ({ e.IncreaseVersion with Value := some (e.Value.bytes ++ a.bytes) },
        e.IncreaseVersion.Version, some [some (e.Value.bytes ++ a.bytes)], none) := by
  simp [SEntry.Atomic, Append, Add, Sub, BitSet, BitClear, SEntry.atomicDone]

/-- Atomic `Remove [a]` succeeds; it leaves the value alone for an empty `a`,
and for a non-empty `a` that occurs in the value `y` it stores `y` with the
matches of `a` deleted. -/
theorem Atomic_Remove_value (e : Entry) (a : Blob) :
    ∃ e2 v2 r2, SEntry.Atomic e Remove (some [a]) = some (e2, v2, r2, none) ∧
      (a.bytes = [] → e2.Value.bytes = e.Value.bytes) ∧
      (a.bytes ≠ [] → Occurs a.bytes e.Value.bytes →
        ReplacedAll a.bytes [] e.Value.bytes e2.Value.bytes) := by
  by_cases ha : a.bytes = []
  · obtain ⟨r, hr, hb⟩ := bytesReplace_empty e.Value.bytes
    have hr : bytesReplace e.Value.bytes a.bytes [] = some r := by rw [ha]; exact hr
    have hlen : r.len = e.Value.bytes.length := by
      show r.bytes.length = _
      rw [hb]
    refine ⟨e, e.Version, some [r], ?_, fun _ => rfl, fun h => absurd ha h⟩
    rw [Atomic_Remove_eq e a r hr]
    simp [hlen, SEntry.atomicDone]
  · obtain ⟨r, hr, hrep, hnn⟩ := bytesReplace_spec e.Value.bytes a.bytes [] ha
    have hd := replacedAll_delete _ _ _ ha hrep
    by_cases ho : Occurs a.bytes e.Value.bytes
    · have hlt := hd.1 ho
      have hlen : r.len ≠ e.Value.bytes.length := by
        show r.bytes.length ≠ _
        omega
      refine ⟨{ e.IncreaseVersion with Value := r }, e.IncreaseVersion.Version, some [r],
        ?_, fun h => absurd h ha, fun _ _ => hrep⟩
      have hx : e.Value.bytes ≠ [] := by
        intro h
        rw [h] at hlt
        simp at hlt
      rw [Atomic_Remove_eq e a r hr]
      cases r with
      | none => exact absurd rfl (hnn hx)
      | some r1 => simp [hlen, SEntry.atomicDone]
    · have hlen : r.len = e.Value.bytes.length := by
        show r.bytes.length = _
        rw [hd.2 ho]
      refine ⟨e, e.Version, some [r], ?_, fun h => absurd h ha, fun _ h => absurd h ho⟩
      rw [Atomic_Remove_eq e a r hr]
      simp [hlen, SEntry.atomicDone]

/-- C12. Atomic `Append [a]` followed by Atomic `Remove [a]` on a client entry
with value `x`: both calls succeed; the value is `x` again when `a` starts
nowhere in `x ++ a` but at the end, and whenever `a` is empty; for a non-empty
`a` the value is `x` again exactly when deleting the non-overlapping matches of
`a`, scanned left to right, from `x ++ a` gives `x`. -/
theorem Append_then_Remove (e : Entry) (a : Blob) :
    ∃ e1 v1 r1 e2 v2 r2,
      SEntry.Atomic e Append (some [a]) = some (e1, v1, r1, none) ∧
      SEntry.Atomic e1 Remove (some [a]) = some (e2, v2, r2, none) ∧
      ((∀ s t, e.Value.bytes ++ a.bytes = s ++ a.bytes ++ t → s = e.Value.bytes) →
        e2.Value.bytes = e.Value.bytes) ∧
      (a.bytes = [] → e2.Value.bytes = e.Value.bytes) ∧
      (a.bytes ≠ [] → (e2.Value.bytes = e.Value.bytes ↔
        ReplacedAll a.bytes [] (e.Value.bytes ++ a.bytes) e.Value.bytes)) := by
  obtain ⟨e2, v2, r2, h2, hempty, hrep⟩ := Atomic_Remove_value
    { e.IncreaseVersion with Value := some (e.Value.bytes ++ a.bytes) } a
  have hval : ({ e.IncreaseVersion with Value := some (e.Value.bytes ++ a.bytes) } :
      Entry).Value.bytes = e.Value.bytes ++ a.bytes := rfl
  rw [hval] at hempty hrep
  have hocc : Occurs a.bytes (e.Value.bytes ++ a.bytes) := ⟨e.Value.bytes, [], by simp⟩
  have hiff : a.bytes ≠ [] → (e2.Value.bytes = e.Value.bytes ↔
      ReplacedAll a.bytes [] (e.Value.bytes ++ a.bytes) e.Value.bytes) := by
    intro ha
    have h := hrep ha hocc
    constructor
    · intro heq
      rw [heq] at h
      exact h
    · intro hx
      exact replacedAll_unique _ _ ha _ _ _ _ (Nat.le_refl _) h hx
  have hnil : a.bytes = [] → e2.Value.bytes = e.Value.bytes := by
    intro ha
    rw [hempty ha, ha, List.append_nil]
  refine ⟨_, _, _, e2, v2, r2, Atomic_Append_eq e a, h2, ?_, hnil, hiff⟩
  intro hsuf
  by_cases ha : a.bytes = []
  · exact hnil ha
  · exact (hiff ha).mpr (replacedAll_suffix _ _ hsuf)

/-- Counterexample for C12 as stated: with the value "a" and the buffer "aa",
Append then Remove gives the value "a" back although "aa" also starts at
position 0 of the appended value "aaa", overlapping the appended suffix. -/
theorem Append_then_Remove_counterexample :
    SEntry.Atomic ⟨1, some [97], .sentry⟩ Append (some [some [97, 97]]) =
      some (⟨2, some [97, 97, 97], .sentry⟩, 2, some [some [97, 97, 97]], none) ∧
    SEntry.Atomic ⟨2, some [97, 97, 97], .sentry⟩ Remove (some [some [97, 97]]) =
      some (⟨3, some [97], .sentry⟩, 3, some [some [97]], none) ∧
    ([97] ++ [97, 97] : List Byte) = [] ++ [97, 97] ++ [97] ∧ ([] : List Byte) ≠ [97] := by
  refine ⟨rfl, rfl, by decide, by decide⟩

/-! ## The versions of `#/keys` and `#/keynum` -/

/-- C13. For a key `k` outside `#/` without a live entry: `Remove(k)` fails with
`Enoent` and yet advances the versions of `#/keys` and `#/keynum`
(`keysModified`); `Create(k, _, v)` succeeds and advances both versions once
(`IncreaseVersion`); the following `Remove(k)` succeeds and leaves both
versions as they are. -/
theorem Create_bumps_key_versions_Remove_does_not (s : SHop) (k flags v : List Byte)
    (hk : hasPrefix k (str "#/") = false) (hl : s.live k = false) :
    s.Remove k = (s.keysModified, some .Enoent) ∧
    (s.Create k flags (some v)).2 = (Lowest, none) ∧
    (s.Create k flags (some v)).1.keysEntry = s.keysEntry.IncreaseVersion ∧
    (s.Create k flags (some v)).1.keynumEntry = s.keynumEntry.IncreaseVersion ∧
    ((s.Create k flags (some v)).1.Remove k).2 = none ∧
    ((s.Create k flags (some v)).1.Remove k).1.keysEntry =
      (s.Create k flags (some v)).1.keysEntry ∧
    ((s.Create k flags (some v)).1.Remove k).1.keynumEntry =
      (s.Create k flags (some v)).1.keynumEntry := by
  rw [Create_fresh s k flags v hk hl]
  refine ⟨?_, rfl, rfl, rfl, ?_⟩
  · unfold SHop.live at hl
    cases hlk : lookup k s.entries with
    | none => simp [SHop.Remove, SHop.RemoveEntry, hlk]
    | some r =>
      rw [hlk] at hl
      have hl : (s.deref r).Version = 0 := by simpa using hl
      simp [SHop.Remove, SHop.RemoveEntry, hlk, hl]
  · simp [SHop.Remove, SHop.RemoveEntry, lookup_insert, SHop.deref, Lowest]

/-- Witness for C13: the key "a" in a new store. -/
theorem Create_bumps_key_versions_Remove_does_not_witness :
    NewSHop.Remove (str "a") = (NewSHop.keysModified, some .Enoent) ∧
    (NewSHop.Create (str "a") [] (some (str "1"))).2 = (Lowest, none) ∧
    (NewSHop.Create (str "a") [] (some (str "1"))).1.keysEntry =
      NewSHop.keysEntry.IncreaseVersion ∧
    (NewSHop.Create (str "a") [] (some (str "1"))).1.keynumEntry =
      NewSHop.keynumEntry.IncreaseVersion ∧
    ((NewSHop.Create (str "a") [] (some (str "1"))).1.Remove (str "a")).2 = none ∧
    ((NewSHop.Create (str "a") [] (some (str "1"))).1.Remove (str "a")).1.keysEntry =
      (NewSHop.Create (str "a") [] (some (str "1"))).1.keysEntry ∧
    ((NewSHop.Create (str "a") [] (some (str "1"))).1.Remove (str "a")).1.keynumEntry =
      (NewSHop.Create (str "a") [] (some (str "1"))).1.keynumEntry :=
  Create_bumps_key_versions_Remove_does_not NewSHop (str "a") [] (str "1") (by decide)
    (by decide)

/-! ## The static-range router: the ranges of a configuration -/

theorem setRanges_length (rsz k : Nat) (rs : List Range) :
    (setRanges rsz k rs).length = rs.length := by
  induction rs generalizing k with
  | nil => rfl
  | cons r rs ih => simp [setRanges, ih]

theorem setLastEnd_length (rs : List Range) : (setLastEnd rs).length = rs.length := by
  induction rs with
  | nil => rfl
  | cons r rs ih =>
    cases rs with
    | nil => rfl
    | cons r1 rs => simp only [setLastEnd, List.length_cons] at ih ⊢; omega

theorem setRanges_get (rsz k i : Nat) (rs : List Range) :
    (setRanges rsz k rs)[i]? =
      rs[i]?.map (fun r => ⟨r.addr, ((k + i) * rsz) % 2 ^ 32, ((k + i + 1) * rsz) % 2 ^ 32⟩) := by
  induction rs generalizing k i with
  | nil => simp [setRanges]
  | cons r rs ih =>
    cases i with
    | zero => simp [setRanges]
    | succ i =>
      simp only [setRanges, List.getElem?_cons_succ, ih]
      have h1 : k + 1 + i = k + (i + 1) := by omega
      rw [h1]

theorem setLastEnd_get (i : Nat) (rs : List Range) :
    (setLastEnd rs)[i]? =
      rs[i]?.map (fun r => if i + 1 = rs.length then { r with end_ := MaxUint32 } else r) := by
  induction rs generalizing i with
  | nil => simp [setLastEnd]
  | cons r rs ih =>
    cases rs with
    | nil =>
      cases i with
      | zero => simp [setLastEnd]
      | succ i => simp [setLastEnd]
    | cons r1 rs =>
      cases i with
      | zero => simp [setLastEnd]
      | succ i =>
        simp only [setLastEnd, List.getElem?_cons_succ, ih, List.length_cons]
        congr 1
        funext r2
        simp

/-- The routes written by `masterUpdateConf` for the `n` routes `rs`. -/
theorem evenRanges_get (rs : List Range) (i : Nat) (r : Range) (hr : rs[i]? = some r) :
    (setLastEnd (setRanges (MaxUint32 / rs.length) 0 rs))[i]? =
      some ⟨r.addr, i * (MaxUint32 / rs.length),
        if i + 1 = rs.length then MaxUint32 else (i + 1) * (MaxUint32 / rs.length)⟩ := by
  have hi : i < rs.length := by
    by_contra hc
    rw [List.getElem?_eq_none (by omega)] at hr
    exact absurd hr (by simp)
  have hle : rs.length * (MaxUint32 / rs.length) ≤ MaxUint32 := Nat.mul_div_le _ _
  have hM : MaxUint32 < 2 ^ 32 := by decide
  have h1 : i * (MaxUint32 / rs.length) ≤ rs.length * (MaxUint32 / rs.length) :=
    Nat.mul_le_mul_right _ (by omega)
  have h2 : (i + 1) * (MaxUint32 / rs.length) ≤ rs.length * (MaxUint32 / rs.length) :=
    Nat.mul_le_mul_right _ (by omega)
  rw [setLastEnd_get, setRanges_get, hr, setRanges_length]
  simp only [Option.map_some', Nat.zero_add]
  rw [Nat.mod_eq_of_lt (by omega), Nat.mod_eq_of_lt (by omega)]
  by_cases hl : i + 1 = rs.length <;> simp [hl]

theorem masterUpdateConf_eq (s : D2Hop) (hn : s.conf.routes ≠ []) :
    ∃ c, s.masterUpdateConf =
      some ({ s with
        conf := { s.conf with
          routes := setLastEnd (setRanges (MaxUint32 / s.conf.routes.length) 0 s.conf.routes) },
        routes := setLastEnd (setRanges (MaxUint32 / s.conf.routes.length) 0 s.conf.routes) },
        c) := by
  have h : s.conf.routes.length ≠ 0 := by
    intro h0
    exact hn (List.length_eq_zero.mp h0)
  simp only [D2Hop.masterUpdateConf, h, if_false]
  exact ⟨_, rfl⟩

/-- The routes written by `masterUpdateConf` pass the check of `parseConf`. -/
theorem checkCover_setRanges (rsz k : Nat) (rs : List Range) (hn : rs ≠ []) :
    checkCover ((k * rsz) % 2 ^ 32) (setLastEnd (setRanges rsz k rs)) = .ok () := by
  induction rs generalizing k with
  | nil => exact absurd rfl hn
  | cons r rs ih =>
    cases rs with
    | nil => simp [setRanges, setLastEnd, checkCover]
    | cons r1 rs =>
      have := ih (k + 1) (by simp)
      simp only [setRanges, setLastEnd, checkCover, ne_eq, not_true_eq_false, if_false] at this ⊢
      exact this

/-- Routes that pass the check of `parseConf` leave no hash uncovered. -/
theorem checkCover_covers (rs : List Range) (st h : Nat) (hc : checkCover st rs = .ok ())
    (hlt : st < h) (hh : h ≤ MaxUint32) : ∃ r ∈ rs, r.start ≤ h ∧ h ≤ r.end_ := by
  induction rs generalizing st with
  | nil =>
    simp only [checkCover] at hc
    split at hc
    · exact absurd hc (by simp)
    · omega
  | cons r rs ih =>
    simp only [checkCover, ne_eq, ite_not] at hc
    split at hc
    · rename_i hs
      by_cases he : h ≤ r.end_
      · exact ⟨r, List.mem_cons_self _ _, by omega, he⟩
      · obtain ⟨r1, hm, h1⟩ := ih r.end_ hc (by omega)
        exact ⟨r1, List.mem_cons_of_mem _ hm, h1⟩
    · exact absurd hc (by simp)

theorem checkCover_covers_all (rs : List Range) (h : Nat) (hc : checkCover 0 rs = .ok ())
    (hh : h ≤ MaxUint32) : ∃ r ∈ rs, r.start ≤ h ∧ h ≤ r.end_ := by
  by_cases h0 : 0 < h
  · exact checkCover_covers rs 0 h hc h0 hh
  · cases rs with
    | nil => exact absurd hc (by simp [checkCover, MaxUint32])
    | cons r rs =>
      simp only [checkCover, ne_eq, ite_not] at hc
      split at hc
      · rename_i hs
        exact ⟨r, List.mem_cons_self _ _, by omega, by omega⟩
      · exact absurd hc (by simp)

theorem parseConf_checked (ParseUint : List Byte → Option Nat)
    (sortRoutes : List Range → List Range) (confVal : List Byte) (c : Conf)
    (h : parseConf ParseUint sortRoutes confVal = .ok c) : checkCover 0 c.routes = .ok () := by
  unfold parseConf at h
  simp only at h
  split at h
  · exact absurd h (by simp)
  · split at h
    · exact absurd h (by simp)
    · split at h
      · exact absurd h (by simp)
      · split at h
        · exact absurd h (by simp)
        · rename_i hck
          simp only [Except.ok.injEq] at h
          rw [← h]
          cases hu : checkCover 0 _ with
          | error e => rw [hu] at hck; exact absurd hck (by simp)
          | ok u => rfl

/-- C16. A rebalance gives the peer at index `i` of the `N` routes the range
from `i * (MaxUint32 / N)` to `(i + 1) * (MaxUint32 / N)`, and the range of the
last peer ends at `MaxUint32 = 2^32 - 1`: the end of a range is the start of the
next one. `masterUpdateConf` does so for the routes it finds (at least one), and
`masterAddServer(addr)` for the old routes followed by one for `addr`. -/
theorem rebalance_ranges (s : D2Hop) (addr : List Byte) (i : Nat) (r : Range)
    (hr : s.conf.routes[i]? = some r) :
    (∃ s1 c, s.masterUpdateConf = some (s1, c) ∧ s1.conf.routes = s1.routes ∧
      s1.routes.length = s.conf.routes.length ∧
      s1.routes[i]? = some ⟨r.addr, i * (MaxUint32 / s.conf.routes.length),
        if i + 1 = s.conf.routes.length then MaxUint32
        else (i + 1) * (MaxUint32 / s.conf.routes.length)⟩) ∧
    (∃ s2 c, s.masterAddServer addr = some (s2, c) ∧ s2.conf.routes = s2.routes ∧
      s2.routes.length = s.conf.routes.length + 1 ∧
      s2.routes[i]? = some ⟨r.addr, i * (MaxUint32 / (s.conf.routes.length + 1)),
        (i + 1) * (MaxUint32 / (s.conf.routes.length + 1))⟩ ∧
      s2.routes[s.conf.routes.length]? =
        some ⟨addr, s.conf.routes.length * (MaxUint32 / (s.conf.routes.length + 1)),
          MaxUint32⟩) := by
  have hi : i < s.conf.routes.length := by
    by_contra hc
    rw [List.getElem?_eq_none (by omega)] at hr
    exact absurd hr (by simp)
  constructor
  · have hn : s.conf.routes ≠ [] := by
      intro h0
      rw [h0] at hi
      simp at hi
    obtain ⟨c, hc⟩ := masterUpdateConf_eq s hn
    refine ⟨_, c, hc, rfl, ?_, evenRanges_get _ i r hr⟩
    simp [setLastEnd_length, setRanges_length]
  · obtain ⟨c, hc⟩ := masterUpdateConf_eq
      { s with conf := { s.conf with
          routes := s.conf.routes ++ [⟨addr, 0, 0⟩],
          srvaddrs := s.conf.srvaddrs ++ [addr],
          srvnum := s.conf.srvnum + 1 } } (by simp)
    have hlen : (s.conf.routes ++ [(⟨addr, 0, 0⟩ : Range)]).length =
        s.conf.routes.length + 1 := by simp
    have h1 := evenRanges_get (s.conf.routes ++ [⟨addr, 0, 0⟩]) i r
      (by rw [List.getElem?_append_left hi]; exact hr)
    have h2 := evenRanges_get (s.conf.routes ++ [⟨addr, 0, 0⟩]) s.conf.routes.length
      ⟨addr, 0, 0⟩ (by simp)
    rw [hlen] at h1 h2
    rw [if_neg (by omega)] at h1
    rw [if_pos rfl] at h2
    refine ⟨_, c, hc, rfl, ?_, ?_, ?_⟩
    · simp [setLastEnd_length, setRanges_length]
    · simpa using h1
    · simpa using h2

/-- Witness for C16: the master "m" with the two routes of "m" and "b", to
which "c" is added. -/
theorem rebalance_ranges_witness :
    (∃ s1 c, D2Hop.masterUpdateConf ⟨str "m", ⟨str "m", 2, [str "m", str "b"],
        [⟨str "m", 0, 0⟩, ⟨str "b", 0, 0⟩]⟩, [str "m"], []⟩ = some (s1, c) ∧
      s1.conf.routes = s1.routes ∧ s1.routes.length = 2 ∧
      s1.routes[1]? = some ⟨str "b", 1 * (MaxUint32 / 2),
        if 1 + 1 = 2 then MaxUint32 else (1 + 1) * (MaxUint32 / 2)⟩) ∧
    (∃ s2 c, D2Hop.masterAddServer ⟨str "m", ⟨str "m", 2, [str "m", str "b"],
        [⟨str "m", 0, 0⟩, ⟨str "b", 0, 0⟩]⟩, [str "m"], []⟩ (str "c") = some (s2, c) ∧
      s2.conf.routes = s2.routes ∧ s2.routes.length = 2 + 1 ∧
      s2.routes[1]? = some ⟨str "b", 1 * (MaxUint32 / (2 + 1)),
        (1 + 1) * (MaxUint32 / (2 + 1))⟩ ∧
      s2.routes[2]? = some ⟨str "c", 2 * (MaxUint32 / (2 + 1)), MaxUint32⟩) :=
  rebalance_ranges ⟨str "m", ⟨str "m", 2, [str "m", str "b"],
    [⟨str "m", 0, 0⟩, ⟨str "b", 0, 0⟩]⟩, [str "m"], []⟩ (str "c") 1 ⟨str "b", 0, 0⟩ rfl

/-- Counterexample for C16 as stated: with two peers the second range starts at
`2147483647 = (2^32 - 1) / 2`, the end of the first range, and not at
`2147483648 = 2^32 / 2`; with three peers the first range ends at `1431655765`,
not at `2^32 / 3 - 1 = 1431655764`. -/
theorem rebalance_ranges_counterexample :
    (∃ s1 c, D2Hop.masterAddServer ⟨str "m", ⟨str "m", 1, [str "m"],
        [⟨str "m", 0, 4294967295⟩]⟩, [str "m"], [⟨str "m", 0, 4294967295⟩]⟩ (str "b") =
        some (s1, c) ∧
      s1.routes = [⟨str "m", 0, 2147483647⟩, ⟨str "b", 2147483647, 4294967295⟩] ∧
      2147483647 ≠ 1 * (2 ^ 32 / 2)) ∧
    (∃ s1 c, D2Hop.masterAddServer ⟨str "m", ⟨str "m", 2, [str "m", str "b"],
        [⟨str "m", 0, 2147483647⟩, ⟨str "b", 2147483647, 4294967295⟩]⟩, [str "m"],
        [⟨str "m", 0, 2147483647⟩, ⟨str "b", 2147483647, 4294967295⟩]⟩ (str "c") =
        some (s1, c) ∧
      s1.routes = [⟨str "m", 0, 1431655765⟩, ⟨str "b", 1431655765, 2863311530⟩,
        ⟨str "c", 2863311530, 4294967295⟩] ∧
      1431655765 ≠ (0 + 1) * (2 ^ 32 / 3) - 1) := by
  refine ⟨⟨_, _, rfl, by decide, by decide⟩, ⟨_, _, rfl, by decide, by decide⟩⟩

/-- C17. Every hash `h` of the 32-bit space lies in the interval `[start, end]`
of at least one range, both for the routes written by `masterUpdateConf` (for at
least one route), which pass the check of `parseConf`, and for the routes of a
configuration accepted by `parseConf`. The check asks every range to start at
the end of the one before it. -/
theorem routes_cover (s : D2Hop) (ParseUint : List Byte → Option Nat)
    (sortRoutes : List Range → List Range) (confVal : List Byte) (h : Nat)
    (hh : h ≤ MaxUint32) :
    (s.conf.routes ≠ [] →
      ∃ s1 c, s.masterUpdateConf = some (s1, c) ∧ checkCover 0 s1.routes = .ok () ∧
        ∃ r ∈ s1.routes, r.start ≤ h ∧ h ≤ r.end_) ∧
    (∀ conf, parseConf ParseUint sortRoutes confVal = .ok conf →
      ∃ r ∈ conf.routes, r.start ≤ h ∧ h ≤ r.end_) := by
  constructor
  · intro hn
    obtain ⟨c, hc⟩ := masterUpdateConf_eq s hn
    have hck := checkCover_setRanges (MaxUint32 / s.conf.routes.length) 0 s.conf.routes hn
    simp only [Nat.zero_mul, Nat.zero_mod] at hck
    exact ⟨_, c, hc, hck, checkCover_covers_all _ h hck hh⟩
  · intro conf hp
    exact checkCover_covers_all _ h (parseConf_checked _ _ _ _ hp) hh

/-- Witness for C17: the master "m" with the routes of "m" and "b", the text
it writes, and the hash 2147483648. -/
theorem routes_cover_witness :
    (∃ s1 c, D2Hop.masterUpdateConf ⟨str "m", ⟨str "m", 2, [str "m", str "b"],
        [⟨str "m", 0, 0⟩, ⟨str "b", 0, 0⟩]⟩, [str "m"], []⟩ = some (s1, c) ∧
      checkCover 0 s1.routes = .ok () ∧
      ∃ r ∈ s1.routes, r.start ≤ 2147483648 ∧ 2147483648 ≤ r.end_) ∧
    (parseConf decimal id (str "m 2\nm 0:2147483647\nb 2147483647:4294967295\n") =
        .ok ⟨str "m", 2, [str "m", str "b"],
          [⟨str "m", 0, 2147483647⟩, ⟨str "b", 2147483647, 4294967295⟩]⟩ ∧
      ∃ r ∈ [(⟨str "m", 0, 2147483647⟩ : Range), ⟨str "b", 2147483647, 4294967295⟩],
        r.start ≤ 2147483648 ∧ 2147483648 ≤ r.end_) :=
  ⟨(routes_cover ⟨str "m", ⟨str "m", 2, [str "m", str "b"],
      [⟨str "m", 0, 0⟩, ⟨str "b", 0, 0⟩]⟩, [str "m"], []⟩ decimal id
      (str "m 2\nm 0:2147483647\nb 2147483647:4294967295\n") 2147483648 (by decide)).1
      (by decide),
    rfl,
    (routes_cover ⟨str "m", ⟨str "m", 2, [str "m", str "b"],
      [⟨str "m", 0, 0⟩, ⟨str "b", 0, 0⟩]⟩, [str "m"], []⟩ decimal id
      (str "m 2\nm 0:2147483647\nb 2147483647:4294967295\n") 2147483648 (by decide)).2
      _ rfl⟩

/-- Counterexample for C17 as stated: the master with two routes writes the
ranges `[0, 2147483647]` and `[2147483647, 4294967295]`, `parseConf` accepts the
text, and the hash `2147483647` lies in both ranges. -/
theorem routes_cover_counterexample :
    D2Hop.masterUpdateConf ⟨str "m", ⟨str "m", 2, [str "m", str "b"],
        [⟨str "m", 0, 0⟩, ⟨str "b", 0, 0⟩]⟩, [str "m"], []⟩ =
      some (⟨str "m", ⟨str "m", 2, [str "m", str "b"],
          [⟨str "m", 0, 2147483647⟩, ⟨str "b", 2147483647, 4294967295⟩]⟩, [str "m"],
          [⟨str "m", 0, 2147483647⟩, ⟨str "b", 2147483647, 4294967295⟩]⟩,
        str "m 2\nm 0:2147483647\nb 2147483647:4294967295\n") ∧
    parseConf decimal id (str "m 2\nm 0:2147483647\nb 2147483647:4294967295\n") =
      .ok ⟨str "m", 2, [str "m", str "b"],
        [⟨str "m", 0, 2147483647⟩, ⟨str "b", 2147483647, 4294967295⟩]⟩ ∧
    ((0 : Nat) ≤ 2147483647 ∧ (2147483647 : Nat) ≤ 2147483647) ∧
    ((2147483647 : Nat) ≤ 2147483647 ∧ (2147483647 : Nat) ≤ 4294967295) := by
  refine ⟨by decide, rfl, by decide, by decide⟩

theorem masterRemoveServer_eq (s : D2Hop) (addr : List Byte) (hm : addr ∈ s.srvmap)
    (hn : s.conf.routes.filter (fun r => r.addr ≠ addr) ≠ []) :
    ∃ c, s.masterRemoveServer addr =
      some (⟨s.addr, ⟨s.conf.maddr, s.conf.srvnum - 1, s.conf.srvaddrs.erase addr,
          setLastEnd (setRanges
            (MaxUint32 / (s.conf.routes.filter (fun r => r.addr ≠ addr)).length) 0
            (s.conf.routes.filter (fun r => r.addr ≠ addr)))⟩,
        s.srvmap.filter (fun a => a ≠ addr),
        setLastEnd (setRanges
          (MaxUint32 / (s.conf.routes.filter (fun r => r.addr ≠ addr)).length) 0
          (s.conf.routes.filter (fun r => r.addr ≠ addr)))⟩, some c) := by
  obtain ⟨c, hc⟩ := masterUpdateConf_eq
    { s with
      conf := { s.conf with
        srvaddrs := s.conf.srvaddrs.erase addr,
        routes := s.conf.routes.filter (fun r => r.addr ≠ addr),
        srvnum := s.conf.srvnum - 1 },
      srvmap := s.srvmap.filter (fun a => a ≠ addr) } hn
  refine ⟨c, ?_⟩
  simp only [D2Hop.masterRemoveServer, hm, not_true_eq_false, if_false]
  rw [hc]

/-- C18. For an address `addr` that has a connection in `srvmap`,
`masterRemoveServer(addr)` drops the routes of `addr` and the first `addr` of
the server list, keeps the other routes in their order and partitions the hash
space anew among them: the route at index `i` of the `N` remaining ones gets
the range from `i * (MaxUint32 / N)` to `(i + 1) * (MaxUint32 / N)`, the last
one ending at `MaxUint32`, and the routes pass the check of `parseConf`. -/
theorem masterRemoveServer_repartitions (s : D2Hop) (addr : List Byte) (i : Nat) (r : Range)
    (hm : addr ∈ s.srvmap)
    (hr : (s.conf.routes.filter (fun r => r.addr ≠ addr))[i]? = some r) :
    ∃ s1 c, s.masterRemoveServer addr = some (s1, some c) ∧ s1.conf.routes = s1.routes ∧
      s1.conf.srvaddrs = s.conf.srvaddrs.erase addr ∧
      s1.routes.length = (s.conf.routes.filter (fun r => r.addr ≠ addr)).length ∧
      s1.routes[i]? = some ⟨r.addr,
        i * (MaxUint32 / (s.conf.routes.filter (fun r => r.addr ≠ addr)).length),
        if i + 1 = (s.conf.routes.filter (fun r => r.addr ≠ addr)).length then MaxUint32
        else (i + 1) * (MaxUint32 / (s.conf.routes.filter (fun r => r.addr ≠ addr)).length)⟩ ∧
      checkCover 0 s1.routes = .ok () := by
  have hn : s.conf.routes.filter (fun r => r.addr ≠ addr) ≠ [] := by
    intro h0
    rw [h0] at hr
    simp at hr
  obtain ⟨c, hc⟩ := masterRemoveServer_eq s addr hm hn
  have hck := checkCover_setRanges
    (MaxUint32 / (s.conf.routes.filter (fun r => r.addr ≠ addr)).length) 0 _ hn
  simp only [Nat.zero_mul, Nat.zero_mod] at hck
  refine ⟨_, c, hc, rfl, rfl, ?_, evenRanges_get _ i r hr, hck⟩
  simp [setLastEnd_length, setRanges_length]

/-- Witness for C18: the master "m" with the peers "m" and "b", from which "b"
is removed. -/
theorem masterRemoveServer_repartitions_witness :
    ∃ s1 c, D2Hop.masterRemoveServer ⟨str "m", ⟨str "m", 2, [str "m", str "b"],
        [⟨str "m", 0, 2147483647⟩, ⟨str "b", 2147483647, 4294967295⟩]⟩, [str "m", str "b"],
        [⟨str "m", 0, 2147483647⟩, ⟨str "b", 2147483647, 4294967295⟩]⟩ (str "b") =
        some (s1, some c) ∧ s1.conf.routes = s1.routes ∧
      s1.conf.srvaddrs = [str "m", str "b"].erase (str "b") ∧
      s1.routes.length = ([(⟨str "m", 0, 2147483647⟩ : Range),
        ⟨str "b", 2147483647, 4294967295⟩].filter (fun r => r.addr ≠ str "b")).length ∧
      s1.routes[0]? = some ⟨str "m",
        0 * (MaxUint32 / ([(⟨str "m", 0, 2147483647⟩ : Range),
          ⟨str "b", 2147483647, 4294967295⟩].filter (fun r => r.addr ≠ str "b")).length),
        if 0 + 1 = ([(⟨str "m", 0, 2147483647⟩ : Range),
          ⟨str "b", 2147483647, 4294967295⟩].filter (fun r => r.addr ≠ str "b")).length
        then MaxUint32
        else (0 + 1) * (MaxUint32 / ([(⟨str "m", 0, 2147483647⟩ : Range),
          ⟨str "b", 2147483647, 4294967295⟩].filter (fun r => r.addr ≠ str "b")).length)⟩ ∧
      checkCover 0 s1.routes = .ok () :=
  masterRemoveServer_repartitions ⟨str "m", ⟨str "m", 2, [str "m", str "b"],
    [⟨str "m", 0, 2147483647⟩, ⟨str "b", 2147483647, 4294967295⟩]⟩, [str "m", str "b"],
    [⟨str "m", 0, 2147483647⟩, ⟨str "b", 2147483647, 4294967295⟩]⟩ (str "b") 0
    ⟨str "m", 0, 2147483647⟩ (by decide) (by decide)

/-- Counterexample for C18 as stated: removing "b" from the master "m" with the
ranges `[0, 2147483647]` of "m" and `[2147483647, 4294967295]` of "b" leaves the
single range `[0, 4294967295]` of "m": the end of the remaining range has
changed and no part of the hash space is uncovered. -/
theorem masterRemoveServer_counterexample :
    D2Hop.masterRemoveServer ⟨str "m", ⟨str "m", 2, [str "m", str "b"],
        [⟨str "m", 0, 2147483647⟩, ⟨str "b", 2147483647, 4294967295⟩]⟩, [str "m", str "b"],
        [⟨str "m", 0, 2147483647⟩, ⟨str "b", 2147483647, 4294967295⟩]⟩ (str "b") =
      some (⟨str "m", ⟨str "m", 1, [str "m"], [⟨str "m", 0, 4294967295⟩]⟩, [str "m"],
        [⟨str "m", 0, 4294967295⟩]⟩, some (str "m 1\nm 0:4294967295\n")) := by
  decide

/-! ## The cache: the caps and the eviction order -/

/-- C19. A cache with `maxelem = 1` over an empty `SHop` store: after
`Create("a")`, a `Get("a")` served from the cache and `Create("b")`, the cache
holds the two entries "a" and "b". The cache hit on the only entry leaves
`c.lru` nil, so that `removeLRU` finds nothing to evict when "b" is added. -/
theorem CHop_exceeds_maxelem :
    ∃ s1 c1 s2 c2 s3 c3,
      CHop.Create shopBacking NewSHop (NewCache 1000 1) (str "a") [] (some (str "1")) =
        some (s1, c1, 1, none) ∧
      c1.entries = [(str "a", 0)] ∧ c1.lru = some 0 ∧ c1.mru = some 0 ∧
      CHop.Get shopBacking s1 c1 (str "a") Any = some (s2, c2, 1, some (str "1"), none) ∧
      c2.hits = 1 ∧ c2.entries = [(str "a", 0)] ∧ c2.lru = none ∧ c2.mru = some 0 ∧
      CHop.Create shopBacking s2 c2 (str "b") [] (some (str "2")) = some (s3, c3, 1, none) ∧
      c3.entries = [(str "a", 0), (str "b", 1)] ∧ c3.maxelem = 1 ∧
      c3.cachedSize = 4 ∧ c3.memsz = 4 := by
  refine ⟨_, _, _, _, _, _, rfl, rfl, rfl, rfl, rfl, rfl, rfl, rfl, rfl, rfl, rfl, rfl, rfl, rfl⟩

/-- C20. A cache with `maxelem = 2` over an `SHop` store that holds "a", "b"
and "c". First run: after `Set` of "a", "b", "c" in that order the cache holds
"b" and "c"; a `Get("a")` is passed to the store and a `Get("c")` is served
from the cache. Second run: with a `Get("a")`, served from the cache, right
after the `Set` of "a", the `Set` of "c" evicts "b" and keeps "a", although "a"
was last used before "b" was written. -/
theorem CHop_evicts_more_recently_used :
    (∃ s1 c1 s2 c2 s3 c3 s4 c4 s5 c5,
      CHop.Set shopBacking
          (((NewSHop.Create (str "a") [] (some (str "0"))).1.Create (str "b") []
            (some (str "0"))).1.Create (str "c") [] (some (str "0"))).1
          (NewCache 1000 2) (str "a") (some (str "1")) = some (s1, c1, 2, none) ∧
      CHop.Set shopBacking s1 c1 (str "b") (some (str "2")) = some (s2, c2, 2, none) ∧
      CHop.Set shopBacking s2 c2 (str "c") (some (str "3")) = some (s3, c3, 2, none) ∧
      c3.entries = [(str "b", 1), (str "c", 2)] ∧ c3.hits = 0 ∧
      CHop.Get shopBacking s3 c3 (str "a") Any = some (s4, c4, 2, some (str "1"), none) ∧
      c4.hits = 0 ∧
      CHop.Get shopBacking s3 c3 (str "c") Any = some (s5, c5, 2, some (str "3"), none) ∧
      c5.hits = 1) ∧
    (∃ s1 c1 s2 c2 s3 c3 s4 c4,
      CHop.Set shopBacking
          (((NewSHop.Create (str "a") [] (some (str "0"))).1.Create (str "b") []
            (some (str "0"))).1.Create (str "c") [] (some (str "0"))).1
          (NewCache 1000 2) (str "a") (some (str "1")) = some (s1, c1, 2, none) ∧
      CHop.Get shopBacking s1 c1 (str "a") Any = some (s2, c2, 2, some (str "1"), none) ∧
      c2.hits = 1 ∧ c2.lru = none ∧
      CHop.Set shopBacking s2 c2 (str "b") (some (str "2")) = some (s3, c3, 2, none) ∧
      c3.entries = [(str "a", 0), (str "b", 1)] ∧ c3.lru = some 1 ∧
      CHop.Set shopBacking s3 c3 (str "c") (some (str "3")) = some (s4, c4, 2, none) ∧
      c4.entries = [(str "a", 0), (str "c", 2)] ∧ c4.drops = 1) := by
  refine ⟨⟨_, _, _, _, _, _, _, _, _, _, rfl, rfl, rfl, rfl, rfl, rfl, rfl, rfl, rfl⟩,
    ⟨_, _, _, _, _, _, _, _, rfl, rfl, rfl, rfl, rfl, rfl, rfl, rfl, rfl, rfl⟩⟩

/-! ## The multiplexer -/

theorem allNodes_inv {H : Type} {P : List Byte → Option H → Bool → Bool → Prop} {acc : List Byte}
    {nd : mnode H} (h : AllNodes P acc nd) :
    P (acc ++ nd.pfx) nd.hop nd.exact nd.cutpref ∧ ∀ c ∈ nd.sub, AllNodes P (acc ++ nd.pfx) c := by
  cases h with
  | mk _ pfx id hop exact cutpref sub hp hs => exact ⟨hp, hs⟩

theorem allNodes_of {H : Type} {P : List Byte → Option H → Bool → Bool → Prop} {acc : List Byte}
    (nd : mnode H) (hp : P (acc ++ nd.pfx) nd.hop nd.exact nd.cutpref)
    (hs : ∀ c ∈ nd.sub, AllNodes P (acc ++ nd.pfx) c) : AllNodes P acc nd := by
  cases nd with
  | mk pfx id hop exact cutpref sub => exact AllNodes.mk _ _ _ _ _ _ _ hp hs

theorem allNodes_mono {H : Type} {P Q : List Byte → Option H → Bool → Bool → Prop}
    (hPQ : ∀ w h e c, P w h e c → Q w h e c) {acc : List Byte} {nd : mnode H} (h : AllNodes P acc nd) :
    AllNodes Q acc nd := by
  induction h with
  | mk acc pfx id hop exact cutpref sub hp _ ih =>
    exact AllNodes.mk _ _ _ _ _ _ _ (hPQ _ _ _ _ hp) ih

theorem allNodes_at {H : Type} {P : List Byte → Option H → Bool → Bool → Prop} (path : List Nat) :
    ∀ (acc : List Byte) (t x : mnode H), AllNodes P acc t → t.at path = some x →
      AllNodes P (acc ++ t.accAt path) x := by
  induction path with
  | nil =>
    intro acc t x h hx
    simp only [mnode.at, Option.some.injEq] at hx
    subst hx
    simpa [mnode.accAt] using h
  | cons k ks ih =>
    intro acc t x h hx
    simp only [mnode.at] at hx
    cases hk : t.sub[k]? with
    | none => rw [hk] at hx; exact absurd hx (by simp)
    | some c =>
      rw [hk] at hx
      have hc := (allNodes_inv h).2 c (List.getElem?_mem hk)
      have := ih _ c x hc hx
      simpa [mnode.accAt, hk, List.append_assoc] using this

theorem allNodes_replaceAt {H : Type} {P : List Byte → Option H → Bool → Bool → Prop} (new : mnode H)
    (path : List Nat) :
    ∀ (acc : List Byte) (t x : mnode H), AllNodes P acc t → t.at path = some x →
      AllNodes P (acc ++ t.accAt path) new → AllNodes P acc (mnode.replaceAt new t path) := by
  induction path with
  | nil =>
    intro acc t x _ _ hn
    simpa [mnode.accAt, mnode.replaceAt] using hn
  | cons k ks ih =>
    intro acc t x h hx hn
    simp only [mnode.at] at hx
    cases hk : t.sub[k]? with
    | none => rw [hk] at hx; exact absurd hx (by simp)
    | some c =>
      rw [hk] at hx
      have hinv := allNodes_inv h
      have hc := hinv.2 c (List.getElem?_mem hk)
      have hn1 : AllNodes P (acc ++ t.pfx ++ c.accAt ks) new := by
        simpa [mnode.accAt, hk, List.append_assoc] using hn
      have := ih _ c x hc hx hn1
      simp only [mnode.replaceAt, hk]
      refine allNodes_of _ ?_ ?_
      · cases t; exact hinv.1
      · intro c1 hc1
        have hc1 : c1 ∈ t.sub.set k (mnode.replaceAt new c ks) := by cases t; exact hc1
        have hpf : (t.setSub (t.sub.set k (mnode.replaceAt new c ks))).pfx = t.pfx := by
          cases t; rfl
        rw [hpf]
        rcases List.mem_or_eq_of_mem_set hc1 with h1 | h1
        · exact hinv.2 c1 h1
        · rw [h1]; exact this

theorem allNodes_setPfx {H : Type} {P : List Byte → Option H → Bool → Bool → Prop} {acc acc1 : List Byte}
    {y : mnode H} (pfx1 : List Byte) (h : AllNodes P acc y) (he : acc ++ y.pfx = acc1 ++ pfx1) :
    AllNodes P acc1 (y.setPfx pfx1) := by
  have hinv := allNodes_inv h
  refine allNodes_of _ ?_ ?_
  · cases y
    simp only [mnode.setPfx, mnode.pfx, mnode.hop, mnode.exact, mnode.cutpref] at he ⊢
    rw [← he]; exact hinv.1
  · intro c hc
    cases y
    simp only [mnode.setPfx, mnode.pfx, mnode.sub] at he hc ⊢
    rw [← he]; exact hinv.2 c hc

theorem matchPrefix_some (pfx rest : List Byte) (i : Nat) (h : matchPrefix pfx rest = some i) :
    i ≤ pfx.length ∧ i ≤ rest.length ∧ pfx.take i = rest.take i := by
  induction pfx generalizing rest i with
  | nil =>
    simp only [matchPrefix, Option.some.injEq] at h
    subst h
    simp
  | cons a pfx ih =>
    cases rest with
    | nil => simp [matchPrefix] at h
    | cons b rest =>
      simp only [matchPrefix, ne_eq, ite_not] at h
      split at h
      · rename_i hab
        cases hm : matchPrefix pfx rest with
        | none => rw [hm] at h; simp at h
        | some j =>
          rw [hm] at h
          simp only [Option.map_some', Option.some.injEq] at h
          subst h
          obtain ⟨h1, h2, h3⟩ := ih rest j hm
          simp [h1, h2, h3, hab]
      · simp only [Option.some.injEq] at h
        subst h
        simp

theorem matchPrefix_fits (pfx rest : List Byte) (h : pfx.length ≤ rest.length) :
    ∃ i, matchPrefix pfx rest = some i := by
  induction pfx generalizing rest with
  | nil => exact ⟨0, rfl⟩
  | cons a pfx ih =>
    cases rest with
    | nil => simp at h
    | cons b rest =>
      simp only [matchPrefix, ne_eq, ite_not]
      split
      · obtain ⟨j, hj⟩ := ih rest (by simpa using h)
        exact ⟨j + 1, by simp [hj]⟩
      · exact ⟨0, rfl⟩

theorem at_append {H : Type} (p : List Nat) (k : Nat) :
    ∀ (t x : mnode H), t.at p = some x → t.at (p ++ [k]) = x.sub[k]? := by
  induction p with
  | nil =>
    intro t x h
    simp only [mnode.at, Option.some.injEq] at h
    subst h
    simp only [List.nil_append, mnode.at]
    cases t.sub[k]? <;> rfl
  | cons j js ih =>
    intro t x h
    simp only [mnode.at, List.cons_append] at h ⊢
    cases hj : t.sub[j]? with
    | none => rw [hj] at h; exact absurd h (by simp)
    | some c =>
      rw [hj] at h
      exact ih c x h

theorem accAt_append {H : Type} (p : List Nat) (k : Nat) :
    ∀ (t x : mnode H), t.at p = some x → t.accAt (p ++ [k]) = t.accAt p ++ x.pfx := by
  induction p with
  | nil =>
    intro t x h
    simp only [mnode.at, Option.some.injEq] at h
    subst h
    simp only [List.nil_append, mnode.accAt]
    cases t.sub[k]? <;> simp [mnode.accAt]
  | cons j js ih =>
    intro t x h
    simp only [mnode.at, List.cons_append, mnode.accAt] at h ⊢
    cases hj : t.sub[j]? with
    | none => rw [hj] at h; exact absurd h (by simp)
    | some c =>
      rw [hj] at h
      have := ih c x h
      simp only [List.append_eq] at this ⊢
      rw [this, List.append_assoc]

theorem take_add_drop (pattern : List Byte) (n i : Nat) :
    pattern.take n ++ (pattern.drop n).take i = pattern.take (n + i) := by
  rw [List.take_add]

/-- One iteration of the loop of `MHop.match` in which nothing of the prefix
matches (`case 0`) keeps `MatchOK`. -/
theorem matchOK_next {H : Type} (P : List Byte → Option H → Bool → Bool → Prop) (root : mnode H)
    (pattern : List Byte) (ndprev : Option (Ptr H)) (y : Ptr H) (n i0 pidx : Nat)
    (hok : MatchOK P root pattern ⟨ndprev, some y, n, i0, pidx⟩) :
    MatchOK P root pattern
      { ndprev := ndprev,
        nd := (match ndprev with
          | none => ((none : Option (Ptr H)), pidx)
          | some ndprev =>
            if pidx < ndprev.node.sub.length then
              ((ndprev.node.sub[pidx + 1]?).map
                (fun c => ⟨ndprev.path ++ [pidx + 1], c, ndprev.node :: ndprev.prevs⟩),
               pidx + 1)
            else (none, pidx)).1,
        n := n, i := 0,
        pidx := (match ndprev with
          | none => ((none : Option (Ptr H)), pidx)
          | some ndprev =>
            if pidx < ndprev.node.sub.length then
              ((ndprev.node.sub[pidx + 1]?).map
                (fun c => ⟨ndprev.path ++ [pidx + 1], c, ndprev.node :: ndprev.prevs⟩),
               pidx + 1)
            else (none, pidx)).2 } := by
  obtain ⟨hle, hndp, hpp⟩ := hok
  simp only at hle hndp hpp
  cases ndprev with
  | none =>
    exact ⟨hle, fun y1 hy1 => absurd hy1 (by simp), hpp.1, fun y1 hy1 => absurd hy1 (by simp)⟩
  | some pp =>
    obtain ⟨hpat, hpacc, hchain, htie⟩ := hpp
    simp only [MatchOK]
    by_cases hlt : pidx < pp.node.sub.length
    · simp only [hlt, if_true]
      refine ⟨hle, ?_, hpat, hpacc, hchain, ?_⟩
      · intro y1 hy1
        cases hc : pp.node.sub[pidx + 1]? with
        | none => rw [hc] at hy1; exact absurd hy1 (by simp)
        | some c =>
          rw [hc] at hy1
          simp only [Option.map_some', Option.some.injEq] at hy1
          subst hy1
          simp only
          rw [at_append _ _ _ _ hpat, accAt_append _ _ _ _ hpat]
          exact ⟨hc, hpacc, Nat.zero_le _, by simp, by omega⟩
      · intro y1 hy1
        cases hc : pp.node.sub[pidx + 1]? with
        | none => rw [hc] at hy1; exact absurd hy1 (by simp)
        | some c =>
          rw [hc] at hy1
          simp only [Option.map_some', Option.some.injEq] at hy1
          subst hy1
          exact ⟨rfl, rfl, rfl⟩
    · simp only [hlt, if_false]
      exact ⟨hle, fun y1 hy1 => absurd hy1 (by simp), hpat, hpacc, hchain,
        fun y1 hy1 => absurd hy1 (by simp)⟩

/-- One iteration of the loop of `MHop.match` that matches the whole prefix of
`nd` and descends keeps `MatchOK`. -/
theorem matchOK_descend {H : Type} (P : List Byte → Option H → Bool → Bool → Prop) (root : mnode H)
    (pattern : List Byte) (hroot : AllNodes P [] root) (ndprev : Option (Ptr H)) (y : Ptr H)
    (n i0 pidx i : Nat) (hok : MatchOK P root pattern ⟨ndprev, some y, n, i0, pidx⟩)
    (hmp : matchPrefix y.node.pfx (pattern.drop n) = some i) (hfull : i = y.node.pfx.length) :
    MatchOK P root pattern
      { ndprev := some y,
        nd := (y.node.sub[0]?).map (fun c => ⟨y.path ++ [0], c, y.node :: y.prevs⟩),
        n := n + i, i := 0, pidx := 0 } := by
  obtain ⟨hle, hndp, hpp⟩ := hok
  simp only at hle hndp hpp
  obtain ⟨hyat, hyacc, -, -, -⟩ := hndp y rfl
  obtain ⟨hi1, hi2, hi3⟩ := matchPrefix_some _ _ _ hmp
  have hi2 : n + i ≤ pattern.length := by
    simp only [List.length_drop] at hi2
    omega
  have hacc : root.accAt y.path ++ y.node.pfx = pattern.take (n + i) := by
    rw [← take_add_drop, ← hi3, hyacc, hfull, List.take_length]
  have hall := allNodes_at y.path [] root y.node hroot hyat
  simp only [List.nil_append] at hall
  have hP := (allNodes_inv hall).1
  rw [hacc] at hP
  have hprevs : ∀ x ∈ y.prevs, ∃ w, w <+: pattern ∧ w.length ≤ n + i ∧ P w x.hop x.exact x.cutpref := by
    intro x hx
    cases ndprev with
    | none =>
      rw [(hpp.2 y rfl).2] at hx
      exact absurd hx (by simp)
    | some pp =>
      rw [(hpp.2.2.2 y rfl).2.2] at hx
      obtain ⟨w, hw1, hw2, hw3⟩ := hpp.2.2.1 x hx
      exact ⟨w, hw1, by omega, hw3⟩
  simp only [MatchOK]
  refine ⟨hi2, ?_, hyat, hacc, ?_, ?_⟩
  · intro y1 hy1
    cases hc : y.node.sub[0]? with
    | none => rw [hc] at hy1; exact absurd hy1 (by simp)
    | some c =>
      rw [hc] at hy1
      simp only [Option.map_some', Option.some.injEq] at hy1
      subst hy1
      simp only
      rw [at_append _ _ _ _ hyat, accAt_append _ _ _ _ hyat]
      exact ⟨hc, hacc, Nat.zero_le _, by simp, by omega⟩
  · intro x hx
    rcases List.mem_cons.mp hx with h1 | h1
    · rw [h1]
      exact ⟨_, List.take_prefix _ _, List.length_take_le _ _, hP⟩
    · exact hprevs x h1
  · intro y1 hy1
    cases hc : y.node.sub[0]? with
    | none => rw [hc] at hy1; exact absurd hy1 (by simp)
    | some c =>
      rw [hc] at hy1
      simp only [Option.map_some', Option.some.injEq] at hy1
      subst hy1
      exact ⟨rfl, rfl, rfl⟩

/-- The loop of `MHop.match` keeps `MatchOK`. -/
theorem matchLoop_ok {H : Type} (P : List Byte → Option H → Bool → Bool → Prop) (root : mnode H)
    (pattern : List Byte) (hroot : AllNodes P [] root) :
    ∀ (fuel : Nat) (st st1 : MatchState H), MatchOK P root pattern st →
      matchLoop pattern fuel st = .ok st1 → MatchOK P root pattern st1 := by
  intro fuel
  induction fuel with
  | zero =>
    intro st st1 _ h
    simp [matchLoop] at h
  | succ fuel ih =>
    intro st st1 hok h
    obtain ⟨ndprev, nd, n, i0, pidx⟩ := st
    unfold matchLoop at h
    cases nd with
    | none =>
      simp only [Outcome.ok.injEq] at h
      subst h
      exact hok
    | some y =>
      simp only at h
      by_cases hn : n < pattern.length
      · simp only [hn, not_true_eq_false, if_false] at h
        cases hmp : matchPrefix y.node.pfx (pattern.drop n) with
        | none => rw [hmp] at h; simp at h
        | some i =>
          rw [hmp] at h
          simp only at h
          by_cases hi0 : i = 0
          · rw [if_pos hi0] at h
            exact ih _ _ (matchOK_next P root pattern ndprev y n i0 pidx hok) h
          · rw [if_neg hi0] at h
            by_cases hfull : i = y.node.pfx.length
            · rw [if_pos hfull] at h
              exact ih _ _
                (matchOK_descend P root pattern hroot ndprev y n i0 pidx i hok hmp hfull) h
            · rw [if_neg hfull] at h
              simp only [Outcome.ok.injEq] at h
              subst h
              obtain ⟨hle, hndp, hpp⟩ := hok
              simp only at hle hndp hpp
              obtain ⟨hyat, hyacc, -, -, -⟩ := hndp y rfl
              obtain ⟨hi1, hi2, hi3⟩ := matchPrefix_some _ _ _ hmp
              have hi2 : n + i ≤ pattern.length := by
                simp only [List.length_drop] at hi2
                omega
              refine ⟨hle, ?_, hpp⟩
              intro y1 hy1
              simp only [Option.some.injEq] at hy1
              subst hy1
              exact ⟨hyat, hyacc, hi1, hi3, hi2⟩
      · simp only [hn, not_false_eq_true, if_true, Outcome.ok.injEq] at h
        subst h
        exact hok

theorem match_ok {H : Type} (P : List Byte → Option H → Bool → Bool → Prop) (m : MHop H) (root : mnode H)
    (pattern : List Byte) (hr : m.root = some root) (hroot : AllNodes P [] root)
    (st : MatchState H) (h : m.match_ pattern = .ok st) : MatchOK P root pattern st := by
  unfold MHop.match_ at h
  rw [hr] at h
  refine matchLoop_ok P root pattern hroot _ _ st ?_ h
  refine ⟨Nat.zero_le _, ?_, rfl, ?_⟩
  · intro y hy
    simp only [Option.map_some', Option.some.injEq] at hy
    subst hy
    exact ⟨rfl, rfl, Nat.zero_le _, by simp, Nat.zero_le _⟩
  · intro y hy
    simp only [Option.map_some', Option.some.injEq] at hy
    subst hy
    exact ⟨rfl, rfl⟩

theorem match_noroot {H : Type} (m : MHop H) (pattern : List Byte) (hr : m.root = none) :
    m.match_ pattern = .ok { ndprev := none, nd := none, n := 0, i := 0, pidx := 0 } := by
  unfold MHop.match_
  rw [hr]
  rfl

theorem findLoop_mem {H : Type} (l : List (mnode H)) :
    ∀ nd : mnode H, findLoop nd l = nd ∨ findLoop nd l ∈ l := by
  induction l with
  | nil => intro nd; exact Or.inl rfl
  | cons nd1 rest ih =>
    intro nd
    simp only [findLoop]
    split
    · rcases ih nd1 with h | h
      · rw [h]; exact Or.inr (List.mem_cons_self _ _)
      · exact Or.inr (List.mem_cons_of_mem _ h)
    · split
      · rcases ih nd1 with h | h
        · rw [h]; exact Or.inr (List.mem_cons_self _ _)
        · exact Or.inr (List.mem_cons_of_mem _ h)
      · rcases ih nd with h | h
        · exact Or.inl h
        · exact Or.inr (List.mem_cons_of_mem _ h)

/-- What `find` returns is the default handler with the key as it is, or a
handler registered with a pattern that the key begins with; the key is passed
on as it is when that handler was registered without `cutprefix`, and without
its first `n` bytes, `n` being at least the length of the pattern, when it was
registered with `cutprefix`. -/
theorem find_sound {H : Type} (regs : List (Reg H)) (m : MHop H) (hm : TreeOK regs m)
    (key : List Byte) (h : Option H) (newkey : List Byte)
    (hf : m.find key = .ok (h, newkey)) :
    (h = m.dflt ∧ newkey = key) ∨
      (h ≠ none ∧ ∃ r ∈ regs, r.hop = h ∧ r.pattern <+: key ∧
        (r.cutprefix = false → newkey = key) ∧
        (r.cutprefix = true →
          ∃ n, r.pattern.length ≤ n ∧ n ≤ key.length ∧ newkey = key.drop n)) := by
  unfold MHop.find at hf
  cases hmt : m.match_ key with
  | panic => rw [hmt] at hf; simp at hf
  | fuel => rw [hmt] at hf; simp at hf
  | ok st =>
    rw [hmt] at hf
    simp only at hf
    cases hpp : st.ndprev with
    | none =>
      rw [hpp] at hf
      simp only [Outcome.ok.injEq, Prod.mk.injEq] at hf
      exact Or.inl ⟨hf.1.symm, hf.2.symm⟩
    | some pp =>
      rw [hpp] at hf
      simp only at hf
      split at hf
      · simp only [Outcome.ok.injEq, Prod.mk.injEq] at hf
        exact Or.inl ⟨hf.1.symm, hf.2.symm⟩
      · rename_i hcond
        simp only [Outcome.ok.injEq, Prod.mk.injEq] at hf
        have hne : (findLoop pp.node (pp.node :: pp.prevs)).hop ≠ none := by
          intro h0
          exact hcond (Or.inl (by simp [h0]))
        cases hroot : m.root with
        | none =>
          rw [match_noroot m key hroot] at hmt
          simp only [Outcome.ok.injEq] at hmt
          rw [← hmt] at hpp
          exact absurd hpp (by simp)
        | some root =>
          have hok := match_ok (RegP regs) m root key hroot (hm root hroot) st hmt
          obtain ⟨hle, -, hprev⟩ := hok
          rw [hpp] at hprev
          obtain ⟨-, -, hchain, -⟩ := hprev
          have hmem : findLoop pp.node (pp.node :: pp.prevs) ∈ pp.node :: pp.prevs := by
            rcases findLoop_mem (pp.node :: pp.prevs) pp.node with h1 | h1
            · rw [h1]; exact List.mem_cons_self _ _
            · exact h1
          obtain ⟨w, hw, hwn, hP⟩ := hchain _ hmem
          obtain ⟨r, hr, hrw, hrh, -, hrc⟩ := hP.2 hne
          refine Or.inr ⟨by rw [← hf.1]; exact hne, r, hr, by rw [hrh, hf.1],
            by rw [hrw]; exact hw, ?_, ?_⟩
          · intro hc
            rw [hc] at hrc
            rw [← hf.2, ← hrc]
            simp
          · intro hc
            rw [hc] at hrc
            refine ⟨st.n, by rw [hrw]; exact hwn, hle, ?_⟩
            rw [← hf.2, ← hrc]
            simp

theorem regP_mono {H : Type} (regs : List (Reg H)) (r : Reg H) (w : List Byte) (h : Option H)
    (e c : Bool) (hp : RegP regs w h e c) : RegP (regs ++ [r]) w h e c := by
  obtain ⟨⟨r1, hr1, hw⟩, h2⟩ := hp
  refine ⟨⟨r1, List.mem_append_left _ hr1, hw⟩, fun hne => ?_⟩
  obtain ⟨r2, hr2, h3⟩ := h2 hne
  exact ⟨r2, List.mem_append_left _ hr2, h3⟩

theorem regP_new {H : Type} (regs : List (Reg H)) (r : Reg H) :
    RegP (regs ++ [r]) r.pattern r.hop r.exact r.cutprefix :=
  ⟨⟨r, by simp, List.prefix_refl _⟩, fun _ => ⟨r, by simp, rfl, rfl, rfl, rfl⟩⟩

theorem regP_pre {H : Type} (regs : List (Reg H)) (r : Reg H) (w : List Byte)
    (hw : w <+: r.pattern) : RegP (regs ++ [r]) w none false false :=
  ⟨⟨r, by simp, hw⟩, fun hne => absurd rfl hne⟩

theorem allNodes_setSub {H : Type} {P : List Byte → Option H → Bool → Bool → Prop} {acc : List Byte}
    {x : mnode H} (sub : List (mnode H)) (h : AllNodes P acc x)
    (hs : ∀ c ∈ sub, AllNodes P (acc ++ x.pfx) c) : AllNodes P acc (x.setSub sub) := by
  have hinv := allNodes_inv h
  cases x
  exact AllNodes.mk _ _ _ _ _ _ _ hinv.1 hs

theorem allNodes_leaf {H : Type} {P : List Byte → Option H → Bool → Bool → Prop} (acc pfx : List Byte)
    (id : Int) (hop : Option H) (exact cutpref : Bool) (hp : P (acc ++ pfx) hop exact cutpref) :
    AllNodes P acc (.mk pfx id hop exact cutpref []) :=
  AllNodes.mk _ _ _ _ _ _ _ hp (fun c hc => absurd hc (by simp))

/-- A successful `add` keeps `TreeOK`, for the calls made so far and this one. -/
theorem add_treeOK {H : Type} (regs : List (Reg H)) (m m1 : MHop H) (hm : TreeOK regs m)
    (id : Int) (r : Reg H)
    (hadd : m.add id r.pattern r.exact r.cutprefix r.hop = .ok (m1, none)) :
    TreeOK (regs ++ [r]) m1 ∧ m1.dflt = m.dflt := by
  unfold MHop.add at hadd
  cases hmt : m.match_ r.pattern with
  | panic => rw [hmt] at hadd; simp at hadd
  | fuel => rw [hmt] at hadd; simp at hadd
  | ok st =>
    rw [hmt] at hadd
    simp only at hadd
    cases hroot : m.root with
    | none =>
      rw [match_noroot m r.pattern hroot] at hmt
      simp only [Outcome.ok.injEq] at hmt
      subst hmt
      simp only at hadd
      split at hadd
      · simp at hadd
      · simp only [Outcome.ok.injEq, Prod.mk.injEq, and_true] at hadd
        subst hadd
        refine ⟨?_, rfl⟩
        intro root1 hr1
        simp only [Option.some.injEq] at hr1
        subst hr1
        exact allNodes_leaf _ _ _ _ _ _ (by simpa using regP_new regs r)
    | some root =>
      have hP' : AllNodes (RegP (regs ++ [r])) [] root :=
        allNodes_mono (fun w h e c hp => regP_mono regs r w h e c hp) (hm root hroot)
      obtain ⟨hle, hndp, hprev⟩ := match_ok (RegP (regs ++ [r])) m root r.pattern hroot hP' st hmt
      cases hnd : st.nd with
      | none =>
        rw [hnd] at hadd
        simp only at hadd
        split at hadd
        · simp at hadd
        · cases hpp : st.ndprev with
          | none =>
            rw [hpp] at hadd hprev
            simp only [Outcome.ok.injEq, Prod.mk.injEq, and_true] at hadd
            subst hadd
            refine ⟨?_, rfl⟩
            intro root1 hr1
            simp only [Option.some.injEq] at hr1
            subst hr1
            refine allNodes_leaf _ _ _ _ _ _ ?_
            rw [hprev.1]
            simpa using regP_new regs r
          | some pp =>
            rw [hpp] at hadd hprev
            simp only [Outcome.ok.injEq, Prod.mk.injEq, and_true] at hadd
            subst hadd
            refine ⟨?_, rfl⟩
            intro root1 hr1
            simp only [MHop.setSubAt, hroot, Option.map_some', Option.some.injEq] at hr1
            subst hr1
            obtain ⟨hpat, hpacc, -, -⟩ := hprev
            have hx := allNodes_at pp.path [] root pp.node hP' hpat
            refine allNodes_replaceAt _ pp.path [] root pp.node hP' hpat ?_
            refine allNodes_setSub _ hx ?_
            intro c hc
            rcases List.mem_append.mp hc with h1 | h1
            · exact (allNodes_inv hx).2 c h1
            · simp only [List.mem_singleton] at h1
              subst h1
              refine allNodes_leaf _ _ _ _ _ _ ?_
              simp only [List.nil_append] at hpacc ⊢
              rw [hpacc, List.take_append_drop]
              exact regP_new regs r
      | some y =>
        rw [hnd] at hadd
        simp only at hadd
        obtain ⟨hyat, hyacc, hi1, hi3, hi2⟩ := hndp y hnd
        have hy := allNodes_at y.path [] root y.node hP' hyat
        simp only [List.nil_append] at hy
        rw [hyacc] at hy
        have hw1 : r.pattern.take st.n ++ y.node.pfx.take st.i = r.pattern.take (st.n + st.i) := by
          rw [hi3, take_add_drop]
        have h0 : AllNodes (RegP (regs ++ [r])) (r.pattern.take (st.n + st.i))
            (y.node.setPfx (y.node.pfx.drop st.i)) := by
          refine allNodes_setPfx _ hy ?_
          rw [← hw1, List.append_assoc, List.take_append_drop]
        have h1 : AllNodes (RegP (regs ++ [r])) (r.pattern.take st.n)
            (if st.n + st.i = r.pattern.length then
              mnode.mk (y.node.pfx.take st.i) id r.hop r.exact r.cutprefix
                [y.node.setPfx (y.node.pfx.drop st.i)]
            else
              mnode.mk (y.node.pfx.take st.i) 0 none false false
                [mnode.mk (r.pattern.drop (st.n + st.i)) id r.hop r.exact r.cutprefix [],
                  y.node.setPfx (y.node.pfx.drop st.i)]) := by
          split
          · rename_i hfull
            refine AllNodes.mk _ _ _ _ _ _ _ ?_ ?_
            · rw [hw1, hfull, List.take_length]
              exact regP_new regs r
            · intro c hc
              simp only [List.mem_singleton] at hc
              subst hc
              rw [hw1]
              exact h0
          · refine AllNodes.mk _ _ _ _ _ _ _ ?_ ?_
            · rw [hw1]
              exact regP_pre regs r _ (List.take_prefix _ _)
            · intro c hc
              rw [hw1]
              simp only [List.mem_cons, List.mem_singleton, List.not_mem_nil, or_false] at hc
              rcases hc with hc | hc
              · subst hc
                refine allNodes_leaf _ _ _ _ _ _ ?_
                rw [List.take_append_drop]
                exact regP_new regs r
              · subst hc
                exact h0
        cases hpp : st.ndprev with
        | none =>
          rw [hpp] at hadd hprev
          simp only [Outcome.ok.injEq, Prod.mk.injEq, and_true] at hadd
          subst hadd
          refine ⟨?_, rfl⟩
          intro root1 hr1
          simp only [Option.some.injEq] at hr1
          subst hr1
          have hn0 : st.n = 0 := hprev.1
          simp only [hn0, Nat.zero_add, List.take_zero] at h1 ⊢
          exact h1
        | some pp =>
          rw [hpp] at hadd hprev
          simp only [Outcome.ok.injEq, Prod.mk.injEq, and_true] at hadd
          subst hadd
          refine ⟨?_, rfl⟩
          intro root1 hr1
          simp only [MHop.setSubAt, hroot, Option.map_some', Option.some.injEq] at hr1
          subst hr1
          obtain ⟨hpat, hpacc, -, -⟩ := hprev
          have hx := allNodes_at pp.path [] root pp.node hP' hpat
          refine allNodes_replaceAt _ pp.path [] root pp.node hP' hpat ?_
          refine allNodes_setSub _ hx ?_
          intro c hc
          rcases List.mem_or_eq_of_mem_set hc with h2 | h2
          · exact (allNodes_inv hx).2 c h2
          · subst h2
            simp only [List.nil_append] at hpacc ⊢
            rw [hpacc]
            exact h1

theorem size_eq {H : Type} (nd : mnode H) : nd.size = 1 + mnode.sizeList nd.sub := by
  cases nd
  simp [mnode.size, mnode.sub]

theorem sizeList_drop {H : Type} (sub : List (mnode H)) (k : Nat) (c : mnode H)
    (h : sub[k]? = some c) :
    mnode.sizeList (sub.drop k) = c.size + mnode.sizeList (sub.drop (k + 1)) := by
  obtain ⟨hk, hc⟩ := List.getElem?_eq_some.mp h
  rw [List.drop_eq_getElem_cons hk, hc]
  simp [mnode.sizeList]

theorem sizeList_drop_le {H : Type} (sub : List (mnode H)) (k : Nat) :
    mnode.sizeList (sub.drop (k + 1)) ≤ mnode.sizeList (sub.drop k) := by
  cases h : sub[k]? with
  | none =>
    have hk : sub.length ≤ k := by
      by_contra hc
      rw [List.getElem?_eq_getElem (by omega)] at h
      exact absurd h (by simp)
    rw [List.drop_eq_nil_of_le hk, List.drop_eq_nil_of_le (by omega)]
  | some c =>
    rw [sizeList_drop sub k c h]
    omega

/-- With one unit of fuel per node that may still be visited, and one more, the
loop of `MHop.match` returns, provided the words of the tree are not longer
than the pattern. -/
theorem matchLoop_total {H : Type} (P : List Byte → Option H → Bool → Bool → Prop) (root : mnode H)
    (pattern : List Byte) (hroot : AllNodes P [] root)
    (hshort : ∀ w h e c, P w h e c → w.length ≤ pattern.length) :
    ∀ (fuel : Nat) (st : MatchState H), MatchOK P root pattern st → potential st < fuel →
      ∃ st1, matchLoop pattern fuel st = .ok st1 := by
  intro fuel
  induction fuel with
  | zero =>
    intro st _ h
    exact absurd h (by omega)
  | succ fuel ih =>
    intro st hok hpot
    obtain ⟨ndprev, nd, n, i0, pidx⟩ := st
    unfold matchLoop
    cases nd with
    | none => exact ⟨_, rfl⟩
    | some y =>
      simp only
      by_cases hn : n < pattern.length
      · simp only [hn, not_true_eq_false, if_false]
        have hok0 := hok
        obtain ⟨hle, hndp, hpp⟩ := hok
        simp only at hle hndp hpp
        obtain ⟨hyat, hyacc, -, -, -⟩ := hndp y rfl
        have hall := allNodes_at y.path [] root y.node hroot hyat
        simp only [List.nil_append] at hall
        have hlen := hshort _ _ _ _ (allNodes_inv hall).1
        rw [hyacc, List.length_append, List.length_take, Nat.min_eq_left hle] at hlen
        obtain ⟨i, hmp⟩ := matchPrefix_fits y.node.pfx (pattern.drop n)
          (by rw [List.length_drop]; omega)
        rw [hmp]
        simp only
        have hysize := size_eq y.node
        have hpoty : y.node.size ≤ potential ⟨ndprev, some y, n, i0, pidx⟩ ∧
            ∀ pp, ndprev = some pp →
              mnode.sizeList (pp.node.sub.drop (pidx + 1)) + y.node.size ≤
                potential ⟨ndprev, some y, n, i0, pidx⟩ := by
          cases ndprev with
          | none => exact ⟨Nat.le_refl _, fun pp h => absurd h (by simp)⟩
          | some pp =>
            have hsub := (hpp.2.2.2 y rfl).1
            simp only [potential]
            rw [sizeList_drop _ _ _ hsub]
            refine ⟨by omega, fun pp1 h => ?_⟩
            simp only [Option.some.injEq] at h
            subst h
            omega
        by_cases hi0 : i = 0
        · rw [if_pos hi0]
          refine ih _ (matchOK_next P root pattern ndprev y n i0 pidx hok0) ?_
          cases ndprev with
          | none =>
            simp only [potential]
            omega
          | some pp =>
            have h2 := hpoty.2 pp rfl
            by_cases hlt : pidx < pp.node.sub.length
            · simp only [hlt, if_true, potential]
              cases hc : pp.node.sub[pidx + 1]? with
              | none => simp only [Option.map_none']; omega
              | some c => simp only [Option.map_some']; omega
            · simp only [hlt, if_false, potential]
              omega
        · rw [if_neg hi0]
          by_cases hfull : i = y.node.pfx.length
          · rw [if_pos hfull]
            refine ih _ (matchOK_descend P root pattern hroot ndprev y n i0 pidx i hok0 hmp hfull) ?_
            simp only [potential]
            cases hc : y.node.sub[0]? with
            | none => simp only [Option.map_none']; omega
            | some c =>
              simp only [Option.map_some', List.drop_zero]
              omega
          · rw [if_neg hfull]
            exact ⟨_, rfl⟩
      · simp only [hn, not_false_eq_true, if_true]
        exact ⟨_, rfl⟩

/-- The call `find(key)` returns when no word of the tree is longer than the key. -/
theorem find_total {H : Type} (regs : List (Reg H)) (m : MHop H) (hm : TreeOK regs m)
    (key : List Byte) (hlen : ∀ r ∈ regs, r.pattern.length ≤ key.length) :
    ∃ res, m.find key = .ok res := by
  have hmatch : ∃ st, m.match_ key = .ok st := by
    cases hroot : m.root with
    | none => exact ⟨_, match_noroot m key hroot⟩
    | some root =>
      unfold MHop.match_
      rw [hroot]
      refine matchLoop_total (RegP regs) root key (hm root hroot) ?_ _ _ ?_ ?_
      · intro w h e c hp
        obtain ⟨r, hr, hw⟩ := hp.1
        exact Nat.le_trans hw.length_le (hlen r hr)
      · refine ⟨Nat.zero_le _, ?_, rfl, ?_⟩
        · intro y hy
          simp only [Option.map_some', Option.some.injEq] at hy
          subst hy
          exact ⟨rfl, rfl, Nat.zero_le _, by simp, Nat.zero_le _⟩
        · intro y hy
          simp only [Option.map_some', Option.some.injEq] at hy
          subst hy
          exact ⟨rfl, rfl⟩
      · simp [potential]
  obtain ⟨st, hst⟩ := hmatch
  unfold MHop.find
  rw [hst]
  simp only
  cases st.ndprev with
  | none => exact ⟨_, rfl⟩
  | some pp =>
    simp only
    split
    · exact ⟨_, rfl⟩
    · exact ⟨_, rfl⟩

theorem addAll_treeOK {H : Type} (regs : List (Reg H)) :
    ∀ (regs0 : List (Reg H)) (m m1 : MHop H), TreeOK regs0 m → m.addAll regs = some m1 →
      TreeOK (regs0 ++ regs) m1 ∧ m1.dflt = m.dflt := by
  induction regs with
  | nil =>
    intro regs0 m m1 hm h
    simp only [MHop.addAll, Option.some.injEq] at h
    subst h
    simpa using hm
  | cons r regs ih =>
    intro regs0 m m1 hm h
    simp only [MHop.addAll] at h
    split at h
    · rename_i m2 hadd
      have key : TreeOK (regs0 ++ [r]) m2 ∧ m2.dflt = m.dflt := by
        by_cases ha : r.after = true
        · simp only [ha, if_true, MHop.AddAfter] at hadd
          exact add_treeOK regs0 { m with maxid := m.maxid + 1 } m2 hm _ r hadd
        · simp only [ha, Bool.false_eq_true, if_false, MHop.AddBefore] at hadd
          exact add_treeOK regs0 { m with minid := m.minid - 1 } m2 hm _ r hadd
      obtain ⟨h1, h2⟩ := ih (regs0 ++ [r]) m2 m1 key.1 h
      refine ⟨by simpa using h1, by rw [h2, key.2]⟩
    · exact absurd h (by simp)


/-- Counterexample for C14 as stated: after `AddAfter("a", false, false, 1)` and
`AddBefore("ab", false, false, 2)` the key "abc" goes to the handler 1 of the
pattern "a", although the longer pattern "ab" of the handler 2 is a prefix of
the key as well: the node with the highest id wins. -/
theorem MHop_find_longest_counterexample :
    ∃ m : MHop Nat,
      (NewMHop (some 0)).addAll [⟨true, str "a", false, false, some 1⟩,
        ⟨false, str "ab", false, false, some 2⟩] = some m ∧
      m.find (str "abc") = .ok (some 1, str "abc") ∧
      str "ab" <+: str "abc" ∧ (str "a").length < (str "ab").length :=
  ⟨_, rfl, rfl, by decide, by decide⟩

/-- C15. For the multiplexer built from `NewMHop(dflt)` by calls of `AddBefore`
and `AddAfter` that all succeed: when `find(key)` returns `(h, newkey)`, then
`h` is the default handler and `newkey` the key, or `h` was registered with a
pattern `p` that the key begins with, and `newkey` is the key when `h` was
registered without `cutprefix`, and the key without its first `n` bytes, for
some `n` that is at least `len(p)`, when it was registered with `cutprefix`.
That `n` can exceed `len(p)`: after `AddAfter("a", false, true, 1)` and
`AddBefore("ab", false, false, 2)` the key "abc" goes to the handler 1 as "c",
not as "bc"; what is cut is the part matched down to the deepest node. -/
theorem MHop_find_forwarded_key {H : Type} (dflt : Option H) (regs : List (Reg H)) (m : MHop H)
    (hbuild : (NewMHop dflt).addAll regs = some m) (key : List Byte) (h : Option H)
    (newkey : List Byte) (hf : m.find key = .ok (h, newkey)) :
    ((h = dflt ∧ newkey = key) ∨
      (h ≠ none ∧ ∃ r ∈ regs, r.hop = h ∧ r.pattern <+: key ∧
        (r.cutprefix = false → newkey = key) ∧
        (r.cutprefix = true →
          ∃ n, r.pattern.length ≤ n ∧ n ≤ key.length ∧ newkey = key.drop n))) ∧
    (∃ m1 : MHop Nat,
      (NewMHop (some 0)).addAll [⟨true, str "a", false, true, some 1⟩,
        ⟨false, str "ab", false, false, some 2⟩] = some m1 ∧
      m1.find (str "abc") = .ok (some 1, str "c") ∧
      (str "abc").drop (str "a").length = str "bc") := by
  have h0 : TreeOK ([] : List (Reg H)) (NewMHop dflt) := by
    intro root hr
    simp [NewMHop] at hr
  obtain ⟨hm, hd⟩ := addAll_treeOK regs [] (NewMHop dflt) m h0 hbuild
  simp only [List.nil_append] at hm
  have hd : m.dflt = dflt := hd
  refine ⟨?_, ⟨_, rfl, rfl, by decide⟩⟩
  have := find_sound regs m hm key h newkey hf
  rwa [hd] at this

/-- Witness for C15: `AddAfter("hopm/", false, true, 1)` on `NewMHop(nil)`, as in
`bench/main.go`, and the key "hopm/x". -/
theorem MHop_find_forwarded_key_witness :
    (((some 1 : Option Nat) = none ∧ str "x" = str "hopm/x") ∨
      ((some 1 : Option Nat) ≠ none ∧
        ∃ r ∈ [(⟨true, str "hopm/", false, true, some 1⟩ : Reg Nat)],
          r.hop = some 1 ∧ r.pattern <+: str "hopm/x" ∧
          (r.cutprefix = false → str "x" = str "hopm/x") ∧
          (r.cutprefix = true →
            ∃ n, r.pattern.length ≤ n ∧ n ≤ (str "hopm/x").length ∧
              str "x" = (str "hopm/x").drop n))) ∧
    (∃ m1 : MHop Nat,
      (NewMHop (some 0)).addAll [⟨true, str "a", false, true, some 1⟩,
        ⟨false, str "ab", false, false, some 2⟩] = some m1 ∧
      m1.find (str "abc") = .ok (some 1, str "c") ∧
      (str "abc").drop (str "a").length = str "bc") :=
  MHop_find_forwarded_key none [⟨true, str "hopm/", false, true, some 1⟩]
    ⟨none, some (.mk (str "hopm/") 1 (some 1) false true []), 0, 1⟩ (by rfl) (str "hopm/x")
    (some 1) (str "x") (by rfl)

/-! ## Unpacking short messages, short keys in the multiplexer, and the
eviction loop -/

theorem Gint64_short (p : List Byte) (h : p.length < 8) : Gint64 p = none := by
  unfold Gint64
  split
  · rename_i h1
    simp at h
    omega
  · rfl

/-- An `Ratomic` message whose declared size passes the check of `minMsgsize`
and leaves fewer than eight bytes behind the header. -/
theorem Unpack_Ratomic_short (m : Msg) (size tag : Nat) (body : List Byte)
    (hs : size = 8 + body.length) (h1 : 10 ≤ size) (h2 : size < 16) (hg : tag < 2 ^ 16) :
    Unpack m (encHdr size Ratomic tag ++ body) = .panic := by
  rw [Unpack_hdr m size Ratomic tag body hs (by omega) (by decide) hg (by decide)
    (by simp only [minMsgsize, Ratomic, Rerror]; simpa using h1)]
  have hb : Gint64 body = none := Gint64_short body (by omega)
  have : unpackBody
      { m with
        Size := size, Typ := Ratomic, Tag := tag,
        Pkt := some (encHdr size Ratomic tag ++ body) } body = none := by
    unfold unpackBody
    simp [Ratomic, Rerror, Tget, Rget, Rtestset, Tset, Rset, Rcreate, Tcreate, Tremove, Rremove,
      Ttestset, Tatomic, hb]
  rw [this]

/-- C26. `Unpack` does not return for every buffer: a message that passes the
checks of the header and of `minMsgsize` and whose body is shorter than the
next fixed-width field makes `Gint64` index past the end of the slice, which
is a run-time panic and not an error return. Every `Ratomic` message of a
declared size from 10 (the entry of `minMsgsize` for `Ratomic`) to 15, with
any tag and any body of that size, panics at the version, whatever message
value `m` is handed to `Unpack`; so does a `Tget` of size 18 whose key "abc"
leaves five bytes for the version. A `Tget` of size 18 whose declared key
length exceeds the body is rejected with "invalid size", and a `Tget` with an
empty key and eight bytes of version is accepted. -/
theorem Unpack_short_field_panics (m : Msg) (size tag : Nat) (body : List Byte)
    (hs : size = 8 + body.length) (h1 : 10 ≤ size) (h2 : size < 16) (hg : tag < 2 ^ 16) :
    Unpack m (encHdr size Ratomic tag ++ body) = .panic ∧
    minMsgsize.getD (Ratomic - Rerror) 0 = 10 ∧
    Unpack m ([18, 0, 0, 0, 101, 0, 0, 0, 3, 0] ++ str "abc" ++ [0, 0, 0, 0, 0]) = .panic ∧
    Unpack {} ([18, 0, 0, 0, 101, 0, 0, 0, 10, 0] ++ str "abcdefgh") = .error .invalidSize ∧
    (∃ m1, Unpack {} [18, 0, 0, 0, 101, 0, 0, 0, 0, 0, 1, 0, 0, 0, 0, 0, 0, 0] = .ok m1 ∧
      m1.Size = 18 ∧ m1.Key = [] ∧ m1.Version = 1) :=
  ⟨Unpack_Ratomic_short m size tag body hs h1 h2 hg, rfl, rfl, rfl, ⟨_, rfl, rfl, rfl, rfl⟩⟩

/-- Witness for C26: the `Ratomic` message of declared size 10, with the tag 0
and the two bytes 0, 0 behind the header, which is the buffer
`[10, 0, 0, 0, 112, 0, 0, 0, 0, 0]`. -/
theorem Unpack_short_field_panics_witness :
    encHdr 10 Ratomic 0 ++ [0, 0] = [10, 0, 0, 0, 112, 0, 0, 0, 0, 0] ∧
    Unpack {} (encHdr 10 Ratomic 0 ++ [0, 0]) = .panic ∧
    minMsgsize.getD (Ratomic - Rerror) 0 = 10 ∧
    Unpack {} ([18, 0, 0, 0, 101, 0, 0, 0, 3, 0] ++ str "abc" ++ [0, 0, 0, 0, 0]) = .panic ∧
    Unpack {} ([18, 0, 0, 0, 101, 0, 0, 0, 10, 0] ++ str "abcdefgh") = .error .invalidSize ∧
    (∃ m1, Unpack {} [18, 0, 0, 0, 101, 0, 0, 0, 0, 0, 1, 0, 0, 0, 0, 0, 0, 0] = .ok m1 ∧
      m1.Size = 18 ∧ m1.Key = [] ∧ m1.Version = 1) :=
  ⟨by decide, Unpack_short_field_panics {} 10 0 [0, 0] rfl (by decide) (by decide) (by decide)⟩

theorem matchPrefix_short (pfx key : List Byte) (hp : key <+: pfx)
    (hlt : key.length < pfx.length) : matchPrefix pfx key = none := by
  induction pfx generalizing key with
  | nil => simp at hlt
  | cons a pfx ih =>
    cases key with
    | nil => rfl
    | cons b key =>
      rw [List.cons_prefix_cons] at hp
      obtain ⟨hab, hp1⟩ := hp
      subst hab
      simp only [List.length_cons] at hlt
      simp only [matchPrefix, ne_eq, not_true_eq_false, if_false, ih key hp1 (by omega),
        Option.map_none']

theorem match_short {H : Type} (m : MHop H) (root : mnode H) (key : List Byte)
    (hroot : m.root = some root) (hne : key ≠ []) (hp : key <+: root.pfx)
    (hlt : key.length < root.pfx.length) : m.match_ key = .panic := by
  unfold MHop.match_
  rw [hroot]
  simp only [Option.map_some']
  unfold matchLoop
  have h0 : 0 < key.length := List.length_pos.mpr hne
  simp only [h0, not_true_eq_false, if_false, List.drop_zero, matchPrefix_short _ _ hp hlt]

theorem match_other {H : Type} (m : MHop H) (root : mnode H) (a b : Byte) (l pattern : List Byte)
    (hroot : m.root = some root) (hpfx : root.pfx = a :: l) (hab : a ≠ b) :
    m.match_ (b :: pattern) = .ok { ndprev := none, nd := none, n := 0, i := 0, pidx := 0 } := by
  unfold MHop.match_
  rw [hroot]
  simp only [Option.map_some']
  have hs : root.size = (mnode.sizeList root.sub) + 1 := by rw [size_eq]; omega
  rw [hs]
  unfold matchLoop
  simp only [List.length_cons, Nat.zero_lt_succ, not_true_eq_false, if_false, List.drop_zero, hpfx,
    matchPrefix, ne_eq, hab, not_false_eq_true, if_true]
  unfold matchLoop
  rfl

/-- C27. `MHop.match` indexes past the end of a string that ends inside the
prefix of a node. For every multiplexer with a root node and every key that is
not empty, is the beginning of the prefix of the root and is shorter than
it, `find(key)` panics instead of returning a handler, and `AddAfter` and
`AddBefore` of that key as a pattern panic instead of returning nil or an
error: the inner loop of `match` runs up to `len(nd.prefix)` and reads
`pattern[len(pattern)]`. So after `AddAfter("hopm/", false, true, 1)` on
`NewMHop(0)`, as in `bench/main.go`, `find("hop")` panics; the empty key does
get the default handler. -/
theorem MHop_match_indexes_past_key {H : Type} (m : MHop H) (root : mnode H) (key : List Byte)
    (hroot : m.root = some root) (hne : key ≠ []) (hp : key <+: root.pfx)
    (hlt : key.length < root.pfx.length) :
    m.find key = .panic ∧
    (∀ (exact cutprefix : Bool) (hop : Option H),
      m.AddAfter key exact cutprefix hop = .panic ∧
      m.AddBefore key exact cutprefix hop = .panic) ∧
    (∃ m0 : MHop Nat,
      (NewMHop (some 0)).addAll [⟨true, str "hopm/", false, true, some 1⟩] = some m0 ∧
      matchPrefix (str "hopm/") (str "hop") = none ∧
      m0.find (str "hop") = .panic ∧
      m0.find (str "") = .ok (some 0, str "")) := by
  refine ⟨?_, ?_, ⟨_, rfl, rfl, rfl, rfl⟩⟩
  · unfold MHop.find
    rw [match_short m root key hroot hne hp hlt]
  · intro exact cutprefix hop
    constructor
    · unfold MHop.AddAfter MHop.add
      rw [match_short { m with maxid := m.maxid + 1 } root key hroot hne hp hlt]
    · unfold MHop.AddBefore MHop.add
      rw [match_short { m with minid := m.minid - 1 } root key hroot hne hp hlt]

/-- Witness for C27: the multiplexer after `AddAfter("hopm/", false, true, 1)`
on `NewMHop(0)` and the key "hop". -/
theorem MHop_match_indexes_past_key_witness :
    MHop.find ⟨some 0, some (.mk (str "hopm/") 1 (some 1) false true []), 0, 1⟩ (str "hop") =
      .panic ∧
    (∀ (exact cutprefix : Bool) (hop : Option Nat),
      MHop.AddAfter ⟨some 0, some (.mk (str "hopm/") 1 (some 1) false true []), 0, 1⟩
        (str "hop") exact cutprefix hop = .panic ∧
      MHop.AddBefore ⟨some 0, some (.mk (str "hopm/") 1 (some 1) false true []), 0, 1⟩
        (str "hop") exact cutprefix hop = .panic) ∧
    (∃ m0 : MHop Nat,
      (NewMHop (some 0)).addAll [⟨true, str "hopm/", false, true, some 1⟩] = some m0 ∧
      matchPrefix (str "hopm/") (str "hop") = none ∧
      m0.find (str "hop") = .panic ∧
      m0.find (str "") = .ok (some 0, str "")) :=
  MHop_match_indexes_past_key
    ⟨some 0, some (.mk (str "hopm/") 1 (some 1) false true []), 0, 1⟩
    (.mk (str "hopm/") 1 (some 1) false true []) (str "hop") rfl (by decide) (by decide)
    (by decide)

/-- C28. An `AddAfter` can unregister every pattern. For a multiplexer whose
root has a prefix that begins with the byte `a`, and a pattern that begins
with another byte `b`: `match` returns no node at all, `AddAfter` succeeds
and `add` stores the new node in `m.root`, so that the tree is the new node
alone; afterwards every key that begins with `a`, none of which has the
pattern as a prefix, goes to the default handler, whatever handler it went
to before. After `AddAfter("a", false, false, 1)` on `NewMHop(0)` the key "abc"
goes to the handler 1, and after `AddAfter("b", false, false, 2)` to the
default handler 0. -/
theorem MHop_add_replaces_root {H : Type} (m : MHop H) (root : mnode H) (a b : Byte)
    (l pattern : List Byte) (exact cutprefix : Bool) (hop : Option H)
    (hroot : m.root = some root) (hpfx : root.pfx = a :: l) (hab : a ≠ b) :
    (∃ m1, m.AddAfter (b :: pattern) exact cutprefix hop = .ok (m1, none) ∧
      m1.root = some (.mk (b :: pattern) (m.maxid + 1) hop exact cutprefix []) ∧
      ∀ k : List Byte, ¬ (b :: pattern) <+: (a :: k) ∧ m1.find (a :: k) = .ok (m.dflt, a :: k)) ∧
    (∃ m0 m1 : MHop Nat,
      (NewMHop (some 0)).addAll [⟨true, str "a", false, false, some 1⟩] = some m0 ∧
      m0.find (str "abc") = .ok (some 1, str "abc") ∧
      m0.AddAfter (str "b") false false (some 2) = .ok (m1, none) ∧
      m1.find (str "abc") = .ok (some 0, str "abc")) := by
  refine ⟨⟨{ m with
      maxid := m.maxid + 1,
      root := some (.mk (b :: pattern) (m.maxid + 1) hop exact cutprefix []) }, ?_, rfl, ?_⟩,
    ⟨_, _, rfl, rfl, rfl, rfl⟩⟩
  · unfold MHop.AddAfter MHop.add
    rw [match_other { m with maxid := m.maxid + 1 } root a b l pattern hroot hpfx hab]
    simp
  · intro k
    constructor
    · intro h
      rw [List.cons_prefix_cons] at h
      exact hab h.1.symm
    · unfold MHop.find
      rw [match_other
        { m with
          maxid := m.maxid + 1,
          root := some (.mk (b :: pattern) (m.maxid + 1) hop exact cutprefix []) }
        (.mk (b :: pattern) (m.maxid + 1) hop exact cutprefix []) b a pattern k
        rfl rfl (Ne.symm hab)]

/-- Witness for C28: the multiplexer after `AddAfter("a", false, false, 1)` on
`NewMHop(0)` and the pattern "b". -/
theorem MHop_add_replaces_root_witness :
    (∃ m1, MHop.AddAfter ⟨some 0, some (.mk (str "a") 1 (some 1) false false []), 0, 1⟩
        (98 :: []) false false (some 2) = .ok (m1, none) ∧
      m1.root = some (.mk (98 :: []) ((1 : Int) + 1) (some 2) false false []) ∧
      ∀ k : List Byte, ¬ (98 :: []) <+: (97 :: k) ∧
        m1.find (97 :: k) = .ok (some 0, 97 :: k)) ∧
    (∃ m0 m1 : MHop Nat,
      (NewMHop (some 0)).addAll [⟨true, str "a", false, false, some 1⟩] = some m0 ∧
      m0.find (str "abc") = .ok (some 1, str "abc") ∧
      m0.AddAfter (str "b") false false (some 2) = .ok (m1, none) ∧
      m1.find (str "abc") = .ok (some 0, str "abc")) :=
  MHop_add_replaces_root ⟨some 0, some (.mk (str "a") 1 (some 1) false false []), 0, 1⟩
    (.mk (str "a") 1 (some 1) false false []) 97 98 [] [] false false (some 2) rfl rfl
    (by decide)

/-- C30. The eviction loop `for c.memsz + sz > c.maxmem { c.removeLRU() }` of
`updateEntry` does not end when the LRU list is empty: `removeLRU` returns
without changing the cache, so after any number `k` of iterations the cache is
the same and the test of the loop is still true; the loop of the model, given
any number of steps, does not return either. -/
theorem CHop_updateEntry_spins (c : CHop) (sz : Nat) (hlru : c.lru = none)
    (htest : (c.memsz + sz) % 2 ^ 64 > c.maxmem) :
    c.removeLRU = c ∧
    (∀ k : Nat, (CHop.removeLRU^[k]) c = c ∧
      (((CHop.removeLRU^[k]) c).memsz + sz) % 2 ^ 64 > ((CHop.removeLRU^[k]) c).maxmem) ∧
    (∀ fuel : Nat, CHop.evict sz fuel c = none) := by
  have h1 : c.removeLRU = c := by
    unfold CHop.removeLRU
    rw [hlru]
  have hk : ∀ k : Nat, (CHop.removeLRU^[k]) c = c := by
    intro k
    induction k with
    | zero => rfl
    | succ k ih => rw [Function.iterate_succ_apply, h1, ih]
  refine ⟨h1, fun k => ⟨hk k, by rw [hk k]; exact htest⟩, ?_⟩
  intro fuel
  cases fuel with
  | zero =>
    unfold CHop.evict
    rw [if_pos htest]
  | succ fuel =>
    unfold CHop.evict
    rw [if_pos htest, if_pos hlru]

/-- Witness for C30: the empty cache `NewCache(3, 10)` and the key "a" with the
value "1234", of size 5. -/
theorem CHop_updateEntry_spins_witness :
    (NewCache 3 10).removeLRU = NewCache 3 10 ∧
    (∀ k : Nat, (CHop.removeLRU^[k]) (NewCache 3 10) = NewCache 3 10 ∧
      (((CHop.removeLRU^[k]) (NewCache 3 10)).memsz + 5) % 2 ^ 64 >
        ((CHop.removeLRU^[k]) (NewCache 3 10)).maxmem) ∧
    (∀ fuel : Nat, CHop.evict 5 fuel (NewCache 3 10) = none) :=
  CHop_updateEntry_spins (NewCache 3 10) 5 rfl (by decide)

/-! ## The static-range router: the search for the range of a hash -/

theorem sortSearchLoop_spec (f : Nat → Option Bool) (P : Nat → Bool) (n : Nat)
    (hf : ∀ k, k < n → f k = some (P k))
    (hmono : ∀ a b, a ≤ b → b < n → P a = true → P b = true) :
    ∀ (fuel i j : Nat), i ≤ j → j ≤ n → j - i ≤ fuel →
      (∀ k, k < i → P k = false) → (∀ k, j ≤ k → k < n → P k = true) →
      ∃ r, sortSearchLoop f fuel i j = .ok r ∧ r ≤ n ∧
        (∀ k, k < r → P k = false) ∧ (∀ k, r ≤ k → k < n → P k = true) := by
  intro fuel
  induction fuel with
  | zero =>
    intro i j hij hjn hfu hlo hhi
    have : i = j := by omega
    subst this
    refine ⟨i, ?_, hjn, hlo, hhi⟩
    simp [sortSearchLoop]
  | succ fuel ih =>
    intro i j hij hjn hfu hlo hhi
    unfold sortSearchLoop
    by_cases hlt : i < j
    · rw [if_pos hlt]
      have hh : (i + j) / 2 < n := by omega
      rw [hf _ hh]
      cases hP : P ((i + j) / 2) with
      | false =>
        simp only
        refine ih _ _ (by omega) hjn (by omega) ?_ hhi
        intro k hk
        cases hPk : P k with
        | false => rfl
        | true =>
          have := hmono k ((i + j) / 2) (by omega) hh hPk
          rw [hP] at this
          exact absurd this (by simp)
      | true =>
        simp only
        refine ih _ _ (by omega) (by omega) (by omega) hlo ?_
        intro k hk hkn
        exact hmono _ k hk hkn hP
    · rw [if_neg hlt]
      have : i = j := by omega
      subst this
      exact ⟨i, rfl, hjn, hlo, hhi⟩

/-- What the check of `parseConf` gives for the routes, by index. -/
theorem checkCover_chain (rs : List Range) :
    ∀ st, checkCover st rs = .ok () →
      (∀ r, rs[0]? = some r → r.start = st) ∧
      (∀ k r r1, rs[k]? = some r → rs[k + 1]? = some r1 → r1.start = r.end_) ∧
      (∀ k r, rs[k]? = some r → rs[k + 1]? = none → MaxUint32 ≤ r.end_) ∧
      (rs = [] → MaxUint32 ≤ st) := by
  induction rs with
  | nil =>
    intro st hc
    simp only [checkCover] at hc
    split at hc
    · exact absurd hc (by simp)
    · refine ⟨by simp, by simp, by simp, fun _ => by omega⟩
  | cons r0 rs ih =>
    intro st hc
    simp only [checkCover, ne_eq, ite_not] at hc
    split at hc
    · rename_i hs
      obtain ⟨h1, h2, h3, h4⟩ := ih _ hc
      refine ⟨?_, ?_, ?_, by simp⟩
      · intro r hr
        simp only [List.getElem?_cons_zero, Option.some.injEq] at hr
        rw [← hr]; exact hs
      · intro k r r1 hr hr1
        cases k with
        | zero =>
          simp only [List.getElem?_cons_zero, Option.some.injEq] at hr
          simp only [Nat.zero_add, List.getElem?_cons_succ] at hr1
          rw [← hr]
          exact h1 r1 hr1
        | succ k =>
          simp only [List.getElem?_cons_succ] at hr hr1
          exact h2 k r r1 hr hr1
      · intro k r hr hr1
        cases k with
        | zero =>
          simp only [List.getElem?_cons_zero, Option.some.injEq] at hr
          simp only [Nat.zero_add, List.getElem?_cons_succ] at hr1
          rw [← hr]
          apply h4
          cases rs with
          | nil => rfl
          | cons a l => simp at hr1
        | succ k =>
          simp only [List.getElem?_cons_succ] at hr hr1
          exact h3 k r hr hr1
    · exact absurd hc (by simp)

theorem parseConf_sorted (ParseUint : List Byte → Option Nat)
    (sortRoutes : List Range → List Range) (confVal : List Byte) (c : Conf)
    (h : parseConf ParseUint sortRoutes confVal = .ok c) : ∃ l, c.routes = sortRoutes l := by
  unfold parseConf at h
  simp only at h
  split at h
  · exact absurd h (by simp)
  · split at h
    · exact absurd h (by simp)
    · split at h
      · exact absurd h (by simp)
      · split at h
        · exact absurd h (by simp)
        · simp only [Except.ok.injEq] at h
          rw [← h]
          exact ⟨_, rfl⟩


/-- The ends of routes that are sorted by `start` and pass the check of
`parseConf` do not decrease, up to the last one, which is `MaxUint32` at
least. -/
theorem routes_end_mono (rl : List Range) (h : Nat) (hh : h ≤ MaxUint32)
    (hsorted : rl.Pairwise (fun a b => a.start ≤ b.start))
    (hc : checkCover 0 rl = .ok ()) (a b : Nat) (ra rb : Range) (hab : a ≤ b)
    (ha : rl[a]? = some ra) (hb : rl[b]? = some rb) (hae : h ≤ ra.end_) : h ≤ rb.end_ := by
  obtain ⟨-, h2, h3, -⟩ := checkCover_chain rl 0 hc
  rcases Nat.eq_or_lt_of_le hab with hab | hab
  · subst hab
    rw [ha] at hb
    simp only [Option.some.injEq] at hb
    rw [← hb]; exact hae
  · cases hb1 : rl[b + 1]? with
    | none =>
      have := h3 b rb hb hb1
      omega
    | some rb1 =>
      have e1 := h2 b rb rb1 hb hb1
      obtain ⟨hbl, hbe⟩ := List.getElem?_eq_some.mp hb
      obtain ⟨hb1l, hb1e⟩ := List.getElem?_eq_some.mp hb1
      have ha1l : a + 1 < rl.length := by omega
      have ha1 : rl[a + 1]? = some rl[a + 1] := List.getElem?_eq_getElem ha1l
      have e2 := h2 a ra _ ha ha1
      have hle : rl[a + 1].start ≤ rl[b + 1].start :=
        List.pairwise_iff_getElem.mp hsorted (a + 1) (b + 1) ha1l hb1l (by omega)
      rw [hb1e] at hle
      omega

theorem Search_spec (rl : List Range) (h : Nat) (hh : h ≤ MaxUint32)
    (hsorted : rl.Pairwise (fun a b => a.start ≤ b.start))
    (hc : checkCover 0 rl = .ok ()) :
    ∃ n r, RangeList.Search rl h = .ok r ∧ rl[n]? = some r ∧ r.start ≤ h ∧ h ≤ r.end_ ∧
      ∀ (k : Nat) (r1 : Range), k < n → rl[k]? = some r1 → r1.end_ < h := by
  obtain ⟨c1, c2, c3, c4⟩ := checkCover_chain rl 0 hc
  have hne : 0 < rl.length := by
    cases rl with
    | nil => simp [MaxUint32] at c4
    | cons a l => simp
  let P : Nat → Bool := fun k =>
    match rl[k]? with
    | some r => decide (r.end_ ≥ h)
    | none => false
  have hP : ∀ k r, rl[k]? = some r → (P k = true ↔ h ≤ r.end_) := by
    intro k r hr
    simp only [P, hr, ge_iff_le, decide_eq_true_eq]
  have hf : ∀ k, k < rl.length →
      (fun i => (rl[i]?).map (fun r => decide (r.end_ ≥ h))) k = some (P k) := by
    intro k hk
    simp only [P, List.getElem?_eq_getElem hk, Option.map_some']
  have hmono : ∀ a b, a ≤ b → b < rl.length → P a = true → P b = true := by
    intro a b hab hb hPa
    have hbe := List.getElem?_eq_getElem hb
    have hae := List.getElem?_eq_getElem (Nat.lt_of_le_of_lt hab hb)
    rw [hP a _ hae] at hPa
    rw [hP b _ hbe]
    exact routes_end_mono rl h hh hsorted hc a b _ _ hab hae hbe hPa
  obtain ⟨n, hn, hnl, hlo, hhi⟩ := sortSearchLoop_spec _ P rl.length hf hmono rl.length 0 rl.length
    (Nat.zero_le _) (Nat.le_refl _) (by omega) (by intro k hk; omega) (by intro k h1 h2; omega)
  have hlast : P (rl.length - 1) = true := by
    have hl : rl.length - 1 < rl.length := by omega
    have he := List.getElem?_eq_getElem hl
    rw [hP _ _ he]
    have := c3 (rl.length - 1) _ he (List.getElem?_eq_none (by omega))
    omega
  have hnlt : n < rl.length := by
    by_contra hcon
    have := hlo (rl.length - 1) (by omega)
    rw [hlast] at this
    exact absurd this (by simp)
  have hne := List.getElem?_eq_getElem hnlt
  refine ⟨n, rl[n], ?_, hne, ?_, ?_, ?_⟩
  · unfold RangeList.Search sortSearch
    rw [hn]
    simp only [ge_iff_le]
    rw [if_neg (by omega), hne]
  · cases n with
    | zero =>
      have := c1 _ hne
      omega
    | succ k =>
      have hk : k < rl.length := by omega
      have hke := List.getElem?_eq_getElem hk
      have e := c2 k _ _ hke hne
      have hPk := hlo k (by omega)
      have : ¬ h ≤ rl[k].end_ := by
        intro hcon
        rw [(hP k _ hke).mpr hcon] at hPk
        exact absurd hPk (by simp)
      omega
  · exact (hP n _ hne).mp (hhi n (Nat.le_refl _) hnlt)
  · intro k r1 hk hr1
    have hPk := hlo k hk
    by_contra hcon
    rw [(hP k _ hr1).mpr (by omega)] at hPk
    exact absurd hPk (by simp)

/-- C23. For a configuration that `parseConf` accepts, where `sort.Sort` leaves
the routes ordered by `start`, and a hash `h` of 32 bits: `RangeList.Search(h)`
returns, without a panic, the route `r` at the lowest index `n` whose end is
`h` or more (the end of every route in front of it is below `h`), and
`r.start ≤ h ≤ r.end`. -/
theorem RangeList_Search_first (ParseUint : List Byte → Option Nat)
    (sortRoutes : List Range → List Range)
    (hsort : ∀ l, (sortRoutes l).Pairwise (fun a b => a.start ≤ b.start))
    (confVal : List Byte) (c : Conf) (hc : parseConf ParseUint sortRoutes confVal = .ok c)
    (h : Nat) (hh : h < 2 ^ 32) :
    ∃ n r, RangeList.Search c.routes h = .ok r ∧ c.routes[n]? = some r ∧
      r.start ≤ h ∧ h ≤ r.end_ ∧
      ∀ (k : Nat) (r1 : Range), k < n → c.routes[k]? = some r1 → r1.end_ < h := by
  obtain ⟨l, hl⟩ := parseConf_sorted ParseUint sortRoutes confVal c hc
  have hs : c.routes.Pairwise (fun a b => a.start ≤ b.start) := by
    rw [hl]; exact hsort l
  exact Search_spec c.routes h (by simp only [MaxUint32]; omega) hs
    (parseConf_checked ParseUint sortRoutes confVal c hc)

/-- Witness for C23: the configuration "m 2\nb 100:4294967295\na 0:100\n", sorted
by insertion, and the hash 100, which is the end of the first range and the
start of the second one. -/
theorem RangeList_Search_first_witness :
    ∃ n r,
      RangeList.Search [⟨str "a", 0, 100⟩, ⟨str "b", 100, 4294967295⟩] 100 = .ok r ∧
      [(⟨str "a", 0, 100⟩ : Range), ⟨str "b", 100, 4294967295⟩][n]? = some r ∧
      r.start ≤ 100 ∧ 100 ≤ r.end_ ∧
      ∀ (k : Nat) (r1 : Range), k < n →
        [(⟨str "a", 0, 100⟩ : Range), ⟨str "b", 100, 4294967295⟩][k]? = some r1 →
        r1.end_ < 100 :=
  RangeList_Search_first decimal (List.insertionSort (fun a b => a.start ≤ b.start))
    (fun l =>
      have : IsTotal Range (fun a b => a.start ≤ b.start) := ⟨fun a b => Nat.le_total _ _⟩
      have : IsTrans Range (fun a b => a.start ≤ b.start) := ⟨fun _ _ _ => Nat.le_trans⟩
      List.sorted_insertionSort (fun a b : Range => a.start ≤ b.start) l)
    (str "m 2\nb 100:4294967295\na 0:100\n")
    ⟨str "m", 2, [str "b", str "a"], [⟨str "a", 0, 100⟩, ⟨str "b", 100, 4294967295⟩]⟩
    (by rfl) 100 (by decide)

/-! ## The static-range router: reading back the configuration text -/

theorem digitChar_byte (k : Nat) (hk : k < 10) :
    byte (Nat.digitChar k).toNat = byte (48 + k) := by
  interval_cases k <;> rfl

theorem byte_digit_val (k : Nat) (hk : k < 10) : (byte (48 + k)).val = 48 + k := by
  interval_cases k <;> rfl

/-- The decimal digits that `toString n` is made of, as bytes. -/
theorem toDigitsCore_spec (fuel : Nat) :
    ∀ (n : Nat) (ds : List Char), n < fuel →
      ∃ l : List Char, Nat.toDigitsCore 10 fuel n ds = l ++ ds ∧ l ≠ [] ∧
        (∀ b ∈ l.map (fun c => byte c.toNat), 48 ≤ b.val ∧ b.val ≤ 57) ∧
        ∀ acc : Nat, (l.map (fun c => byte c.toNat)).foldl
          (fun acc b => acc * 10 + (b.val - 48)) acc = acc * 10 ^ l.length + n := by
  induction fuel with
  | zero => intro n ds h; omega
  | succ fuel ih =>
    intro n ds hn
    have hd : n % 10 < 10 := Nat.mod_lt _ (by decide)
    have hv := byte_digit_val (n % 10) hd
    have hb := digitChar_byte (n % 10) hd
    unfold Nat.toDigitsCore
    simp only
    by_cases h0 : n / 10 = 0
    · rw [if_pos h0]
      refine ⟨[Nat.digitChar (n % 10)], rfl, by simp, ?_, ?_⟩
      · intro b hbm
        simp only [List.map_cons, List.map_nil, List.mem_singleton] at hbm
        rw [hbm, hb, hv]
        omega
      · intro acc
        simp only [List.map_cons, List.map_nil, List.foldl_cons, List.foldl_nil,
          List.length_singleton, pow_one, hb, hv]
        omega
    · rw [if_neg h0]
      obtain ⟨l, e, hne, hdig, hval⟩ := ih (n / 10) (Nat.digitChar (n % 10) :: ds) (by omega)
      refine ⟨l ++ [Nat.digitChar (n % 10)], by rw [e]; simp, by simp, ?_, ?_⟩
      · intro b hbm
        simp only [List.map_append, List.map_cons, List.map_nil, List.mem_append,
          List.mem_singleton] at hbm
        rcases hbm with hbm | hbm
        · exact hdig b hbm
        · rw [hbm, hb, hv]
          omega
      · intro acc
        simp only [List.map_append, List.map_cons, List.map_nil, List.foldl_append,
          List.foldl_cons, List.foldl_nil, List.length_append, List.length_singleton, hb, hv,
          hval acc, pow_succ]
        have := Nat.div_add_mod n 10
        have e2 : acc * (10 ^ l.length * 10) = acc * 10 ^ l.length * 10 := by ring
        rw [e2]
        omega

theorem str_toString (n : Nat) :
    str (toString n) ≠ [] ∧ (∀ b ∈ str (toString n), 48 ≤ b.val ∧ b.val ≤ 57) ∧
    (str (toString n)).foldl (fun acc b => acc * 10 + (b.val - 48)) 0 = n := by
  obtain ⟨l, e, hne, hdig, hval⟩ := toDigitsCore_spec (n + 1) n [] (Nat.lt_succ_self n)
  have hs : str (toString n) = l.map (fun c => byte c.toNat) := by
    show (Nat.repr n).toList.map _ = _
    unfold Nat.repr Nat.toDigits
    rw [e]
    simp [List.asString, String.toList]
  rw [hs]
  refine ⟨by simpa using hne, hdig, ?_⟩
  have := hval 0
  simpa using this

/-- The function `decimal` reads what `%d` writes. -/
theorem decimal_toString (n : Nat) (hn : n < 2 ^ 32) : decimal (str (toString n)) = some n := by
  obtain ⟨hne, hdig, hval⟩ := str_toString n
  unfold decimal
  have hall : (str (toString n)).all (fun b => decide (48 ≤ b.val ∧ b.val ≤ 57)) = true := by
    rw [List.all_eq_true]
    intro b hb
    simpa using hdig b hb
  rw [if_neg (by
    intro h
    rcases h with h | h
    · exact hne h
    · exact h hall)]
  simp only [hval]
  rw [if_pos (by simp only [MaxUint32]; omega)]


theorem stringsSplit_nosep (sep : Byte) (w : List Byte) (hw : sep ∉ w) :
    stringsSplit sep w = [w] := by
  induction w with
  | nil => rfl
  | cons c w ih =>
    have hc : c ≠ sep := fun h => hw (by simp [h])
    have hw1 : sep ∉ w := fun h => hw (List.mem_cons_of_mem _ h)
    simp only [stringsSplit, hc, if_false, ih hw1]

theorem stringsSplit_append (sep : Byte) (w rest : List Byte) (hw : sep ∉ w) :
    stringsSplit sep (w ++ sep :: rest) = w :: stringsSplit sep rest := by
  induction w with
  | nil => simp [stringsSplit]
  | cons c w ih =>
    have hc : c ≠ sep := fun h => hw (by simp [h])
    have hw1 : sep ∉ w := fun h => hw (List.mem_cons_of_mem _ h)
    rw [List.cons_append, stringsSplit, if_neg hc, ih hw1]

theorem bytesIndex_first (b : Byte) (w rest : List Byte) (hw : b ∉ w) :
    bytesIndex (w ++ b :: rest) [b] = some w.length := by
  induction w with
  | nil =>
    apply bytesIndex_hit
    simp [List.isPrefixOf]
  | cons c w ih =>
    have hc : b ≠ c := fun h => hw (by simp [h])
    have hw1 : b ∉ w := fun h => hw (List.mem_cons_of_mem _ h)
    rw [List.cons_append, bytesIndex_cons _ _ _ (by simp [List.isPrefixOf, hc]), ih hw1]
    rfl

/-- The line that `masterUpdateConf` writes for a route, without the newline. -/
theorem routeLines_cons (r : Range) (rs : List Range) :
    routeLines (r :: rs) =
      (r.addr ++ 32 :: (str (toString r.start) ++ 58 :: str (toString r.end_))) ++
        10 :: routeLines rs := by
  simp only [routeLines]
  have e1 : str " " = [32] := by decide
  have e2 : str ":" = [58] := by decide
  rw [e1, e2]
  simp

theorem digits_not_mem (n : Nat) (b : Byte) (hb : b.val < 48) : b ∉ str (toString n) := by
  intro h
  have := ((str_toString n).2.1 b h).1
  omega

theorem digits_no_colon (n : Nat) : (58 : Byte) ∉ str (toString n) := by
  intro h
  have := ((str_toString n).2.1 58 h).2
  exact absurd this (by decide)

/-- The lines of the routes that `masterUpdateConf` writes, read by the loop of
`parseConf`. -/
theorem parseLines_routeLines (ParseUint : List Byte → Option Nat)
    (hparse : ∀ n, n < 2 ^ 32 → ParseUint (str (toString n)) = some n) (rs : List Range) :
    ∀ c : Conf, (∀ r ∈ rs, (32 : Byte) ∉ r.addr ∧ (10 : Byte) ∉ r.addr ∧
        r.start < 2 ^ 32 ∧ r.end_ < 2 ^ 32) →
      parseLines ParseUint c (stringsSplit 10 (routeLines rs)) =
        .ok { c with srvaddrs := c.srvaddrs ++ rs.map (fun r => r.addr),
                     routes := c.routes ++ rs } := by
  induction rs with
  | nil =>
    intro c _
    simp [routeLines, stringsSplit, parseLines]
  | cons r rs ih =>
    intro c hrs
    obtain ⟨h32, h10, hs, he⟩ := hrs r (List.mem_cons_self _ _)
    have hrest : str (toString r.start) ++ 58 :: str (toString r.end_) =
        str (toString r.start) ++ 58 :: str (toString r.end_) := rfl
    have hno32 : (32 : Byte) ∉ str (toString r.start) ++ 58 :: str (toString r.end_) := by
      intro h
      simp only [List.mem_append, List.mem_cons] at h
      rcases h with h | h | h
      · exact digits_not_mem _ 32 (by decide) h
      · exact absurd h (by decide)
      · exact digits_not_mem _ 32 (by decide) h
    have hno10 : (10 : Byte) ∉
        r.addr ++ 32 :: (str (toString r.start) ++ 58 :: str (toString r.end_)) := by
      intro h
      simp only [List.mem_append, List.mem_cons] at h
      rcases h with h | h | h | h | h
      · exact h10 h
      · exact absurd h (by decide)
      · exact digits_not_mem _ 10 (by decide) h
      · exact absurd h (by decide)
      · exact digits_not_mem _ 10 (by decide) h
    rw [routeLines_cons, stringsSplit_append 10 _ _ hno10]
    rw [parseLines]
    rw [if_neg (by simp)]
    simp only
    rw [stringsSplit_append 32 _ _ h32, stringsSplit_nosep 32 _ hno32]
    simp only [List.length_cons, List.length_nil, List.headD_cons, List.tail_cons]
    rw [if_neg (by omega)]
    have e2 : str ":" = [58] := by decide
    simp only [parseRanges, e2]
    rw [bytesIndex_first 58 _ _ (digits_no_colon _)]
    simp only [List.take_left', List.drop_left', List.take_append_eq_append_take,
      List.take_length, Nat.sub_self, List.take_zero, List.append_nil]
    rw [hparse _ hs]
    simp only
    have ed : List.drop ((str (toString r.start)).length + 1)
        (str (toString r.start) ++ 58 :: str (toString r.end_)) = str (toString r.end_) := by
      rw [← List.drop_drop]
      simp
    rw [ed, hparse _ he]
    simp only [Nat.mod_eq_of_lt hs, Nat.mod_eq_of_lt he]
    rw [ih _ (fun r1 hr1 => hrs r1 (List.mem_cons_of_mem _ hr1))]
    simp


/-- A sort by `start` leaves alone a list whose starts increase strictly. -/
theorem sortRoutes_id (sortRoutes : List Range → List Range)
    (hsort : ∀ l, (sortRoutes l).Perm l ∧ (sortRoutes l).Pairwise (fun a b => a.start ≤ b.start))
    (l : List Range) (hl : l.Pairwise (fun a b => a.start < b.start)) : sortRoutes l = l := by
  obtain ⟨hp, hs⟩ := hsort l
  have hne : l.Pairwise (fun a b => a.start ≠ b.start) := hl.imp (fun h => Nat.ne_of_lt h)
  have hne1 : (sortRoutes l).Pairwise (fun a b => a.start ≠ b.start) :=
    hp.symm.pairwise hne (fun h => Ne.symm h)
  have hst : (sortRoutes l).Pairwise (fun a b => a.start < b.start) :=
    (hs.and hne1).imp (fun h => Nat.lt_of_le_of_ne h.1 h.2)
  have : IsAntisymm Range (fun a b => a.start < b.start) :=
    ⟨fun a b h1 h2 => absurd h1 (Nat.lt_asymm h2)⟩
  exact List.eq_of_perm_of_sorted hp hst hl

/-- The routes that `masterUpdateConf` writes: the addresses are the old ones,
the bounds fit 32 bits. -/
theorem evenRanges_mem (rs : List Range) (r : Range)
    (hr : r ∈ setLastEnd (setRanges (MaxUint32 / rs.length) 0 rs)) :
    (∃ r0 ∈ rs, r.addr = r0.addr) ∧ r.start < 2 ^ 32 ∧ r.end_ < 2 ^ 32 := by
  obtain ⟨i, hi⟩ := List.mem_iff_getElem?.mp hr
  have hil : i < rs.length := by
    have := (List.getElem?_eq_some.mp hi).1
    rwa [setLastEnd_length, setRanges_length] at this
  have h0 := List.getElem?_eq_getElem hil
  rw [evenRanges_get rs i _ h0] at hi
  simp only [Option.some.injEq] at hi
  have hle : rs.length * (MaxUint32 / rs.length) ≤ MaxUint32 := Nat.mul_div_le _ _
  have h1 : i * (MaxUint32 / rs.length) ≤ rs.length * (MaxUint32 / rs.length) :=
    Nat.mul_le_mul_right _ (by omega)
  have h2 : (i + 1) * (MaxUint32 / rs.length) ≤ rs.length * (MaxUint32 / rs.length) :=
    Nat.mul_le_mul_right _ (by omega)
  have hM : MaxUint32 < 2 ^ 32 := by decide
  rw [← hi]
  refine ⟨⟨rs[i], List.getElem_mem _, rfl⟩, by simp only; omega, ?_⟩
  simp only
  split <;> omega

theorem evenRanges_sorted (rs : List Range) (hn : rs.length ≤ MaxUint32) :
    (setLastEnd (setRanges (MaxUint32 / rs.length) 0 rs)).Pairwise
      (fun a b => a.start < b.start) := by
  rw [List.pairwise_iff_getElem]
  intro i j hi hj hij
  have hil : i < rs.length := by rwa [setLastEnd_length, setRanges_length] at hi
  have hjl : j < rs.length := by rwa [setLastEnd_length, setRanges_length] at hj
  have ei := evenRanges_get rs i _ (List.getElem?_eq_getElem hil)
  have ej := evenRanges_get rs j _ (List.getElem?_eq_getElem hjl)
  rw [List.getElem?_eq_getElem hi, Option.some.injEq] at ei
  rw [List.getElem?_eq_getElem hj, Option.some.injEq] at ej
  rw [ei, ej]
  simp only
  have hpos : 0 < MaxUint32 / rs.length := Nat.div_pos hn (by omega)
  exact Nat.mul_lt_mul_of_pos_right hij hpos

/-- What `parseConf` makes of a first line `maddr n` followed by the lines of
the routes `rs` written by `masterUpdateConf`. -/
theorem parseConf_text (ParseUint : List Byte → Option Nat)
    (sortRoutes : List Range → List Range)
    (hparse : ∀ n, n < 2 ^ 32 → ParseUint (str (toString n)) = some n)
    (maddr : List Byte) (n : Nat) (rs : List Range) (hn : n < 2 ^ 32)
    (hm : (32 : Byte) ∉ maddr ∧ (10 : Byte) ∉ maddr) (hne : rs ≠ [])
    (hrs : ∀ r ∈ rs, (32 : Byte) ∉ r.addr ∧ (10 : Byte) ∉ r.addr ∧
      r.start < 2 ^ 32 ∧ r.end_ < 2 ^ 32)
    (hid : sortRoutes rs = rs) (hcov : checkCover 0 rs = .ok ()) :
    parseConf ParseUint sortRoutes
        (maddr ++ str " " ++ str (toString n) ++ [10] ++ routeLines rs) =
      .ok ⟨maddr, n, rs.map (fun r => r.addr), rs⟩ := by
  have e1 : str " " = [32] := by decide
  have etext : maddr ++ str " " ++ str (toString n) ++ [10] ++ routeLines rs =
      (maddr ++ 32 :: str (toString n)) ++ 10 :: routeLines rs := by
    rw [e1]; simp
  have hno10 : (10 : Byte) ∉ maddr ++ 32 :: str (toString n) := by
    intro h
    simp only [List.mem_append, List.mem_cons] at h
    rcases h with h | h | h
    · exact hm.2 h
    · exact absurd h (by decide)
    · exact digits_not_mem _ 10 (by decide) h
  have hlen : ¬ (stringsSplit 10 (routeLines rs)).length + 1 < 2 := by
    cases rs with
    | nil => exact absurd rfl hne
    | cons r rs =>
      rw [routeLines_cons, stringsSplit_append 10 _ _ (by
        intro h
        simp only [List.mem_append, List.mem_cons] at h
        rcases h with h | h | h | h | h
        · exact (hrs r (List.mem_cons_self _ _)).2.1 h
        · exact absurd h (by decide)
        · exact digits_not_mem _ 10 (by decide) h
        · exact absurd h (by decide)
        · exact digits_not_mem _ 10 (by decide) h)]
      simp
  unfold parseConf
  rw [etext, stringsSplit_append 10 _ _ hno10]
  simp only [List.length_cons, List.headD_cons, List.tail_cons]
  rw [if_neg hlen, e1, bytesIndex_first 32 _ _ hm.1]
  simp only
  have ed : List.drop (maddr.length + 1) (maddr ++ 32 :: str (toString n)) =
      str (toString n) := by
    rw [← List.drop_drop]
    simp
  rw [ed, hparse n hn]
  simp only [List.take_left']
  rw [parseLines_routeLines ParseUint hparse rs _ hrs]
  simp only [List.nil_append, hid, hcov]

/-- C29. For a master with `N` routes, `1 ≤ N ≤ 2^32 - 1`, whose own address
and route addresses hold no space and no newline: `masterUpdateConf` returns a
text that `parseConf` accepts, and the parsed configuration has the address of
the master, the server count `N`, and the routes (address, start, end) that
`masterUpdateConf` has set, in the same order, with one server address per
route. The library functions are taken with their contracts:
`strconv.ParseUint(s, 0, 32)` reads the decimal numerals below `2^32` that `%d`
writes, and `sort.Sort` returns a permutation ordered by `start`. -/
theorem parseConf_masterUpdateConf (ParseUint : List Byte → Option Nat)
    (sortRoutes : List Range → List Range)
    (hparse : ∀ n, n < 2 ^ 32 → ParseUint (str (toString n)) = some n)
    (hsort : ∀ l, (sortRoutes l).Perm l ∧
      (sortRoutes l).Pairwise (fun a b => a.start ≤ b.start))
    (s : D2Hop) (h1 : 1 ≤ s.conf.routes.length) (h2 : s.conf.routes.length ≤ 2 ^ 32 - 1)
    (hm : (32 : Byte) ∉ s.addr ∧ (10 : Byte) ∉ s.addr)
    (ha : ∀ r ∈ s.conf.routes, (32 : Byte) ∉ r.addr ∧ (10 : Byte) ∉ r.addr) :
    ∃ s1 text c, s.masterUpdateConf = some (s1, text) ∧
      parseConf ParseUint sortRoutes text = .ok c ∧
      c.maddr = s.addr ∧ c.srvnum = s.conf.routes.length ∧ c.routes = s1.routes ∧
      s1.conf.routes = s1.routes ∧ s1.routes.length = s.conf.routes.length ∧
      c.srvaddrs = s1.routes.map (fun r => r.addr) := by
  have hn0 : s.conf.routes.length ≠ 0 := by omega
  have hne : s.conf.routes ≠ [] := fun h => hn0 (by rw [h]; rfl)
  have hlen : (setLastEnd (setRanges (MaxUint32 / s.conf.routes.length) 0 s.conf.routes)).length =
      s.conf.routes.length := by rw [setLastEnd_length, setRanges_length]
  have hne1 : setLastEnd (setRanges (MaxUint32 / s.conf.routes.length) 0 s.conf.routes) ≠ [] := by
    intro h
    rw [h] at hlen
    exact hn0 hlen.symm
  have hcov := checkCover_setRanges (MaxUint32 / s.conf.routes.length) 0 s.conf.routes hne
  simp only [Nat.zero_mul, Nat.zero_mod] at hcov
  have hp := parseConf_text ParseUint sortRoutes hparse s.addr s.conf.routes.length
    (setLastEnd (setRanges (MaxUint32 / s.conf.routes.length) 0 s.conf.routes)) (by omega) hm hne1
    (by
      intro r hr
      obtain ⟨⟨r0, hr0, e⟩, hs, he⟩ := evenRanges_mem s.conf.routes r hr
      rw [e]
      exact ⟨(ha r0 hr0).1, (ha r0 hr0).2, hs, he⟩)
    (sortRoutes_id sortRoutes hsort _
      (evenRanges_sorted s.conf.routes (by simp only [MaxUint32]; omega)))
    hcov
  refine ⟨{ s with
      conf := { s.conf with
        routes := setLastEnd (setRanges (MaxUint32 / s.conf.routes.length) 0 s.conf.routes) },
      routes := setLastEnd (setRanges (MaxUint32 / s.conf.routes.length) 0 s.conf.routes) },
    _, _, ?_, hp, rfl, rfl, rfl, rfl, hlen, rfl⟩
  simp only [D2Hop.masterUpdateConf, hn0, if_false]

/-- Witness for C29: the master "m" with the three routes of "m", "a" and
"b"; the numerals are read by `decimal` and the routes sorted by insertion. -/
theorem parseConf_masterUpdateConf_witness :
    ∃ s1 text c,
      D2Hop.masterUpdateConf ⟨str "m", ⟨str "m", 3, [str "m", str "a", str "b"],
        [⟨str "m", 0, 0⟩, ⟨str "a", 0, 0⟩, ⟨str "b", 0, 0⟩]⟩, [], []⟩ = some (s1, text) ∧
      parseConf decimal (List.insertionSort (fun a b => a.start ≤ b.start)) text = .ok c ∧
      c.maddr = str "m" ∧ c.srvnum = ([⟨str "m", 0, 0⟩, ⟨str "a", 0, 0⟩,
        (⟨str "b", 0, 0⟩ : Range)].length : Nat) ∧ c.routes = s1.routes ∧
      s1.conf.routes = s1.routes ∧
      s1.routes.length = [⟨str "m", 0, 0⟩, ⟨str "a", 0, 0⟩, (⟨str "b", 0, 0⟩ : Range)].length ∧
      c.srvaddrs = s1.routes.map (fun r => r.addr) :=
  parseConf_masterUpdateConf decimal (List.insertionSort (fun a b => a.start ≤ b.start))
    decimal_toString
    (fun l =>
      have : IsTotal Range (fun a b => a.start ≤ b.start) := ⟨fun a b => Nat.le_total _ _⟩
      have : IsTrans Range (fun a b => a.start ≤ b.start) := ⟨fun _ _ _ => Nat.le_trans⟩
      ⟨List.perm_insertionSort _ l, List.sorted_insertionSort (fun a b : Range => a.start ≤ b.start) l⟩)
    ⟨str "m", ⟨str "m", 3, [str "m", str "a", str "b"],
      [⟨str "m", 0, 0⟩, ⟨str "a", 0, 0⟩, ⟨str "b", 0, 0⟩]⟩, [], []⟩
    (by decide) (by decide) (by decide) (by decide)

/-! ## The Chord server: the local successor -/

/-- What `between` computes is the interval `(low, high]` of the ring. -/
theorem between_iff_ringIn (n low high : Nat) (hn : n < 2 ^ 64) (hl : low < 2 ^ 64)
    (hh : high < 2 ^ 64) : between n low high = true ↔ ringIn n low high := by
  unfold between ringIn ringDist
  norm_num at hn hl hh ⊢
  split <;> constructor <;> intro h <;> omega

theorem closestFinger_none (s : Chord) (id : Nat) :
    ∀ k, (∀ i nd, i < k → s.finger[i]? = some (some nd) →
        between (s.node nd).id s.self.id ((id + 2 ^ 64 - 1) % 2 ^ 64) = false) →
      s.closestFinger id k = none := by
  intro k
  induction k with
  | zero => intro _; rfl
  | succ k ih =>
    intro h
    unfold Chord.closestFinger
    have ih1 := ih (fun i nd hi hf => h i nd (by omega) hf)
    cases hf : s.finger[k]? with
    | none => simpa using ih1
    | some f =>
      cases f with
      | none => simpa using ih1
      | some nd =>
        have := h k nd (by omega) hf
        simp only [Option.join, Option.bind, id_eq, this, Bool.false_eq_true, if_false] 
        exact ih1

theorem closestFinger_some (s : Chord) (id i nd : Nat) (hf : s.finger[i]? = some (some nd))
    (hq : between (s.node nd).id s.self.id ((id + 2 ^ 64 - 1) % 2 ^ 64) = true) :
    ∀ k, i < k → (∀ j nd1, i < j → j < k → s.finger[j]? = some (some nd1) →
        between (s.node nd1).id s.self.id ((id + 2 ^ 64 - 1) % 2 ^ 64) = false) →
      s.closestFinger id k = some nd := by
  intro k
  induction k with
  | zero => intro h; omega
  | succ k ih =>
    intro hik h
    unfold Chord.closestFinger
    by_cases hk : i = k
    · subst hk
      rw [hf]
      simp only [Option.join, Option.bind, id_eq]
      rw [if_pos hq]
    · have ih1 := ih (by omega) (fun j nd1 h1 h2 hf1 => h j nd1 h1 (by omega) hf1)
      cases hfk : s.finger[k]? with
      | none => simpa using ih1
      | some f =>
        cases f with
        | none => simpa using ih1
        | some nd1 =>
          have := h k nd1 (by omega) (by omega) hfk
          simp only [Option.join, Option.bind, id_eq, this, Bool.false_eq_true, if_false]
          exact ih1

theorem node_id_lt (s : Chord) (hids : ∀ nd ∈ s.nodes, nd.id < 2 ^ 64) (i : Nat) :
    (s.node i).id < 2 ^ 64 := by
  unfold Chord.node
  rw [List.getD_eq_getElem?_getD]
  cases h : s.nodes[i]? with
  | none => simp
  | some nd => exact hids nd (List.getElem?_mem h)

theorem findLocalSuccessor_self (s : Chord) (h p : Nat) (hsrv : s.isServer = true)
    (hp : s.predecessor = some p) (hb : between h (s.node p).id s.self.id = true) :
    s.findLocalSuccessor h = some (.self, true) := by
  unfold Chord.findLocalSuccessor
  rw [hsrv, hp]
  simp only [hb, Bool.and_self, if_true]

theorem findLocalSuccessor_nofinger (s : Chord) (h : Nat) (l : List (Option Nat))
    (hfl : s.finger = none :: l) : s.findLocalSuccessor h = some (.self, true) := by
  unfold Chord.findLocalSuccessor
  split
  · rfl
  · rw [hfl]

theorem findLocalSuccessor_finger (s : Chord) (h f0 : Nat) (l : List (Option Nat))
    (hc : ∀ p, s.predecessor = some p → between h (s.node p).id s.self.id = false)
    (hfl : s.finger = some f0 :: l) :
    s.findLocalSuccessor h =
      if between h s.self.id (s.node f0).id = true then some (.node f0, true)
      else (s.closestFinger h (l.length + 1)).elim (some (.self, true))
        (fun nd => some (.node nd, false)) := by
  unfold Chord.findLocalSuccessor
  split
  · rename_i hcon
    cases hp : s.predecessor with
    | none => rw [hp] at hcon; simp at hcon
    | some p =>
      rw [hp] at hcon
      simp only [Bool.and_eq_true] at hcon
      rw [hc p hp] at hcon
      exact absurd hcon.2 (by simp)
  · rw [hfl]
    simp only [List.length_cons]
    split
    · rfl
    · cases s.closestFinger h (l.length + 1) <;> rfl

/-- C24. For a Chord server (`s.addr` is not empty) whose ids are 64-bit values
and a hash `h`, with `(low, high]` the interval of the ring of ids (empty when
`low = high`) and `h - 1` taken on the ring: `findLocalSuccessor(h)` returns
`(self, exact)` when a predecessor is known and `h ∈ (pred.id, self.id]`.
Otherwise it returns `(self, exact)` when `finger[0]` is not set, and
`(finger[0], exact)` when `finger[0]` is set and `h ∈ (self.id, finger[0].id]`.
Otherwise it returns `(finger[i], not exact)` for the highest index `i` whose
finger is set with an id in `(self.id, h - 1]`, and `(self, exact)` when there
is no such finger. -/
theorem findLocalSuccessor_spec (s : Chord) (h : Nat) (hsrv : s.isServer = true)
    (hh : h < 2 ^ 64) (hself : s.self.id < 2 ^ 64) (hids : ∀ nd ∈ s.nodes, nd.id < 2 ^ 64) :
    ((∃ p, s.predecessor = some p ∧ ringIn h (s.node p).id s.self.id) →
      s.findLocalSuccessor h = some (.self, true)) ∧
    ((¬ ∃ p, s.predecessor = some p ∧ ringIn h (s.node p).id s.self.id) →
      (s.finger[0]? = some none → s.findLocalSuccessor h = some (.self, true)) ∧
      (∀ f0 : Nat, s.finger[0]? = some (some f0) →
        (ringIn h s.self.id (s.node f0).id →
          s.findLocalSuccessor h = some (.node f0, true)) ∧
        (¬ ringIn h s.self.id (s.node f0).id →
          (∀ (i nd : Nat), s.finger[i]? = some (some nd) →
            ringIn (s.node nd).id s.self.id ((h + 2 ^ 64 - 1) % 2 ^ 64) →
            (∀ (j nd1 : Nat), i < j → s.finger[j]? = some (some nd1) →
              ¬ ringIn (s.node nd1).id s.self.id ((h + 2 ^ 64 - 1) % 2 ^ 64)) →
            s.findLocalSuccessor h = some (.node nd, false)) ∧
          ((∀ (i nd : Nat), s.finger[i]? = some (some nd) →
              ¬ ringIn (s.node nd).id s.self.id ((h + 2 ^ 64 - 1) % 2 ^ 64)) →
            s.findLocalSuccessor h = some (.self, true))))) := by
  have hb : ∀ n low high, n < 2 ^ 64 → low < 2 ^ 64 → high < 2 ^ 64 →
      (between n low high = true ↔ ringIn n low high) := between_iff_ringIn
  have hn := node_id_lt s hids
  have hh1 : (h + 2 ^ 64 - 1) % 2 ^ 64 < 2 ^ 64 := Nat.mod_lt _ (by norm_num)
  have hbf : ∀ n low high, n < 2 ^ 64 → low < 2 ^ 64 → high < 2 ^ 64 →
      ¬ ringIn n low high → between n low high = false := by
    intro n low high h1 h2 h3 hno
    cases hbt : between n low high with
    | false => rfl
    | true => exact absurd ((hb n low high h1 h2 h3).mp hbt) hno
  refine ⟨?_, ?_⟩
  · rintro ⟨p, hp, hin⟩
    exact findLocalSuccessor_self s h p hsrv hp ((hb _ _ _ hh (hn p) hself).mpr hin)
  · intro hno
    have hc : ∀ p, s.predecessor = some p → between h (s.node p).id s.self.id = false :=
      fun p hp => hbf _ _ _ hh (hn p) hself (fun hin => hno ⟨p, hp, hin⟩)
    refine ⟨?_, ?_⟩
    · intro hf0
      cases hfl : s.finger with
      | nil => rw [hfl] at hf0; simp at hf0
      | cons a l =>
        rw [hfl] at hf0
        simp only [List.getElem?_cons_zero, Option.some.injEq] at hf0
        subst hf0
        exact findLocalSuccessor_nofinger s h l hfl
    · intro f0 hf0
      cases hfl : s.finger with
      | nil => rw [hfl] at hf0; simp at hf0
      | cons a l =>
        have ha : a = some f0 := by
          rw [hfl] at hf0
          simpa using hf0
        subst ha
        have hlen : l.length + 1 = s.finger.length := by rw [hfl]; rfl
        rw [findLocalSuccessor_finger s h f0 l hc hfl, hlen]
        refine ⟨?_, ?_⟩
        · intro hin
          rw [if_pos ((hb _ _ _ hh hself (hn f0)).mpr hin)]
        · intro hnin
          have hbn := hbf _ _ _ hh hself (hn f0) hnin
          rw [if_neg (by rw [hbn]; simp)]
          refine ⟨?_, ?_⟩
          · intro i nd hfi hq hhigh
            have hfi1 : s.finger[i]? = some (some nd) := by rw [hfl]; exact hfi
            have hil : i < s.finger.length := (List.getElem?_eq_some.mp hfi1).1
            rw [closestFinger_some s h i nd hfi1
              ((hb _ _ _ (hn nd) hself hh1).mpr hq) s.finger.length hil
              (fun j nd1 h1 _ hfj => hbf _ _ _ (hn nd1) hself hh1
                (hhigh j nd1 h1 (by rw [← hfl]; exact hfj)))]
            rfl
          · intro hnone
            rw [closestFinger_none s h s.finger.length
              (fun i nd _ hfi => hbf _ _ _ (hn nd) hself hh1
                (hnone i nd (by rw [← hfl]; exact hfi)))]
            rfl

/-- Witness for C24: the example server (id 100, predecessor 50, `finger[0]`
with the id 200, `finger[5]` with the id 300) and the hash 350. -/
theorem findLocalSuccessor_spec_witness :
    ((∃ p, exampleChord.predecessor = some p ∧
        ringIn 350 (exampleChord.node p).id exampleChord.self.id) →
      exampleChord.findLocalSuccessor 350 = some (.self, true)) ∧
    ((¬ ∃ p, exampleChord.predecessor = some p ∧
        ringIn 350 (exampleChord.node p).id exampleChord.self.id) →
      (exampleChord.finger[0]? = some none →
        exampleChord.findLocalSuccessor 350 = some (.self, true)) ∧
      (∀ f0 : Nat, exampleChord.finger[0]? = some (some f0) →
        (ringIn 350 exampleChord.self.id (exampleChord.node f0).id →
          exampleChord.findLocalSuccessor 350 = some (.node f0, true)) ∧
        (¬ ringIn 350 exampleChord.self.id (exampleChord.node f0).id →
          (∀ (i nd : Nat), exampleChord.finger[i]? = some (some nd) →
            ringIn (exampleChord.node nd).id exampleChord.self.id
              ((350 + 2 ^ 64 - 1) % 2 ^ 64) →
            (∀ (j nd1 : Nat), i < j → exampleChord.finger[j]? = some (some nd1) →
              ¬ ringIn (exampleChord.node nd1).id exampleChord.self.id
                ((350 + 2 ^ 64 - 1) % 2 ^ 64)) →
            exampleChord.findLocalSuccessor 350 = some (.node nd, false)) ∧
          ((∀ (i nd : Nat), exampleChord.finger[i]? = some (some nd) →
              ¬ ringIn (exampleChord.node nd).id exampleChord.self.id
                ((350 + 2 ^ 64 - 1) % 2 ^ 64)) →
            exampleChord.findLocalSuccessor 350 = some (.self, true))))) :=
  findLocalSuccessor_spec exampleChord 350 (by decide) (by decide) (by decide) (by decide)

/-! ## The Chord server: the pacing of the stabilizer -/

theorem pace_true (st : Pace) :
    pace st true =
      ⟨if 10000000 < st.period / 2 ∧ st.period / 2 < 1000000000 ∧ st.period / 2 ≠ st.period
        then st.period / 2 else st.period, st.modcnt + 1, 0⟩ := by
  unfold pace
  simp only [Millisecond, Second, if_true, ge_iff_le, Nat.le_add_left, Pace.mk.injEq, and_true]
  split_ifs <;> omega

theorem pace_false (st : Pace) :
    pace st false =
      ⟨if 7 < st.runcnt + 1 ∧ 10000000 < st.period + st.period / 3 ∧
          st.period + st.period / 3 < 1000000000 ∧ st.period / 3 ≠ 0
        then st.period + st.period / 3 else st.period, 0, st.runcnt + 1⟩ := by
  unfold pace
  simp only [Millisecond, Second, Bool.false_eq_true, if_false, Pace.mk.injEq, and_true]
  split_ifs <;> omega

theorem paceRun_append (ms : List Bool) (m : Bool) :
    paceRun (ms ++ [m]) = pace (paceRun ms) m := by
  simp [paceRun, List.foldl_append]

theorem pace_bounds (st : Pace) (m : Bool)
    (h : 10 * Millisecond < st.period ∧ st.period < Second) :
    10 * Millisecond < (pace st m).period ∧ (pace st m).period < Second := by
  simp only [Millisecond, Second] at h ⊢
  cases m
  · rw [pace_false]
    simp only
    split_ifs <;> omega
  · rw [pace_true]
    simp only
    split_ifs <;> omega

theorem paceRun_bounds (ms : List Bool) :
    10 * Millisecond < (paceRun ms).period ∧ (paceRun ms).period < Second := by
  have key : ∀ (l : List Bool) (st : Pace),
      (10 * Millisecond < st.period ∧ st.period < Second) →
      10 * Millisecond < (l.foldl pace st).period ∧ (l.foldl pace st).period < Second := by
    intro l
    induction l with
    | nil => intro st h; exact h
    | cons m l ih => intro st h; exact ih _ (pace_bounds st m h)
  exact key ms _ (by decide)

/-- C25. The pacing rule of `stabilizeproc` halves the period after every pass
that made modifications, whatever the pass before it did: the test is
`modcnt >= 1` right after `modcnt++`. From 20 ms, eight passes without
modifications bring the period to 26666666 ns, and one pass with modifications
then halves it to 13333333 ns. For every run of passes `ms`: after one more
pass with modifications the period is half the period before, when that half
is above 10 ms (it is below 1 s), and is unchanged otherwise; after one more
pass without modifications it is the period and a third of it, when this is the
eighth or a later one of consecutive passes without modifications and the sum
is below 1 s, and is unchanged otherwise; the counter of these passes is set
back by a pass with modifications; and the period stays above 10 ms and below
1 s. -/
theorem stabilizeproc_halves_after_one_modification :
    paceRun (List.replicate 8 false) = ⟨26666666, 0, 8⟩ ∧
    paceRun (List.replicate 8 false ++ [true]) = ⟨13333333, 1, 0⟩ ∧
    (∀ ms : List Bool,
      (paceRun (ms ++ [true])).period =
        (if 10 * Millisecond < (paceRun ms).period / 2 then (paceRun ms).period / 2
         else (paceRun ms).period) ∧
      (paceRun (ms ++ [true])).runcnt = 0 ∧
      (paceRun (ms ++ [false])).period =
        (if 7 < (paceRun ms).runcnt + 1 ∧
            (paceRun ms).period + (paceRun ms).period / 3 < Second then
          (paceRun ms).period + (paceRun ms).period / 3
         else (paceRun ms).period) ∧
      (paceRun (ms ++ [false])).runcnt = (paceRun ms).runcnt + 1 ∧
      10 * Millisecond < (paceRun ms).period ∧ (paceRun ms).period < Second) := by
  refine ⟨by decide, by decide, ?_⟩
  intro ms
  obtain ⟨h1, h2⟩ := paceRun_bounds ms
  rw [paceRun_append, paceRun_append, pace_true, pace_false]
  refine ⟨?_, rfl, ?_, rfl, h1, h2⟩
  · simp only [Millisecond, Second] at h1 h2 ⊢
    split_ifs <;> omega
  · simp only [Millisecond, Second] at h1 h2 ⊢
    split_ifs <;> omega

/-! ## The Chord server: the proposal of a predecessor -/

theorem node_setNode (s : Chord) (i j : Nat) (v : Node) :
    (s.setNode i v).node j = if i = j ∧ i < s.nodes.length then v else s.node j := by
  unfold Chord.setNode Chord.node
  simp only [List.getD_eq_getElem?_getD, List.getElem?_set]
  by_cases hij : i = j
  · subst hij
    by_cases hl : i < s.nodes.length
    · simp [hl]
    · simp [hl, List.getElem?_eq_none (Nat.le_of_not_lt hl)]
  · simp [hij]

theorem node_cache (s : Chord) (c : List (List Byte × Nat)) (j : Nat) :
    Chord.node { s with nodecache := c } j = s.node j := rfl

theorem sameIds_setNode (s : Chord) (i : Nat) (v : Node) (h1 : v.id = (s.node i).id)
    (h2 : v.addr = (s.node i).addr) (h3 : v.oncycle = (s.node i).oncycle) :
    SameIds s (s.setNode i v) := by
  refine ⟨rfl, rfl, rfl, rfl, rfl, ?_⟩
  intro j
  rw [node_setNode]
  split
  · rename_i h
    rw [← h.1]
    exact ⟨h1, h2, h3⟩
  · exact ⟨rfl, rfl, rfl⟩

theorem sameIds_trans {s t u : Chord} (h1 : SameIds s t) (h2 : SameIds t u) : SameIds s u := by
  obtain ⟨a1, a2, a3, a4, a5, a6⟩ := h1
  obtain ⟨b1, b2, b3, b4, b5, b6⟩ := h2
  refine ⟨b1.trans a1, b2.trans a2, b3.trans a3, b4.trans a4, b5.trans a5, ?_⟩
  intro j
  exact ⟨(b6 j).1.trans (a6 j).1, (b6 j).2.1.trans (a6 j).2.1, (b6 j).2.2.trans (a6 j).2.2⟩

theorem sameIds_cache (s : Chord) (c : List (List Byte × Nat)) :
    SameIds s { s with nodecache := c } :=
  ⟨rfl, rfl, rfl, rfl, rfl, fun _ => ⟨rfl, rfl, rfl⟩⟩

theorem ConnectLocked_ok (dial : List Byte → Bool) (s : Chord) (nd : Nat)
    (hdial : dial (s.node nd).addr = true) (hopen : (s.node nd).clnt ≠ .remote true) :
    (s.ConnectLocked dial nd).2 = none ∧ SameIds s (s.ConnectLocked dial nd).1 ∧
      (∀ j, j ≠ nd → (s.ConnectLocked dial nd).1.node j = s.node j) ∧
      ((s.ConnectLocked dial nd).1.node nd).clnt ≠ .remote true := by
  unfold Chord.ConnectLocked
  simp only
  have e1 := sameIds_setNode s nd { s.node nd with ref := int32 ((s.node nd).ref + 1) }
    rfl rfl rfl
  generalize hs1 : s.setNode nd { s.node nd with ref := int32 ((s.node nd).ref + 1) } = s1
    at e1 ⊢
  have hclnt : (s1.node nd).clnt ≠ .remote true := by
    rw [← hs1, node_setNode]
    split
    · exact hopen
    · exact hopen
  have haddr : (s1.node nd).addr = (s.node nd).addr := (e1.2.2.2.2.2 nd).2.1
  have hother : ∀ j, j ≠ nd → s1.node j = s.node j := by
    intro j hj
    rw [← hs1, node_setNode, if_neg (fun h => hj h.1.symm)]
  by_cases hr : (s1.node nd).ref = 1
  · have hd : dial (s1.node nd).addr = true := by rw [haddr]; exact hdial
    rw [if_pos hr, if_pos hd]
    simp only
    have e2 := sameIds_setNode s1 nd { s1.node nd with clnt := .remote false } rfl rfl rfl
    refine ⟨?_, sameIds_trans e1 (sameIds_trans e2 (sameIds_cache _ _)), ?_, ?_⟩
    · rw [node_cache, node_setNode]
      split <;> simp [hclnt]
    · intro j hj
      rw [node_cache, node_setNode, if_neg (fun h => hj h.1.symm)]
      exact hother j hj
    · rw [node_cache, node_setNode]
      split
      · simp
      · exact hclnt
  · rw [if_neg hr]
    simp only
    exact ⟨by rw [if_neg hclnt], e1, hother, hclnt⟩

theorem DisconnectLocked_ok (s : Chord) (p : Nat) (c : Bool)
    (hp : (s.node p).clnt = .remote c) :
    ∃ t, s.DisconnectLocked (some p) = some t ∧ SameIds s t ∧
      ∀ j, j ≠ p → t.node j = s.node j := by
  unfold Chord.DisconnectLocked
  simp only
  have e1 := sameIds_setNode s p { s.node p with ref := int32 ((s.node p).ref - 1) }
    rfl rfl rfl
  generalize hs1 : s.setNode p { s.node p with ref := int32 ((s.node p).ref - 1) } = s1
    at e1 ⊢
  have hclnt : (s1.node p).clnt = .remote c := by
    rw [← hs1, node_setNode]
    split
    · exact hp
    · exact hp
  have hother : ∀ j, j ≠ p → s1.node j = s.node j := by
    intro j hj
    rw [← hs1, node_setNode, if_neg (fun h => hj h.1.symm)]
  by_cases hr : (s1.node p).ref = 0
  · rw [if_pos hr, node_cache, hclnt]
    simp only
    refine ⟨_, rfl, ?_, ?_⟩
    · exact sameIds_trans e1 (sameIds_trans (sameIds_cache s1 _)
        (sameIds_setNode _ p _ rfl rfl rfl))
    · intro j hj
      rw [node_setNode, if_neg (fun h => hj h.1.symm), node_cache]
      exact hother j hj
  · rw [if_neg hr]
    exact ⟨_, rfl, e1, hother⟩

theorem node_cache_pred (s : Chord) (p : Option Nat) (j : Nat) :
    Chord.node { s with predecessor := p } j = s.node j := rfl

theorem string_eq (a b : Node) (h : a.id = b.id ∧ a.addr = b.addr ∧ a.oncycle = b.oncycle) :
    a.String = b.String := by
  unfold Node.String
  rw [h.1, h.2.1, h.2.2]

theorem between_self (x high : Nat) : between x x high = false := by
  unfold between
  split <;> simp
  omega

/-- With `n ≠ high`, the interval `(low, high]` is the interval `(low, high)`. -/
theorem ringIn_iff_ringInside (n low high : Nat) (hn : n < 2 ^ 64) (hh : high < 2 ^ 64)
    (hne : n ≠ high) : ringIn n low high ↔ ringInside n low high := by
  unfold ringIn ringInside ringDist
  norm_num at hn hh ⊢
  omega

theorem finish_ok (dial : List Byte → Bool) (s : Chord) (pred : Option Nat) (nd : Nat)
    (modified : Bool) (hdial : dial (s.node nd).addr = true)
    (hopen : (s.node nd).clnt ≠ .remote true) (hfinger : s.finger ≠ []) (hchan : s.modchan < 4) :
    ∃ t, PredEntry.finish dial s pred nd modified =
        .ret (t, Lowest,
          some [match pred with
            | some p => some (t.node p).String
            | none => some []], none) ∧
      t.predecessor = s.predecessor ∧ t.self = s.self ∧
      ∀ j, (t.node j).String = (s.node j).String := by
  unfold PredEntry.finish
  cases hf : s.finger with
  | nil => exact absurd hf hfinger
  | cons f0 rest =>
    simp only
    by_cases h0 : f0 = none
    · rw [if_pos h0]
      obtain ⟨c1, c2, -, -⟩ := ConnectLocked_ok dial s nd hdial hopen
      cases hcl : s.ConnectLocked dial nd with
      | mk t err =>
        rw [hcl] at c1 c2
        simp only at c1 c2
        subst c1
        simp only [if_true]
        have hm : t.modchan < 4 := by rw [c2.2.2.2.2.1]; exact hchan
        simp only [Chord.ringModified, hm, if_true]
        refine ⟨_, rfl, c2.2.2.1, c2.1, ?_⟩
        intro j
        exact string_eq _ _ (c2.2.2.2.2.2 j)
    · rw [if_neg h0]
      simp only
      cases modified with
      | false =>
        simp only [Bool.false_eq_true, if_false]
        exact ⟨s, rfl, rfl, rfl, fun _ => rfl⟩
      | true =>
        simp only [Chord.ringModified, hchan, if_true]
        exact ⟨_, rfl, rfl, rfl, fun _ => rfl⟩

/-- The upper end `high` is in `(low, high]` and not in `(low, high)`. -/
theorem ringIn_self (low high : Nat) (hl : low < 2 ^ 64) (hh : high < 2 ^ 64)
    (hne : low ≠ high) : ringIn high low high ∧ ¬ ringInside high low high := by
  unfold ringIn ringInside ringDist
  norm_num at hl hh ⊢
  omega

/-- C21 (the code at the upper end of the interval). For a server state `s1`
in which `newNode` has returned the proposed node `n` (the node at `nd`): when
the connection to `n` can be made (`hopclnt.Connect` succeeds for its address
and `n` has no closed connection), the present predecessor, if there is one,
has a remote connection, `finger` is not empty and the channel `modchan` has
room, then `Atomic(key, PredAndNotify, [val])` returns without an error, with
the version `Lowest` and, as its single value, the node string of the previous
predecessor (the empty value when there was none); and afterwards the
predecessor is `n` when there was no predecessor or when `n.id` is in the
interval `(p.id, self.id]` of the ring, closed at the upper end, and is the
previous predecessor otherwise. So a proposal that carries the id of the server
itself is installed whenever the predecessor has another id, although that id
is not inside `(p.id, self.id)`; for every other id the two intervals
agree. -/
theorem PredEntry_Atomic_installs_up_to_self (ParseUint16 : List Byte → Option Nat)
    (dial : List Byte → Bool) (s s1 : Chord) (key val : List Byte) (nd : Nat)
    (hnew : s.newNode ParseUint16 val = (s1, .ok nd))
    (hdial : dial (s1.node nd).addr = true) (hopen : (s1.node nd).clnt ≠ .remote true)
    (hpred : ∀ p, s1.predecessor = some p → ∃ c, (s1.node p).clnt = .remote c)
    (hfinger : s1.finger ≠ []) (hchan : s1.modchan < 4)
    (hself : s1.self.id < 2 ^ 64) (hids : ∀ x ∈ s1.nodes, x.id < 2 ^ 64) :
    ∃ s2, PredEntry.Atomic ParseUint16 dial s key PredAndNotify [val] =
        .ret (s2, Lowest,
          some [match s1.predecessor with
            | some p => some (s1.node p).String
            | none => some []], none) ∧
      s2.self = s1.self ∧
      s2.predecessor =
        (match s1.predecessor with
          | none => some nd
          | some p =>
            if ringIn (s1.node nd).id (s1.node p).id s1.self.id then some nd
            else some p) ∧
      (∀ p, s1.predecessor = some p → (s1.node nd).id = s1.self.id →
        (s1.node p).id ≠ s1.self.id →
        s2.predecessor = some nd ∧
        ¬ ringInside (s1.node nd).id (s1.node p).id s1.self.id) ∧
      ((s1.node nd).id ≠ s1.self.id → ∀ p,
        (ringIn (s1.node nd).id (s1.node p).id s1.self.id ↔
          ringInside (s1.node nd).id (s1.node p).id s1.self.id)) := by
  have hn := node_id_lt s1 hids
  have hlast : (s1.node nd).id ≠ s1.self.id → ∀ p,
      (ringIn (s1.node nd).id (s1.node p).id s1.self.id ↔
        ringInside (s1.node nd).id (s1.node p).id s1.self.id) :=
    fun hne p => ringIn_iff_ringInside _ _ _ (hn nd) hself hne
  unfold PredEntry.Atomic
  rw [if_neg (by simp)]
  simp only [hnew]
  cases hp : s1.predecessor with
  | none =>
    simp only [if_true]
    obtain ⟨c1, c2, c3, c4⟩ := ConnectLocked_ok dial s1 nd hdial hopen
    cases hcl : s1.ConnectLocked dial nd with
    | mk t err =>
      rw [hcl] at c1 c2 c3 c4
      simp only at c1 c2 c3 c4
      subst c1
      simp only [Chord.DisconnectLocked]
      obtain ⟨u, hu, u1, u2, u3⟩ := finish_ok dial { t with predecessor := some nd } none nd true
        (by rw [node_cache_pred, (c2.2.2.2.2.2 nd).2.1]; exact hdial)
        (by rw [node_cache_pred]; exact c4)
        (by show t.finger ≠ []; rw [c2.2.2.2.1]; exact hfinger)
        (by show t.modchan < 4; rw [c2.2.2.2.2.1]; exact hchan)
      rw [hu]
      exact ⟨u, rfl, by rw [u2]; exact c2.1, u1, fun p h => absurd h (by simp), hlast⟩
  | some p =>
    simp only
    obtain ⟨c, hc⟩ := hpred p hp
    by_cases hb : between (s1.node nd).id (s1.node p).id s1.self.id = true
    · have hin : ringIn (s1.node nd).id (s1.node p).id s1.self.id :=
        (between_iff_ringIn _ _ _ (hn nd) (hn p) hself).mp hb
      have hnp : p ≠ nd := by
        intro h
        rw [h, between_self] at hb
        exact absurd hb (by simp)
      rw [if_pos hb, if_pos hin]
      obtain ⟨c1, c2, c3, c4⟩ := ConnectLocked_ok dial s1 nd hdial hopen
      cases hcl : s1.ConnectLocked dial nd with
      | mk t err =>
        rw [hcl] at c1 c2 c3 c4
        simp only at c1 c2 c3 c4
        subst c1
        simp only
        obtain ⟨t2, ht2, d2, d3⟩ := DisconnectLocked_ok t p c (by rw [c3 p hnp]; exact hc)
        rw [ht2]
        simp only
        obtain ⟨u, hu, u1, u2, u3⟩ := finish_ok dial { t2 with predecessor := some nd } (some p)
          nd true
          (by rw [node_cache_pred, d3 nd (Ne.symm hnp), (c2.2.2.2.2.2 nd).2.1]; exact hdial)
          (by rw [node_cache_pred, d3 nd (Ne.symm hnp)]; exact c4)
          (by show t2.finger ≠ []; rw [d2.2.2.2.1, c2.2.2.2.1]; exact hfinger)
          (by show t2.modchan < 4; rw [d2.2.2.2.2.1, c2.2.2.2.2.1]; exact hchan)
        rw [hu]
        refine ⟨u, ?_, by rw [u2]; exact d2.1.trans c2.1, u1, ?_, hlast⟩
        · have e : (u.node p).String = (s1.node p).String := by
            rw [u3 p, node_cache_pred]
            exact string_eq _ _ ⟨((d2.2.2.2.2.2 p).1).trans (c2.2.2.2.2.2 p).1,
              ((d2.2.2.2.2.2 p).2.1).trans (c2.2.2.2.2.2 p).2.1,
              ((d2.2.2.2.2.2 p).2.2).trans (c2.2.2.2.2.2 p).2.2⟩
          simp only [e]
        · intro q hq hid hqne
          have hqp : p = q := Option.some.inj hq
          subst hqp
          refine ⟨u1, ?_⟩
          rw [hid]
          exact (ringIn_self _ _ (hn p) hself hqne).2
    · have hin : ¬ ringIn (s1.node nd).id (s1.node p).id s1.self.id := by
        intro h
        exact hb ((between_iff_ringIn _ _ _ (hn nd) (hn p) hself).mpr h)
      rw [if_neg hb, if_neg hin]
      obtain ⟨u, hu, u1, u2, u3⟩ := finish_ok dial s1 (some p) nd false hdial hopen hfinger hchan
      rw [hu]
      refine ⟨u, ?_, u2, by rw [u1, hp], ?_, hlast⟩
      · simp only [u3 p]
      · intro q hq hid hqne
        have hqp : p = q := Option.some.inj hq
        subst hqp
        exfalso
        apply hin
        rw [hid]
        exact (ringIn_self _ _ (hn p) hself hqne).1

/-- Witness for C21: the example server (id 100, predecessor "p" with the id 50)
and the proposal "0000000000000064 n false" of a node with the id 100 of the
server itself. The node is installed as the predecessor, and the value returned
is the node string of "p", although 100 is not inside the interval `(50, 100)`:
`between(100, 50, 100)` is true. -/
theorem PredEntry_Atomic_installs_up_to_self_witness :
    ∃ s2, PredEntry.Atomic hexadecimal (fun _ => true) exampleChord (str "#/chord/predecessor")
        PredAndNotify [str "0000000000000064 n false"] =
        .ret (s2, Lowest, some [some (str "0000000000000032 p true")], none) ∧
      s2.self.id = 100 ∧ exampleChord.predecessor = some 0 ∧ (exampleChord.node 0).id = 50 ∧
      ((exampleChord.newNode hexadecimal (str "0000000000000064 n false")).1.node 3).id = 100 ∧
      s2.predecessor = some 3 ∧ between 100 50 100 = true ∧ ¬ ringInside 100 50 100 := by
  obtain ⟨s2, h1, h2, -, h4, -⟩ :=
    PredEntry_Atomic_installs_up_to_self hexadecimal (fun _ => true) exampleChord
      (exampleChord.newNode hexadecimal (str "0000000000000064 n false")).1
      (str "#/chord/predecessor") (str "0000000000000064 n false") 3 (by rfl) rfl (by decide)
      (by decide) (by decide) (by decide) (by decide) (by decide)
  have h5 := h4 0 (by rfl) (by rfl) (by decide)
  exact ⟨s2, h1, by rw [h2]; rfl, rfl, rfl, rfl, h5.1, rfl, h5.2⟩

/-- When no connection to the proposed node can be made, `Atomic` does not
install it: on a server without a predecessor it returns the error of the
connection, with the single value nil, and there is still no predecessor. -/
theorem PredEntry_Atomic_connect_fails :
    ∃ s2, PredEntry.Atomic hexadecimal (fun _ => false)
        { exampleChord with predecessor := none } (str "#/chord/predecessor") PredAndNotify
        [str "0000000000000046 n false"] =
        .ret (s2, Lowest, some [none], some .connect) ∧
      s2.predecessor = none :=
  ⟨_, rfl, rfl⟩

/-! ## Well-formed trees of the multiplexer -/

theorem good_inv {H : Type} {R : List Byte → Int → Option H → Bool → Bool → Prop} {acc : List Byte}
    {nd : mnode H} (h : Good R acc nd) :
    nd.pfx ≠ [] ∧ (nd.sub.map (fun c => c.pfx.head?)).Nodup ∧
    R (acc ++ nd.pfx) nd.id nd.hop nd.exact nd.cutpref ∧
    ∀ c ∈ nd.sub, Good R (acc ++ nd.pfx) c := by
  cases h with
  | mk _ pfx id hop exact cutpref sub h1 h2 h3 h4 => exact ⟨h1, h2, h3, h4⟩

theorem good_of {H : Type} {R : List Byte → Int → Option H → Bool → Bool → Prop} {acc : List Byte}
    (nd : mnode H) (h1 : nd.pfx ≠ []) (h2 : (nd.sub.map (fun c => c.pfx.head?)).Nodup)
    (h3 : R (acc ++ nd.pfx) nd.id nd.hop nd.exact nd.cutpref)
    (h4 : ∀ c ∈ nd.sub, Good R (acc ++ nd.pfx) c) : Good R acc nd := by
  cases nd with
  | mk pfx id hop exact cutpref sub => exact Good.mk _ _ _ _ _ _ _ h1 h2 h3 h4

theorem good_mono {H : Type} {R R1 : List Byte → Int → Option H → Bool → Bool → Prop}
    (hR : ∀ w i h e c, R w i h e c → R1 w i h e c) {acc : List Byte} {nd : mnode H}
    (h : Good R acc nd) : Good R1 acc nd := by
  induction h with
  | mk acc pfx id hop exact cutpref sub h1 h2 h3 _ ih =>
    exact Good.mk _ _ _ _ _ _ _ h1 h2 (hR _ _ _ _ _ h3) ih

theorem good_allNodes {H : Type} {R : List Byte → Int → Option H → Bool → Bool → Prop}
    {acc : List Byte} {nd : mnode H} (h : Good R acc nd) :
    AllNodes (fun _ _ _ _ => True) acc nd := by
  induction h with
  | mk acc pfx id hop exact cutpref sub _ _ _ _ ih =>
    exact AllNodes.mk _ _ _ _ _ _ _ trivial ih

theorem good_at {H : Type} {R : List Byte → Int → Option H → Bool → Bool → Prop} (path : List Nat) :
    ∀ (acc : List Byte) (t x : mnode H), Good R acc t → t.at path = some x →
      Good R (acc ++ t.accAt path) x := by
  induction path with
  | nil =>
    intro acc t x h hx
    simp only [mnode.at, Option.some.injEq] at hx
    subst hx
    simpa [mnode.accAt] using h
  | cons k ks ih =>
    intro acc t x h hx
    simp only [mnode.at] at hx
    cases hk : t.sub[k]? with
    | none => rw [hk] at hx; exact absurd hx (by simp)
    | some c =>
      rw [hk] at hx
      have hc := (good_inv h).2.2.2 c (List.getElem?_mem hk)
      have := ih _ c x hc hx
      simpa [mnode.accAt, hk, List.append_assoc] using this

theorem map_set_same {α β : Type} (f : α → β) (l : List α) (k : Nat) (c c1 : α)
    (hk : l[k]? = some c) (hf : f c1 = f c) : (l.set k c1).map f = l.map f := by
  rw [List.map_set]
  apply List.ext_getElem? 
  intro j
  rw [List.getElem?_set]
  split
  · rename_i hjk
    subst hjk
    split
    · rw [List.getElem?_map, hk, hf]; rfl
    · rename_i hlt
      simp only [List.length_map] at hlt
      have := (List.getElem?_eq_some.mp hk).1
      omega
  · rfl

theorem good_replaceAt {H : Type} {R : List Byte → Int → Option H → Bool → Bool → Prop}
    (new : mnode H) (path : List Nat) :
    ∀ (acc : List Byte) (t x : mnode H), Good R acc t → t.at path = some x →
      Good R (acc ++ t.accAt path) new → new.pfx.head? = x.pfx.head? →
      Good R acc (mnode.replaceAt new t path) := by
  induction path with
  | nil =>
    intro acc t x _ _ hn _
    simpa [mnode.accAt, mnode.replaceAt] using hn
  | cons k ks ih =>
    intro acc t x h hx hn hhead
    simp only [mnode.at] at hx
    cases hk : t.sub[k]? with
    | none => rw [hk] at hx; exact absurd hx (by simp)
    | some c =>
      rw [hk] at hx
      have hinv := good_inv h
      have hc := hinv.2.2.2 c (List.getElem?_mem hk)
      have hn1 : Good R (acc ++ t.pfx ++ c.accAt ks) new := by
        simpa [mnode.accAt, hk, List.append_assoc] using hn
      have hnew := ih _ c x hc hx hn1 hhead
      have hh : (mnode.replaceAt new c ks).pfx.head? = c.pfx.head? := by
        cases ks with
        | nil =>
          simp only [mnode.at, Option.some.injEq] at hx
          subst hx
          exact hhead
        | cons j js =>
          simp only [mnode.replaceAt]
          cases c.sub[j]? with
          | none => rfl
          | some d => cases c; rfl
      simp only [mnode.replaceAt, hk]
      refine good_of _ ?_ ?_ ?_ ?_
      · cases t; exact hinv.1
      · have : (t.setSub (t.sub.set k (mnode.replaceAt new c ks))).sub =
            t.sub.set k (mnode.replaceAt new c ks) := by cases t; rfl
        rw [this, map_set_same _ _ _ _ _ hk hh]
        exact hinv.2.1
      · cases t; exact hinv.2.2.1
      · intro c1 hc1
        have hc1 : c1 ∈ t.sub.set k (mnode.replaceAt new c ks) := by cases t; exact hc1
        have hpf : (t.setSub (t.sub.set k (mnode.replaceAt new c ks))).pfx = t.pfx := by
          cases t; rfl
        rw [hpf]
        rcases List.mem_or_eq_of_mem_set hc1 with h1 | h1
        · exact hinv.2.2.2 c1 h1
        · rw [h1]; exact hnew

theorem good_setPfx {H : Type} {R : List Byte → Int → Option H → Bool → Bool → Prop}
    {acc acc1 : List Byte} {y : mnode H} (pfx1 : List Byte) (h : Good R acc y)
    (hne : pfx1 ≠ []) (he : acc ++ y.pfx = acc1 ++ pfx1) : Good R acc1 (y.setPfx pfx1) := by
  have hinv := good_inv h
  refine good_of _ ?_ ?_ ?_ ?_
  · cases y; exact hne
  · cases y; exact hinv.2.1
  · cases y
    simp only [mnode.setPfx, mnode.pfx, mnode.hop, mnode.exact, mnode.cutpref, mnode.id] at he ⊢
    rw [← he]; exact hinv.2.2.1
  · intro c hc
    cases y
    simp only [mnode.setPfx, mnode.pfx, mnode.sub] at he hc ⊢
    rw [← he]; exact hinv.2.2.2 c hc

theorem good_setSub {H : Type} {R : List Byte → Int → Option H → Bool → Bool → Prop}
    {acc : List Byte} {x : mnode H} (sub : List (mnode H)) (h : Good R acc x)
    (hn : (sub.map (fun c => c.pfx.head?)).Nodup)
    (hs : ∀ c ∈ sub, Good R (acc ++ x.pfx) c) : Good R acc (x.setSub sub) := by
  have hinv := good_inv h
  cases x
  exact Good.mk _ _ _ _ _ _ _ hinv.1 hn hinv.2.2.1 hs

theorem good_leaf {H : Type} {R : List Byte → Int → Option H → Bool → Bool → Prop}
    (acc pfx : List Byte) (id : Int) (hop : Option H) (exact cutpref : Bool) (hne : pfx ≠ [])
    (hp : R (acc ++ pfx) id hop exact cutpref) :
    Good R acc (.mk pfx id hop exact cutpref []) :=
  Good.mk _ _ _ _ _ _ _ hne (by simp) hp (fun c hc => absurd hc (by simp))

/-! ## Nodes that are in the tree -/

theorem someNode_top {H : Type} {Q : List Byte → Int → Option H → Bool → Bool → Prop}
    {acc : List Byte} (nd : mnode H) (h : Q (acc ++ nd.pfx) nd.id nd.hop nd.exact nd.cutpref) :
    SomeNode Q acc nd := by
  cases nd
  exact SomeNode.top _ _ _ _ _ _ _ h

theorem someNode_inSub {H : Type} {Q : List Byte → Int → Option H → Bool → Bool → Prop}
    {acc : List Byte} (nd c : mnode H) (hc : c ∈ nd.sub) (h : SomeNode Q (acc ++ nd.pfx) c) :
    SomeNode Q acc nd := by
  cases nd
  exact SomeNode.inSub _ _ _ _ _ _ _ c hc h

theorem someNode_inv {H : Type} {Q : List Byte → Int → Option H → Bool → Bool → Prop}
    {acc : List Byte} {nd : mnode H} (h : SomeNode Q acc nd) :
    Q (acc ++ nd.pfx) nd.id nd.hop nd.exact nd.cutpref ∨
    ∃ c ∈ nd.sub, SomeNode Q (acc ++ nd.pfx) c := by
  cases h with
  | top _ pfx id hop exact cutpref sub h => exact Or.inl h
  | inSub _ pfx id hop exact cutpref sub c hc h => exact Or.inr ⟨c, hc, h⟩

/-- A node that is in the tree is still there when a subtree is replaced by one
that has the nodes of the subtree. -/
theorem someNode_replaceAt {H : Type} {Q : List Byte → Int → Option H → Bool → Bool → Prop}
    (new : mnode H) (path : List Nat) :
    ∀ (acc : List Byte) (t x : mnode H), SomeNode Q acc t → t.at path = some x →
      (SomeNode Q (acc ++ t.accAt path) x → SomeNode Q (acc ++ t.accAt path) new) →
      SomeNode Q acc (mnode.replaceAt new t path) := by
  induction path with
  | nil =>
    intro acc t x h hx hn
    simp only [mnode.at, Option.some.injEq] at hx
    subst hx
    simpa [mnode.accAt, mnode.replaceAt] using hn (by simpa [mnode.accAt] using h)
  | cons k ks ih =>
    intro acc t x h hx hn
    simp only [mnode.at] at hx
    cases hk : t.sub[k]? with
    | none => rw [hk] at hx; exact absurd hx (by simp)
    | some c =>
      rw [hk] at hx
      have hn1 : SomeNode Q (acc ++ t.pfx ++ c.accAt ks) x →
          SomeNode Q (acc ++ t.pfx ++ c.accAt ks) new := by
        simpa [mnode.accAt, hk, List.append_assoc] using hn
      simp only [mnode.replaceAt, hk]
      have hpf : (t.setSub (t.sub.set k (mnode.replaceAt new c ks))).pfx = t.pfx := by
        cases t; rfl
      have hsub : (t.setSub (t.sub.set k (mnode.replaceAt new c ks))).sub =
          t.sub.set k (mnode.replaceAt new c ks) := by cases t; rfl
      have hklt := (List.getElem?_eq_some.mp hk).1
      rcases someNode_inv h with h1 | ⟨c1, hc1, h1⟩
      · refine someNode_top _ ?_
        cases t; exact h1
      · by_cases hcc : c1 = c
        · subst hcc
          refine someNode_inSub _ (mnode.replaceAt new c1 ks) ?_ ?_
          · rw [hsub]
            exact List.mem_iff_getElem?.mpr ⟨k, by rw [List.getElem?_set_self hklt]⟩
          · rw [hpf]
            exact ih _ c1 x h1 hx hn1
        · refine someNode_inSub _ c1 ?_ ?_
          · rw [hsub]
            obtain ⟨j, hj⟩ := List.mem_iff_getElem?.mp hc1
            have hjk : k ≠ j := by
              intro hjk
              subst hjk
              rw [hk] at hj
              exact hcc (Option.some.inj hj).symm
            exact List.mem_iff_getElem?.mpr ⟨j, by rw [List.getElem?_set_ne hjk]; exact hj⟩
          · rw [hpf]; exact h1

/-- A node of the subtree that replaces another one is in the tree. -/
theorem someNode_lift {H : Type} {Q : List Byte → Int → Option H → Bool → Bool → Prop}
    (new : mnode H) (path : List Nat) :
    ∀ (acc : List Byte) (t x : mnode H), t.at path = some x →
      SomeNode Q (acc ++ t.accAt path) new → SomeNode Q acc (mnode.replaceAt new t path) := by
  induction path with
  | nil =>
    intro acc t x _ hn
    simpa [mnode.accAt, mnode.replaceAt] using hn
  | cons k ks ih =>
    intro acc t x hx hn
    simp only [mnode.at] at hx
    cases hk : t.sub[k]? with
    | none => rw [hk] at hx; exact absurd hx (by simp)
    | some c =>
      rw [hk] at hx
      have hn1 : SomeNode Q (acc ++ t.pfx ++ c.accAt ks) new := by
        simpa [mnode.accAt, hk, List.append_assoc] using hn
      simp only [mnode.replaceAt, hk]
      have hpf : (t.setSub (t.sub.set k (mnode.replaceAt new c ks))).pfx = t.pfx := by
        cases t; rfl
      have hsub : (t.setSub (t.sub.set k (mnode.replaceAt new c ks))).sub =
          t.sub.set k (mnode.replaceAt new c ks) := by cases t; rfl
      have hklt := (List.getElem?_eq_some.mp hk).1
      refine someNode_inSub _ (mnode.replaceAt new c ks) ?_ ?_
      · rw [hsub]
        exact List.mem_iff_getElem?.mpr ⟨k, by rw [List.getElem?_set_self hklt]⟩
      · rw [hpf]
        exact ih _ c x hx hn1

theorem someNode_setPfx {H : Type} {Q : List Byte → Int → Option H → Bool → Bool → Prop}
    {acc acc1 : List Byte} {y : mnode H} (pfx1 : List Byte) (h : SomeNode Q acc y)
    (he : acc ++ y.pfx = acc1 ++ pfx1) : SomeNode Q acc1 (y.setPfx pfx1) := by
  rcases someNode_inv h with h1 | ⟨c, hc, h1⟩
  · refine someNode_top _ ?_
    cases y
    simp only [mnode.setPfx, mnode.pfx, mnode.hop, mnode.exact, mnode.cutpref, mnode.id] at he ⊢
    rw [← he]; exact h1
  · refine someNode_inSub _ c ?_ ?_
    · cases y; exact hc
    · cases y
      simp only [mnode.setPfx, mnode.pfx] at he ⊢
      rw [← he]; exact h1

/-- A node that is in the tree is at some place of it. -/
theorem someNode_path {H : Type} {Q : List Byte → Int → Option H → Bool → Bool → Prop}
    {acc : List Byte} {t : mnode H} (h : SomeNode Q acc t) :
    ∃ q x, t.at q = some x ∧ Q (acc ++ t.accAt q ++ x.pfx) x.id x.hop x.exact x.cutpref := by
  induction h with
  | top acc pfx id hop exact cutpref sub h =>
    exact ⟨[], _, rfl, by simpa [mnode.accAt] using h⟩
  | inSub acc pfx id hop exact cutpref sub c hc _ ih =>
    obtain ⟨q, x, hq, hQ⟩ := ih
    obtain ⟨k, hk⟩ := List.mem_iff_getElem?.mp hc
    refine ⟨k :: q, x, ?_, ?_⟩
    · simp only [mnode.at, mnode.sub, hk]
      exact hq
    · simp only [mnode.accAt, mnode.sub, mnode.pfx, hk]
      simpa [List.append_assoc] using hQ

/-! ## Places of the tree and their words -/

theorem at_app {H : Type} (p r : List Nat) :
    ∀ (t z : mnode H), t.at p = some z → t.at (p ++ r) = z.at r := by
  induction p with
  | nil =>
    intro t z h
    simp only [mnode.at, Option.some.injEq] at h
    subst h
    rfl
  | cons j js ih =>
    intro t z h
    simp only [mnode.at, List.cons_append] at h ⊢
    cases hj : t.sub[j]? with
    | none => rw [hj] at h; exact absurd h (by simp)
    | some c =>
      rw [hj] at h
      exact ih c z h

theorem accAt_app {H : Type} (p r : List Nat) :
    ∀ (t z : mnode H), t.at p = some z → t.accAt (p ++ r) = t.accAt p ++ z.accAt r := by
  induction p with
  | nil =>
    intro t z h
    simp only [mnode.at, Option.some.injEq] at h
    subst h
    simp [mnode.accAt]
  | cons j js ih =>
    intro t z h
    simp only [mnode.at, List.cons_append, mnode.accAt] at h ⊢
    cases hj : t.sub[j]? with
    | none => rw [hj] at h; exact absurd h (by simp)
    | some c =>
      rw [hj] at h
      have := ih c z h
      simp only [List.append_eq] at this ⊢
      rw [this, List.append_assoc]

/-- The word of a node below `c` begins with the prefix of `c`. -/
theorem word_pfx {H : Type} (r : List Nat) :
    ∀ (c x : mnode H), c.at r = some x → ∃ mid, c.accAt r ++ x.pfx = c.pfx ++ mid := by
  induction r with
  | nil =>
    intro c x h
    simp only [mnode.at, Option.some.injEq] at h
    subst h
    exact ⟨[], by simp [mnode.accAt]⟩
  | cons j js _ =>
    intro c x _
    exact ⟨(match c.sub[j]? with
      | none => []
      | some c => c.accAt js) ++ x.pfx, by simp only [mnode.accAt, List.append_assoc]⟩

/-- The word of a node on the way to a place is the beginning of the word of
the node at that place. -/
theorem word_mono {H : Type} (t x z : mnode H) (q p : List Nat) (hqp : q <+: p)
    (hx : t.at q = some x) (hz : t.at p = some z) :
    t.accAt q ++ x.pfx <+: t.accAt p ++ z.pfx := by
  obtain ⟨r, hr⟩ := hqp
  subst hr
  rw [at_app q r t x hx] at hz
  rw [accAt_app q r t x hx]
  obtain ⟨mid, hmid⟩ := word_pfx r x z hz
  rw [List.append_assoc, hmid, ← List.append_assoc]
  exact List.prefix_append _ _

/-- The word of a node below the child `k` of the node at `p` begins with the
word of that child. -/
theorem word_below {H : Type} (t z c x : mnode H) (p : List Nat) (k : Nat) (rest : List Nat)
    (hz : t.at p = some z) (hx : t.at (p ++ k :: rest) = some x) (hc : z.sub[k]? = some c) :
    ∃ mid, t.accAt (p ++ k :: rest) ++ x.pfx = t.accAt p ++ z.pfx ++ c.pfx ++ mid := by
  rw [at_app p _ t z hz] at hx
  simp only [mnode.at, hc] at hx
  rw [accAt_app p _ t z hz]
  simp only [mnode.accAt, hc]
  obtain ⟨mid, hmid⟩ := word_pfx rest c x hx
  exact ⟨mid, by rw [List.append_assoc, List.append_assoc, hmid]; simp [List.append_assoc]⟩

theorem at_child {H : Type} (t z x : mnode H) (p : List Nat) (k : Nat) (rest : List Nat)
    (hz : t.at p = some z) (hx : t.at (p ++ k :: rest) = some x) :
    ∃ c, z.sub[k]? = some c := by
  rw [at_app p _ t z hz] at hx
  simp only [mnode.at] at hx
  cases hc : z.sub[k]? with
  | none => rw [hc] at hx; exact absurd hx (by simp)
  | some c => exact ⟨c, rfl⟩

theorem chain_append {H : Type} (p : List Nat) (k : Nat) :
    ∀ (t z y : mnode H), t.at p = some z → z.sub[k]? = some y →
      t.chain (p ++ [k]) = t.chain p ++ [y] := by
  induction p with
  | nil =>
    intro t z y h hy
    simp only [mnode.at, Option.some.injEq] at h
    subst h
    simp [mnode.chain, hy]
  | cons j js ih =>
    intro t z y h hy
    simp only [mnode.at, List.cons_append, mnode.chain] at h ⊢
    cases hj : t.sub[j]? with
    | none => rw [hj] at h; exact absurd h (by simp)
    | some c =>
      rw [hj] at h
      have := ih c z y h hy
      simp only [List.append_eq] at this ⊢
      rw [this]

/-- The node at a place on the way to `p` is one of the nodes on the way. -/
theorem mem_chain {H : Type} (q : List Nat) :
    ∀ (t x z : mnode H) (p : List Nat), q <+: p → t.at q = some x → t.at p = some z →
      x ∈ t.chain p := by
  induction q with
  | nil =>
    intro t x z p _ hx _
    simp only [mnode.at, Option.some.injEq] at hx
    subst hx
    cases p <;> simp [mnode.chain]
  | cons j js ih =>
    intro t x z p hqp hx hz
    cases p with
    | nil => simp at hqp
    | cons k ks =>
      rw [List.cons_prefix_cons] at hqp
      obtain ⟨hjk, hqp⟩ := hqp
      subst hjk
      simp only [mnode.at, mnode.chain] at hx hz ⊢
      cases hj : t.sub[j]? with
      | none => rw [hj] at hx; exact absurd hx (by simp)
      | some c =>
        rw [hj] at hx hz
        exact List.mem_cons_of_mem _ (ih c x z ks hqp hx hz)

/-- Every node on the way to `p` is at a place on the way to `p`. -/
theorem chain_mem {H : Type} (p : List Nat) :
    ∀ (t x z : mnode H), t.at p = some z → x ∈ t.chain p →
      ∃ q, q <+: p ∧ t.at q = some x := by
  induction p with
  | nil =>
    intro t x z _ hx
    simp only [mnode.chain, List.mem_singleton] at hx
    subst hx
    exact ⟨[], List.prefix_refl _, rfl⟩
  | cons k ks ih =>
    intro t x z hz hx
    simp only [mnode.at, mnode.chain] at hz hx
    cases hk : t.sub[k]? with
    | none => rw [hk] at hz; exact absurd hz (by simp)
    | some c =>
      rw [hk] at hz hx
      rcases List.mem_cons.mp hx with h1 | h1
      · subst h1
        exact ⟨[], List.nil_prefix, rfl⟩
      · obtain ⟨q, hq, hxq⟩ := ih c x z hz h1
        refine ⟨k :: q, ?_, ?_⟩
        · rw [List.cons_prefix_cons]; exact ⟨rfl, hq⟩
        · simp only [mnode.at, hk]; exact hxq

/-! ## The inner loop of `match` -/

theorem matchPrefix_none (pfx rest : List Byte) (h : matchPrefix pfx rest = none) :
    rest <+: pfx ∧ rest.length < pfx.length := by
  induction pfx generalizing rest with
  | nil => simp [matchPrefix] at h
  | cons a pfx ih =>
    cases rest with
    | nil => exact ⟨List.nil_prefix, by simp⟩
    | cons b rest =>
      simp only [matchPrefix, ne_eq, ite_not] at h
      split at h
      · rename_i hab
        subst hab
        cases hm : matchPrefix pfx rest with
        | none =>
          obtain ⟨h1, h2⟩ := ih rest hm
          exact ⟨by rw [List.cons_prefix_cons]; exact ⟨rfl, h1⟩, by simpa using h2⟩
        | some j => rw [hm] at h; simp at h
      · simp at h

theorem matchPrefix_zero (pfx rest : List Byte) (h : matchPrefix pfx rest = some 0)
    (hp : pfx ≠ []) (hr : rest ≠ []) : pfx.head? ≠ rest.head? := by
  cases pfx with
  | nil => exact absurd rfl hp
  | cons a pfx =>
    cases rest with
    | nil => exact absurd rfl hr
    | cons b rest =>
      simp only [matchPrefix, ne_eq, ite_not] at h
      split at h
      · cases hm : matchPrefix pfx rest with
        | none => rw [hm] at h; simp at h
        | some j => rw [hm] at h; simp at h
      · rename_i hab
        simpa using hab

theorem matchPrefix_mismatch (pfx rest : List Byte) (i : Nat) (h : matchPrefix pfx rest = some i)
    (hi : i < pfx.length) : i < rest.length ∧ pfx[i]? ≠ rest[i]? := by
  induction pfx generalizing rest i with
  | nil => simp at hi
  | cons a pfx ih =>
    cases rest with
    | nil => simp [matchPrefix] at h
    | cons b rest =>
      simp only [matchPrefix, ne_eq, ite_not] at h
      split at h
      · cases hm : matchPrefix pfx rest with
        | none => rw [hm] at h; simp at h
        | some j =>
          rw [hm] at h
          simp only [Option.map_some', Option.some.injEq] at h
          subst h
          simp only [List.length_cons, Nat.add_lt_add_iff_right] at hi
          obtain ⟨h1, h2⟩ := ih rest j hm hi
          exact ⟨by simpa using h1, by simpa using h2⟩
      · rename_i hab
        simp only [Option.some.injEq] at h
        subst h
        exact ⟨by simp, by simpa using hab⟩

theorem head_take {α : Type} (l : List α) (i : Nat) (hi : 0 < i) : (l.take i).head? = l.head? := by
  cases l with
  | nil => simp
  | cons a l =>
    cases i with
    | zero => omega
    | succ i => simp

theorem matchPrefix_head (pfx rest : List Byte) (i : Nat) (h : matchPrefix pfx rest = some i)
    (hi : 0 < i) : pfx.head? = rest.head? := by
  have := (matchPrefix_some pfx rest i h).2.2
  rw [← head_take pfx i hi, ← head_take rest i hi, this]

theorem prefix_head {α : Type} (a b : List α) (h : a <+: b) (ha : a ≠ []) :
    a.head? = b.head? := by
  obtain ⟨t, ht⟩ := h
  subst ht
  cases a with
  | nil => exact absurd rfl ha
  | cons x a => rfl

theorem mismatch_not_pre (pfx rest : List Byte) (i : Nat) (hi : i < pfx.length)
    (h : pfx[i]? ≠ rest[i]?) : ¬ pfx <+: rest := by
  rintro ⟨t, ht⟩
  subst ht
  apply h
  rw [List.getElem?_append_left hi]

theorem head_not_pre {α : Type} (a b : List α) (ha : a ≠ []) (h : a.head? ≠ b.head?) :
    ¬ a <+: b :=
  fun hp => h (prefix_head a b hp ha)
/-! ## The loop of `match` in a well-formed tree -/

theorem sibling_head {H : Type} {R : List Byte → Int → Option H → Bool → Bool → Prop}
    {acc : List Byte} {z : mnode H} (hz : Good R acc z) (a b : Nat) (c1 c2 : mnode H)
    (h1 : z.sub[a]? = some c1) (h2 : z.sub[b]? = some c2)
    (hh : c1.pfx.head? = c2.pfx.head?) : a = b := by
  have hn := (good_inv hz).2.1
  obtain ⟨ha, hc1⟩ := List.getElem?_eq_some.mp h1
  obtain ⟨hb, hc2⟩ := List.getElem?_eq_some.mp h2
  have ha1 : a < (z.sub.map (fun c => c.pfx.head?)).length := by simpa using ha
  have hb1 : b < (z.sub.map (fun c => c.pfx.head?)).length := by simpa using hb
  refine (@List.Nodup.getElem_inj_iff _ _ hn a ha1 b hb1).mp ?_
  simp only [List.getElem_map, hc1, hc2, hh]

theorem child_pre {H : Type} (t z c x : mnode H) (pattern : List Byte) (p : List Nat)
    (n k : Nat) (rest : List Nat) (hz : t.at p = some z)
    (hacc : t.accAt p ++ z.pfx = pattern.take n) (hc : z.sub[k]? = some c)
    (hx : t.at (p ++ k :: rest) = some x) (hw : t.accAt (p ++ k :: rest) ++ x.pfx <+: pattern) :
    c.pfx <+: pattern.drop n := by
  obtain ⟨mid, hmid⟩ := word_below t z c x p k rest hz hx hc
  rw [hmid, hacc, List.append_assoc] at hw
  nth_rewrite 2 [← List.take_append_drop n pattern] at hw
  rw [List.prefix_append_right_inj] at hw
  exact (List.prefix_append _ _).trans hw
/-- One iteration of the loop of `MHop.match` in which nothing of the prefix
matches (`case 0`) keeps `MatchInv`. -/
theorem matchInv_next {H : Type} {R : List Byte → Int → Option H → Bool → Bool → Prop}
    (root : mnode H) (pattern : List Byte) (hgood : Good R [] root)
    (ndprev : Option (Ptr H)) (y : Ptr H) (n i0 pidx : Nat)
    (hok : MatchOK (fun _ _ _ _ => True) root pattern ⟨ndprev, some y, n, i0, pidx⟩)
    (hinv : MatchInv root pattern ⟨ndprev, some y, n, i0, pidx⟩)
    (hn : n < pattern.length)
    (hmp : matchPrefix y.node.pfx (pattern.drop n) = some 0) :
    MatchInv root pattern
      { ndprev := ndprev,
        nd := (match ndprev with
          | none => ((none : Option (Ptr H)), pidx)
          | some ndprev =>
            if pidx < ndprev.node.sub.length then
              ((ndprev.node.sub[pidx + 1]?).map
                (fun c => ⟨ndprev.path ++ [pidx + 1], c, ndprev.node :: ndprev.prevs⟩),
               pidx + 1)
            else (none, pidx)).1,
        n := n, i := 0,
        pidx := (match ndprev with
          | none => ((none : Option (Ptr H)), pidx)
          | some ndprev =>
            if pidx < ndprev.node.sub.length then
              ((ndprev.node.sub[pidx + 1]?).map
                (fun c => ⟨ndprev.path ++ [pidx + 1], c, ndprev.node :: ndprev.prevs⟩),
               pidx + 1)
            else (none, pidx)).2 } := by
  obtain ⟨hle, hndp, hpp⟩ := hok
  simp only at hle hndp hpp
  obtain ⟨hyat, hyacc, -, -, -⟩ := hndp y rfl
  have gy := good_at y.path [] root y.node hgood hyat
  have hyne := (good_inv gy).1
  have hrne : pattern.drop n ≠ [] := by
    intro h
    have := congrArg List.length h
    simp only [List.length_drop, List.length_nil] at this
    omega
  have hhead := matchPrefix_zero _ _ hmp hyne hrne
  cases ndprev with
  | none =>
    obtain ⟨hn0, hy0⟩ := hpp
    obtain ⟨hp0, -⟩ := hy0 y rfl
    rw [hp0] at hyat
    simp only [mnode.at, Option.some.injEq] at hyat
    subst hn0
    simp only [List.drop_zero] at hhead
    rw [← hyat] at hhead hyne
    refine ⟨fun _ => hhead, ?_⟩
    intro q x hq hw
    exfalso
    obtain ⟨mid, hmid⟩ := word_pfx q root x hq
    rw [hmid] at hw
    exact head_not_pre _ _ hyne hhead ((List.prefix_append _ _).trans hw)
  | some pp =>
    obtain ⟨hpat, hpacc, -, -⟩ := hpp
    obtain ⟨hchain, hnd, hrej, hcov⟩ := hinv
    simp only [Option.map_some'] at hchain hnd hrej hcov
    have hlt : pidx < pp.node.sub.length := (List.getElem?_eq_some.mp hnd.symm).1
    simp only [MatchInv, hlt, if_true]
    refine ⟨hchain, ?_, ?_, ?_⟩
    · cases pp.node.sub[pidx + 1]? <;> rfl
    · intro k c hk hc
      by_cases hkp : k = pidx
      · subst hkp
        rw [← hnd] at hc
        simp only [Option.some.injEq] at hc
        rw [← hc]
        exact hhead
      · exact hrej k c (by omega) hc
    · intro q x hq hw
      rcases hcov q x hq hw with h1 | ⟨k, rest, hqe, hk⟩
      · exact Or.inl h1
      · refine Or.inr ⟨k, rest, hqe, ?_⟩
        by_contra hcon
        have hkp : k = pidx := by omega
        subst hkp
        subst hqe
        have := child_pre root pp.node y.node x pattern pp.path n k rest hpat hpacc hnd.symm hq hw
        exact head_not_pre _ _ hyne hhead this

/-- One iteration of the loop of `MHop.match` that matches the whole prefix of
`nd` and descends keeps `MatchInv`. -/
theorem matchInv_descend {H : Type} {R : List Byte → Int → Option H → Bool → Bool → Prop}
    (root : mnode H) (pattern : List Byte) (hgood : Good R [] root)
    (ndprev : Option (Ptr H)) (y : Ptr H) (n i0 pidx i : Nat)
    (hok : MatchOK (fun _ _ _ _ => True) root pattern ⟨ndprev, some y, n, i0, pidx⟩)
    (hinv : MatchInv root pattern ⟨ndprev, some y, n, i0, pidx⟩)
    (hmp : matchPrefix y.node.pfx (pattern.drop n) = some i) (hfull : i = y.node.pfx.length) :
    MatchInv root pattern
      { ndprev := some y,
        nd := (y.node.sub[0]?).map (fun c => ⟨y.path ++ [0], c, y.node :: y.prevs⟩),
        n := n + i, i := 0, pidx := 0 } := by
  obtain ⟨hle, hndp, hpp⟩ := hok
  simp only at hle hndp hpp
  obtain ⟨hyat, hyacc, -, -, -⟩ := hndp y rfl
  have gy := good_at y.path [] root y.node hgood hyat
  have hyne := (good_inv gy).1
  have hypre : y.node.pfx <+: pattern.drop n := by
    have := (matchPrefix_some _ _ _ hmp).2.2
    rw [hfull, List.take_length] at this
    rw [this]
    exact List.take_prefix _ _
  simp only [MatchInv]
  cases ndprev with
  | none =>
    obtain ⟨hn0, hy0⟩ := hpp
    obtain ⟨hp0, hv0⟩ := hy0 y rfl
    rw [hp0] at hyat
    simp only [mnode.at, Option.some.injEq] at hyat
    refine ⟨?_, ?_, ?_, ?_⟩
    · rw [hp0, hv0, ← hyat]; rfl
    · cases y.node.sub[0]? <;> rfl
    · intro k c hk
      exact absurd hk (by omega)
    · intro q x _ _
      rw [hp0]
      cases q with
      | nil => exact Or.inl (List.prefix_refl _)
      | cons k rest => exact Or.inr ⟨k, rest, rfl, Nat.zero_le _⟩
  | some pp =>
    obtain ⟨hpat, hpacc, -, htie⟩ := hpp
    obtain ⟨hsub, hpath, hprevs⟩ := htie y rfl
    obtain ⟨hchain, hnd, hrej, hcov⟩ := hinv
    simp only [Option.map_some'] at hchain hnd hrej hcov
    have gp := good_at pp.path [] root pp.node hgood hpat
    refine ⟨?_, ?_, ?_, ?_⟩
    · rw [hpath, chain_append pp.path pidx root pp.node y.node hpat hsub, hprevs, hchain]
      simp
    · cases y.node.sub[0]? <;> rfl
    · intro k c hk
      exact absurd hk (by omega)
    · intro q x hq hw
      rcases hcov q x hq hw with h1 | ⟨k, rest, hqe, hk⟩
      · exact Or.inl (h1.trans (by rw [hpath]; exact List.prefix_append _ _))
      · subst hqe
        obtain ⟨c, hc⟩ := at_child root pp.node x pp.path k rest hpat hq
        have hcp := child_pre root pp.node c x pattern pp.path n k rest hpat hpacc hc hq hw
        have hcne := (good_inv ((good_inv gp).2.2.2 c (List.getElem?_mem hc))).1
        have hkp : k = pidx := by
          refine sibling_head gp k pidx c y.node hc hsub ?_
          rw [prefix_head _ _ hcp hcne, prefix_head _ _ hypre hyne]
        subst hkp
        rw [hpath]
        cases rest with
        | nil => exact Or.inl (List.prefix_refl _)
        | cons j js =>
          exact Or.inr ⟨j, js, by simp, Nat.zero_le _⟩
/-- In a well-formed tree, with one unit of fuel per node that may still be
visited, and one more, the loop of `MHop.match` returns, provided the pattern
does not end inside the prefix of a node; the invariants hold for what it
returns. -/
theorem matchLoop_spec {H : Type} {R : List Byte → Int → Option H → Bool → Bool → Prop}
    (root : mnode H) (pattern : List Byte) (hgood : Good R [] root)
    (hnp : (∃ q x, root.at q = some x ∧ root.accAt q ++ x.pfx = pattern) ∨
      ∀ q x, root.at q = some x → pattern <+: root.accAt q ++ x.pfx →
        (root.accAt q ++ x.pfx).length ≤ pattern.length) :
    ∀ (fuel : Nat) (st : MatchState H), MatchOK (fun _ _ _ _ => True) root pattern st →
      MatchInv root pattern st → potential st < fuel →
      ∃ st1, matchLoop pattern fuel st = .ok st1 ∧
        MatchOK (fun _ _ _ _ => True) root pattern st1 ∧ MatchInv root pattern st1 ∧
        MatchExit pattern st1 := by
  have hall := good_allNodes hgood
  intro fuel
  induction fuel with
  | zero =>
    intro st _ _ h
    exact absurd h (by omega)
  | succ fuel ih =>
    intro st hok hinv hpot
    obtain ⟨ndprev, nd, n, i0, pidx⟩ := st
    unfold matchLoop
    cases nd with
    | none => exact ⟨_, rfl, hok, hinv, Or.inl rfl⟩
    | some y =>
      simp only
      by_cases hn : n < pattern.length
      · simp only [hn, not_true_eq_false, if_false]
        have hok0 := hok
        obtain ⟨hle, hndp, hpp⟩ := hok
        simp only at hle hndp hpp
        obtain ⟨hyat, hyacc, -, -, -⟩ := hndp y rfl
        cases hmp : matchPrefix y.node.pfx (pattern.drop n) with
        | none =>
          exfalso
          obtain ⟨h1, h2⟩ := matchPrefix_none _ _ hmp
          simp only [List.length_drop] at h2
          rcases hnp with ⟨q, x, hq, hwx⟩ | hnp
          · have hrne : pattern.drop n ≠ [] := by
              intro h
              have := congrArg List.length h
              simp only [List.length_drop, List.length_nil] at this
              omega
            have hxw : root.accAt q ++ x.pfx <+: pattern := by rw [hwx]
            cases ndprev with
            | none =>
              obtain ⟨hn0, hy0⟩ := hpp
              obtain ⟨hp0, -⟩ := hy0 y rfl
              rw [hp0] at hyat
              simp only [mnode.at, Option.some.injEq] at hyat
              obtain ⟨mid, hmid⟩ := word_pfx q root x hq
              have := congrArg List.length (hmid.symm.trans hwx)
              rw [← hyat] at h2
              simp only [List.length_append] at this
              omega
            | some pp =>
              obtain ⟨hpat, hpacc, -, htie⟩ := hpp
              obtain ⟨hsub, -, -⟩ := htie y rfl
              obtain ⟨-, -, -, hcov⟩ := hinv
              simp only at hcov
              rcases hcov q x hq hxw with h3 | ⟨k, rest, hqe, hk⟩
              · have := (word_mono root x pp.node q pp.path h3 hq hpat).length_le
                rw [hwx, hpacc, List.length_take] at this
                omega
              · subst hqe
                obtain ⟨c, hc⟩ := at_child root pp.node x pp.path k rest hpat hq
                have hcp := child_pre root pp.node c x pattern pp.path n k rest hpat hpacc hc
                  hq hxw
                have gp := good_at pp.path [] root pp.node hgood hpat
                have hcne := (good_inv ((good_inv gp).2.2.2 c (List.getElem?_mem hc))).1
                have hkp : k = pidx := by
                  refine sibling_head gp k pidx c y.node hc hsub ?_
                  rw [prefix_head _ _ hcp hcne, prefix_head _ _ h1 hrne]
                subst hkp
                rw [hsub] at hc
                simp only [Option.some.injEq] at hc
                subst hc
                have := hcp.length_le
                simp only [List.length_drop] at this
                omega
          · have hw : pattern <+: root.accAt y.path ++ y.node.pfx := by
              rw [hyacc]
              nth_rewrite 1 [← List.take_append_drop n pattern]
              exact (List.prefix_append_right_inj _).mpr h1
            have := hnp y.path y.node hyat hw
            rw [hyacc, List.length_append, List.length_take, Nat.min_eq_left hle] at this
            omega
        | some i =>
          simp only
          have hysize := size_eq y.node
          have hpoty : y.node.size ≤ potential ⟨ndprev, some y, n, i0, pidx⟩ ∧
              ∀ pp, ndprev = some pp →
                mnode.sizeList (pp.node.sub.drop (pidx + 1)) + y.node.size ≤
                  potential ⟨ndprev, some y, n, i0, pidx⟩ := by
            cases ndprev with
            | none => exact ⟨Nat.le_refl _, fun pp h => absurd h (by simp)⟩
            | some pp =>
              have hsub := (hpp.2.2.2 y rfl).1
              simp only [potential]
              rw [sizeList_drop _ _ _ hsub]
              refine ⟨by omega, fun pp1 h => ?_⟩
              simp only [Option.some.injEq] at h
              subst h
              omega
          by_cases hi0 : i = 0
          · rw [if_pos hi0]
            subst hi0
            refine ih _ (matchOK_next _ root pattern ndprev y n i0 pidx hok0)
              (matchInv_next root pattern hgood ndprev y n i0 pidx hok0 hinv hn hmp) ?_
            cases ndprev with
            | none =>
              simp only [potential]
              omega
            | some pp =>
              have h2 := hpoty.2 pp rfl
              by_cases hlt : pidx < pp.node.sub.length
              · simp only [hlt, if_true, potential]
                cases hc : pp.node.sub[pidx + 1]? with
                | none => simp only [Option.map_none']; omega
                | some c => simp only [Option.map_some']; omega
              · simp only [hlt, if_false, potential]
                omega
          · rw [if_neg hi0]
            by_cases hfull : i = y.node.pfx.length
            · rw [if_pos hfull]
              refine ih _
                (matchOK_descend _ root pattern hall ndprev y n i0 pidx i hok0 hmp hfull)
                (matchInv_descend root pattern hgood ndprev y n i0 pidx i hok0 hinv hmp hfull) ?_
              simp only [potential]
              cases hc : y.node.sub[0]? with
              | none => simp only [Option.map_none']; omega
              | some c =>
                simp only [Option.map_some', List.drop_zero]
                omega
            · rw [if_neg hfull]
              obtain ⟨hi1, hi2, hi3⟩ := matchPrefix_some _ _ _ hmp
              have hi2 : n + i ≤ pattern.length := by
                simp only [List.length_drop] at hi2
                omega
              refine ⟨_, rfl, ⟨hle, ?_, hpp⟩, hinv, Or.inr (Or.inr ⟨y, rfl, hn, by show 0 < i; omega,
                by show i < y.node.pfx.length; omega, hmp⟩)⟩
              intro y1 hy1
              simp only [Option.some.injEq] at hy1
              subst hy1
              exact ⟨hyat, hyacc, hi1, hi3, hi2⟩
      · simp only [hn, not_false_eq_true, if_true]
        exact ⟨_, rfl, hok, hinv, Or.inr (Or.inl (by
          have := hok.1
          simp only at this
          show n = pattern.length
          omega))⟩

/-- In a well-formed tree `MHop.match` returns, provided the pattern does not
end inside the prefix of a node; the invariants hold for what it returns. -/
theorem match_spec {H : Type} {R : List Byte → Int → Option H → Bool → Bool → Prop}
    (m : MHop H) (root : mnode H) (pattern : List Byte) (hr : m.root = some root)
    (hgood : Good R [] root)
    (hnp : (∃ q x, root.at q = some x ∧ root.accAt q ++ x.pfx = pattern) ∨
      ∀ q x, root.at q = some x → pattern <+: root.accAt q ++ x.pfx →
        (root.accAt q ++ x.pfx).length ≤ pattern.length) :
    ∃ st, m.match_ pattern = .ok st ∧ MatchOK (fun _ _ _ _ => True) root pattern st ∧
      MatchInv root pattern st ∧ MatchExit pattern st := by
  unfold MHop.match_
  rw [hr]
  refine matchLoop_spec root pattern hgood hnp _ _ ?_ ?_ ?_
  · refine ⟨Nat.zero_le _, ?_, rfl, ?_⟩
    · intro y hy
      simp only [Option.map_some', Option.some.injEq] at hy
      subst hy
      exact ⟨rfl, rfl, Nat.zero_le _, by simp, Nat.zero_le _⟩
    · intro y hy
      simp only [Option.map_some', Option.some.injEq] at hy
      subst hy
      exact ⟨rfl, rfl⟩
  · exact ⟨fun h => absurd h (by simp), fun _ _ _ _ => by simp⟩
  · simp [potential]

/-- At the return of `MHop.match` in a well-formed tree, every node whose word
is the beginning of the pattern is on the way from the root to `ndprev`. -/
theorem match_cover {H : Type} {R : List Byte → Int → Option H → Bool → Bool → Prop}
    (root : mnode H) (pattern : List Byte) (hgood : Good R [] root) (st : MatchState H)
    (hok : MatchOK (fun _ _ _ _ => True) root pattern st) (hinv : MatchInv root pattern st)
    (hexit : MatchExit pattern st) (q : List Nat) (x : mnode H) (hq : root.at q = some x)
    (hw : root.accAt q ++ x.pfx <+: pattern) :
    ∃ pp, st.ndprev = some pp ∧ q <+: pp.path := by
  obtain ⟨ndprev, nd, n, i0, pidx⟩ := st
  obtain ⟨hle, hndp, hpp⟩ := hok
  simp only at hle hndp hpp
  cases ndprev with
  | none =>
    exfalso
    obtain ⟨-, hcov⟩ := hinv
    simp only at hcov
    have hnd := hcov q x hq hw
    cases nd with
    | none => exact hnd rfl
    | some y =>
      obtain ⟨hyat, hyacc, -, -, -⟩ := hndp y rfl
      obtain ⟨hn0, hy0⟩ := hpp
      obtain ⟨hp0, -⟩ := hy0 y rfl
      rw [hp0] at hyat
      simp only [mnode.at, Option.some.injEq] at hyat
      have hrne := (good_inv hgood).1
      obtain ⟨mid, hmid⟩ := word_pfx q root x hq
      rw [hmid] at hw
      have hrw : root.pfx <+: pattern := (List.prefix_append _ _).trans hw
      subst hn0
      rcases hexit with h | h | ⟨y1, hy1, -, h1, h2, h3⟩
      · exact absurd h (by simp)
      · simp only at h
        have hl := hrw.length_le
        have : 0 < root.pfx.length := List.length_pos.mpr hrne
        omega
      · simp only [Option.some.injEq] at hy1 h1 h2 h3
        subst hy1
        rw [← hyat] at h2 h3
        simp only [List.drop_zero] at h3
        exact mismatch_not_pre _ _ _ h2 (matchPrefix_mismatch _ _ _ h3 h2).2 hrw
  | some pp =>
    obtain ⟨hpat, hpacc, -, htie⟩ := hpp
    obtain ⟨-, hnd, -, hcov⟩ := hinv
    simp only at hnd hcov
    rcases hcov q x hq hw with h1 | ⟨k, rest, hqe, hk⟩
    · exact ⟨pp, rfl, h1⟩
    · exfalso
      subst hqe
      obtain ⟨c, hc⟩ := at_child root pp.node x pp.path k rest hpat hq
      have gp := good_at pp.path [] root pp.node hgood hpat
      have hcp := child_pre root pp.node c x pattern pp.path n k rest hpat hpacc hc hq hw
      have hcne := (good_inv ((good_inv gp).2.2.2 c (List.getElem?_mem hc))).1
      rcases hexit with h | h | ⟨y, hy, -, h1, h2, h3⟩
      · simp only at h
        subst h
        simp only [Option.map_none'] at hnd
        have hklt := (List.getElem?_eq_some.mp hc).1
        have := List.getElem?_eq_none_iff.mp hnd.symm
        omega
      · simp only at h
        subst h
        rw [List.drop_length] at hcp
        exact hcne (List.prefix_nil.mp hcp)
      · simp only [Option.some.injEq] at hy h1 h2 h3
        subst hy
        simp only [Option.map_some'] at hnd
        have hkp : k = pidx := by
          refine sibling_head gp k pidx c y.node hc hnd.symm ?_
          rw [prefix_head _ _ hcp hcne, matchPrefix_head _ _ _ h3 h1]
        subst hkp
        rw [hc] at hnd
        simp only [Option.some.injEq] at hnd
        rw [← hnd] at hcp
        exact mismatch_not_pre _ _ _ h2 (matchPrefix_mismatch _ _ _ h3 h2).2 hcp
/-! ## The choice of `find`, and the ids of the calls -/

/-- When one of the nodes has a handler, the loop of `find` picks a node with a
handler and the highest id among the nodes with a handler. -/
theorem findLoop_max {H : Type} (l : List (mnode H)) :
    ∀ nd : mnode H, (∃ y ∈ nd :: l, y.hop ≠ none) →
      (findLoop nd l).hop ≠ none ∧ findLoop nd l ∈ nd :: l ∧
      ∀ y ∈ nd :: l, y.hop ≠ none → y.id ≤ (findLoop nd l).id := by
  induction l with
  | nil =>
    intro nd h
    obtain ⟨y, hy, hh⟩ := h
    simp only [List.mem_singleton] at hy
    subst hy
    simp only [findLoop, List.mem_singleton, forall_eq, true_and]
    exact ⟨hh, fun _ => Int.le_refl _⟩
  | cons nd1 rest ih =>
    intro nd h
    simp only [findLoop]
    split
    · rename_i hnone
      have hnd : nd.hop = none := by simpa using hnone
      have h1 : ∃ y ∈ nd1 :: rest, y.hop ≠ none := by
        obtain ⟨y, hy, hh⟩ := h
        rcases List.mem_cons.mp hy with h2 | h2
        · subst h2; exact absurd hnd hh
        · exact ⟨y, h2, hh⟩
      obtain ⟨a, b, c⟩ := ih nd1 h1
      refine ⟨a, List.mem_cons_of_mem _ b, ?_⟩
      intro y hy hh
      rcases List.mem_cons.mp hy with h2 | h2
      · subst h2; exact absurd hnd hh
      · exact c y h2 hh
    · rename_i hsome
      have hnd : nd.hop ≠ none := by
        intro h0
        exact hsome (by simp [h0])
      split
      · rename_i hlt
        obtain ⟨a, b, c⟩ := ih nd1 ⟨nd1, List.mem_cons_self _ _, by
          intro h0
          have := hlt.1
          simp [h0] at this⟩
        refine ⟨a, List.mem_cons_of_mem _ b, ?_⟩
        intro y hy hh
        rcases List.mem_cons.mp hy with h2 | h2
        · subst h2
          have := c nd1 (List.mem_cons_self _ _) (by
            intro h0
            have := hlt.1
            simp [h0] at this)
          omega
        · exact c y h2 hh
      · rename_i hge
        obtain ⟨a, b, c⟩ := ih nd ⟨nd, List.mem_cons_self _ _, hnd⟩
        refine ⟨a, ?_, ?_⟩
        · rcases List.mem_cons.mp b with h2 | h2
          · rw [h2]; exact List.mem_cons_self _ _
          · exact List.mem_cons_of_mem _ (List.mem_cons_of_mem _ h2)
        · intro y hy hh
          rcases List.mem_cons.mp hy with h2 | h2
          · subst h2; exact c y (List.mem_cons_self _ _) hh
          · rcases List.mem_cons.mp h2 with h3 | h3
            · subst h3
              have h4 : ¬ nd.id < y.id := by
                intro h5
                apply hge
                refine ⟨?_, h5⟩
                cases hy1 : y.hop with
                | none => exact absurd hy1 hh
                | some v => rfl
              have := c nd (List.mem_cons_self _ _) hnd
              omega
            · exact c y (List.mem_cons_of_mem _ h3) hh

theorem regIds_bound {H : Type} (regs : List (Reg H)) :
    ∀ (mn mx : Int) (e : Int × Reg H), e ∈ regIds mn mx regs → e.1 < mn ∨ mx < e.1 := by
  induction regs with
  | nil => intro mn mx e h; simp [regIds] at h
  | cons r rs ih =>
    intro mn mx e h
    simp only [regIds] at h
    split at h
    · rcases List.mem_cons.mp h with h1 | h1
      · subst h1; right; simp
      · rcases ih _ _ e h1 with h2 | h2
        · exact Or.inl h2
        · right; omega
    · rcases List.mem_cons.mp h with h1 | h1
      · subst h1; left; simp
      · rcases ih _ _ e h1 with h2 | h2
        · left; omega
        · exact Or.inr h2

/-- No two calls get the same id. -/
theorem regIds_inj {H : Type} (regs : List (Reg H)) :
    ∀ (mn mx : Int), mn ≤ mx → ∀ e1 ∈ regIds mn mx regs, ∀ e2 ∈ regIds mn mx regs,
      e1.1 = e2.1 → e1 = e2 := by
  induction regs with
  | nil => intro mn mx _ e1 h; simp [regIds] at h
  | cons r rs ih =>
    intro mn mx hle e1 h1 e2 h2 he
    simp only [regIds] at h1 h2
    by_cases ha : r.after = true
    · simp only [ha, if_true] at h1 h2
      rcases List.mem_cons.mp h1 with a | a <;> rcases List.mem_cons.mp h2 with b | b
      · rw [a, b]
      · have := regIds_bound rs _ _ e2 b
        rw [a] at he
        simp only at he
        omega
      · have := regIds_bound rs _ _ e1 a
        rw [b] at he
        simp only at he
        omega
      · exact ih _ _ (by omega) e1 a e2 b he
    · simp only [ha, Bool.false_eq_true, if_false] at h1 h2
      rcases List.mem_cons.mp h1 with a | a <;> rcases List.mem_cons.mp h2 with b | b
      · rw [a, b]
      · have := regIds_bound rs _ _ e2 b
        rw [a] at he
        simp only at he
        omega
      · have := regIds_bound rs _ _ e1 a
        rw [b] at he
        simp only at he
        omega
      · exact ih _ _ (by omega) e1 a e2 b he

theorem regIds_map {H : Type} (regs : List (Reg H)) :
    ∀ (mn mx : Int), (regIds mn mx regs).map (fun e => e.2) = regs := by
  induction regs with
  | nil => intro mn mx; rfl
  | cons r rs ih =>
    intro mn mx
    simp only [regIds]
    split <;> simp [ih]
/-! ## `add` keeps the tree well formed -/

theorem regI_mono {H : Type} (ids : List (Int × Reg H)) (e0 : Int × Reg H) (w : List Byte)
    (i : Int) (h : Option H) (e c : Bool) (hp : RegI ids w i h e c) :
    RegI (ids ++ [e0]) w i h e c := by
  obtain ⟨⟨r1, hr1, hw⟩, h2⟩ := hp
  refine ⟨⟨r1, List.mem_append_left _ hr1, hw⟩, fun hne => ?_⟩
  obtain ⟨r2, hr2, h3⟩ := h2 hne
  exact ⟨r2, List.mem_append_left _ hr2, h3⟩

theorem regI_new {H : Type} (ids : List (Int × Reg H)) (id : Int) (r : Reg H) :
    RegI (ids ++ [(id, r)]) r.pattern id r.hop r.exact r.cutprefix :=
  ⟨⟨(id, r), by simp, List.prefix_refl _⟩, fun _ => ⟨(id, r), by simp, rfl, rfl, rfl, rfl, rfl⟩⟩

theorem regI_pre {H : Type} (ids : List (Int × Reg H)) (id : Int) (r : Reg H) (w : List Byte)
    (i : Int) (hw : w <+: r.pattern) : RegI (ids ++ [(id, r)]) w i none false false :=
  ⟨⟨(id, r), by simp, hw⟩, fun hne => absurd rfl hne⟩

theorem setSub_pfx {H : Type} (x : mnode H) (s : List (mnode H)) : (x.setSub s).pfx = x.pfx := by
  cases x; rfl

theorem setSub_sub {H : Type} (x : mnode H) (s : List (mnode H)) : (x.setSub s).sub = s := by
  cases x; rfl

theorem setPfx_pfx {H : Type} (x : mnode H) (p : List Byte) : (x.setPfx p).pfx = p := by
  cases x; rfl

theorem someNode_setSub {H : Type} {Q : List Byte → Int → Option H → Bool → Bool → Prop}
    {acc : List Byte} {x : mnode H} (sub : List (mnode H)) (h : SomeNode Q acc x)
    (hs : ∀ c ∈ x.sub, SomeNode Q (acc ++ x.pfx) c →
      ∃ c1 ∈ sub, SomeNode Q (acc ++ x.pfx) c1) : SomeNode Q acc (x.setSub sub) := by
  rcases someNode_inv h with h1 | ⟨c, hc, h1⟩
  · refine someNode_top _ ?_
    cases x; exact h1
  · obtain ⟨c1, hc1, h2⟩ := hs c hc h1
    refine someNode_inSub _ c1 ?_ ?_
    · rw [setSub_sub]; exact hc1
    · rw [setSub_pfx]; exact h2

theorem head_drop {α : Type} (l : List α) (i : Nat) : (l.drop i).head? = l[i]? := by
  induction l generalizing i with
  | nil => simp
  | cons a l ih =>
    cases i with
    | zero => simp
    | succ i => simp
theorem setSubAt_root {H : Type} (m : MHop H) (root : mnode H) (pp : Ptr H)
    (sub : List (mnode H)) (h : m.root = some root) :
    (m.setSubAt pp sub).root = some (mnode.replaceAt (pp.node.setSub sub) root pp.path) := by
  simp only [MHop.setSubAt, h, Option.map_some']

/-- A successful `add` of a pattern that begins with the byte all patterns
begin with, and that is not the beginning of a pattern added before, keeps the
tree well formed and complete, for the calls made so far and this one. -/
theorem add_good {H : Type} (ids : List (Int × Reg H)) (m m1 : MHop H) (hm : TreeGood ids m)
    (id : Int) (r : Reg H) (c : Byte)
    (hfirst0 : ∀ e ∈ ids, ∃ t, e.2.pattern = c :: t) (hfirst : ∃ t, r.pattern = c :: t)
    (hpre : ∀ e ∈ ids, ¬ r.pattern <+: e.2.pattern)
    (hadd : m.add id r.pattern r.exact r.cutprefix r.hop = .ok (m1, none)) :
    TreeGood (ids ++ [(id, r)]) m1 ∧ m1.dflt = m.dflt ∧ m1.minid = m.minid ∧
      m1.maxid = m.maxid := by
  obtain ⟨t0, ht0⟩ := hfirst
  have hpne : r.pattern ≠ [] := by rw [ht0]; simp
  have hplen : 0 < r.pattern.length := List.length_pos.mpr hpne
  have hnew : ∀ root1 : mnode H, SomeNode (IsReg (id, r)) [] root1 →
      ∀ e ∈ ids ++ [(id, r)],
        (e ∈ ids → SomeNode (IsReg e) [] root1) → SomeNode (IsReg e) [] root1 := by
    intro root1 h1 e he h2
    rcases List.mem_append.mp he with h3 | h3
    · exact h2 h3
    · simp only [List.mem_singleton] at h3
      subst h3
      exact h1
  unfold MHop.add at hadd
  cases hroot : m.root with
  | none =>
    rw [match_noroot m r.pattern hroot] at hadd
    simp only at hadd
    rw [if_neg (by omega)] at hadd
    simp only [Outcome.ok.injEq, Prod.mk.injEq, and_true] at hadd
    subst hadd
    refine ⟨⟨?_, ?_⟩, rfl, rfl, rfl⟩
    · intro root1 hr1
      simp only [Option.some.injEq] at hr1
      subst hr1
      exact good_leaf _ _ _ _ _ _ (by simpa using hpne) (by simpa using regI_new ids id r)
    · intro e he
      refine ⟨_, rfl, hnew _ (SomeNode.top _ _ _ _ _ _ _ ⟨by simp, rfl, rfl⟩) e he ?_⟩
      intro h1
      obtain ⟨root, hr, -⟩ := hm.2 e h1
      rw [hroot] at hr
      exact absurd hr (by simp)
  | some root =>
    have hg0 := hm.1 root hroot
    have hg : Good (RegI (ids ++ [(id, r)])) [] root :=
      good_mono (fun w i h e c hp => regI_mono ids (id, r) w i h e c hp) hg0
    have hword : ∀ q x, root.at q = some x →
        ∃ e ∈ ids, root.accAt q ++ x.pfx <+: e.2.pattern := by
      intro q x hq
      have := (good_inv (good_at q [] root x hg0 hq)).2.2.1
      simpa using this.1
    have hnp : ∀ q x, root.at q = some x → r.pattern <+: root.accAt q ++ x.pfx →
        (root.accAt q ++ x.pfx).length ≤ r.pattern.length := by
      intro q x hq hw
      obtain ⟨e, he, hwe⟩ := hword q x hq
      exact absurd (hw.trans hwe) (hpre e he)
    have hold : ∀ e ∈ ids, SomeNode (IsReg e) [] root := by
      intro e he
      obtain ⟨root0, hr, h1⟩ := hm.2 e he
      rw [hroot] at hr
      simp only [Option.some.injEq] at hr
      subst hr
      exact h1
    obtain ⟨st, hmt, hok, hinv, hexit⟩ := match_spec m root r.pattern hroot hg (Or.inr hnp)
    rw [hmt] at hadd
    obtain ⟨ndprev, nd, n, i, pidx⟩ := st
    obtain ⟨hle, hndp, hprev⟩ := hok
    simp only at hadd hle hndp hprev
    cases nd with
    | none =>
      simp only at hadd
      split at hadd
      · simp at hadd
      · rename_i hnl
        have hnlt : n < r.pattern.length := by omega
        have hdne : r.pattern.drop n ≠ [] := by
          intro h
          have := congrArg List.length h
          simp only [List.length_drop, List.length_nil] at this
          omega
        cases ndprev with
        | none =>
          exfalso
          obtain ⟨hh, -⟩ := hinv
          have h1 := hh rfl
          obtain ⟨e, he, hwe⟩ := hword [] root rfl
          simp only [mnode.accAt, List.nil_append] at hwe
          obtain ⟨t, ht⟩ := hfirst0 e he
          rw [ht] at hwe
          apply h1
          rw [prefix_head _ _ hwe (good_inv hg).1, ht0]
          rfl
        | some pp =>
          simp only [Outcome.ok.injEq, Prod.mk.injEq, and_true] at hadd
          subst hadd
          obtain ⟨hpat, hpacc, -, -⟩ := hprev
          obtain ⟨-, hnd, hrej, -⟩ := hinv
          simp only [Option.map_none'] at hnd hrej
          have hfull := List.getElem?_eq_none_iff.mp hnd.symm
          have gp := good_at pp.path [] root pp.node hg hpat
          have hleafw : [] ++ root.accAt pp.path ++ pp.node.pfx ++ r.pattern.drop n =
              r.pattern := by
            rw [List.nil_append, hpacc, List.take_append_drop]
          refine ⟨⟨?_, ?_⟩, rfl, rfl, rfl⟩
          · intro root1 hr1
            simp only [MHop.setSubAt, hroot, Option.map_some', Option.some.injEq] at hr1
            subst hr1
            refine good_replaceAt _ pp.path [] root pp.node hg hpat ?_ (by rw [setSub_pfx])
            refine good_setSub _ gp ?_ ?_
            · rw [List.map_append]
              refine List.nodup_append.mpr ⟨(good_inv gp).2.1, by simp, ?_⟩
              intro a ha hb
              simp only [List.map_cons, List.map_nil, List.mem_singleton] at hb
              obtain ⟨c1, hc1, hc2⟩ := List.mem_map.mp ha
              obtain ⟨k, hk⟩ := List.mem_iff_getElem?.mp hc1
              have hklt := (List.getElem?_eq_some.mp hk).1
              refine hrej k c1 (by omega) hk ?_
              rw [hc2, hb]
              rfl
            · intro c1 hc1
              rcases List.mem_append.mp hc1 with h1 | h1
              · exact (good_inv gp).2.2.2 c1 h1
              · simp only [List.mem_singleton] at h1
                subst h1
                refine good_leaf _ _ _ _ _ _ hdne ?_
                rw [hleafw]
                exact regI_new ids id r
          · intro e he
            refine ⟨_, setSubAt_root m root pp _ hroot, ?_⟩
            refine hnew _ ?_ e he ?_
            · refine someNode_lift _ pp.path [] root pp.node hpat ?_
              refine someNode_inSub _ (.mk (r.pattern.drop n) id r.hop r.exact r.cutprefix []) ?_ ?_
              · rw [setSub_sub]; simp
              · rw [setSub_pfx]
                refine SomeNode.top _ _ _ _ _ _ _ ⟨?_, rfl, rfl⟩
                rw [hleafw]
            · intro h1
              refine someNode_replaceAt _ pp.path [] root pp.node (hold e h1) hpat ?_
              intro h2
              refine someNode_setSub _ h2 ?_
              intro c1 hc1 h3
              exact ⟨c1, List.mem_append_left _ hc1, h3⟩
    | some y =>
      simp only at hadd
      obtain ⟨hyat, hyacc, -, -, -⟩ := hndp y rfl
      have gy := good_at y.path [] root y.node hg hyat
      have hyne := (good_inv gy).1
      rcases hexit with h | h | ⟨y1, hy1, -, hi0, hilt, hmp⟩
      · exact absurd h (by simp)
      · exfalso
        simp only at h
        obtain ⟨e, he, hwe⟩ := hword y.path y.node hyat
        rw [hyacc, h, List.take_length] at hwe
        exact hpre e he ((List.prefix_append _ _).trans hwe)
      · simp only [Option.some.injEq] at hy1 hi0 hilt hmp
        subst hy1
        obtain ⟨hi1, hi2, hi3⟩ := matchPrefix_some _ _ _ hmp
        obtain ⟨hm1, hm2⟩ := matchPrefix_mismatch _ _ _ hmp hilt
        simp only [List.length_drop] at hm1
        have hni : ¬ n + i = r.pattern.length := by omega
        rw [if_neg hni] at hadd
        have hw1 : r.pattern.take n ++ y.node.pfx.take i = r.pattern.take (n + i) := by
          rw [hi3, take_add_drop]
        have htne : y.node.pfx.take i ≠ [] := by
          intro h
          have := congrArg List.length h
          simp only [List.length_take, List.length_nil] at this
          omega
        have hdne : y.node.pfx.drop i ≠ [] := by
          intro h
          have := congrArg List.length h
          simp only [List.length_drop, List.length_nil] at this
          omega
        have hlne : r.pattern.drop (n + i) ≠ [] := by
          intro h
          have := congrArg List.length h
          simp only [List.length_drop, List.length_nil] at this
          omega
        have hbr : Good (RegI (ids ++ [(id, r)])) (r.pattern.take n)
            (mnode.mk (y.node.pfx.take i) 0 none false false
              [mnode.mk (r.pattern.drop (n + i)) id r.hop r.exact r.cutprefix [],
                y.node.setPfx (y.node.pfx.drop i)]) := by
          refine Good.mk _ _ _ _ _ _ _ htne ?_ ?_ ?_
          · simp only [List.map_cons, List.map_nil, List.nodup_cons, List.mem_singleton,
              List.not_mem_nil, not_false_eq_true, List.nodup_nil, and_true]
            show ¬ (r.pattern.drop (n + i)).head? = (y.node.setPfx (y.node.pfx.drop i)).pfx.head?
            rw [setPfx_pfx, head_drop, head_drop]
            intro h
            apply hm2
            rw [← h, List.getElem?_drop]
          · rw [hw1]
            exact regI_pre ids id r _ _ (List.take_prefix _ _)
          · intro c1 hc1
            rw [hw1]
            simp only [List.mem_cons, List.mem_singleton, List.not_mem_nil, or_false] at hc1
            rcases hc1 with hc1 | hc1
            · subst hc1
              refine good_leaf _ _ _ _ _ _ hlne ?_
              rw [List.take_append_drop]
              exact regI_new ids id r
            · subst hc1
              refine good_setPfx _ gy hdne ?_
              rw [List.nil_append, hyacc, ← hw1, List.append_assoc, List.take_append_drop]
        have hbrnew : SomeNode (IsReg (id, r)) (r.pattern.take n)
            (mnode.mk (y.node.pfx.take i) 0 none false false
              [mnode.mk (r.pattern.drop (n + i)) id r.hop r.exact r.cutprefix [],
                y.node.setPfx (y.node.pfx.drop i)]) := by
          refine SomeNode.inSub _ _ _ _ _ _ _ _ (List.mem_cons_self _ _) ?_
          refine SomeNode.top _ _ _ _ _ _ _ ⟨?_, rfl, rfl⟩
          rw [hw1, List.take_append_drop]
        have hbrold : ∀ e : Int × Reg H, SomeNode (IsReg e) (r.pattern.take n) y.node →
            SomeNode (IsReg e) (r.pattern.take n)
              (mnode.mk (y.node.pfx.take i) 0 none false false
                [mnode.mk (r.pattern.drop (n + i)) id r.hop r.exact r.cutprefix [],
                  y.node.setPfx (y.node.pfx.drop i)]) := by
          intro e h
          refine SomeNode.inSub _ _ _ _ _ _ _ (y.node.setPfx (y.node.pfx.drop i)) (by simp) ?_
          refine someNode_setPfx _ h ?_
          rw [List.append_assoc, List.take_append_drop]
        have hbrhead : (mnode.mk (y.node.pfx.take i) 0 none false false
              [mnode.mk (r.pattern.drop (n + i)) id r.hop r.exact r.cutprefix [],
                y.node.setPfx (y.node.pfx.drop i)]).pfx.head? = y.node.pfx.head? :=
          head_take _ _ hi0
        cases ndprev with
        | none =>
          simp only [Outcome.ok.injEq, Prod.mk.injEq, and_true] at hadd
          subst hadd
          obtain ⟨hn0, hy0⟩ := hprev
          obtain ⟨hp0, -⟩ := hy0 y rfl
          rw [hp0] at hyat
          simp only [mnode.at, Option.some.injEq] at hyat
          subst hn0
          simp only [List.take_zero] at hbr hbrnew hbrold
          refine ⟨⟨?_, ?_⟩, rfl, rfl, rfl⟩
          · intro root1 hr1
            simp only [Option.some.injEq] at hr1
            subst hr1
            simpa using hbr
          · intro e he
            refine ⟨_, rfl, hnew _ (by simpa using hbrnew) e he ?_⟩
            intro h1
            have := hbrold e (by rw [← hyat]; exact hold e h1)
            simpa using this
        | some pp =>
          simp only [Outcome.ok.injEq, Prod.mk.injEq, and_true] at hadd
          subst hadd
          obtain ⟨hpat, hpacc, -, htie⟩ := hprev
          obtain ⟨hsub, -, -⟩ := htie y rfl
          have gp := good_at pp.path [] root pp.node hg hpat
          have hacc : [] ++ root.accAt pp.path ++ pp.node.pfx = r.pattern.take n := by
            rw [List.nil_append, hpacc]
          refine ⟨⟨?_, ?_⟩, rfl, rfl, rfl⟩
          · intro root1 hr1
            simp only [MHop.setSubAt, hroot, Option.map_some', Option.some.injEq] at hr1
            subst hr1
            refine good_replaceAt _ pp.path [] root pp.node hg hpat ?_ (by rw [setSub_pfx])
            refine good_setSub _ gp ?_ ?_
            · rw [map_set_same _ _ _ _ _ hsub hbrhead]
              exact (good_inv gp).2.1
            · intro c1 hc1
              rcases List.mem_or_eq_of_mem_set hc1 with h2 | h2
              · exact (good_inv gp).2.2.2 c1 h2
              · subst h2
                rw [hacc]
                exact hbr
          · intro e he
            refine ⟨_, setSubAt_root m root pp _ hroot, ?_⟩
            have hklt := (List.getElem?_eq_some.mp hsub).1
            have hmem : mnode.mk (y.node.pfx.take i) 0 none false false
                [mnode.mk (r.pattern.drop (n + i)) id r.hop r.exact r.cutprefix [],
                  y.node.setPfx (y.node.pfx.drop i)] ∈ pp.node.sub.set pidx
                (mnode.mk (y.node.pfx.take i) 0 none false false
                  [mnode.mk (r.pattern.drop (n + i)) id r.hop r.exact r.cutprefix [],
                    y.node.setPfx (y.node.pfx.drop i)]) :=
              List.mem_iff_getElem?.mpr ⟨pidx, by rw [List.getElem?_set_self hklt]⟩
            refine hnew _ ?_ e he ?_
            · refine someNode_lift _ pp.path [] root pp.node hpat ?_
              refine someNode_inSub _ _ (by rw [setSub_sub]; exact hmem) ?_
              rw [setSub_pfx, hacc]
              exact hbrnew
            · intro h1
              refine someNode_replaceAt _ pp.path [] root pp.node (hold e h1) hpat ?_
              intro h2
              refine someNode_setSub _ h2 ?_
              intro c1 hc1 h3
              by_cases hcy : c1 = y.node
              · subst hcy
                refine ⟨_, hmem, ?_⟩
                rw [hacc] at h3 ⊢
                exact hbrold e h3
              · refine ⟨c1, ?_, h3⟩
                obtain ⟨j, hj⟩ := List.mem_iff_getElem?.mp hc1
                have hjk : pidx ≠ j := by
                  intro hjk
                  subst hjk
                  rw [hsub] at hj
                  exact hcy (Option.some.inj hj).symm
                exact List.mem_iff_getElem?.mpr ⟨j, by rw [List.getElem?_set_ne hjk]; exact hj⟩
/-- Calls of `AddBefore` and `AddAfter` that all succeed, with patterns that
begin with the same byte and of which none is the beginning of a pattern added
before it, keep the tree well formed and complete. -/
theorem addAll_good {H : Type} (c : Byte) (regs : List (Reg H)) :
    ∀ (ids : List (Int × Reg H)) (m m1 : MHop H), TreeGood ids m →
      (∀ e ∈ ids, ∃ t, e.2.pattern = c :: t) → (∀ r ∈ regs, ∃ t, r.pattern = c :: t) →
      (∀ e ∈ ids, ∀ r ∈ regs, ¬ r.pattern <+: e.2.pattern) →
      regs.Pairwise (fun a b => ¬ b.pattern <+: a.pattern) →
      m.addAll regs = some m1 →
      TreeGood (ids ++ regIds m.minid m.maxid regs) m1 ∧ m1.dflt = m.dflt := by
  induction regs with
  | nil =>
    intro ids m m1 hm _ _ _ _ h
    simp only [MHop.addAll, Option.some.injEq] at h
    subst h
    simpa [regIds] using hm
  | cons r rs ih =>
    intro ids m m1 hm hf0 hf hpre hpw h
    simp only [MHop.addAll] at h
    have hpw1 := List.pairwise_cons.mp hpw
    split at h
    · rename_i m2 hadd
      have key : ∃ id, TreeGood (ids ++ [(id, r)]) m2 ∧ m2.dflt = m.dflt ∧
          regIds m.minid m.maxid (r :: rs) = (id, r) :: regIds m2.minid m2.maxid rs := by
        by_cases ha : r.after = true
        · simp only [ha, if_true, MHop.AddAfter] at hadd
          obtain ⟨h1, h2, h3, h4⟩ := add_good ids { m with maxid := m.maxid + 1 } m2 hm _ r c hf0
            (hf r (List.mem_cons_self _ _)) (fun e he => hpre e he r (List.mem_cons_self _ _)) hadd
          refine ⟨_, h1, h2, ?_⟩
          simp only [regIds, ha, if_true]
          rw [h3, h4]
        · simp only [ha, Bool.false_eq_true, if_false, MHop.AddBefore] at hadd
          obtain ⟨h1, h2, h3, h4⟩ := add_good ids { m with minid := m.minid - 1 } m2 hm _ r c hf0
            (hf r (List.mem_cons_self _ _)) (fun e he => hpre e he r (List.mem_cons_self _ _)) hadd
          refine ⟨_, h1, h2, ?_⟩
          simp only [regIds, ha, Bool.false_eq_true, if_false]
          rw [h3, h4]
      obtain ⟨id, k1, k2, k3⟩ := key
      obtain ⟨h1, h2⟩ := ih (ids ++ [(id, r)]) m2 m1 k1
        (by
          intro e he
          rcases List.mem_append.mp he with h3 | h3
          · exact hf0 e h3
          · simp only [List.mem_singleton] at h3
            subst h3
            exact hf r (List.mem_cons_self _ _))
        (fun r1 hr1 => hf r1 (List.mem_cons_of_mem _ hr1))
        (by
          intro e he r1 hr1
          rcases List.mem_append.mp he with h3 | h3
          · exact hpre e h3 r1 (List.mem_cons_of_mem _ hr1)
          · simp only [List.mem_singleton] at h3
            subst h3
            exact hpw1.1 r1 hr1)
        hpw1.2 h
      refine ⟨?_, by rw [h2, k2]⟩
      rw [k3]
      simpa using h1
    · exact absurd h (by simp)

theorem regIds_mem {H : Type} (regs : List (Reg H)) (mn mx : Int) :
    (∀ e ∈ regIds mn mx regs, e.2 ∈ regs) ∧ (∀ r ∈ regs, ∃ e ∈ regIds mn mx regs, e.2 = r) := by
  have h := regIds_map regs mn mx
  constructor
  · intro e he
    rw [← h]
    exact List.mem_map.mpr ⟨e, he, rfl⟩
  · intro r hr
    rw [← h] at hr
    exact List.mem_map.mp hr

/-- In a multiplexer built by calls that all succeed, with `exact = false`, with
patterns that begin with the same byte and of which none is the beginning of a
pattern added before it, `find` returns the handler of the call with the
highest id among the calls with a handler whose pattern the key begins with,
and the default handler when there is none; the key is a registered pattern or
is not the beginning of one. -/
theorem find_highest_id {H : Type} (dflt : Option H) (regs : List (Reg H)) (m : MHop H)
    (c : Byte) (key : List Byte)
    (hbuild : (NewMHop dflt).addAll regs = some m)
    (hfirst : ∀ r ∈ regs, ∃ t, r.pattern = c :: t)
    (hpre : regs.Pairwise (fun a b => ¬ b.pattern <+: a.pattern))
    (hexact : ∀ r ∈ regs, r.exact = false)
    (hkey : ∀ r ∈ regs, key <+: r.pattern → ∃ r1 ∈ regs, r1.pattern = key) :
    ((∀ r ∈ regs, r.hop ≠ none → ¬ r.pattern <+: key) → m.find key = .ok (dflt, key)) ∧
    (∀ e ∈ regIds 0 0 regs, e.2.hop ≠ none → e.2.pattern <+: key →
      (∀ e1 ∈ regIds 0 0 regs, e1.2.hop ≠ none → e1.2.pattern <+: key → e1.1 ≤ e.1) →
      ∃ n, e.2.pattern.length ≤ n ∧ n ≤ key.length ∧
        m.find key = .ok (e.2.hop, if Reg.cutprefix e.2 then key.drop n else key)) := by
  have h0 : TreeGood ([] : List (Int × Reg H)) (NewMHop dflt) := by
    refine ⟨?_, ?_⟩
    · intro root hr
      simp [NewMHop] at hr
    · intro e he
      simp at he
  obtain ⟨hm, hd⟩ := addAll_good c regs [] (NewMHop dflt) m h0 (by simp) hfirst (by simp) hpre
    hbuild
  simp only [List.nil_append] at hm
  have hd : m.dflt = dflt := hd
  have hids : TreeGood (regIds 0 0 regs) m := hm
  obtain ⟨hmem1, hmem2⟩ := regIds_mem regs 0 0
  cases hroot : m.root with
  | none =>
    have hf : m.find key = .ok (dflt, key) := by
      unfold MHop.find
      rw [match_noroot m key hroot, hd]
    refine ⟨fun _ => hf, ?_⟩
    intro e he
    obtain ⟨root, hr, -⟩ := hids.2 e he
    rw [hroot] at hr
    exact absurd hr (by simp)
  | some root =>
    have hg := hids.1 root hroot
    have hsome : ∀ e ∈ regIds 0 0 regs, ∃ q x, root.at q = some x ∧
        root.accAt q ++ x.pfx = e.2.pattern ∧ x.id = e.1 ∧ x.hop = e.2.hop := by
      intro e he
      obtain ⟨root0, hr, h1⟩ := hids.2 e he
      rw [hroot] at hr
      simp only [Option.some.injEq] at hr
      subst hr
      obtain ⟨q, x, hq, hQ⟩ := someNode_path h1
      exact ⟨q, x, hq, by simpa using hQ.1, hQ.2.1, hQ.2.2⟩
    have hword : ∀ q x, root.at q = some x →
        RegI (regIds 0 0 regs) (root.accAt q ++ x.pfx) x.id x.hop x.exact x.cutpref := by
      intro q x hq
      have := (good_inv (good_at q [] root x hg hq)).2.2.1
      simpa using this
    have hnp : (∃ q x, root.at q = some x ∧ root.accAt q ++ x.pfx = key) ∨
        ∀ q x, root.at q = some x → key <+: root.accAt q ++ x.pfx →
          (root.accAt q ++ x.pfx).length ≤ key.length := by
      by_cases hk : ∃ r ∈ regs, key <+: r.pattern
      · obtain ⟨r, hr, hkr⟩ := hk
        obtain ⟨r1, hr1, hk1⟩ := hkey r hr hkr
        obtain ⟨e1, he1, he2⟩ := hmem2 r1 hr1
        obtain ⟨q, x, hq, hw, -, -⟩ := hsome e1 he1
        exact Or.inl ⟨q, x, hq, by rw [hw, he2, hk1]⟩
      · right
        intro q x hq hw
        exfalso
        obtain ⟨e, he, hwe⟩ := (hword q x hq).1
        exact hk ⟨e.2, hmem1 e he, hw.trans hwe⟩
    obtain ⟨st, hmt, hok, hinv, hexit⟩ := match_spec m root key hroot hg hnp
    have hcover := match_cover root key hg st hok hinv hexit
    obtain ⟨hle, -, hprev⟩ := hok
    have hchain : ∀ pp, st.ndprev = some pp → ∀ x ∈ pp.node :: pp.prevs,
        ∃ w, w <+: key ∧ w.length ≤ st.n ∧
          RegI (regIds 0 0 regs) w x.id x.hop x.exact x.cutpref := by
      intro pp hpp x hx
      rw [hpp] at hprev
      obtain ⟨hpat, hpacc, -, -⟩ := hprev
      unfold MatchInv at hinv
      rw [hpp] at hinv
      obtain ⟨hch, -, -, -⟩ := hinv
      rw [hch, List.mem_reverse] at hx
      obtain ⟨q, hq, hxq⟩ := chain_mem pp.path root x pp.node hpat hx
      have hw := word_mono root x pp.node q pp.path hq hxq hpat
      rw [hpacc] at hw
      refine ⟨_, hw.trans (List.take_prefix _ _), ?_, hword q x hxq⟩
      have := hw.length_le
      rw [List.length_take] at this
      omega
    constructor
    · intro hno
      unfold MHop.find
      rw [hmt]
      simp only
      cases hpp : st.ndprev with
      | none => simp only [hd]
      | some pp =>
        simp only
        split
        · rw [hd]
        · rename_i hcond
          exfalso
          have hne : (findLoop pp.node (pp.node :: pp.prevs)).hop ≠ none := by
            intro h1
            exact hcond (Or.inl (by simp [h1]))
          have hmem : findLoop pp.node (pp.node :: pp.prevs) ∈ pp.node :: pp.prevs := by
            rcases findLoop_mem (pp.node :: pp.prevs) pp.node with h1 | h1
            · rw [h1]; exact List.mem_cons_self _ _
            · exact h1
          obtain ⟨w, hw, -, hR⟩ := hchain pp hpp _ hmem
          obtain ⟨e, he, -, hep, heh, -, -⟩ := hR.2 hne
          exact hno e.2 (hmem1 e he) (by rw [heh]; exact hne) (by rw [hep]; exact hw)
    · intro e he hh hp hmax
      obtain ⟨q, x, hq, hxw, hxid, hxh⟩ := hsome e he
      obtain ⟨pp, hpp, hqp⟩ := hcover q x hq (by rw [hxw]; exact hp)
      have hprev1 := hprev
      rw [hpp] at hprev1
      obtain ⟨hpat, -, -, -⟩ := hprev1
      have hx : x ∈ pp.node :: pp.prevs := by
        unfold MatchInv at hinv
        rw [hpp] at hinv
        rw [hinv.1, List.mem_reverse]
        exact mem_chain q root x pp.node pp.path hqp hq hpat
      obtain ⟨z1, z2, z3⟩ := findLoop_max (pp.node :: pp.prevs) pp.node
        ⟨x, List.mem_cons_of_mem _ hx, by rw [hxh]; exact hh⟩
      have hz : findLoop pp.node (pp.node :: pp.prevs) ∈ pp.node :: pp.prevs := by
        rcases List.mem_cons.mp z2 with h1 | h1
        · rw [h1]; exact List.mem_cons_self _ _
        · exact h1
      obtain ⟨w, hw, hwn, hR⟩ := hchain pp hpp _ hz
      obtain ⟨e2, he2, hid2, hep2, heh2, hex2, hec2⟩ := hR.2 z1
      have hle1 : e.1 ≤ (findLoop pp.node (pp.node :: pp.prevs)).id := by
        rw [← hxid]
        exact z3 x (List.mem_cons_of_mem _ hx) (by rw [hxh]; exact hh)
      have hle2 : e2.1 ≤ e.1 :=
        hmax e2 he2 (by rw [heh2]; exact z1) (by rw [hep2]; exact hw)
      have hee : e2 = e := regIds_inj regs 0 0 (Int.le_refl _) e2 he2 e he (by omega)
      subst hee
      refine ⟨st.n, by rw [hep2]; exact hwn, hle, ?_⟩
      unfold MHop.find
      rw [hmt]
      simp only [hpp]
      have hzex : (findLoop pp.node (pp.node :: pp.prevs)).exact = false := by
        rw [← hex2]
        exact hexact e2.2 (hmem1 e2 he2)
      rw [if_neg (by
        rintro (h1 | h1)
        · exact z1 (by simpa using h1)
        · rw [hzex] at h1
          exact absurd h1.1 (by simp))]
      rw [heh2, hec2]

/-- C14 (as amended). For the multiplexer built from `NewMHop(dflt)` by calls
of `AddBefore` and `AddAfter` that all succeed, and every key: whatever `find`
returns is the default handler with the key unmodified, or a handler that was
registered with a pattern the key begins with. When moreover the calls were
made with `exact = false`, their patterns begin with the same byte, none of
them is the beginning of a pattern added before it, and the key is a registered
pattern or is not the beginning of one, then `find(key)` does return, and the
handler it returns is the one of the call with the highest id among the calls
whose handler is not nil and whose pattern the key begins with (`AddAfter`
gives the ids 1, 2, ... and `AddBefore` the ids -1, -2, ...), not the one with
the longest pattern; with it the key is passed on as it is, or, with
`cutprefix`, without its first `n` bytes for an `n` that is at least the length
of the pattern. When there is no such call, `find` returns the default handler
and the key unmodified. -/
theorem MHop_find_highest_id {H : Type} (dflt : Option H) (regs : List (Reg H)) (m : MHop H)
    (key : List Byte) (hbuild : (NewMHop dflt).addAll regs = some m) :
    (∀ h newkey, m.find key = .ok (h, newkey) →
      (h = dflt ∧ newkey = key) ∨ (h ≠ none ∧ ∃ r ∈ regs, r.hop = h ∧ r.pattern <+: key)) ∧
    (∀ c : Byte, (∀ r ∈ regs, ∃ t, r.pattern = c :: t) →
      regs.Pairwise (fun a b => ¬ b.pattern <+: a.pattern) →
      (∀ r ∈ regs, r.exact = false) →
      (∀ r ∈ regs, key <+: r.pattern → ∃ r1 ∈ regs, r1.pattern = key) →
      ((∀ r ∈ regs, r.hop ≠ none → ¬ r.pattern <+: key) → m.find key = .ok (dflt, key)) ∧
      (∀ e ∈ regIds 0 0 regs, e.2.hop ≠ none → e.2.pattern <+: key →
        (∀ e1 ∈ regIds 0 0 regs, e1.2.hop ≠ none → e1.2.pattern <+: key → e1.1 ≤ e.1) →
        ∃ n, e.2.pattern.length ≤ n ∧ n ≤ key.length ∧
          m.find key = .ok (e.2.hop, if Reg.cutprefix e.2 then key.drop n else key))) := by
  refine ⟨?_, fun c hfirst hpre hexact hkey =>
    find_highest_id dflt regs m c key hbuild hfirst hpre hexact hkey⟩
  have h0 : TreeOK ([] : List (Reg H)) (NewMHop dflt) := by
    intro root hr
    simp [NewMHop] at hr
  obtain ⟨hm, hd⟩ := addAll_treeOK regs [] (NewMHop dflt) m h0 hbuild
  simp only [List.nil_append] at hm
  have hd : m.dflt = dflt := hd
  intro h newkey hf
  rcases find_sound regs m hm key h newkey hf with h1 | ⟨h1, r, hr, h2, h3, -⟩
  · rw [hd] at h1
    exact Or.inl h1
  · exact Or.inr ⟨h1, r, hr, h2, h3⟩

/-- Witness for C14: `AddAfter("a", false, false, 1)` and
`AddBefore("ab", false, false, 2)` on `NewMHop(0)`, which get the ids 1 and -1,
and the key "abc": both patterns are the beginning of the key, and `find`
returns the handler 1 of the call with the id 1. -/
theorem MHop_find_highest_id_witness :
    regIds 0 0 [(⟨true, str "a", false, false, some 1⟩ : Reg Nat),
      ⟨false, str "ab", false, false, some 2⟩] =
      [(1, ⟨true, str "a", false, false, some 1⟩), (-1, ⟨false, str "ab", false, false, some 2⟩)] ∧
    ∃ n, (str "a").length ≤ n ∧ n ≤ (str "abc").length ∧
      MHop.find ⟨some 0, some (.mk (str "a") 1 (some 1) false false
          [.mk (str "b") (-1) (some 2) false false []]), -1, 1⟩ (str "abc") =
        .ok (some 1, str "abc") :=
  ⟨rfl, ((MHop_find_highest_id (some 0)
    [⟨true, str "a", false, false, some 1⟩, ⟨false, str "ab", false, false, some 2⟩]
    ⟨some 0, some (.mk (str "a") 1 (some 1) false false
      [.mk (str "b") (-1) (some 2) false false []]), -1, 1⟩ (str "abc") (by rfl)).2 97
    (by
      intro r hr
      simp only [List.mem_cons, List.mem_singleton, List.not_mem_nil, or_false] at hr
      rcases hr with rfl | rfl <;> exact ⟨_, rfl⟩)
    (by decide) (by decide) (by decide)).2
    (1, ⟨true, str "a", false, false, some 1⟩) (List.mem_cons_self _ _) (by decide) (by decide)
    (by
      intro e1 he1 _ _
      simp only [regIds, if_true, Bool.false_eq_true, if_false, List.mem_cons, List.mem_singleton,
        List.not_mem_nil, or_false] at he1
      rcases he1 with rfl | rfl <;> decide)⟩

end Hop
